import Mathlib

/-!
A shallow embedding of the caching memory scheduler implemented in
`src/tile/codegen/schedule.cc` (the `vertexai::tile::codegen` scheduler for a
single Stripe block), together with theorems settling the frozen claims about
it.

The embedding translates the source functions into executable Lean
definitions: machine sizes (`std::size_t`) become `Nat` (the scheduler only
adds and subtracts byte counts that fit easily in a machine word, and the
subtraction at `rit->size() - size` is guarded by `rit->size() < size`
continuing the loop, so `Nat` truncated subtraction agrees with the source);
C++ containers become lists; pointer identity becomes explicit keys
(statement ids, refinement names, cache-entry indices).

External collaborators that live outside `src/` (the Stripe IR types in
`stripe.h`/`stripe.cc`, `AliasInfo::Compare`, `math::Align`, `FixupRefs`) are
modelled from the spec, as marked on each such definition.
-/

namespace Sched

/-- A range of memory (`MemRange` in the source): the interval
`[begin, end)` in bytes.  The C++ field `end` is rendered `end_` because
`end` is a Lean keyword. -/
structure MemRange where
  begin : Nat := 0
  end_ : Nat := 0
deriving DecidableEq

/-- `MemRange::size()`: `end - begin`. -/
def MemRange.size (r : MemRange) : Nat := r.end_ - r.begin

/-- The set of byte addresses covered by a range. -/
def MemRange.toSet (r : MemRange) : Set Nat := {x | r.begin ≤ x ∧ x < r.end_}

/-- `RangesOverlap(MemRange, MemRange)`:
`(a.begin < b.end) && (b.begin < a.end)`. -/
def RangesOverlap (a b : MemRange) : Bool :=
  a.begin < b.end_ && b.begin < a.end_

/-- `RangesOverlap(MemRange, const std::list<MemRange>&)`: true iff the
range overlaps any element of the list. -/
def RangesOverlapList (range : MemRange) (range_list : List MemRange) : Bool :=
  range_list.any fun check_range => RangesOverlap range check_range

/-- The four-way case analysis of `SubtractRange(sub, range_list, it)`
(schedule.cc:189-214) applied to the single range `*it = r`.  The result is
`(fronts, replacement)`: `fronts` are ranges the source pushes with
`emplace_front` (at most one, from the splitting case), and `replacement`
is what remains at the position of `r` (empty when `r` is erased).  The
source applies this only after establishing `RangesOverlap sub r` in the
list walk, but `TryPlaceInRanges` calls it directly on the best-fit range,
so the case analysis itself carries no overlap precondition, exactly as in
the source. -/
def subtractRangeCase (sub r : MemRange) : List MemRange × List MemRange :=
  if sub.begin ≤ r.begin then
    if sub.end_ < r.end_ then
      ([], [{ r with begin := sub.end_ }])
    else
      ([], [])
  else if r.end_ < sub.end_ then
    ([], [{ r with end_ := sub.begin }])
  else
    ([⟨r.begin, sub.begin⟩], [⟨sub.end_, r.end_⟩])

/-- The walk of `SubtractRange(sub, range_list)` (schedule.cc:217-229) over
the tail of the list, returning the `emplace_front`ed ranges in processing
order together with the processed remainder of the list. -/
def subtractRangeGo (sub : MemRange) : List MemRange → List MemRange × List MemRange
  | [] => ([], [])
  | r :: rest =>
    if RangesOverlap sub r then
      let fr := subtractRangeCase sub r
      let fs := subtractRangeGo sub rest
      (fr.1 ++ fs.1, fr.2 ++ fs.2)
    else
      let fs := subtractRangeGo sub rest
      (fs.1, r :: fs.2)

/-- `SubtractRange(sub, range_list)` (schedule.cc:217-229).  Each
`emplace_front` during the C++ walk pushes in front of the previously
pushed ranges, so the fronts end up in reverse processing order, ahead of
the walked remainder of the list. -/
def SubtractRange (sub : MemRange) (range_list : List MemRange) : List MemRange :=
  let fk := subtractRangeGo sub range_list
  fk.1.reverse ++ fk.2

/-- `SubtractRange(sub, range_list, it)` (schedule.cc:189-214) where `it`
designates position `i` of the list: the replacement stays in place and any
split-off low part goes to the front of the whole list. -/
def SubtractRangeAt (sub : MemRange) (l : List MemRange) (i : Nat) : List MemRange :=
  match l[i]? with
  | none => l
  | some r =>
    let fr := subtractRangeCase sub r
    fr.1 ++ (l.take i ++ fr.2 ++ l.drop (i + 1))

/-- Union of the address sets of a list of ranges. -/
def listSet (l : List MemRange) : Set Nat := {x | ∃ r ∈ l, x ∈ r.toSet}

/-- Set-level disjointness of two ranges, with an arithmetic
characterization making it decidable. -/
theorem disjoint_toSet_iff (a b : MemRange) :
    Disjoint a.toSet b.toSet ↔
      a.end_ ≤ b.begin ∨ b.end_ ≤ a.begin ∨ a.end_ ≤ a.begin ∨ b.end_ ≤ b.begin := by
  constructor
  · intro h
    by_contra hc
    push_neg at hc
    obtain ⟨h1, h2, h3, h4⟩ := hc
    have : (max a.begin b.begin) ∈ a.toSet ⊓ b.toSet := by
      constructor <;> constructor <;> omega
    exact (Set.disjoint_iff.mp h) this
  · intro h
    rw [Set.disjoint_left]
    rintro x ⟨hx1, hx2⟩ ⟨hy1, hy2⟩
    omega

instance (a b : MemRange) : Decidable (Disjoint a.toSet b.toSet) :=
  decidable_of_iff' _ (disjoint_toSet_iff a b)

theorem overlap_false_disjoint {sub r : MemRange} (h : RangesOverlap sub r = false) :
    Disjoint sub.toSet r.toSet := by
  rw [disjoint_toSet_iff]
  simp only [RangesOverlap, Bool.and_eq_false_iff, decide_eq_false_iff_not, not_lt] at h
  omega

theorem listSet_nil : listSet [] = ∅ := by
  ext x; simp [listSet]

theorem listSet_cons (r : MemRange) (l : List MemRange) :
    listSet (r :: l) = r.toSet ∪ listSet l := by
  ext x
  simp only [listSet, List.mem_cons, Set.mem_setOf_eq, Set.mem_union]
  constructor
  · rintro ⟨q, rfl | hq, hx⟩
    · exact Or.inl hx
    · exact Or.inr ⟨q, hq, hx⟩
  · rintro (hx | ⟨q, hq, hx⟩)
    · exact ⟨r, Or.inl rfl, hx⟩
    · exact ⟨q, Or.inr hq, hx⟩

theorem listSet_append (l1 l2 : List MemRange) :
    listSet (l1 ++ l2) = listSet l1 ∪ listSet l2 := by
  induction l1 with
  | nil => simp [listSet_nil]
  | cons r t ih => simp [listSet_cons, ih, Set.union_assoc]

theorem listSet_reverse (l : List MemRange) : listSet l.reverse = listSet l := by
  ext x
  simp only [listSet, List.mem_reverse, Set.mem_setOf_eq]

theorem subtractRangeCase_sets (sub r : MemRange) (hsub : sub.begin ≤ sub.end_)
    (hov : RangesOverlap sub r = true) :
    (∀ x ∈ (subtractRangeCase sub r).1 ++ (subtractRangeCase sub r).2,
        x.toSet ⊆ r.toSet) ∧
      listSet ((subtractRangeCase sub r).1 ++ (subtractRangeCase sub r).2) =
        r.toSet \ sub.toSet ∧
      ((subtractRangeCase sub r).1 ++ (subtractRangeCase sub r).2).Pairwise
        (fun a b => Disjoint a.toSet b.toSet) := by
  simp only [RangesOverlap, Bool.and_eq_true, decide_eq_true_eq] at hov
  obtain ⟨hov1, hov2⟩ := hov
  unfold subtractRangeCase
  split
  · split
    · refine ⟨?_, ?_, ?_⟩
      · intro x hx
        simp only [List.nil_append, List.mem_singleton] at hx
        subst hx
        intro y hy
        simp only [MemRange.toSet, Set.mem_setOf_eq] at hy ⊢
        omega
      · rw [List.nil_append, listSet_cons, listSet_nil]
        ext y
        simp only [MemRange.toSet, Set.union_empty, Set.mem_setOf_eq, Set.mem_diff]
        omega
      · simp
    · refine ⟨?_, ?_, ?_⟩
      · intro x hx
        simp only [List.nil_append, List.not_mem_nil] at hx
      · rw [List.nil_append, listSet_nil]
        ext y
        simp only [MemRange.toSet, Set.mem_empty_iff_false, Set.mem_diff,
          Set.mem_setOf_eq, false_iff]
        omega
      · simp
  · split
    · refine ⟨?_, ?_, ?_⟩
      · intro x hx
        simp only [List.nil_append, List.mem_singleton] at hx
        subst hx
        intro y hy
        simp only [MemRange.toSet, Set.mem_setOf_eq] at hy ⊢
        omega
      · rw [List.nil_append, listSet_cons, listSet_nil]
        ext y
        simp only [MemRange.toSet, Set.union_empty, Set.mem_setOf_eq, Set.mem_diff]
        omega
      · simp
    · refine ⟨?_, ?_, ?_⟩
      · intro x hx
        simp only [List.cons_append, List.nil_append, List.mem_cons,
          List.not_mem_nil, or_false] at hx
        rcases hx with rfl | rfl
        · intro y hy
          simp only [MemRange.toSet, Set.mem_setOf_eq] at hy ⊢
          omega
        · intro y hy
          simp only [MemRange.toSet, Set.mem_setOf_eq] at hy ⊢
          omega
      · rw [List.cons_append, List.nil_append, listSet_cons, listSet_cons, listSet_nil]
        ext y
        simp only [MemRange.toSet, Set.union_empty, Set.mem_union, Set.mem_setOf_eq,
          Set.mem_diff]
        omega
      · simp only [List.cons_append, List.nil_append, List.pairwise_cons,
          List.mem_singleton, List.Pairwise.nil, and_true, List.not_mem_nil,
          IsEmpty.forall_iff, implies_true]
        rintro b rfl
        rw [disjoint_toSet_iff]
        simp only
        omega

/-- Every piece produced by the subtraction case analysis lies numerically
inside the range it came from. -/
theorem subtractRangeCase_bounds (sub r : MemRange) (hov : RangesOverlap sub r = true) :
    ∀ x ∈ (subtractRangeCase sub r).1 ++ (subtractRangeCase sub r).2,
      r.begin ≤ x.begin ∧ x.end_ ≤ r.end_ := by
  simp only [RangesOverlap, Bool.and_eq_true, decide_eq_true_eq] at hov
  obtain ⟨hov1, hov2⟩ := hov
  unfold subtractRangeCase
  split
  · split
    · intro x hx
      simp only [List.nil_append, List.mem_singleton] at hx
      subst hx
      constructor <;> simp <;> omega
    · intro x hx
      simp only [List.nil_append, List.not_mem_nil] at hx
  · split
    · intro x hx
      simp only [List.nil_append, List.mem_singleton] at hx
      subst hx
      constructor <;> simp <;> omega
    · intro x hx
      simp only [List.cons_append, List.nil_append, List.mem_cons,
        List.not_mem_nil, or_false] at hx
      rcases hx with rfl | rfl <;> constructor <;> simp <;> omega

/-- Every piece produced by the subtraction case analysis is a valid
interval (begin at most end), with no precondition on the inputs. -/
theorem subtractRangeCase_valid (sub r : MemRange) :
    ∀ x ∈ (subtractRangeCase sub r).1 ++ (subtractRangeCase sub r).2,
      x.begin ≤ x.end_ := by
  unfold subtractRangeCase
  split
  · split
    · intro x hx
      simp only [List.nil_append, List.mem_singleton] at hx
      subst hx
      simp only
      omega
    · intro x hx
      simp only [List.nil_append, List.not_mem_nil] at hx
  · split
    · intro x hx
      simp only [List.nil_append, List.mem_singleton] at hx
      subst hx
      simp only
      omega
    · intro x hx
      simp only [List.cons_append, List.nil_append, List.mem_cons,
        List.not_mem_nil, or_false] at hx
      rcases hx with rfl | rfl <;> simp <;> omega

theorem subtractRangeGo_bounds (sub : MemRange) (l : List MemRange) :
    ∀ x ∈ (subtractRangeGo sub l).1 ++ (subtractRangeGo sub l).2,
      ∃ r ∈ l, r.begin ≤ x.begin ∧ x.end_ ≤ r.end_ := by
  induction l with
  | nil =>
    intro x hx
    simp only [subtractRangeGo, List.nil_append, List.not_mem_nil] at hx
  | cons r rest ih =>
    intro x hx
    simp only [subtractRangeGo] at hx
    split at hx
    · rename_i hov
      simp only [List.mem_append] at hx
      rcases hx with (h | h) | (h | h)
      · obtain ⟨h1, h2⟩ := subtractRangeCase_bounds sub r hov x (List.mem_append.mpr (Or.inl h))
        exact ⟨r, List.mem_cons_self r rest, h1, h2⟩
      · obtain ⟨q, hq, hb⟩ := ih x (List.mem_append.mpr (Or.inl h))
        exact ⟨q, List.mem_cons_of_mem r hq, hb⟩
      · obtain ⟨h1, h2⟩ := subtractRangeCase_bounds sub r hov x (List.mem_append.mpr (Or.inr h))
        exact ⟨r, List.mem_cons_self r rest, h1, h2⟩
      · obtain ⟨q, hq, hb⟩ := ih x (List.mem_append.mpr (Or.inr h))
        exact ⟨q, List.mem_cons_of_mem r hq, hb⟩
    · simp only [List.mem_append, List.mem_cons] at hx
      rcases hx with h | (rfl | h)
      · obtain ⟨q, hq, hb⟩ := ih x (List.mem_append.mpr (Or.inl h))
        exact ⟨q, List.mem_cons_of_mem r hq, hb⟩
      · exact ⟨x, List.mem_cons_self x rest, le_refl _, le_refl _⟩
      · obtain ⟨q, hq, hb⟩ := ih x (List.mem_append.mpr (Or.inr h))
        exact ⟨q, List.mem_cons_of_mem r hq, hb⟩

theorem subtractRangeGo_listSet (sub : MemRange) (hsub : sub.begin ≤ sub.end_)
    (l : List MemRange) :
    listSet ((subtractRangeGo sub l).1 ++ (subtractRangeGo sub l).2) =
      listSet l \ sub.toSet := by
  induction l with
  | nil =>
    simp only [subtractRangeGo, List.append_nil, listSet_nil, Set.empty_diff]
  | cons r rest ih =>
    simp only [subtractRangeGo]
    split
    · rename_i hov
      have hcase := (subtractRangeCase_sets sub r hsub hov).2.1
      have : listSet ((subtractRangeCase sub r).1 ++ (subtractRangeGo sub rest).1 ++
          ((subtractRangeCase sub r).2 ++ (subtractRangeGo sub rest).2)) =
          listSet ((subtractRangeCase sub r).1 ++ (subtractRangeCase sub r).2) ∪
            listSet ((subtractRangeGo sub rest).1 ++ (subtractRangeGo sub rest).2) := by
        simp only [listSet_append]
        ext y
        simp only [Set.mem_union]
        tauto
      rw [this, hcase, ih, listSet_cons, Set.union_diff_distrib]
    · have : listSet ((subtractRangeGo sub rest).1 ++ (r :: (subtractRangeGo sub rest).2)) =
          r.toSet ∪ listSet ((subtractRangeGo sub rest).1 ++ (subtractRangeGo sub rest).2) := by
        simp only [listSet_append, listSet_cons]
        ext y
        simp only [Set.mem_union]
        tauto
      rw [this, ih, listSet_cons, Set.union_diff_distrib]
      rename_i hov
      have hdisj : Disjoint sub.toSet r.toSet :=
        overlap_false_disjoint (by simpa using hov)
      rw [sdiff_eq_self_iff_disjoint.mpr hdisj]

/-- Set-level form of the bounds lemma: every piece of the walk is a
subset of some range of the input list. -/
theorem subtractRangeGo_subsetSet (sub : MemRange) (l : List MemRange) :
    ∀ x ∈ (subtractRangeGo sub l).1 ++ (subtractRangeGo sub l).2,
      ∃ r ∈ l, x.toSet ⊆ r.toSet := by
  intro x hx
  obtain ⟨r, hr, h1, h2⟩ := subtractRangeGo_bounds sub l x hx
  refine ⟨r, hr, ?_⟩
  intro y hy
  simp only [MemRange.toSet, Set.mem_setOf_eq] at hy ⊢
  omega

theorem subtractRangeGo_pairwise (sub : MemRange) (hsub : sub.begin ≤ sub.end_)
    (l : List MemRange)
    (hl : l.Pairwise fun a b => Disjoint a.toSet b.toSet) :
    ((subtractRangeGo sub l).1 ++ (subtractRangeGo sub l).2).Pairwise
      (fun a b => Disjoint a.toSet b.toSet) := by
  induction l with
  | nil =>
    simp [subtractRangeGo]
  | cons r rest ih =>
    rw [List.pairwise_cons] at hl
    obtain ⟨hr, hrest⟩ := hl
    have ihp := ih hrest
    have ihp1 : (subtractRangeGo sub rest).1.Pairwise (fun a b => Disjoint a.toSet b.toSet) :=
      ihp.sublist (List.sublist_append_left _ _)
    have ihp2 : (subtractRangeGo sub rest).2.Pairwise (fun a b => Disjoint a.toSet b.toSet) :=
      ihp.sublist (List.sublist_append_right _ _)
    have ihcross := (List.pairwise_append.mp ihp).2.2
    have hmem := subtractRangeGo_subsetSet sub rest
    have hRrest : ∀ b : MemRange, (∃ q ∈ rest, b.toSet ⊆ q.toSet) → Disjoint r.toSet b.toSet := by
      rintro b ⟨q, hq, hbq⟩
      exact Set.disjoint_of_subset (le_refl _) hbq (hr q hq)
    simp only [subtractRangeGo]
    split
    · rename_i hov
      have hcase := subtractRangeCase_sets sub r hsub hov
      have hcase1 : (subtractRangeCase sub r).1.Pairwise (fun a b => Disjoint a.toSet b.toSet) :=
        hcase.2.2.sublist (List.sublist_append_left _ _)
      have hcase2 : (subtractRangeCase sub r).2.Pairwise (fun a b => Disjoint a.toSet b.toSet) :=
        hcase.2.2.sublist (List.sublist_append_right _ _)
      have hcasecross := (List.pairwise_append.mp hcase.2.2).2.2
      have hcaseR : ∀ a, (a ∈ (subtractRangeCase sub r).1 ∨ a ∈ (subtractRangeCase sub r).2) →
          a.toSet ⊆ r.toSet := by
        rintro a (h | h)
        · exact hcase.1 a (List.mem_append.mpr (Or.inl h))
        · exact hcase.1 a (List.mem_append.mpr (Or.inr h))
      have hgoR : ∀ b, (b ∈ (subtractRangeGo sub rest).1 ∨ b ∈ (subtractRangeGo sub rest).2) →
          ∃ q ∈ rest, b.toSet ⊆ q.toSet := by
        rintro b (h | h)
        · exact hmem b (List.mem_append.mpr (Or.inl h))
        · exact hmem b (List.mem_append.mpr (Or.inr h))
      rw [List.pairwise_append]
      refine ⟨?_, ?_, ?_⟩
      · rw [List.pairwise_append]
        refine ⟨hcase1, ihp1, ?_⟩
        intro a ha b hb
        exact Set.disjoint_of_subset (hcaseR a (Or.inl ha)) (le_refl _)
          (hRrest b (hgoR b (Or.inl hb)))
      · rw [List.pairwise_append]
        refine ⟨hcase2, ihp2, ?_⟩
        intro a ha b hb
        exact Set.disjoint_of_subset (hcaseR a (Or.inr ha)) (le_refl _)
          (hRrest b (hgoR b (Or.inr hb)))
      · intro a ha b hb
        rw [List.mem_append] at ha hb
        rcases ha with ha | ha <;> rcases hb with hb | hb
        · exact hcasecross a ha b hb
        · exact Set.disjoint_of_subset (hcaseR a (Or.inl ha)) (le_refl _)
            (hRrest b (hgoR b (Or.inr hb)))
        · exact (Set.disjoint_of_subset (hcaseR b (Or.inr hb)) (le_refl _)
            (hRrest a (hgoR a (Or.inl ha)))).symm
        · exact ihcross a ha b hb
    · rw [List.pairwise_append]
      refine ⟨ihp1, ?_, ?_⟩
      · rw [List.pairwise_cons]
        refine ⟨?_, ihp2⟩
        intro b hb
        exact hRrest b (hmem b (List.mem_append.mpr (Or.inr hb)))
      · intro a ha b hb
        rw [List.mem_cons] at hb
        rcases hb with rfl | hb
        · exact (hRrest a (hmem a (List.mem_append.mpr (Or.inl ha)))).symm
        · exact ihcross a ha b hb

theorem SubtractRange_listSet (sub : MemRange) (hsub : sub.begin ≤ sub.end_)
    (l : List MemRange) :
    listSet (SubtractRange sub l) = listSet l \ sub.toSet := by
  unfold SubtractRange
  rw [listSet_append, listSet_reverse, ← listSet_append]
  exact subtractRangeGo_listSet sub hsub l

theorem SubtractRange_bounds (sub : MemRange) (l : List MemRange) :
    ∀ x ∈ SubtractRange sub l, ∃ r ∈ l, r.begin ≤ x.begin ∧ x.end_ ≤ r.end_ := by
  intro x hx
  unfold SubtractRange at hx
  rw [List.mem_append, List.mem_reverse] at hx
  exact subtractRangeGo_bounds sub l x (List.mem_append.mpr hx)

theorem SubtractRange_pairwise (sub : MemRange) (hsub : sub.begin ≤ sub.end_)
    (l : List MemRange)
    (hl : l.Pairwise fun a b => Disjoint a.toSet b.toSet) :
    (SubtractRange sub l).Pairwise (fun a b => Disjoint a.toSet b.toSet) := by
  unfold SubtractRange
  have hperm : ((subtractRangeGo sub l).1.reverse ++ (subtractRangeGo sub l).2).Perm
      ((subtractRangeGo sub l).1 ++ (subtractRangeGo sub l).2) :=
    List.Perm.append_right _ (List.reverse_perm _)
  exact (List.Perm.pairwise_iff (fun h => Disjoint.symm h) hperm).mpr
    (subtractRangeGo_pairwise sub hsub l hl)

/-! ### The Stripe IR data model

The IR types (`stripe.h`/`stripe.cc`) are outside `src/`; they are
modelled from the spec (§3, §6), keeping the field names the scheduler
uses. -/

/-- Modelled from the spec (§3): the direction of a refinement
(`stripe::RefDir`). -/
inductive RefDir where
  | None
  | In
  | Out
  | InOut
deriving DecidableEq

/-- Modelled from the spec (§3, §9): `UnionDir` joins two directions. -/
def UnionDir : RefDir → RefDir → RefDir
  | RefDir.None, d => d
  | d, RefDir.None => d
  | RefDir.In, RefDir.In => RefDir.In
  | RefDir.Out, RefDir.Out => RefDir.Out
  | _, _ => RefDir.InOut

/-- Modelled from the spec: `IsReadDir`. -/
def IsReadDir : RefDir → Bool
  | RefDir.In => true
  | RefDir.InOut => true
  | _ => false

/-- Modelled from the spec: `IsWriteDir`. -/
def IsWriteDir : RefDir → Bool
  | RefDir.Out => true
  | RefDir.InOut => true
  | _ => false

/-- Modelled from the spec (§9 "Affine as a map key"): a Stripe `Affine`
is a linear combination of index names plus a constant, with value
equality and a stable total order.  Only construction from a single name,
pointwise addition, and `getMap` are used by the scheduler. -/
structure Affine where
  const : Int := 0
  terms : List (String × Int) := []
deriving DecidableEq

/-- `stripe::Affine(name)`. -/
def Affine.var (n : String) : Affine := ⟨0, [(n, 1)]⟩

def Affine.addTerm : List (String × Int) → String × Int → List (String × Int)
  | [], t => [t]
  | (n, c) :: rest, (n', c') =>
    if n = n' then (n, c + c') :: rest
    else (n, c) :: Affine.addTerm rest (n', c')

/-- Modelled from the spec: `Affine::operator+` sums constants and merges
coefficient maps. -/
def Affine.add (a b : Affine) : Affine :=
  ⟨a.const + b.const, b.terms.foldl (fun ts t => Affine.addTerm ts t) a.terms⟩

/-- `Affine::getMap()`: the name-to-coefficient map. -/
def Affine.getMap (a : Affine) : List (String × Int) := a.terms

/-- Modelled from the spec (§3): one tensor dimension. -/
structure TensorDim where
  size : Nat := 0
  stride : Nat := 0
deriving DecidableEq

/-- Modelled from the spec (§3): a tensor shape.  `typeBytes` is the byte
width of the element type; for the compact row-major shapes the scheduler
builds, `byte_size` is the element width times the product of the sizes. -/
structure TensorShape where
  typeBytes : Nat := 1
  dims : List TensorDim := []
deriving DecidableEq

def TensorShape.sizes (s : TensorShape) : List Nat := s.dims.map (fun d => d.size)

/-- Modelled from the spec: `TensorShape::byte_size()` of a compact shape. -/
def TensorShape.byte_size (s : TensorShape) : Nat :=
  s.typeBytes * s.sizes.foldl (fun a b => a * b) 1

/-- The restriding loop of the `RefInfo` constructor (schedule.cc:62-67)
and of the `IO` constructor (schedule.cc:380-386): strides are rebuilt
right-to-left in compact row-major form. -/
def restrideGo : List TensorDim → List TensorDim × Nat
  | [] => ([], 1)
  | d :: rest =>
    let rs := restrideGo rest
    ({ d with stride := rs.2 } :: rs.1, rs.2 * d.size)

def TensorShape.restride (s : TensorShape) : TensorShape :=
  { s with dims := (restrideGo s.dims).1 }

/-- Modelled from the spec (§6): a location is a hierarchical name plus an
affine `unit`. -/
structure Location where
  name : String := ""
  unit : Affine := {}
deriving DecidableEq

/-- Modelled from the spec (§3): a Stripe refinement.  The source field
`from` is rendered `from_` (`from` is a Lean keyword). -/
structure Refinement where
  dir : RefDir := RefDir.None
  from_ : String := ""
  into : String := ""
  access : List Affine := []
  interior_shape : TensorShape := {}
  agg_op : String := ""
  location : Location := {}
  is_const : Bool := false
  offset : Nat := 0
  bank_dim : Option Nat := none
  cache_unit : Option Affine := none
deriving DecidableEq

/-- Modelled from the spec: a Stripe index (name, range, optional affine
value). -/
structure Index where
  name : String
  range : Nat
  affine : Option Affine := none
deriving DecidableEq

/-- Modelled from the spec (§3): the alias relationship reported by
`AliasInfo::Compare`.  The source's `AliasType::Partial` is rendered
`PartialOverlap`. -/
inductive AliasType where
  | None
  | PartialOverlap
  | Exact
deriving DecidableEq

/-- Modelled from the spec (§3): the alias-analysis facts for one
refinement. -/
structure AliasInfo where
  base_ref : String := ""
  access : List Affine := []
  shape : TensorShape := {}
deriving DecidableEq

mutual
/-- Modelled from the spec (§3): a Stripe statement.  Pointer identity is
modelled by the statement id `sid`; `deps` holds sids (the C++ stores
`StatementIt`s). -/
inductive Stmt where
  | load (sid : Nat) (deps : List Nat) (from_ : String) (into : String)
  | store (sid : Nat) (deps : List Nat) (from_ : String) (into : String)
  | constant (sid : Nat) (deps : List Nat)
  | special (sid : Nat) (deps : List Nat) (inputs : List String) (outputs : List String)
  | intrinsic (sid : Nat) (deps : List Nat)
  | block (sid : Nat) (deps : List Nat) (b : BlockData)

/-- Modelled from the spec (§3): a Stripe block: name, location, indices,
refinements, statements. -/
inductive BlockData where
  | mk (name : String) (location : Location) (idxs : List Index)
      (refs : List Refinement) (stmts : List Stmt)
end

def BlockData.name : BlockData → String
  | .mk n _ _ _ _ => n

def BlockData.location : BlockData → Location
  | .mk _ l _ _ _ => l

def BlockData.idxs : BlockData → List Index
  | .mk _ _ i _ _ => i

def BlockData.refs : BlockData → List Refinement
  | .mk _ _ _ r _ => r

def BlockData.stmts : BlockData → List Stmt
  | .mk _ _ _ _ s => s

def BlockData.withRefs (b : BlockData) (refs : List Refinement) : BlockData :=
  .mk b.name b.location b.idxs refs b.stmts

def BlockData.withStmts (b : BlockData) (stmts : List Stmt) : BlockData :=
  .mk b.name b.location b.idxs b.refs stmts

def Stmt.sid : Stmt → Nat
  | .load s _ _ _ => s
  | .store s _ _ _ => s
  | .constant s _ => s
  | .special s _ _ _ => s
  | .intrinsic s _ => s
  | .block s _ _ => s

def Stmt.deps : Stmt → List Nat
  | .load _ d _ _ => d
  | .store _ d _ _ => d
  | .constant _ d => d
  | .special _ d _ _ => d
  | .intrinsic _ d => d
  | .block _ d _ => d

def Stmt.setDeps : Stmt → List Nat → Stmt
  | .load s _ f i, d => .load s d f i
  | .store s _ f i, d => .store s d f i
  | .constant s _, d => .constant s d
  | .special s _ i o, d => .special s d i o
  | .intrinsic s _, d => .intrinsic s d
  | .block s _ b, d => .block s d b

/-- `stmt->deps.emplace_back(it)`. -/
def Stmt.addDep (s : Stmt) (d : Nat) : Stmt := s.setDeps (s.deps ++ [d])

/-- Modelled from the spec (§4.1): `Statement::buffer_writes()` — the
buffer names a statement writes: a store writes its destination, a
special writes its outputs, a block writes the backing (`from`) names of
its write-direction refinements; loads, constants and intrinsics write no
buffer. -/
def Stmt.buffer_writes : Stmt → List String
  | .store _ _ _ into_ => [into_]
  | .special _ _ _ outputs => outputs
  | .block _ _ b => (b.refs.filter fun r => IsWriteDir r.dir).map (fun r => r.from_)
  | _ => []

/-- Modelled from the spec (§4.3): `math::Align(size, alignment)` rounds
`size` up to a multiple of `alignment`. -/
def Align (size alignment : Nat) : Nat :=
  (size + alignment - 1) / alignment * alignment

/-! ### RefInfo, CacheEntry, IO, placement types (schedule.cc:50-394) -/

/-- `RefInfo` (schedule.cc:52-157): per-refinement scheduling state.
`cache_entry` holds the index of the current entry in the entry store;
`swap_in_readers`, `earliest_writer` hold statement ids; the `aliases`
back-pointer is recomputed from `base_ref` on demand. -/
structure RefInfo where
  ref : Refinement
  alias_info : AliasInfo
  exterior_cache_shape : TensorShape
  ref_swap_shape : TensorShape
  cache_swap_shape : TensorShape
  ref_swap_access : List Affine
  cache_swap_access : List Affine
  swap_idxs : List Index
  size : Nat
  used : Bool := false
  saw_final_write : Bool := false
  cache_entry : Option Nat := none
  swap_in_readers : List Nat := []
  next_cache_entry : Nat := 0
  earliest_writer : Option Nat := none
  name : String
deriving DecidableEq

/-- The `RefInfo` constructor (schedule.cc:53-85): restride the cached
shape to natural (compact row-major) striding, build the swap indices
`i0, i1, …` (one per dimension, ranged by the dimension size), the swap
access affines, and the swap shapes with every dimension size collapsed
to 1. -/
def RefInfo.make (ref : Refinement) (ai : AliasInfo) : RefInfo :=
  let ecs := ref.interior_shape.restride
  let sizes := ecs.sizes
  let collapse := fun (s : TensorShape) =>
    { s with dims := s.dims.map fun d => { d with size := 1 } }
  { ref := ref
    alias_info := ai
    exterior_cache_shape := ecs
    ref_swap_shape := collapse ref.interior_shape
    cache_swap_shape := collapse ecs
    ref_swap_access := (List.range sizes.length).map fun i => Affine.var ("i" ++ toString i)
    cache_swap_access := (List.range sizes.length).map fun i => Affine.var ("i" ++ toString i)
    swap_idxs := sizes.enum.map fun p => Index.mk ("i" ++ toString p.1) p.2 none
    size := ecs.byte_size
    name := ref.into }

/-- `CacheEntry` (schedule.cc:286-367).  `source` is the RefInfo key;
`writers`/`readers` map statement ids to alias infos; the intrusive
`active_iterator` is replaced by membership of the entry's index in the
active lists. -/
structure CacheEntry where
  source : String
  name : String
  range : MemRange
  shape : TensorShape
  is_internal : Bool
  interior_name : String
  first_accessor : Nat := 0
  writers : List (Nat × AliasInfo) := []
  readers : List (Nat × AliasInfo) := []
  saw_earliest_writer : Bool := false
  uncovered_ranges : List MemRange := []
deriving DecidableEq

/-- `Placement` (schedule.cc:232-266).  `entry` holds an index into the
entry store. -/
structure Placement where
  dir : RefDir := RefDir.None
  size : Nat := 0
  range : MemRange := {}
  entry : Option Nat := none
  is_internal : Bool := false
  interior_name : String := ""
  access : List Affine := []
deriving DecidableEq

/-- `Placement(dir, size, is_internal, interior_name)` (schedule.cc:234). -/
def Placement.ofSize (dir : RefDir) (size : Nat) (is_internal : Bool)
    (interior_name : String) : Placement :=
  { dir := dir, size := size, is_internal := is_internal, interior_name := interior_name }

/-- `Placement(dir, range, entry)` (schedule.cc:236). -/
def Placement.ofEntry (dir : RefDir) (range : MemRange) (entry : Nat) : Placement :=
  { dir := dir, size := range.end_ - range.begin, range := range, entry := some entry }

/-- `PlacementKey` (schedule.cc:270-278); `ri` is the RefInfo key. -/
structure PlacementKey where
  ri : String
  cache_shape : TensorShape
  access : List Affine
deriving DecidableEq

/-- `PlacementPlan` (schedule.cc:281): a map from `PlacementKey` to
`Placement`, modelled as an association list with map semantics
(`emplace` inserts only when the key is absent).  The C++ `std::map`
iterates in key order; no claim depends on iteration order, and the model
iterates in insertion order. -/
abbrev PlacementPlan := List (PlacementKey × Placement)

def planFind (plan : PlacementPlan) (k : PlacementKey) : Option Placement :=
  (plan.find? fun p => p.1 = k).map fun p => p.2

def planContains (plan : PlacementPlan) (k : PlacementKey) : Bool :=
  (planFind plan k).isSome

def planModify (plan : PlacementPlan) (k : PlacementKey)
    (f : Placement → Placement) : PlacementPlan :=
  plan.map fun p => if p.1 = k then (p.1, f p.2) else p

/-- `CacheEntry::CacheEntry(pkey_placement)` (schedule.cc:287-295), given
the source RefInfo's name and current `next_cache_entry` counter value. -/
def CacheEntry.make (pkey : PlacementKey) (p : Placement) (sourceName : String)
    (counter : Nat) : CacheEntry :=
  { source := sourceName
    name := sourceName ++ "^" ++ toString counter
    range := p.range
    shape := pkey.cache_shape
    is_internal := p.is_internal
    interior_name := p.interior_name
    uncovered_ranges := [p.range] }

/-- `IO` (schedule.cc:370-394), renamed `IoDesc`; `ri` is the RefInfo key. -/
structure IoDesc where
  ri : String
  dir : RefDir
  interior_shape : TensorShape
  interior_name : String := ""
  access : List Affine := []
deriving DecidableEq

/-- `IO(ri, dir)` (schedule.cc:371). -/
def IoDesc.ofDir (r : RefInfo) (dir : RefDir) : IoDesc :=
  { ri := r.name, dir := dir, interior_shape := r.exterior_cache_shape }

/-- `IO(ri, interior_ref)` (schedule.cc:374-387): the interior shape is
restrided to compact form. -/
def IoDesc.ofRef (r : RefInfo) (interior_ref : Refinement) : IoDesc :=
  { ri := r.name
    dir := interior_ref.dir
    interior_shape := interior_ref.interior_shape.restride
    interior_name := interior_ref.into
    access := interior_ref.access }

/-- One non-Block name slot a `StatementBinder` rewrites (the C++ stores
raw `std::string*`s into the statement; we name the slots). -/
inductive RefSlot where
  | loadFrom
  | storeInto
  | specialInput (i : Nat)
  | specialOutput (i : Nat)
deriving DecidableEq

/-- `StatementBinder` (schedule.cc:405-457): the data needed to rewrite a
statement's refinement-name fields after placement.  For a Block the
updates name refinement positions in the sub-block. -/
inductive StatementBinder where
  | empty
  | nonBlock (updates : List (RefSlot × String))
  | forBlock (updates : List (Nat × String))
deriving DecidableEq

def lookupRi (ris : List (String × RefInfo)) (k : String) : Option RefInfo :=
  (ris.find? fun p => p.1 = k).map fun p => p.2

/-- `ri_map_->at(name)`; out-of-contract lookups (a precondition
violation in the source) are modelled by a default RefInfo. -/
def riGetD (ris : List (String × RefInfo)) (k : String) : RefInfo :=
  (lookupRi ris k).getD (RefInfo.make {} {})

def assocSetDir (l : List (String × RefDir)) (k : String) (v : RefDir) :
    List (String × RefDir) :=
  if l.any fun p => p.1 = k then
    l.map fun p => if p.1 = k then (k, v) else p
  else l ++ [(k, v)]

def assocEmplaceUnionDir (l : List (String × RefDir)) (k : String) (v : RefDir) :
    List (String × RefDir) :=
  if l.any fun p => p.1 = k then
    l.map fun p => if p.1 = k then (k, UnionDir p.2 v) else p
  else l ++ [(k, v)]

/-- `IOGatherer::Gather` (schedule.cc:459-528): the per-statement-kind
construction of the IO vector and the binder.  The C++ `Special` visitor
accumulates an `unordered_map` whose iteration order is unspecified; the
model keeps first-insertion order. -/
def gatherIo (ris : List (String × RefInfo)) : Stmt → List IoDesc × StatementBinder
  | .load _ _ from_ _ =>
    ([IoDesc.ofDir (riGetD ris from_) RefDir.In],
      .nonBlock [(RefSlot.loadFrom, from_)])
  | .store _ _ _ into_ =>
    ([IoDesc.ofDir (riGetD ris into_) RefDir.Out],
      .nonBlock [(RefSlot.storeInto, into_)])
  | .constant _ _ => ([], .empty)
  | .intrinsic _ _ => ([], .empty)
  | .special _ _ inputs outputs =>
    let accessesIn := inputs.foldl (fun acc n => assocSetDir acc n RefDir.In) []
    let accesses := outputs.foldl (fun acc n => assocEmplaceUnionDir acc n RefDir.Out) accessesIn
    let updates := (inputs.enum.map fun p => (RefSlot.specialInput p.1, p.2)) ++
      (outputs.enum.map fun p => (RefSlot.specialOutput p.1, p.2))
    (accesses.map fun p => IoDesc.ofDir (riGetD ris p.1) p.2, .nonBlock updates)
  | .block _ _ b =>
    let selected := b.refs.enum.filter fun p => decide ¬(p.2.dir = RefDir.None)
    (selected.map fun p => IoDesc.ofRef (riGetD ris p.2.from_) p.2,
      .forBlock (selected.map fun p => (p.1, p.2.from_)))

/-! ### Scheduler state and configuration -/

/-- The scheduler's configuration (ctor schedule.cc:683-688).  `cmp` is
`AliasInfo::Compare`, an external collaborator modelled from the spec as
an opaque comparison parameter. -/
structure SchedOptions where
  mem_loc : Location := {}
  mem_bytes : Nat := 0
  alignment : Nat := 4
  xfer_loc : Location := {}
  cmp : AliasInfo → AliasInfo → AliasType := fun _ _ => AliasType.Exact

/-- `kDefaultAlignment` (schedule.cc:46). -/
def kDefaultAlignment : Nat := 4

/-- The option decoding of the `Scheduler` constructor (schedule.cc:683-688):
`mem_bytes = mem_kib * 1024`; a zero alignment falls back to
`kDefaultAlignment`. -/
def SchedOptions.ofProto (mem_loc : Location) (mem_kib : Nat) (alignment : Nat)
    (xfer_loc : Location) (cmp : AliasInfo → AliasInfo → AliasType) : SchedOptions :=
  { mem_loc := mem_loc
    mem_bytes := mem_kib * 1024
    alignment := if alignment = 0 then kDefaultAlignment else alignment
    xfer_loc := xfer_loc
    cmp := cmp }

/-- The scheduler's mutable state during `Run()` (schedule.cc:626-656):
the block's statement and refinement lists, the RefInfo map, the
append-only cache-entry store (entries referenced by index), the active
entry lists per affine unit, and a fresh-statement-id counter (modelling
pointer identity of newly inserted blocks). -/
structure SchedState where
  stmts : List Stmt := []
  blockRefs : List Refinement := []
  ris : List (String × RefInfo) := []
  entries : List CacheEntry := []
  active : List (Affine × List Nat) := []
  nextSid : Nat := 0

def SchedState.riGet (σ : SchedState) (k : String) : RefInfo := riGetD σ.ris k

def SchedState.updateRi (σ : SchedState) (k : String) (f : RefInfo → RefInfo) :
    SchedState :=
  { σ with ris := σ.ris.map fun p => if p.1 = k then (p.1, f p.2) else p }

def SchedState.entryGet (σ : SchedState) (i : Nat) : CacheEntry :=
  σ.entries.getD i (CacheEntry.make ⟨"", {}, []⟩ {} "" 0)

def SchedState.updateEntry (σ : SchedState) (i : Nat) (f : CacheEntry → CacheEntry) :
    SchedState :=
  { σ with entries := σ.entries.set i (f (σ.entryGet i)) }

/-- `active_affine_entries_[unit]` (read side). -/
def SchedState.activeList (σ : SchedState) (unit : Affine) : List Nat :=
  ((σ.active.find? fun p => p.1 = unit).map fun p => p.2).getD []

def SchedState.setActiveList (σ : SchedState) (unit : Affine) (l : List Nat) :
    SchedState :=
  if σ.active.any fun p => p.1 = unit then
    { σ with active := σ.active.map fun p => if p.1 = unit then (unit, l) else p }
  else
    { σ with active := σ.active ++ [(unit, l)] }

/-- Replace the statement with id `sid` (pointer-based mutation in the
source). -/
def SchedState.updStmt (σ : SchedState) (sid : Nat) (f : Stmt → Stmt) : SchedState :=
  { σ with stmts := σ.stmts.map fun s => if s.sid = sid then f s else s }

/-- `stmt->deps.emplace_back(dep)` for the statement with id `sid`. -/
def SchedState.addDepTo (σ : SchedState) (sid : Nat) (dep : Nat) : SchedState :=
  σ.updStmt sid fun s => s.addDep dep

def insertBeforeSid (x : Stmt) (p : Nat) : List Stmt → List Stmt
  | [] => [x]
  | s :: rest => if s.sid = p then x :: s :: rest else s :: insertBeforeSid x p rest

/-- `stmts.emplace(si, x)`: insert before the statement with id `p`
(`none` = the end iterator). -/
def insertBefore (l : List Stmt) (pos : Option Nat) (x : Stmt) : List Stmt :=
  match pos with
  | none => l ++ [x]
  | some p => insertBeforeSid x p l

def insertAfterSid (x : Stmt) (p : Nat) : List Stmt → List Stmt
  | [] => [x]
  | s :: rest => if s.sid = p then s :: x :: rest else s :: insertAfterSid x p rest

/-- The statement id following `p` in the list (`++it`); `none` when `p`
is last (the end iterator). -/
def succSid : List Stmt → Nat → Option Nat
  | [], _ => none
  | s :: rest, p => if s.sid = p then rest.head?.map Stmt.sid else succSid rest p

/-! ### The placement planner (schedule.cc:1090-1376) -/

/-- The best-fit search of `TryPlaceInRanges` (schedule.cc:1247-1263):
smallest free range still big enough, ties kept at the earlier range,
starting from `best_waste_so_far = mem_bytes_`.  Returns the index of the
chosen range. -/
def findBestRangeGo (size : Nat) : List MemRange → Nat → Option Nat → Nat → Option Nat
  | [], _, best, _ => best
  | r :: rest, i, best, bestWaste =>
    if r.size < size then
      findBestRangeGo size rest (i + 1) best bestWaste
    else
      let waste := r.size - size
      if bestWaste ≤ waste then
        findBestRangeGo size rest (i + 1) best bestWaste
      else
        findBestRangeGo size rest (i + 1) (some i) waste

def findBestRange (mem_bytes : Nat) (ranges : List MemRange) (size : Nat) : Option Nat :=
  findBestRangeGo size ranges 0 none mem_bytes

/-- `Scheduler::TryPlaceInRanges` (schedule.cc:1235-1274). -/
def TryPlaceInRanges (mem_bytes : Nat) :
    PlacementPlan → List (PlacementKey × Placement) → List MemRange → Option PlacementPlan
  | plan, [], _ => some plan
  | plan, (pkey, p) :: rest, ranges =>
    if planContains plan pkey then
      TryPlaceInRanges mem_bytes
        (planModify plan pkey fun old => { old with dir := UnionDir old.dir p.dir })
        rest ranges
    else
      match findBestRange mem_bytes ranges p.size with
      | none => none
      | some i =>
        let r := ranges.getD i {}
        let assigned := MemRange.mk r.begin (r.begin + p.size)
        TryPlaceInRanges mem_bytes (plan ++ [(pkey, { p with range := assigned })])
          rest (SubtractRangeAt assigned ranges i)

/-- Lexicographic byte order on strings (`std::less<std::string>` /
`std::string::operator<`), written out so that it evaluates by kernel
reduction. -/
def strLtChars : List Char → List Char → Bool
  | [], [] => false
  | [], _ :: _ => true
  | _ :: _, [] => false
  | a :: as, b :: bs =>
    if a.toNat < b.toNat then true
    else if b.toNat < a.toNat then false
    else strLtChars as bs

def strLt (a b : String) : Bool := strLtChars a.data b.data

/-- The comparator of `GatherPlacementState` (schedule.cc:1129-1131):
placements are ordered largest-first, with the refinement name as the
tiebreaker. -/
def todoBefore (ris : List (String × RefInfo)) (lhs rhs : IoDesc) : Bool :=
  let ls := (riGetD ris lhs.ri).size
  let rs := (riGetD ris rhs.ri).size
  let ln := (riGetD ris lhs.ri).name
  let rn := (riGetD ris rhs.ri).name
  rs < ls || (rs == ls && strLt rn ln)

def insertSorted (lt : α → α → Bool) (x : α) : List α → List α
  | [] => [x]
  | y :: rest => if lt x y then x :: y :: rest else y :: insertSorted lt x rest

/-- A simple stable sort; the source's comparator is a strict total order
on the todo entries (distinct names), so any sorting algorithm yields the
same list. -/
def sortByLt (lt : α → α → Bool) (l : List α) : List α :=
  l.foldl (fun acc x => insertSorted lt x acc) []

def unitAppend (m : List (Affine × List α)) (k : Affine) (v : α) :
    List (Affine × List α) :=
  if m.any fun p => p.1 = k then
    m.map fun p => if p.1 = k then (p.1, p.2 ++ [v]) else p
  else m ++ [(k, [v])]

/-- `Scheduler::GatherPlacementState` (schedule.cc:1090-1135): the
existing-entry prototype plan, plus the per-affine todo lists sorted
largest-first. -/
def GatherPlacementState (σ : SchedState) (ios : List IoDesc) :
    PlacementPlan × List (Affine × List IoDesc) :=
  let step := fun (st : PlacementPlan × List (String × RefDir)) (io : IoDesc) =>
    let pkey := PlacementKey.mk io.ri (σ.riGet io.ri).exterior_cache_shape []
    match planFind st.1 pkey with
    | some _ =>
      (planModify st.1 pkey fun old => { old with dir := UnionDir old.dir io.dir }, st.2)
    | none =>
      match (σ.riGet io.ri).cache_entry with
      | some e =>
        if ¬(σ.entryGet e).saw_earliest_writer then
          (st.1 ++ [(pkey, Placement.ofEntry io.dir (σ.entryGet e).range e)], st.2)
        else
          (st.1, assocEmplaceUnionDir st.2 io.ri io.dir)
      | none => (st.1, assocEmplaceUnionDir st.2 io.ri io.dir)
  let st := ios.foldl step ([], [])
  let todos := st.2.foldl
    (fun m p => unitAppend m (σ.riGet p.1).ref.location.unit
      (IoDesc.ofDir (riGetD σ.ris p.1) p.2)) []
  (st.1, todos.map fun p => (p.1, sortByLt (todoBefore σ.ris) p.2))

/-- `MakeFullPlacements` (schedule.cc:1137-1144). -/
def MakeFullPlacements (σ : SchedState) (ios : List IoDesc) :
    List (PlacementKey × Placement) :=
  ios.map fun io =>
    (PlacementKey.mk io.ri (σ.riGet io.ri).exterior_cache_shape [],
      Placement.ofSize io.dir (σ.riGet io.ri).size false "")

/-- `MakePartialPlacements` (schedule.cc:1146-1161). -/
def MakePartialPlacements (σ : SchedState) (ios : List IoDesc) :
    List (PlacementKey × Placement) :=
  ios.map fun io =>
    let interior_size := io.interior_shape.byte_size
    let is_internal := interior_size ≠ (σ.riGet io.ri).size
    let access := if is_internal then io.access else []
    (PlacementKey.mk io.ri io.interior_shape access,
      Placement.ofSize io.dir interior_size is_internal io.interior_name)

/-- `Scheduler::TryMakePlanWithNoSwaps` (schedule.cc:1276-1305): per
affine unit, subtract every active entry's range from the free list,
unless that entry has seen its earliest writer and its RefInfo is not
already in the plan. -/
def TryMakePlanWithNoSwaps (opts : SchedOptions) (σ : SchedState) :
    List (Affine × List (PlacementKey × Placement)) → PlacementPlan →
      Option PlacementPlan
  | [], plan => some plan
  | (unit, placements) :: rest, plan =>
    let ranges := (σ.activeList unit).foldl
      (fun rs eidx =>
        let ent := σ.entryGet eidx
        let pkey := PlacementKey.mk ent.source
          (σ.riGet ent.source).exterior_cache_shape []
        if ¬(ent.saw_earliest_writer ∧ ¬planContains plan pkey) then
          SubtractRange ent.range rs
        else rs)
      [MemRange.mk 0 opts.mem_bytes]
    match TryPlaceInRanges opts.mem_bytes plan placements ranges with
    | none => none
    | some plan' => TryMakePlanWithNoSwaps opts σ rest plan'

/-- `Scheduler::TryMakePlanWithSwaps` (schedule.cc:1307-1334): only the
ranges of entries whose RefInfo is already in the plan are subtracted. -/
def TryMakePlanWithSwaps (opts : SchedOptions) (σ : SchedState) :
    List (Affine × List (PlacementKey × Placement)) → PlacementPlan →
      Option PlacementPlan
  | [], plan => some plan
  | (unit, placements) :: rest, plan =>
    let ranges := (σ.activeList unit).foldl
      (fun rs eidx =>
        let ent := σ.entryGet eidx
        let pkey := PlacementKey.mk ent.source
          (σ.riGet ent.source).exterior_cache_shape []
        if planContains plan pkey then
          SubtractRange ent.range rs
        else rs)
      [MemRange.mk 0 opts.mem_bytes]
    match TryPlaceInRanges opts.mem_bytes plan placements ranges with
    | none => none
    | some plan' => TryMakePlanWithSwaps opts σ rest plan'

def offsetsGet (m : List (Affine × Nat)) (k : Affine) : Nat :=
  ((m.find? fun p => p.1 = k).map fun p => p.2).getD 0

def offsetsSet (m : List (Affine × Nat)) (k : Affine) (v : Nat) :
    List (Affine × Nat) :=
  if m.any fun p => p.1 = k then
    m.map fun p => if p.1 = k then (k, v) else p
  else m ++ [(k, v)]

def fallbackGo (opts : SchedOptions) (σ : SchedState) :
    List (PlacementKey × Placement) → PlacementPlan → List (Affine × Nat) →
      PlacementPlan × List (Affine × Nat)
  | [], plan, offsets => (plan, offsets)
  | (pkey, p) :: rest, plan, offsets =>
    if planContains plan pkey then
      fallbackGo opts σ rest
        (planModify plan pkey fun old => { old with dir := UnionDir old.dir p.dir })
        offsets
    else
      let unit := (σ.riGet pkey.ri).ref.location.unit
      let off := offsetsGet offsets unit
      fallbackGo opts σ rest
        (plan ++ [(pkey, { p with range := MemRange.mk off (off + p.size) })])
        (offsetsSet offsets unit (off + Align p.size opts.alignment))

/-- `Scheduler::TryMakeFallbackPlan` (schedule.cc:1336-1376): pack each
placement sequentially from offset 0 within its affine unit, aligning the
offset after each placement; succeed iff every unit's final offset fits
in `mem_bytes`. -/
def TryMakeFallbackPlan (opts : SchedOptions) (σ : SchedState)
    (placements : List (PlacementKey × Placement)) : Option PlacementPlan :=
  let offsets0 := placements.foldl
    (fun m p => offsetsSet m (σ.riGet p.1.ri).ref.location.unit 0) []
  let res := fallbackGo opts σ placements [] offsets0
  if res.2.all fun p => p.2 ≤ opts.mem_bytes then some res.1 else none

/-- `Scheduler::TryMakePlan` (schedule.cc:1163-1233): the strategy
ladder. -/
def TryMakePlan (opts : SchedOptions) (σ : SchedState)
    (current_block : Option BlockData) (ios : List IoDesc) : Option PlacementPlan :=
  let gp := GatherPlacementState σ ios
  let existing_entry_plan := gp.1
  let todos := gp.2
  let todo_fulls := todos.map fun p => (p.1, MakeFullPlacements σ p.2)
  let todo_loops := todos.map fun p => (p.1, MakePartialPlacements σ p.2)
  match TryMakePlanWithNoSwaps opts σ todo_fulls existing_entry_plan with
  | some plan => some plan
  | none =>
  match TryMakePlanWithNoSwaps opts σ todo_loops existing_entry_plan with
  | some plan => some plan
  | none =>
  match TryMakePlanWithSwaps opts σ todo_fulls existing_entry_plan with
  | some plan => some plan
  | none =>
  match TryMakePlanWithSwaps opts σ todo_loops existing_entry_plan with
  | some plan => some plan
  | none =>
  match TryMakeFallbackPlan opts σ (MakeFullPlacements σ ios) with
  | some plan => some plan
  | none =>
  match current_block with
  | some _ => TryMakeFallbackPlan opts σ (MakePartialPlacements σ ios)
  | none => none

/-! ### Transfer insertion (schedule.cc:1378-1604) -/

/-- `unordered_map<Statement*, AliasInfo>::emplace`: insert only when the
key is absent. -/
def emplaceAliasMapEntry (l : List (Nat × AliasInfo)) (k : Nat) (v : AliasInfo) :
    List (Nat × AliasInfo) :=
  if l.any fun p => p.1 = k then l else l ++ [(k, v)]

/-- Modelled from the spec: `Block::unique_ref_name`/`unique_idx_name`
return a name not colliding with the given used names: the base itself
when free, otherwise the base with a numeric suffix. -/
def uniqueNameFrom (used : List String) (base : String) : String :=
  ((base :: (List.range (used.length + 1)).map fun i => base ++ "_" ++ toString i).find?
    fun c => ¬ used.contains c).getD base

/-- The swap-in transfer block (schedule.cc:1379-1415): reads the backing
refinement (`src`, via `ref_swap_access`/`ref_swap_shape`) into the cache
entry (`dst`, via `cache_swap_access`/`cache_swap_shape`), with the swap
indices of the source RefInfo, at the transfer location; its body is a
single load/store pair. -/
def mkSwapInBlock (opts : SchedOptions) (src : RefInfo) (ent : CacheEntry)
    (sid : Nat) : Stmt :=
  let banked_mem_loc := match src.ref.cache_unit with
    | some u => { opts.mem_loc with unit := u }
    | none => opts.mem_loc
  .block sid []
    (.mk ("swap_in_" ++ ent.name) opts.xfer_loc src.swap_idxs
      [{ dir := RefDir.In, from_ := src.ref.into, into := "src",
          access := src.ref_swap_access, interior_shape := src.ref_swap_shape,
          agg_op := "", location := src.ref.location, is_const := src.ref.is_const,
          offset := 0, bank_dim := src.ref.bank_dim, cache_unit := none },
        { dir := RefDir.Out, from_ := ent.name, into := "dst",
          access := src.cache_swap_access, interior_shape := src.cache_swap_shape,
          agg_op := "", location := banked_mem_loc, is_const := src.ref.is_const,
          offset := 0, bank_dim := src.ref.bank_dim, cache_unit := none }]
      [.load 0 [] "src" "$X", .store 0 [] "$X" "dst"])

/-- The swap-out transfer block (schedule.cc:1430-1466): symmetric to the
swap-in block. -/
def mkSwapOutBlock (opts : SchedOptions) (src : RefInfo) (ent : CacheEntry)
    (sid : Nat) : Stmt :=
  let banked_mem_loc := match src.ref.cache_unit with
    | some u => { opts.mem_loc with unit := u }
    | none => opts.mem_loc
  .block sid []
    (.mk ("swap_out_" ++ ent.name) opts.xfer_loc src.swap_idxs
      [{ dir := RefDir.In, from_ := ent.name, into := "src",
          access := src.cache_swap_access, interior_shape := src.cache_swap_shape,
          agg_op := "", location := banked_mem_loc, is_const := src.ref.is_const,
          offset := 0, bank_dim := src.ref.bank_dim, cache_unit := none },
        { dir := RefDir.Out, from_ := src.ref.into, into := "dst",
          access := src.ref_swap_access, interior_shape := src.ref_swap_shape,
          agg_op := "", location := src.ref.location, is_const := src.ref.is_const,
          offset := 0, bank_dim := src.ref.bank_dim, cache_unit := none }]
      [.load 0 [] "src" "$X", .store 0 [] "$X" "dst"])

/-- `Scheduler::ScheduleSwapIn` (schedule.cc:1378-1426): insert the
swap-in block just before `si`, mark the source used, register the new
block as a writer of the entry and as a swap-in reader of the source,
give every current reader of the entry a dependency on the new block, set
`saw_earliest_writer`, and return the new block's id (the returned
iterator). -/
def ScheduleSwapIn (opts : SchedOptions) (σ : SchedState) (si : Option Nat)
    (eidx : Nat) : SchedState × Nat :=
  let ent := σ.entryGet eidx
  let src := σ.riGet ent.source
  let newSid := σ.nextSid
  let swap_in := mkSwapInBlock opts src ent newSid
  let σ := { σ with nextSid := σ.nextSid + 1 }
  let σ := σ.updateRi ent.source fun r => { r with used := true }
  let σ := { σ with stmts := insertBefore σ.stmts si swap_in }
  let σ := σ.updateEntry eidx fun e =>
    { e with writers := emplaceAliasMapEntry e.writers newSid src.alias_info }
  let σ := σ.updateRi ent.source fun r =>
    { r with swap_in_readers := r.swap_in_readers ++ [newSid] }
  let σ := ent.readers.foldl (fun σ p => σ.addDepTo p.1 newSid) σ
  let σ := σ.updateEntry eidx fun e => { e with saw_earliest_writer := true }
  (σ, newSid)

/-- `Scheduler::ScheduleSwapOut` (schedule.cc:1428-1476): insert the
swap-out block just before `si`, mark the source used, give each supplied
swap-in reader a dependency on the new block, set `saw_final_write` on
the source, and return the new block's id. -/
def ScheduleSwapOut (opts : SchedOptions) (σ : SchedState) (si : Option Nat)
    (eidx : Nat) (swap_in_readers : List Nat) : SchedState × Nat :=
  let ent := σ.entryGet eidx
  let src := σ.riGet ent.source
  let newSid := σ.nextSid
  let swap_out := mkSwapOutBlock opts src ent newSid
  let σ := { σ with nextSid := σ.nextSid + 1 }
  let σ := σ.updateRi ent.source fun r => { r with used := true }
  let σ := { σ with stmts := insertBefore σ.stmts si swap_out }
  let σ := swap_in_readers.foldl (fun σ r => σ.addDepTo r newSid) σ
  let σ := σ.updateRi ent.source fun r => { r with saw_final_write := true }
  (σ, newSid)

/-- The offset index names appearing in the supplied access affines, in
encounter order, deduplicated (schedule.cc:1486-1494). -/
def offsetIdxNames (access : List Affine) : List String :=
  access.foldl
    (fun acc a => a.getMap.foldl
      (fun acc2 t => if acc2.contains t.1 then acc2 else acc2 ++ [t.1]) acc) []

/-- The data-index construction shared by the sub-block swaps
(schedule.cc:1496-1504, 1560-1568): one fresh index per data dimension
sized to the entry shape dimension, with the local source/destination
access affines. -/
def subSwapIdxs (ent : CacheEntry) (access : List Affine) (idxs0 : List Index) :
    List Index × List Affine × List Affine :=
  (List.range access.length).foldl
    (fun st i =>
      let iname := uniqueNameFrom (st.1.map fun ix => ix.name) ("i" ++ toString i)
      (st.1 ++ [Index.mk iname ((ent.shape.dims.getD i {}).size) none],
        st.2.1 ++ [Affine.add (Affine.var iname) (access.getD i {})],
        st.2.2 ++ [Affine.var iname]))
    (idxs0, [], [])

/-- `Scheduler::AddSubblockSwapIn` (schedule.cc:1478-1540): prepend a
transfer block inside the sub-block with id `blockSid`. -/
def AddSubblockSwapIn (opts : SchedOptions) (σ : SchedState) (blockSid : Nat)
    (eidx : Nat) (backing_ref_name : String) (access : List Affine) : SchedState :=
  let ent := σ.entryGet eidx
  let src := σ.riGet ent.source
  let idxs0 := (offsetIdxNames access).map fun n => Index.mk n 1 (some (Affine.var n))
  let built := subSwapIdxs ent access idxs0
  let banked_mem_loc := match src.ref.cache_unit with
    | some u => { opts.mem_loc with unit := u }
    | none => opts.mem_loc
  let sb : Stmt := .block σ.nextSid []
    (.mk ("read_slice_of_" ++ src.name) opts.xfer_loc built.1
      [{ dir := RefDir.In, from_ := backing_ref_name, into := "src",
          access := built.2.1, interior_shape := src.ref_swap_shape,
          agg_op := "", location := src.ref.location, is_const := src.ref.is_const,
          offset := 0, bank_dim := src.ref.bank_dim, cache_unit := none },
        { dir := RefDir.Out, from_ := ent.interior_name, into := "dst",
          access := built.2.2, interior_shape := src.cache_swap_shape,
          agg_op := "", location := banked_mem_loc, is_const := src.ref.is_const,
          offset := 0, bank_dim := src.ref.bank_dim, cache_unit := none }]
      [.load 0 [] "src" "$X", .store 0 [] "$X" "dst"])
  let σ := { σ with nextSid := σ.nextSid + 1 }
  σ.updStmt blockSid fun s => match s with
    | .block bsid deps b => .block bsid deps (b.withStmts (sb :: b.stmts))
    | s => s

/-- `Scheduler::AddSubblockSwapOut` (schedule.cc:1542-1604): append a
transfer block inside the sub-block with id `blockSid`; the cache side is
the source and the backing side the (offset) destination. -/
def AddSubblockSwapOut (opts : SchedOptions) (σ : SchedState) (blockSid : Nat)
    (eidx : Nat) (backing_ref_name : String) (access : List Affine) : SchedState :=
  let ent := σ.entryGet eidx
  let src := σ.riGet ent.source
  let idxs0 := (offsetIdxNames access).map fun n => Index.mk n 1 (some (Affine.var n))
  let built := subSwapIdxs ent access idxs0
  let banked_mem_loc := match src.ref.cache_unit with
    | some u => { opts.mem_loc with unit := u }
    | none => opts.mem_loc
  let sb : Stmt := .block σ.nextSid []
    (.mk ("write_slice_of_" ++ src.name) opts.xfer_loc built.1
      [{ dir := RefDir.In, from_ := ent.interior_name, into := "src",
          access := built.2.2, interior_shape := src.cache_swap_shape,
          agg_op := "", location := banked_mem_loc, is_const := src.ref.is_const,
          offset := 0, bank_dim := src.ref.bank_dim, cache_unit := none },
        { dir := RefDir.Out, from_ := backing_ref_name, into := "dst",
          access := built.2.1, interior_shape := src.ref_swap_shape,
          agg_op := "", location := src.ref.location, is_const := src.ref.is_const,
          offset := 0, bank_dim := src.ref.bank_dim, cache_unit := none }]
      [.load 0 [] "src" "$X", .store 0 [] "$X" "dst"])
  let σ := { σ with nextSid := σ.nextSid + 1 }
  σ.updStmt blockSid fun s => match s with
    | .block bsid deps b => .block bsid deps (b.withStmts (b.stmts ++ [sb]))
    | s => s

/-! ### The main scheduling loop (schedule.cc:698-1088) -/

/-- The failure signal of the scheduling pass: the warning lines logged
just before the throw (schedule.cc:756-765) and the exception message
(schedule.cc:766). -/
structure SchedError where
  warnings : List String := []
  msg : String := ""
deriving DecidableEq

/-- Modelled from the spec: the stream rendering of a `Refinement` in the
failure diagnostics (`LOG(WARNING) << "  " << io.ri->ref`); it names the
refinement. -/
def refStr (r : Refinement) : String := r.into

/-- The keys of the RefInfos sharing `base_ref` with the given RefInfo
(`*ri->aliases`, grouped in the scheduler constructor,
schedule.cc:690-695), in RefInfo-map order. -/
def aliasKeysOf (σ : SchedState) (riKey : String) : List String :=
  let base := (σ.riGet riKey).alias_info.base_ref
  ((σ.ris.filter fun p => p.2.alias_info.base_ref = base).map fun p => p.1)

def wsirsGet (w : List (String × List Nat)) (k : String) : List Nat :=
  (((w.find? fun p => p.1 = k).map fun p => p.2)).getD []

def wsirsSet (w : List (String × List Nat)) (k : String) (v : List Nat) :
    List (String × List Nat) :=
  if w.any fun p => p.1 = k then
    w.map fun p => if p.1 = k then (k, v) else p
  else w ++ [(k, v)]

/-- One alias of the invalidation loop (schedule.cc:735-749): a
non-`None`-comparing alias (or the written RefInfo itself) contributes
its current swap-in readers; a distinct alias holding a cache entry first
gets a swap-in scheduled at `si_next` (detaching its entry), and the
updated `si_next` is the new swap-in's position. -/
def invalidateAlias (opts : SchedOptions) (riKey : String)
    (st : SchedState × Option Nat × List Nat) (aliasKey : String) :
    SchedState × Option Nat × List Nat :=
  let σ := st.1
  let si_next := st.2.1
  let readers := st.2.2
  let ri := σ.riGet riKey
  let alias_ri := σ.riGet aliasKey
  if aliasKey = riKey ∨ ¬(opts.cmp ri.alias_info alias_ri.alias_info = AliasType.None) then
    let step :=
      if ¬(aliasKey = riKey) then
        match alias_ri.cache_entry with
        | some e =>
          let r := ScheduleSwapIn opts σ si_next e
          (r.1.updateRi aliasKey fun x => { x with cache_entry := none }, some r.2)
        | none => (σ, si_next)
      else (σ, si_next)
    let σ := step.1
    let readers := (σ.riGet aliasKey).swap_in_readers.foldl
      (fun rs s => if rs.contains s then rs else rs ++ [s]) readers
    (σ, step.2, readers)
  else st

/-- The invalidation phase (schedule.cc:727-751): for each write-direction
IO, walk the alias set, scheduling swap-ins for aliased cache entries and
collecting `ri_writer_swap_in_readers`. -/
def invalidatePhase (opts : SchedOptions) (σ : SchedState) (si_next : Option Nat)
    (ios : List IoDesc) : SchedState × Option Nat × List (String × List Nat) :=
  ios.foldl
    (fun st io =>
      if IsWriteDir io.dir then
        let σ := st.1
        let si_next := st.2.1
        let wsirs := st.2.2
        let cur := wsirsGet wsirs io.ri
        let r := (aliasKeysOf σ io.ri).foldl (invalidateAlias opts io.ri) (σ, si_next, cur)
        (r.1, r.2.1, wsirsSet wsirs io.ri r.2.2)
      else st)
    (σ, si_next, [])

/-- The per-placement application state (locals of the plan-application
loop, schedule.cc:822-825). -/
structure PlanApplySt where
  σ : SchedState
  added_affine_entries : List (Affine × List Nat)
  added_refs : List Refinement
  internal_swap_backing_ref_names : List (String × String)

/-- One pass of the conflict-resolution loop (schedule.cc:939-982) for
one future (runtime-earlier) entry `fidx`. -/
def conflictStep (opts : SchedOptions) (reuse_dep : Nat) (entIdx : Nat)
    (entRange : MemRange) (is_new : Bool) (unit : Affine)
    (σ : SchedState) (fidx : Nat) : SchedState :=
  let fent := σ.entryGet fidx
  if fidx = entIdx ∨ ¬RangesOverlapList entRange fent.uncovered_ranges then σ
  else
    let σ :=
      if is_new then
        let σ :=
          if ¬fent.saw_earliest_writer then
            (ScheduleSwapIn opts σ (succSid σ.stmts reuse_dep) fidx).1
          else σ
        let σ := (σ.entryGet fidx).writers.foldl
          (fun σ p => σ.addDepTo p.1 reuse_dep) σ
        let σ := σ.updateEntry fidx fun e =>
          { e with uncovered_ranges := SubtractRange entRange e.uncovered_ranges }
        let σ :=
          if (σ.entryGet fidx).uncovered_ranges.isEmpty then
            σ.setActiveList unit ((σ.activeList unit).filter fun i => ¬(i = fidx))
          else σ
        let σ :=
          if (σ.riGet (σ.entryGet fidx).source).cache_entry = some fidx then
            σ.updateRi (σ.entryGet fidx).source fun r => { r with cache_entry := none }
          else σ
        σ
      else σ
    (σ.entryGet fidx).writers.foldl (fun σ p => σ.addDepTo p.1 reuse_dep) σ

/-- One iteration of the plan-application loop (schedule.cc:835-991) for
the placement `pkey_placement`; `sid` is the statement being scheduled. -/
def applyPlacement (opts : SchedOptions) (sid : Nat)
    (wsirs : List (String × List Nat)) (st : PlanApplySt)
    (pkey_placement : PlacementKey × Placement) : PlanApplySt :=
  let pkey := pkey_placement.1
  let placement := pkey_placement.2
  let riKey := pkey.ri
  let crt : SchedState × Nat × Bool :=
    match placement.entry with
    | some e => (st.σ, e, false)
    | none =>
      let σ := st.σ
      let counter := (σ.riGet riKey).next_cache_entry
      let ent := CacheEntry.make pkey placement (σ.riGet riKey).name counter
      let σ := σ.updateRi riKey fun r => { r with next_cache_entry := r.next_cache_entry + 1 }
      let idx := σ.entries.length
      let σ := { σ with entries := σ.entries ++ [ent] }
      let σ := σ.updateRi riKey fun r => { r with cache_entry := some idx }
      (σ, idx, true)
  let σ0 := crt.1
  let entIdx := crt.2.1
  let is_new := crt.2.2
  let sres : SchedState × Nat × List Refinement × List (String × String) :=
    if placement.is_internal then
      let names := st.internal_swap_backing_ref_names
      let bn : String × List (String × String) × List Refinement × SchedState :=
        match (names.find? fun p => p.1 = riKey).map (fun p => p.2) with
        | some n => (n, names, st.added_refs, σ0)
        | none =>
          let existingNames :=
            match σ0.stmts.find? (fun s => s.sid = sid) with
            | some (.block _ _ b) => b.refs.map (fun r => r.into)
            | _ => []
          let n := uniqueNameFrom existingNames ((σ0.riGet riKey).name ++ "_storage")
          let src := σ0.riGet (σ0.entryGet entIdx).source
          let newRef : Refinement :=
            { dir := placement.dir, from_ := src.ref.into, into := n,
              access := src.alias_info.access, interior_shape := src.alias_info.shape,
              agg_op := "", location := src.ref.location, is_const := src.ref.is_const,
              offset := 0, bank_dim := src.ref.bank_dim, cache_unit := none }
          (n, names ++ [(riKey, n)], st.added_refs ++ [newRef], σ0)
      let σ := bn.2.2.2
      let σ := if IsReadDir placement.dir then
          AddSubblockSwapIn opts σ sid entIdx bn.1 pkey.access
        else σ
      let σ := if IsWriteDir placement.dir then
          AddSubblockSwapOut opts σ sid entIdx bn.1 pkey.access
        else σ
      (σ, sid, bn.2.2.1, bn.2.1)
    else
      let σ := σ0
      let σ :=
        if IsWriteDir placement.dir then
          let ai := (σ.riGet riKey).alias_info
          let σ := (σ.entryGet entIdx).readers.foldl
            (fun σ p =>
              if ¬(opts.cmp ai p.2 = AliasType.None) then σ.addDepTo p.1 sid else σ) σ
          let σ := σ.updateEntry entIdx fun e =>
            { e with writers := emplaceAliasMapEntry e.writers sid ai }
          if some sid = (σ.riGet (σ.entryGet entIdx).source).earliest_writer then
            σ.updateEntry entIdx fun e => { e with saw_earliest_writer := true }
          else σ
        else σ
      let σ :=
        if IsReadDir placement.dir then
          σ.updateEntry entIdx fun e =>
            { e with readers := emplaceAliasMapEntry e.readers sid (σ.riGet riKey).alias_info }
        else σ
      let σ := σ.updateEntry entIdx fun e => { e with first_accessor := sid }
      let needSwapOut := IsWriteDir placement.dir ∧
        ((IsWriteDir (σ.riGet riKey).ref.dir ∧ ¬(σ.riGet riKey).saw_final_write) ∨
          ¬(wsirsGet wsirs riKey).isEmpty)
      if needSwapOut then
        let r := ScheduleSwapOut opts σ (succSid σ.stmts sid) entIdx (wsirsGet wsirs riKey)
        (r.1.addDepTo r.2 sid, r.2, st.added_refs, st.internal_swap_backing_ref_names)
      else (σ, sid, st.added_refs, st.internal_swap_backing_ref_names)
  let σ := sres.1
  let reuse_dep := sres.2.1
  let entRange := (σ.entryGet entIdx).range
  let unit := (σ.riGet (σ.entryGet entIdx).source).ref.location.unit
  let σ := (σ.activeList unit).foldl (conflictStep opts reuse_dep entIdx entRange is_new unit) σ
  let added :=
    if is_new ∧ ¬placement.is_internal then
      unitAppend st.added_affine_entries unit entIdx
    else st.added_affine_entries
  { σ := σ, added_affine_entries := added, added_refs := sres.2.2.1,
    internal_swap_backing_ref_names := sres.2.2.2 }

def activeLt (σ : SchedState) (a b : Nat) : Bool :=
  (σ.entryGet a).range.begin < (σ.entryGet b).range.begin

/-- The splice-and-sort step (schedule.cc:993-998): each affected affine
bucket receives its added entries at the front and is stably re-sorted by
`range.begin` (`std::list::sort` is stable). -/
def spliceActive (σ : SchedState) (added : List (Affine × List Nat)) : SchedState :=
  added.foldl
    (fun σ p => σ.setActiveList p.1 (sortByLt (activeLt σ) (p.2 ++ σ.activeList p.1))) σ

mutual
/-- Modelled from the spec (§4.2(a), §6): `FixupRefs` propagates a
refinement change through a block's descendants: every descendant ref
backed by the given name picks up the updated location. -/
def fixupStmt (name : String) (loc : Location) : Stmt → Stmt
  | .block sid deps b => .block sid deps (fixupBlock name loc b)
  | s => s

def fixupBlock (name : String) (loc : Location) (b : BlockData) : BlockData :=
  match b with
  | .mk n l i refs stmts =>
    .mk n l i (refs.map fun r => if r.from_ = name then { r with location := loc } else r)
      (fixupStmts name loc stmts)

def fixupStmts (name : String) (loc : Location) : List Stmt → List Stmt
  | [] => []
  | s :: rest => fixupStmt name loc s :: fixupStmts name loc rest
end

/-- The non-Block slot rewrite of `StatementBinder::ApplyBindings`
(schedule.cc:420-427). -/
def applySlot (s : Stmt) (slot : RefSlot) (name : String) : Stmt :=
  match s, slot with
  | .load sid deps _ into_, RefSlot.loadFrom => .load sid deps name into_
  | .store sid deps f _, RefSlot.storeInto => .store sid deps f name
  | .special sid deps ins outs, RefSlot.specialInput i => .special sid deps (ins.set i name) outs
  | .special sid deps ins outs, RefSlot.specialOutput i => .special sid deps ins (outs.set i name)
  | s, _ => s

/-- The Block branch of `StatementBinder::ApplyBindings`
(schedule.cc:429-449) for one refinement position. -/
def rewriteBlockRef (opts : SchedOptions) (σ : SchedState) (b : BlockData)
    (refIdx : Nat) (riKey : String) : BlockData :=
  let ri := σ.riGet riKey
  match ri.cache_entry with
  | none => b
  | some e =>
    let entry := σ.entryGet e
    let loc := match ri.ref.cache_unit with
      | some u => { opts.mem_loc with unit := u }
      | none => opts.mem_loc
    let upd := fun (ref : Refinement) =>
      let ref := { ref with from_ := entry.name, location := loc }
      if entry.is_internal then
        { ref with
          interior_shape := entry.shape,
          access := ref.access.map fun _ => ({ const := 0, terms := [] } : Affine) }
      else
        { ref with interior_shape :=
          { ref.interior_shape with dims := ref.interior_shape.dims.enum.map fun q =>
            { q.2 with stride := ((ri.exterior_cache_shape.dims.getD q.1 {}).stride) } } }
    let newRefs := b.refs.enum.map fun p => if p.1 = refIdx then upd p.2 else p.2
    let intoName := ((b.refs.getD refIdx {}).into)
    let refLoc := ((newRefs.getD refIdx {}).location)
    (BlockData.mk b.name b.location b.idxs newRefs (fixupStmts intoName refLoc b.stmts))

/-- `StatementBinder::ApplyBindings` (schedule.cc:420-450), reading the
current RefInfo state. -/
def applyBinder (opts : SchedOptions) (σ : SchedState) (sid : Nat) :
    StatementBinder → SchedState
  | .empty => σ
  | .nonBlock updates =>
    updates.foldl
      (fun σ p =>
        let name := match (σ.riGet p.2).cache_entry with
          | some e => (σ.entryGet e).name
          | none => ""
        σ.updStmt sid fun s => applySlot s p.1 name) σ
  | .forBlock updates =>
    updates.foldl
      (fun σ p =>
        σ.updStmt sid fun s => match s with
          | .block bsid deps b => .block bsid deps (rewriteBlockRef opts σ b p.1 p.2)
          | s => s) σ

/-- `dynamic_cast<stripe::Block*>(si->get())` (schedule.cc:710). -/
def currentBlockOf : Stmt → Option BlockData
  | .block _ _ b => some b
  | _ => none

/-- `Scheduler::Run`'s per-statement body (schedule.cc:706-1023):
gathering, invalidation, planning (raising on failure), plan application,
splicing, binding, sub-block ref insertion, and internal-entry cleanup. -/
def scheduleStep (opts : SchedOptions) (σ : SchedState) (sid : Nat) :
    Except SchedError SchedState :=
  match σ.stmts.find? fun s => s.sid = sid with
  | none => Except.ok σ
  | some stmt =>
    let current_block : Option BlockData := currentBlockOf stmt
    let gio := gatherIo σ.ris stmt
    let ios := gio.1
    let binder := gio.2
    let inv := invalidatePhase opts σ (succSid σ.stmts sid) ios
    let σ := inv.1
    let wsirs := inv.2.2
    match TryMakePlan opts σ current_block ios with
    | none =>
      Except.error
        { warnings :=
            ("Failed to create placement plan fitting within " ++
                toString (opts.mem_bytes / 1024) ++ " KiB memory boundary") ::
              (match current_block with
                | some b => "Block " ++ b.name ++ " simultaneously requires:"
                | none => "The program simultaneously requires:") ::
              ios.map fun io => "  " ++ refStr (σ.riGet io.ri).ref,
          msg := "Program requires more memory than is available" }
    | some plan =>
      let st := plan.foldl (applyPlacement opts sid wsirs)
        (PlanApplySt.mk σ [] [] [])
      let σ := spliceActive st.σ st.added_affine_entries
      let σ := applyBinder opts σ sid binder
      let σ :=
        if ¬st.added_refs.isEmpty then
          σ.updStmt sid fun s => match s with
            | .block bsid deps b => .block bsid deps (b.withRefs (b.refs ++ st.added_refs))
            | s => s
        else σ
      let σ := plan.foldl
        (fun σ p =>
          match (σ.riGet p.1.ri).cache_entry with
          | some e =>
            if (σ.entryGet e).is_internal then
              σ.updateRi p.1.ri fun r => { r with cache_entry := none }
            else σ
          | none => σ) σ
      Except.ok σ

/-- The end-of-pass swap-in insertion (schedule.cc:1040-1047): every
still-active entry whose source has no earliest writer gets a swap-in
just before its `first_accessor`. -/
def finalizeSwapIns (opts : SchedOptions) (σ : SchedState) : SchedState :=
  σ.active.foldl
    (fun σA p =>
      p.2.foldl
        (fun σB eidx =>
          if ((σB.riGet (σB.entryGet eidx).source).earliest_writer).isNone then
            (ScheduleSwapIn opts σB (some (σB.entryGet eidx).first_accessor) eidx).1
          else σB) σA) σ

def replaceFirstRef (refs : List Refinement) (name : String)
    (f : Refinement → Refinement) : List Refinement :=
  match refs with
  | [] => []
  | r :: rest => if r.into = name then f r :: rest else r :: replaceFirstRef rest name f

/-- The refinement emission (schedule.cc:1049-1066): one refinement per
cache entry, overwriting a pre-existing refinement of the same name if
present. -/
def emitCacheRefs (opts : SchedOptions) (σ : SchedState) : SchedState :=
  σ.entries.foldl
    (fun σ ent =>
      let upd := fun (r0 : Refinement) =>
        let loc := match (σ.riGet ent.source).ref.cache_unit with
          | some u => { opts.mem_loc with unit := u }
          | none => opts.mem_loc
        { r0 with
          dir := RefDir.None, from_ := "", into := ent.name,
          interior_shape := ent.shape, location := loc,
          is_const := (σ.riGet ent.source).ref.is_const,
          offset := ent.range.begin }
      if σ.blockRefs.any fun r => r.into = ent.name then
        { σ with blockRefs := replaceFirstRef σ.blockRefs ent.name upd }
      else
        { σ with blockRefs := σ.blockRefs ++ [upd (σ.riGet ent.source).ref] }) σ

/-- Moving used refinements back into the block (schedule.cc:1069-1078). -/
def moveUsedRefs (σ : SchedState) : SchedState :=
  σ.ris.foldl
    (fun σ p =>
      if p.2.used then
        if σ.blockRefs.any fun r => r.into = p.2.ref.into then
          { σ with blockRefs := replaceFirstRef σ.blockRefs p.2.ref.into fun _ => p.2.ref }
        else
          { σ with blockRefs := σ.blockRefs ++ [p.2.ref] }
      else σ) σ

def listUnion (a b : List Nat) : List Nat :=
  b.foldl (fun acc x => if acc.contains x then acc else acc ++ [x]) a

def listDedup (a : List Nat) : List Nat := listUnion [] a

def tdepsGet (t : List (Nat × List Nat)) (k : Nat) : List Nat :=
  (((t.find? fun p => p.1 = k).map fun p => p.2)).getD []

/-- `Scheduler::RebuildTransitiveDeps` (schedule.cc:1606-1623): walk the
statements in order; each statement's deps become its direct dep set
minus the union of the transitive dep sets of its direct deps; its
transitive dep set is its direct dep set united with those unions.  The
C++ stores the sets in unordered containers; set contents are what
matters and the model keeps first-occurrence order. -/
def rebuildGo : List Stmt → List (Nat × List Nat) → List Stmt
  | [], _ => []
  | s :: rest, tdeps =>
    let stmt_deps := listDedup s.deps
    let stmt_tdeps := stmt_deps.foldl (fun acc d => listUnion acc (tdepsGet tdeps d)) []
    let newDeps := stmt_deps.filter fun d => ¬ stmt_tdeps.contains d
    s.setDeps newDeps ::
      rebuildGo rest (tdeps ++ [(s.sid, listUnion stmt_tdeps stmt_deps)])

def RebuildTransitiveDeps (stmts : List Stmt) : List Stmt := rebuildGo stmts []

/-- `Scheduler::BuildRefInfoMap` (schedule.cc:663-681). -/
def BuildRefInfoMap (block : BlockData) (alias_map : List (String × AliasInfo)) :
    List (String × RefInfo) :=
  let ri0 := block.refs.map fun r =>
    (r.into, RefInfo.make r ((((alias_map.find? fun p => p.1 = r.into).map fun p => p.2)).getD {}))
  block.stmts.foldl
    (fun ris s =>
      s.buffer_writes.foldl
        (fun ris w =>
          ris.map fun p =>
            if p.1 = w ∧ p.2.earliest_writer = none then
              (p.1, { p.2 with earliest_writer := some s.sid })
            else p) ris)
    ri0

/-- The initial scheduler state.  Statement pointer identity is modelled
by the input statements carrying distinct `sid`s; fresh ids for inserted
transfer blocks are allocated above the maximum input id. -/
def initState (block : BlockData) (alias_map : List (String × AliasInfo)) : SchedState :=
  { stmts := block.stmts
    blockRefs := block.refs
    ris := BuildRefInfoMap block alias_map
    entries := []
    active := []
    nextSid := (block.stmts.map Stmt.sid).foldl max 0 + 1 }

def runLoop (opts : SchedOptions) : List Nat → SchedState → Except SchedError SchedState
  | [], σ => .ok σ
  | sid :: rest, σ =>
    match scheduleStep opts σ sid with
    | .error e => .error e
    | .ok σ' => runLoop opts rest σ'

/-- `ScheduleBlock` (schedule.cc:1627-1629) = `Scheduler::Run`
(schedule.cc:698-1088): the reverse-order main loop, the end-of-pass
swap-ins, refinement emission, used-refinement reinsertion, transitive
dep cleanup, and the final sort of refinements by `into`. -/
def ScheduleBlock (opts : SchedOptions) (alias_map : List (String × AliasInfo))
    (block : BlockData) : Except SchedError BlockData :=
  let σ0 := initState block alias_map
  match runLoop opts (block.stmts.map Stmt.sid).reverse σ0 with
  | .error e => .error e
  | .ok σ =>
    let σ := finalizeSwapIns opts σ
    let σ := emitCacheRefs opts σ
    let σ := moveUsedRefs σ
    let σ := { σ with stmts := RebuildTransitiveDeps σ.stmts }
    let σ := { σ with blockRefs := sortByLt (fun a b => strLt a.into b.into) σ.blockRefs }
    .ok (BlockData.mk block.name block.location block.idxs σ.blockRefs σ.stmts)

/-! ### State-update lemmas -/

theorem entryGet_updateEntry_self (σ : SchedState) (i : Nat)
    (f : CacheEntry → CacheEntry) (h : i < σ.entries.length) :
    (σ.updateEntry i f).entryGet i = f (σ.entryGet i) := by
  simp [SchedState.updateEntry, SchedState.entryGet, List.getD_eq_getElem?_getD,
    List.getElem?_set_eq h]

theorem entryGet_updateEntry_ne (σ : SchedState) (i j : Nat)
    (f : CacheEntry → CacheEntry) (h : i ≠ j) :
    (σ.updateEntry i f).entryGet j = σ.entryGet j := by
  simp [SchedState.updateEntry, SchedState.entryGet, List.getD_eq_getElem?_getD,
    List.getElem?_set_ne h]

theorem lookupRi_map_update (l : List (String × RefInfo)) (k k' : String)
    (f : RefInfo → RefInfo) :
    lookupRi (l.map fun p => if p.1 = k then (p.1, f p.2) else p) k' =
      if k' = k then (lookupRi l k').map f else lookupRi l k' := by
  induction l with
  | nil => simp [lookupRi]
  | cons p rest ih =>
    simp only [lookupRi] at ih ⊢
    by_cases hpk : p.1 = k <;> by_cases hp'k : p.1 = k' <;>
      by_cases hkk' : k' = k <;>
      simp_all [List.find?_cons]

theorem riGet_updateRi_self (σ : SchedState) (k : String) (f : RefInfo → RefInfo)
    (h : (lookupRi σ.ris k).isSome) :
    (σ.updateRi k f).riGet k = f (σ.riGet k) := by
  simp only [SchedState.updateRi, SchedState.riGet, riGetD]
  rw [lookupRi_map_update, if_pos rfl]
  cases hl : lookupRi σ.ris k with
  | none => rw [hl] at h; simp at h
  | some r => simp

theorem riGet_updateRi_ne (σ : SchedState) (k k' : String) (f : RefInfo → RefInfo)
    (h : ¬(k' = k)) :
    (σ.updateRi k f).riGet k' = σ.riGet k' := by
  simp only [SchedState.updateRi, SchedState.riGet, riGetD]
  rw [lookupRi_map_update, if_neg h]

theorem lookupRi_updateRi_isSome (σ : SchedState) (k k' : String) (f : RefInfo → RefInfo) :
    (lookupRi (σ.updateRi k f).ris k').isSome = (lookupRi σ.ris k').isSome := by
  simp only [SchedState.updateRi]
  rw [lookupRi_map_update]
  split
  · simp [Option.isSome_map']
  · rfl

theorem Stmt.sid_setDeps (s : Stmt) (d : List Nat) : (s.setDeps d).sid = s.sid := by
  cases s <;> rfl

theorem Stmt.deps_setDeps (s : Stmt) (d : List Nat) : (s.setDeps d).deps = d := by
  cases s <;> rfl

theorem Stmt.sid_addDep (s : Stmt) (d : Nat) : (s.addDep d).sid = s.sid := by
  simp [Stmt.addDep, Stmt.sid_setDeps]

theorem Stmt.deps_addDep (s : Stmt) (d : Nat) : (s.addDep d).deps = s.deps ++ [d] := by
  simp [Stmt.addDep, Stmt.deps_setDeps]

/-- The per-statement transformation performed by a sequence of
`deps.emplace_back` calls keyed by statement id. -/
def addDepFold (readers : List (Nat × AliasInfo)) (d : Nat) (s : Stmt) : Stmt :=
  readers.foldl (fun s p => if s.sid = p.1 then s.addDep d else s) s

theorem foldl_addDepTo_stmts (d : Nat) (readers : List (Nat × AliasInfo)) :
    ∀ (σ : SchedState),
      (readers.foldl (fun σ p => σ.addDepTo p.1 d) σ).stmts =
        σ.stmts.map (addDepFold readers d) := by
  induction readers with
  | nil =>
    intro σ
    simp only [List.foldl_nil, addDepFold]
    exact (List.map_id' σ.stmts).symm
  | cons p ps ih =>
    intro σ
    simp only [List.foldl_cons]
    rw [ih]
    simp only [SchedState.addDepTo, SchedState.updStmt, List.map_map]
    apply List.map_congr_left
    intro s _
    simp only [Function.comp, addDepFold, List.foldl_cons]

theorem foldl_addDepTo_frame (d : Nat) (readers : List (Nat × AliasInfo)) :
    ∀ (σ : SchedState),
      (readers.foldl (fun σ p => σ.addDepTo p.1 d) σ).ris = σ.ris ∧
        (readers.foldl (fun σ p => σ.addDepTo p.1 d) σ).entries = σ.entries ∧
        (readers.foldl (fun σ p => σ.addDepTo p.1 d) σ).active = σ.active ∧
        (readers.foldl (fun σ p => σ.addDepTo p.1 d) σ).nextSid = σ.nextSid ∧
        (readers.foldl (fun σ p => σ.addDepTo p.1 d) σ).blockRefs = σ.blockRefs := by
  induction readers with
  | nil => intro σ; exact ⟨rfl, rfl, rfl, rfl, rfl⟩
  | cons p ps ih =>
    intro σ
    simpa using ih (σ.addDepTo p.1 d)

theorem addDepFold_sid (readers : List (Nat × AliasInfo)) (d : Nat) (s : Stmt) :
    (addDepFold readers d s).sid = s.sid := by
  induction readers generalizing s with
  | nil => rfl
  | cons p ps ih =>
    simp only [addDepFold, List.foldl_cons]
    rw [← addDepFold]
    split
    · rw [ih, Stmt.sid_addDep]
    · rw [ih]

theorem addDepFold_of_not_mem (readers : List (Nat × AliasInfo)) (d : Nat) (s : Stmt)
    (h : ∀ p ∈ readers, ¬(s.sid = p.1)) :
    addDepFold readers d s = s := by
  induction readers with
  | nil => rfl
  | cons p ps ih =>
    simp only [addDepFold, List.foldl_cons]
    rw [if_neg (h p (List.mem_cons_self p ps)), ← addDepFold]
    exact ih fun q hq => h q (List.mem_cons_of_mem p hq)

theorem addDepFold_deps_mono (readers : List (Nat × AliasInfo)) (d : Nat) (s : Stmt)
    (x : Nat) (h : x ∈ s.deps) : x ∈ (addDepFold readers d s).deps := by
  induction readers generalizing s with
  | nil => exact h
  | cons p ps ih =>
    simp only [addDepFold, List.foldl_cons]
    rw [← addDepFold]
    split
    · exact ih _ (by rw [Stmt.deps_addDep]; exact List.mem_append_left _ h)
    · exact ih _ h

theorem addDepFold_mem_deps (readers : List (Nat × AliasInfo)) (d : Nat) (s : Stmt)
    (p : Nat × AliasInfo) (hp : p ∈ readers) (hs : s.sid = p.1) :
    d ∈ (addDepFold readers d s).deps := by
  induction readers generalizing s with
  | nil => exact absurd hp (List.not_mem_nil p)
  | cons q qs ih =>
    simp only [addDepFold, List.foldl_cons]
    rw [← addDepFold]
    rcases List.mem_cons.mp hp with rfl | hp'
    · rw [if_pos hs]
      exact addDepFold_deps_mono qs d _ d (by rw [Stmt.deps_addDep]; simp)
    · split
      · exact addDepFold_deps_mono qs d _ d (by rw [Stmt.deps_addDep]; simp)
      · exact ih _ hp' hs

theorem sublist_insertBeforeSid (x : Stmt) (p : Nat) (l : List Stmt) :
    List.Sublist l (insertBeforeSid x p l) := by
  induction l with
  | nil => simp [insertBeforeSid]
  | cons s rest ih =>
    simp only [insertBeforeSid]
    split
    · exact List.sublist_cons_self x (s :: rest)
    · exact List.Sublist.cons₂ s ih

theorem sublist_insertBefore (l : List Stmt) (pos : Option Nat) (x : Stmt) :
    List.Sublist l (insertBefore l pos x) := by
  cases pos with
  | none => exact List.sublist_append_left l [x]
  | some p => exact sublist_insertBeforeSid x p l

theorem insertBeforeSid_split (x : Stmt) (p : Nat) (l : List Stmt)
    (h : p ∈ l.map Stmt.sid) :
    ∃ l1 s l2, l = l1 ++ s :: l2 ∧ s.sid = p ∧
      insertBeforeSid x p l = l1 ++ x :: s :: l2 := by
  induction l with
  | nil => simp at h
  | cons s rest ih =>
    simp only [insertBeforeSid]
    by_cases hs : s.sid = p
    · exact ⟨[], s, rest, by simp, hs, by simp [hs]⟩
    · simp only [List.map_cons, List.mem_cons] at h
      rcases h with h | h
      · exact absurd h.symm hs
      · obtain ⟨l1, t, l2, heq, ht, hins⟩ := ih h
        exact ⟨s :: l1, t, l2, by simp [heq], ht, by simp [hs, hins]⟩

/-! ### Properties of the best-fit search (schedule.cc:1247-1263) -/

/-- A reference recursion for the best-fit loop: scanning with current
acceptance threshold `bw`, it returns the offset and waste of the first
range achieving the minimal waste strictly below `bw`. -/
def bestFitAux (size bw : Nat) : List MemRange → Option (Nat × Nat)
  | [] => none
  | r :: rest =>
    if size ≤ r.size ∧ r.size - size < bw then
      match bestFitAux size (r.size - size) rest with
      | some jw => some (jw.1 + 1, jw.2)
      | none => some (0, r.size - size)
    else
      (bestFitAux size bw rest).map fun jw => (jw.1 + 1, jw.2)

theorem findBestRangeGo_eq_aux (size : Nat) :
    ∀ (l : List MemRange) (i : Nat) (best : Option Nat) (bw : Nat),
      findBestRangeGo size l i best bw =
        match bestFitAux size bw l with
        | some jw => some (i + jw.1)
        | none => best := by
  intro l
  induction l with
  | nil => intro i best bw; rfl
  | cons r rest ih =>
    intro i best bw
    by_cases h1 : r.size < size
    · have h2 : ¬(size ≤ r.size ∧ r.size - size < bw) := by omega
      simp only [findBestRangeGo, if_pos h1, bestFitAux, if_neg h2, ih]
      cases hb : bestFitAux size bw rest with
      | none => simp
      | some jw => simp; omega
    · by_cases h2 : bw ≤ r.size - size
      · have h3 : ¬(size ≤ r.size ∧ r.size - size < bw) := by omega
        simp only [findBestRangeGo, if_neg h1, if_pos h2, bestFitAux, if_neg h3, ih]
        cases hb : bestFitAux size bw rest with
        | none => simp
        | some jw => simp; omega
      · have h3 : size ≤ r.size ∧ r.size - size < bw := by omega
        simp only [findBestRangeGo, if_neg h1, if_neg h2, bestFitAux, if_pos h3, ih]
        cases hb : bestFitAux size (r.size - size) rest with
        | none => simp
        | some jw => simp; omega

theorem bestFitAux_none_iff (size : Nat) :
    ∀ (l : List MemRange) (bw : Nat),
      bestFitAux size bw l = none ↔
        ∀ j, j < l.length → size ≤ (l.getD j {}).size →
          ¬((l.getD j {}).size - size < bw) := by
  intro l
  induction l with
  | nil => intro bw; simp [bestFitAux]
  | cons r rest ih =>
    intro bw
    by_cases c : size ≤ r.size ∧ r.size - size < bw
    · simp only [bestFitAux, if_pos c]
      constructor
      · intro h
        exfalso
        cases hb : bestFitAux size (r.size - size) rest with
        | none => rw [hb] at h; simp at h
        | some jw => rw [hb] at h; simp at h
      · intro h
        exact absurd (by simpa [List.getD_cons_zero, List.getD_cons_succ] using c.2)
          (h 0 (by simp) (by simpa [List.getD_cons_zero, List.getD_cons_succ] using c.1))
    · simp only [bestFitAux, if_neg c]
      constructor
      · intro h j hj hfit
        cases hb : bestFitAux size bw rest with
        | some jw => rw [hb] at h; simp at h
        | none =>
          match j with
          | 0 =>
            intro hw
            exact c ⟨by simpa [List.getD_cons_zero, List.getD_cons_succ] using hfit, by simpa [List.getD_cons_zero, List.getD_cons_succ] using hw⟩
          | j + 1 =>
            exact (ih bw).mp hb j (by simpa using hj) (by simpa [List.getD_cons_zero, List.getD_cons_succ] using hfit)
      · intro h
        cases hb : bestFitAux size bw rest with
        | none => simp
        | some jw =>
          exfalso
          have := (ih bw).not.mp (by simp [hb])
          push_neg at this
          obtain ⟨j, hj, hfit, hw⟩ := this
          exact absurd hw (h (j + 1) (by simpa using hj) (by simpa [List.getD_cons_zero, List.getD_cons_succ] using hfit))

theorem bestFitAux_some_spec (size : Nat) :
    ∀ (l : List MemRange) (bw : Nat) (j w : Nat),
      bestFitAux size bw l = some (j, w) →
        j < l.length ∧ size ≤ (l.getD j {}).size ∧
          w = (l.getD j {}).size - size ∧ w < bw ∧
          ∀ j', j' < l.length → size ≤ (l.getD j' {}).size →
            (l.getD j' {}).size - size < bw →
            (w < (l.getD j' {}).size - size ∨
              (w = (l.getD j' {}).size - size ∧ j ≤ j')) := by
  intro l
  induction l with
  | nil => intro bw j w h; simp [bestFitAux] at h
  | cons r rest ih =>
    intro bw j w h
    by_cases c : size ≤ r.size ∧ r.size - size < bw
    · simp only [bestFitAux, if_pos c] at h
      cases hb : bestFitAux size (r.size - size) rest with
      | some jw =>
        rw [hb] at h
        simp only [Option.some.injEq, Prod.mk.injEq] at h
        obtain ⟨hj, hw⟩ := h
        subst hj
        subst hw
        obtain ⟨ih1, ih2, ih3, ih4, ih5⟩ := ih (r.size - size) jw.1 jw.2 hb
        refine ⟨by simpa using ih1, by simpa [List.getD_cons_zero, List.getD_cons_succ] using ih2,
          by simpa [List.getD_cons_zero, List.getD_cons_succ] using ih3, by omega, ?_⟩
        intro j' hj' hfit hw
        match j' with
        | 0 =>
          left
          simp only [List.getD_cons_zero, List.getD_cons_succ] at *
          omega
        | k + 1 =>
          by_cases hk : (rest.getD k {}).size - size < r.size - size
          · have := ih5 k (by simpa using hj') (by simpa [List.getD_cons_zero, List.getD_cons_succ] using hfit)
              (by simpa [List.getD_cons_zero, List.getD_cons_succ] using hk)
            simp only [List.getD_cons_zero, List.getD_cons_succ] at *
            rcases this with h' | ⟨h1, h2⟩
            · left; simpa using h'
            · right; constructor
              · simpa using h1
              · omega
          · left
            simp only [List.getD_cons_zero, List.getD_cons_succ] at *
            omega
      | none =>
        rw [hb] at h
        simp only [Option.some.injEq, Prod.mk.injEq] at h
        obtain ⟨hj, hw⟩ := h
        subst hj
        subst hw
        refine ⟨by simp, by simpa [List.getD_cons_zero, List.getD_cons_succ] using c.1, by simp [List.getD_cons_zero, List.getD_cons_succ],
          by simpa [List.getD_cons_zero, List.getD_cons_succ] using c.2, ?_⟩
        intro j' hj' hfit hw
        match j' with
        | 0 => right; simp [List.getD_cons_zero, List.getD_cons_succ]
        | k + 1 =>
          have hnone := (bestFitAux_none_iff size rest (r.size - size)).mp hb
          have := hnone k (by simpa using hj') (by simpa [List.getD_cons_zero, List.getD_cons_succ] using hfit)
          simp only [List.getD_cons_zero, List.getD_cons_succ] at *
          omega
    · simp only [bestFitAux, if_neg c] at h
      cases hb : bestFitAux size bw rest with
      | none => rw [hb] at h; simp at h
      | some jw =>
        rw [hb] at h
        simp only [Option.map_some', Option.some.injEq, Prod.mk.injEq] at h
        obtain ⟨hj, hw⟩ := h
        subst hj
        subst hw
        obtain ⟨ih1, ih2, ih3, ih4, ih5⟩ := ih bw jw.1 jw.2 hb
        refine ⟨by simpa using ih1, by simpa [List.getD_cons_zero, List.getD_cons_succ] using ih2,
          by simpa [List.getD_cons_zero, List.getD_cons_succ] using ih3, ih4, ?_⟩
        intro j' hj' hfit hw
        match j' with
        | 0 =>
          exfalso
          exact c ⟨by simpa [List.getD_cons_zero, List.getD_cons_succ] using hfit, by simpa [List.getD_cons_zero, List.getD_cons_succ] using hw⟩
        | k + 1 =>
          have := ih5 k (by simpa using hj') (by simpa [List.getD_cons_zero, List.getD_cons_succ] using hfit)
            (by simpa [List.getD_cons_zero, List.getD_cons_succ] using hw)
          simp only [List.getD_cons_zero, List.getD_cons_succ] at *
          rcases this with h' | ⟨h1, h2⟩
          · left; exact h'
          · right; exact ⟨h1, by omega⟩

/-- `findBestRange`'s choice is a fitting range whose waste is below
`mem_bytes`, minimal among all such ranges, earliest on ties. -/
theorem findBestRange_some_spec (mem_bytes : Nat) (l : List MemRange) (size k : Nat)
    (h : findBestRange mem_bytes l size = some k) :
    k < l.length ∧ size ≤ (l.getD k {}).size ∧
      (l.getD k {}).size - size < mem_bytes ∧
      ∀ j, j < l.length → size ≤ (l.getD j {}).size →
        (l.getD j {}).size - size < mem_bytes →
        ((l.getD k {}).size - size < (l.getD j {}).size - size ∨
          ((l.getD k {}).size - size = (l.getD j {}).size - size ∧ k ≤ j)) := by
  unfold findBestRange at h
  rw [findBestRangeGo_eq_aux] at h
  cases hb : bestFitAux size mem_bytes l with
  | none => rw [hb] at h; simp at h
  | some jw =>
    rw [hb] at h
    simp only [Option.some.injEq] at h
    obtain ⟨h1, h2, h3, h4, h5⟩ := bestFitAux_some_spec size l mem_bytes jw.1 jw.2 (by rw [hb])
    have hk : k = jw.1 := by omega
    subst hk
    refine ⟨h1, h2, by omega, ?_⟩
    intro j hj hfit hw
    have := h5 j hj hfit hw
    omega

/-- `findBestRange` fails exactly when no range fits with waste below
`mem_bytes`. -/
theorem findBestRange_none_iff (mem_bytes : Nat) (l : List MemRange) (size : Nat) :
    findBestRange mem_bytes l size = none ↔
      ∀ j, j < l.length → size ≤ (l.getD j {}).size →
        ¬((l.getD j {}).size - size < mem_bytes) := by
  unfold findBestRange
  rw [findBestRangeGo_eq_aux]
  cases hb : bestFitAux size mem_bytes l with
  | none => simpa using (bestFitAux_none_iff size l mem_bytes).mp hb
  | some jw =>
    simp only [iff_false, Option.some_ne_none, false_iff]
    intro h
    exact absurd hb (by simp [(bestFitAux_none_iff size l mem_bytes).mpr h])

end Sched

namespace Sched

/-! ### Claim C10 -/

/-- **C10.** For every memory range `sub` and every list `L` of
pairwise-disjoint ranges, `SubtractRange(sub, &L)` leaves a list of
pairwise-disjoint ranges, each contained in some range of the original
list, whose union equals the union of `L` set-minus `sub`.  (A memory
range `[begin, end)` has `begin ≤ end`, per the data model.) -/
theorem C10_subtract_range (sub : MemRange) (l : List MemRange)
    (hsub : sub.begin ≤ sub.end_)
    (hl : l.Pairwise fun a b => Disjoint a.toSet b.toSet) :
    listSet (SubtractRange sub l) = listSet l \ sub.toSet ∧
      (∀ x ∈ SubtractRange sub l, ∃ r ∈ l, x.toSet ⊆ r.toSet) ∧
      ((SubtractRange sub l).Pairwise fun a b => Disjoint a.toSet b.toSet) := by
  refine ⟨SubtractRange_listSet sub hsub l, ?_, SubtractRange_pairwise sub hsub l hl⟩
  intro x hx
  obtain ⟨r, hr, h1, h2⟩ := SubtractRange_bounds sub l x hx
  refine ⟨r, hr, ?_⟩
  intro y hy
  simp only [MemRange.toSet, Set.mem_setOf_eq] at hy ⊢
  omega

/-- Witness for C10: the hypotheses hold and the theorem applies at
`sub = [3,10)`, `L = [[0,5), [7,20)]`. -/
theorem C10_subtract_range_witness :
    ((MemRange.mk 3 10).begin ≤ (MemRange.mk 3 10).end_ ∧
        ([MemRange.mk 0 5, MemRange.mk 7 20]).Pairwise
          (fun a b => Disjoint a.toSet b.toSet)) ∧
      (listSet (SubtractRange (MemRange.mk 3 10) [MemRange.mk 0 5, MemRange.mk 7 20]) =
          listSet [MemRange.mk 0 5, MemRange.mk 7 20] \ (MemRange.mk 3 10).toSet ∧
        (∀ x ∈ SubtractRange (MemRange.mk 3 10) [MemRange.mk 0 5, MemRange.mk 7 20],
          ∃ r ∈ [MemRange.mk 0 5, MemRange.mk 7 20], x.toSet ⊆ r.toSet) ∧
        ((SubtractRange (MemRange.mk 3 10) [MemRange.mk 0 5, MemRange.mk 7 20]).Pairwise
          fun a b => Disjoint a.toSet b.toSet)) :=
  ⟨⟨by decide, by decide⟩, C10_subtract_range _ _ (by decide) (by decide)⟩

/-! ### Claim C4 -/

/-- **C4, counterexample.** The claim states the placer fails only when no
free range of size at least `s` exists.  With `s = 0` and the free list
`[[0, mem_bytes))`, the single free range has size `mem_bytes ≥ 0 = s`,
yet the search fails: its acceptance threshold starts at
`best_waste_so_far = mem_bytes` and the candidate's waste
(`mem_bytes - 0`) is not strictly below it (schedule.cc:1248,1254). -/
theorem C4_counterexample :
    findBestRange 1024 [MemRange.mk 0 1024] 0 = none ∧
      0 ≤ (MemRange.mk 0 1024).size := by
  constructor
  · decide
  · decide

/-- **C4 (amended).**  For every todo placement of size `s ≥ 1` and every
free-range list whose ranges fit in the memory budget (as holds at every
call site, where free lists descend from `[0, mem_bytes)`), the planner
assigns the placement to the smallest free range whose size is at least
`s` (best fit, waste compared with strict less-than), keeping the earlier
range on equal waste, and fails exactly when no free range of size at
least `s` exists.  (Without the provisos, the search also rejects any
candidate whose waste reaches `mem_bytes`.)  The third conjunct ties the
selection into `TryPlaceInRanges`: a fresh key is assigned the prefix of
the chosen range and the assignment is subtracted from the free list. -/
theorem C4_best_fit (mem_bytes : Nat) (l : List MemRange) (size : Nat)
    (hs : 1 ≤ size) (hb : ∀ r ∈ l, r.size ≤ mem_bytes) :
    (findBestRange mem_bytes l size = none ↔ ∀ r ∈ l, r.size < size) ∧
      (∀ k, findBestRange mem_bytes l size = some k →
        k < l.length ∧ size ≤ (l.getD k {}).size ∧
          ∀ j, j < l.length → size ≤ (l.getD j {}).size →
            ((l.getD k {}).size - size < (l.getD j {}).size - size ∨
              ((l.getD k {}).size - size = (l.getD j {}).size - size ∧ k ≤ j))) ∧
      ∀ (plan : PlacementPlan) (pkey : PlacementKey) (p : Placement)
        (rest : List (PlacementKey × Placement)),
        planContains plan pkey = false → p.size = size →
        TryPlaceInRanges mem_bytes plan ((pkey, p) :: rest) l =
          match findBestRange mem_bytes l size with
          | none => none
          | some i =>
            TryPlaceInRanges mem_bytes
              (plan ++ [(pkey, { p with range := MemRange.mk (l.getD i {}).begin ((l.getD i {}).begin + size) })])
              rest
              (SubtractRangeAt
                (MemRange.mk (l.getD i {}).begin ((l.getD i {}).begin + size)) l i) := by
  have hwaste : ∀ j, j < l.length → size ≤ (l.getD j {}).size →
      (l.getD j {}).size - size < mem_bytes := by
    intro j hj hfit
    have hmem : l.getD j {} ∈ l := by
      rw [List.getD_eq_getElem?_getD]
      rw [List.getElem?_eq_getElem hj]
      simp only [Option.getD_some]
      exact List.getElem_mem hj
    have := hb _ hmem
    omega
  refine ⟨?_, ?_, ?_⟩
  · rw [findBestRange_none_iff]
    constructor
    · intro h r hr
      obtain ⟨j, hj, rfl⟩ := List.mem_iff_getElem.mp hr
      have hg : l.getD j {} = l[j] := by
        rw [List.getD_eq_getElem?_getD, List.getElem?_eq_getElem hj]
        simp
      by_contra hc
      push_neg at hc
      have hfit : size ≤ (l.getD j {}).size := by rw [hg]; exact hc
      exact h j hj hfit (hwaste j hj hfit)
    · intro h j hj hfit
      have hmem : l.getD j {} ∈ l := by
        rw [List.getD_eq_getElem?_getD, List.getElem?_eq_getElem hj]
        simp only [Option.getD_some]
        exact List.getElem_mem hj
      have := h _ hmem
      omega
  · intro k hk
    obtain ⟨h1, h2, h3, h4⟩ := findBestRange_some_spec mem_bytes l size k hk
    exact ⟨h1, h2, fun j hj hfit => h4 j hj hfit (hwaste j hj hfit)⟩
  · intro plan pkey p rest hnew hsize
    subst hsize
    simp only [TryPlaceInRanges, hnew, Bool.false_eq_true, if_false]

/-- The free list of the C4 witness. -/
def c4L : List MemRange := [MemRange.mk 0 100, MemRange.mk 600 680, MemRange.mk 200 300]

/-- Witness for C4 (amended) at `mem_bytes = 1024`, `s = 64`, free list
`c4L` (best fit picks index 1, waste 16). -/
theorem C4_best_fit_witness :
    (1 ≤ 64 ∧ ∀ r ∈ c4L, r.size ≤ 1024) ∧
      ((findBestRange 1024 c4L 64 = none ↔ ∀ r ∈ c4L, r.size < 64) ∧
        (∀ k, findBestRange 1024 c4L 64 = some k →
          k < c4L.length ∧ 64 ≤ (c4L.getD k {}).size ∧
            ∀ j, j < c4L.length → 64 ≤ (c4L.getD j {}).size →
              ((c4L.getD k {}).size - 64 < (c4L.getD j {}).size - 64 ∨
                ((c4L.getD k {}).size - 64 = (c4L.getD j {}).size - 64 ∧ k ≤ j))) ∧
        ∀ (plan : PlacementPlan) (pkey : PlacementKey) (p : Placement)
          (rest : List (PlacementKey × Placement)),
          planContains plan pkey = false → p.size = 64 →
          TryPlaceInRanges 1024 plan ((pkey, p) :: rest) c4L =
            match findBestRange 1024 c4L 64 with
            | none => none
            | some i =>
              TryPlaceInRanges 1024
                (plan ++ [(pkey, { p with range := MemRange.mk (c4L.getD i {}).begin ((c4L.getD i {}).begin + 64) })])
                rest
                (SubtractRangeAt
                  (MemRange.mk (c4L.getD i {}).begin ((c4L.getD i {}).begin + 64)) c4L i)) :=
  ⟨⟨by decide, by decide⟩, C4_best_fit 1024 c4L 64 (by decide) (by decide)⟩

/-! ### Claim C3 -/

/-- A concrete infeasible input: three 600-byte refinements required
simultaneously by one `Special`, budget 1 KiB. -/
def c3shape : TensorShape := { typeBytes := 1, dims := [TensorDim.mk 600 1] }

def c3ref (n : String) (d : RefDir) : Refinement :=
  { dir := d, from_ := n, into := n, interior_shape := c3shape }

def c3blk : BlockData :=
  .mk "main" {} [] [c3ref "A" RefDir.In, c3ref "B" RefDir.In, c3ref "C" RefDir.Out]
    [.special 0 [] ["A", "B"] ["C"]]

def c3amap : List (String × AliasInfo) :=
  [("A", { base_ref := "A", shape := c3shape }),
   ("B", { base_ref := "B", shape := c3shape }),
   ("C", { base_ref := "C", shape := c3shape })]

def c3opts : SchedOptions :=
  SchedOptions.ofProto {} 1 0 {} fun _ _ => AliasType.None

def exceptMsg : Except SchedError BlockData → String
  | .error e => e.msg
  | .ok _ => ""

def exceptWarnings : Except SchedError BlockData → List String
  | .error e => e.warnings
  | .ok _ => []

/-- **C3, counterexample.**  The claim says the `ResourceExhausted`
signal's exception message names each simultaneously-required refinement.
On the concrete infeasible input `c3blk` (refinements `A`, `B`, `C`
simultaneously required), the exception message is the fixed string
`"Program requires more memory than is available"` (schedule.cc:766),
which does not name refinement `A` (nor `B`, `C`); the names appear only
in the warning log (schedule.cc:756-765). -/
theorem C3_counterexample :
    exceptMsg (ScheduleBlock c3opts c3amap c3blk) =
        "Program requires more memory than is available" ∧
      exceptWarnings (ScheduleBlock c3opts c3amap c3blk) =
        ["Failed to create placement plan fitting within 1 KiB memory boundary",
          "The program simultaneously requires:", "  A", "  B", "  C"] ∧
      "A" ∈ c3blk.refs.map Refinement.into ∧
      ¬("A".data <:+: "Program requires more memory than is available".data) := by
  refine ⟨by decide, by decide, by decide, by decide⟩

/-- **C3 (amended).**  When scheduling fails, the `ResourceExhausted`
exception carries only the fixed message `"Program requires more memory
than is available"`; the offending block's name (or "The program" for a
non-block statement) and each simultaneously-required refinement are
named in the warning diagnostics emitted immediately before the throw,
not in the exception message. -/
theorem C3_failure_diagnostics (opts : SchedOptions) (σ : SchedState) (sid : Nat)
    (stmt : Stmt) (e : SchedError)
    (hfind : σ.stmts.find? (fun s => s.sid = sid) = some stmt)
    (herr : scheduleStep opts σ sid = Except.error e) :
    e.msg = "Program requires more memory than is available" ∧
      (match currentBlockOf stmt with
        | some b => "Block " ++ b.name ++ " simultaneously requires:"
        | none => "The program simultaneously requires:") ∈ e.warnings ∧
      ∀ io ∈ (gatherIo σ.ris stmt).1,
        ("  " ++ refStr
            (((invalidatePhase opts σ (succSid σ.stmts sid)
              (gatherIo σ.ris stmt).1).1).riGet io.ri).ref) ∈ e.warnings := by
  unfold scheduleStep at herr
  rw [hfind] at herr
  dsimp only at herr
  cases hplan : TryMakePlan opts (invalidatePhase opts σ (succSid σ.stmts sid)
      (gatherIo σ.ris stmt).1).1
      (currentBlockOf stmt)
      (gatherIo σ.ris stmt).1 with
  | some plan =>
    rw [hplan] at herr
    simp at herr
  | none =>
    rw [hplan] at herr
    simp only [Except.error.injEq] at herr
    subst herr
    refine ⟨rfl, ?_, ?_⟩
    · cases hcb : currentBlockOf stmt <;> simp [hcb]
    · intro io hio
      simp only [List.mem_cons]
      right; right
      exact List.mem_map.mpr ⟨io, hio, rfl⟩

/-- Witness for C3 (amended) at the concrete infeasible input. -/
theorem C3_failure_diagnostics_witness :
    ((initState c3blk c3amap).stmts.find? (fun s => s.sid = 0) =
        some (.special 0 [] ["A", "B"] ["C"]) ∧
      scheduleStep c3opts (initState c3blk c3amap) 0 =
        Except.error
          { warnings :=
              ["Failed to create placement plan fitting within 1 KiB memory boundary",
                "The program simultaneously requires:", "  A", "  B", "  C"],
            msg := "Program requires more memory than is available" }) ∧
      ("Program requires more memory than is available" =
          "Program requires more memory than is available" ∧
        (match currentBlockOf (Stmt.special 0 [] ["A", "B"] ["C"]) with
          | some b => "Block " ++ b.name ++ " simultaneously requires:"
          | none => "The program simultaneously requires:") ∈
          ["Failed to create placement plan fitting within 1 KiB memory boundary",
            "The program simultaneously requires:", "  A", "  B", "  C"] ∧
        ∀ io ∈ (gatherIo (initState c3blk c3amap).ris (.special 0 [] ["A", "B"] ["C"])).1,
          ("  " ++ refStr
              (((invalidatePhase c3opts (initState c3blk c3amap)
                (succSid (initState c3blk c3amap).stmts 0)
                (gatherIo (initState c3blk c3amap).ris (.special 0 [] ["A", "B"] ["C"])).1).1).riGet
                io.ri).ref) ∈
            ["Failed to create placement plan fitting within 1 KiB memory boundary",
              "The program simultaneously requires:", "  A", "  B", "  C"]) := by
  refine ⟨⟨?_, ?_⟩, ?_⟩
  · rfl
  · rfl
  · exact C3_failure_diagnostics c3opts (initState c3blk c3amap) 0
      (.special 0 [] ["A", "B"] ["C"]) _ rfl rfl

/-! ### Claim C9 -/

def isConstantOrIntrinsic : Stmt → Bool
  | .constant _ _ => true
  | .intrinsic _ _ => true
  | _ => false

/-- **C9.**  For every Constant or Intrinsic statement, the I/O gatherer
produces an empty I/O vector and an empty binder, the placement planner
returns the empty plan, and scheduling the statement leaves the scheduler
state completely unchanged: no transfer blocks inserted, no cache entries
allocated, no refinement names modified, active-entry index unchanged. -/
theorem C9_constant_intrinsic_frame (opts : SchedOptions) (σ : SchedState)
    (sid : Nat) (stmt : Stmt)
    (hfind : σ.stmts.find? (fun s => s.sid = sid) = some stmt)
    (hkind : isConstantOrIntrinsic stmt = true) :
    gatherIo σ.ris stmt = ([], StatementBinder.empty) ∧
      TryMakePlan opts σ none [] = some [] ∧
      scheduleStep opts σ sid = Except.ok σ := by
  cases stmt with
  | constant s d =>
    refine ⟨rfl, rfl, ?_⟩
    unfold scheduleStep
    rw [hfind]
    rfl
  | intrinsic s d =>
    refine ⟨rfl, rfl, ?_⟩
    unfold scheduleStep
    rw [hfind]
    rfl
  | load s d f i => simp [isConstantOrIntrinsic] at hkind
  | store s d f i => simp [isConstantOrIntrinsic] at hkind
  | special s d i o => simp [isConstantOrIntrinsic] at hkind
  | block s d b => simp [isConstantOrIntrinsic] at hkind

/-- Witness for C9: a constant statement in a one-statement block. -/
theorem C9_constant_intrinsic_frame_witness :
    (((initState (.mk "main" {} [] [] [.constant 0 []]) []).stmts.find?
          (fun s => s.sid = 0) = some (.constant 0 []) ∧
        isConstantOrIntrinsic (.constant 0 []) = true) ∧
      (gatherIo (initState (.mk "main" {} [] [] [.constant 0 []]) []).ris (.constant 0 []) =
          ([], StatementBinder.empty) ∧
        TryMakePlan c3opts (initState (.mk "main" {} [] [] [.constant 0 []]) []) none [] =
          some [] ∧
        scheduleStep c3opts (initState (.mk "main" {} [] [] [.constant 0 []]) []) 0 =
          Except.ok (initState (.mk "main" {} [] [] [.constant 0 []]) []))) :=
  ⟨⟨rfl, rfl⟩,
    C9_constant_intrinsic_frame c3opts (initState (.mk "main" {} [] [] [.constant 0 []]) [])
      0 (.constant 0 []) rfl rfl⟩

/-! ### Claim C7 -/

theorem mkSwapInBlock_sid (opts : SchedOptions) (src : RefInfo) (ent : CacheEntry)
    (sid : Nat) : (mkSwapInBlock opts src ent sid).sid = sid := rfl

theorem updateEntry_stmts (σ : SchedState) (i : Nat) (f : CacheEntry → CacheEntry) :
    (σ.updateEntry i f).stmts = σ.stmts := rfl

theorem updateEntry_ris (σ : SchedState) (i : Nat) (f : CacheEntry → CacheEntry) :
    (σ.updateEntry i f).ris = σ.ris := rfl

/-- The state reached by `ScheduleSwapIn` (schedule.cc:1378-1426) after
its first five mutations — counter bump, `used` mark, block insertion,
`writers` record, `swap_in_readers` record — before the reader-dependency
loop and the `saw_earliest_writer` mark.  Definitionally a prefix of
`ScheduleSwapIn` (see `ScheduleSwapIn_eq`). -/
def swapInPre (opts : SchedOptions) (σ : SchedState) (si : Option Nat)
    (eidx : Nat) : SchedState :=
  let ent := σ.entryGet eidx
  let src := σ.riGet ent.source
  let newSid := σ.nextSid
  let swap_in := mkSwapInBlock opts src ent newSid
  let σ := { σ with nextSid := σ.nextSid + 1 }
  let σ := σ.updateRi ent.source fun r => { r with used := true }
  let σ := { σ with stmts := insertBefore σ.stmts si swap_in }
  let σ := σ.updateEntry eidx fun e =>
    { e with writers := emplaceAliasMapEntry e.writers newSid src.alias_info }
  σ.updateRi ent.source fun r =>
    { r with swap_in_readers := r.swap_in_readers ++ [newSid] }

/-- `swapInPre` followed by the reader-dependency loop (schedule.cc:
1418-1420). -/
def swapInPost (opts : SchedOptions) (σ : SchedState) (si : Option Nat)
    (eidx : Nat) : SchedState :=
  (σ.entryGet eidx).readers.foldl (fun t p => t.addDepTo p.1 σ.nextSid)
    (swapInPre opts σ si eidx)

theorem ScheduleSwapIn_eq (opts : SchedOptions) (σ : SchedState) (si : Option Nat)
    (eidx : Nat) :
    ScheduleSwapIn opts σ si eidx =
      ((swapInPost opts σ si eidx).updateEntry eidx
        (fun e => { e with saw_earliest_writer := true }), σ.nextSid) := rfl

theorem swapInPre_stmts (opts : SchedOptions) (σ : SchedState) (si : Option Nat)
    (eidx : Nat) :
    (swapInPre opts σ si eidx).stmts = insertBefore σ.stmts si
      (mkSwapInBlock opts (σ.riGet (σ.entryGet eidx).source) (σ.entryGet eidx)
        σ.nextSid) := rfl

theorem swapInPre_entries (opts : SchedOptions) (σ : SchedState) (si : Option Nat)
    (eidx : Nat) :
    (swapInPre opts σ si eidx).entries =
      σ.entries.set eidx
        { σ.entryGet eidx with
          writers := emplaceAliasMapEntry (σ.entryGet eidx).writers σ.nextSid
            (σ.riGet (σ.entryGet eidx).source).alias_info } := rfl

theorem swapInPre_entryGet (opts : SchedOptions) (σ : SchedState) (si : Option Nat)
    (eidx : Nat) (hlen : eidx < σ.entries.length) :
    (swapInPre opts σ si eidx).entryGet eidx =
      { σ.entryGet eidx with
        writers := emplaceAliasMapEntry (σ.entryGet eidx).writers σ.nextSid
          (σ.riGet (σ.entryGet eidx).source).alias_info } := by
  simp only [SchedState.entryGet, swapInPre_entries, List.getD_eq_getElem?_getD,
    List.getElem?_set_eq hlen]
  rfl

theorem swapInPre_riGet (opts : SchedOptions) (σ : SchedState) (si : Option Nat)
    (eidx : Nat) (hsrc : (lookupRi σ.ris (σ.entryGet eidx).source).isSome) :
    (swapInPre opts σ si eidx).riGet (σ.entryGet eidx).source =
      { σ.riGet (σ.entryGet eidx).source with
        used := true
        swap_in_readers :=
          (σ.riGet (σ.entryGet eidx).source).swap_in_readers ++ [σ.nextSid] } := by
  have h1 := riGet_updateRi_self ({ σ with nextSid := σ.nextSid + 1 })
    (σ.entryGet eidx).source (fun r => { r with used := true }) hsrc
  have h2 : (lookupRi (({ σ with nextSid := σ.nextSid + 1 }).updateRi
      (σ.entryGet eidx).source fun r => { r with used := true }).ris
      (σ.entryGet eidx).source).isSome := by
    rw [lookupRi_updateRi_isSome]
    exact hsrc
  refine Eq.trans (riGet_updateRi_self _ _ _ h2) ?_
  show (fun r => { r with swap_in_readers := r.swap_in_readers ++ [σ.nextSid] })
      ((({ σ with nextSid := σ.nextSid + 1 }).updateRi (σ.entryGet eidx).source
        fun r => { r with used := true }).riGet (σ.entryGet eidx).source) = _
  rw [h1]
  rfl

/-- **C7.**  For every call `ScheduleSwapIn(si, ent)` (schedule.cc:
1378-1426), under the pass's well-formedness conditions (the entry index
is valid, its source RefInfo exists, the insertion point and the entry's
readers are statements of the list, and all statement ids are below the
fresh-id counter):
a new transfer block — reading `ent.source`'s backing refinement (`src`,
via the source's `ref_swap_access` and collapsed `ref_swap_shape`) into
`ent` (`dst`, via `cache_swap_access`/`cache_swap_shape`), as constructed
by `mkSwapInBlock` — is inserted immediately before the statement at
`si`; `ent.source.used` becomes true; the new block is recorded in
`ent.writers` and in `ent.source.swap_in_readers`; every statement
already in `ent.readers` gains a dependency edge on the new block;
`ent.saw_earliest_writer` becomes true; and the returned iterator points
at the inserted block. -/
theorem C7_schedule_swap_in (opts : SchedOptions) (σ : SchedState)
    (pos : Nat) (eidx : Nat)
    (hlen : eidx < σ.entries.length)
    (hsrc : (lookupRi σ.ris (σ.entryGet eidx).source).isSome)
    (hpos : pos ∈ σ.stmts.map Stmt.sid)
    (hbound : ∀ s ∈ σ.stmts, s.sid < σ.nextSid)
    (hreaders : ∀ p ∈ (σ.entryGet eidx).readers, p.1 ∈ σ.stmts.map Stmt.sid) :
    (ScheduleSwapIn opts σ (some pos) eidx).2 = σ.nextSid ∧
      (∃ k, ((ScheduleSwapIn opts σ (some pos) eidx).1.stmts)[k]? =
          some (mkSwapInBlock opts (σ.riGet (σ.entryGet eidx).source)
            (σ.entryGet eidx) σ.nextSid) ∧
        (((ScheduleSwapIn opts σ (some pos) eidx).1.stmts)[k + 1]?).map Stmt.sid =
          some pos) ∧
      ((ScheduleSwapIn opts σ (some pos) eidx).1.riGet (σ.entryGet eidx).source).used =
        true ∧
      ((ScheduleSwapIn opts σ (some pos) eidx).1.entryGet eidx).writers =
        emplaceAliasMapEntry (σ.entryGet eidx).writers σ.nextSid
          (σ.riGet (σ.entryGet eidx).source).alias_info ∧
      ((ScheduleSwapIn opts σ (some pos) eidx).1.riGet
          (σ.entryGet eidx).source).swap_in_readers =
        (σ.riGet (σ.entryGet eidx).source).swap_in_readers ++ [σ.nextSid] ∧
      (∀ p ∈ (σ.entryGet eidx).readers, ∀ s ∈ (ScheduleSwapIn opts σ (some pos) eidx).1.stmts,
        s.sid = p.1 → σ.nextSid ∈ s.deps) ∧
      ((ScheduleSwapIn opts σ (some pos) eidx).1.entryGet eidx).saw_earliest_writer =
        true := by
  obtain ⟨l1, s0, l2, hsplit, hsid0, hinseq⟩ :=
    insertBeforeSid_split (mkSwapInBlock opts (σ.riGet (σ.entryGet eidx).source)
      (σ.entryGet eidx) σ.nextSid) pos σ.stmts hpos
  have hreadlt : ∀ p ∈ (σ.entryGet eidx).readers, p.1 < σ.nextSid := by
    intro p hp
    obtain ⟨t, ht, hts⟩ := List.mem_map.mp (hreaders p hp)
    rw [← hts]
    exact hbound t ht
  have hris : (swapInPost opts σ (some pos) eidx).ris =
      (swapInPre opts σ (some pos) eidx).ris :=
    (foldl_addDepTo_frame σ.nextSid (σ.entryGet eidx).readers
      (swapInPre opts σ (some pos) eidx)).1
  have hentries : (swapInPost opts σ (some pos) eidx).entries =
      (swapInPre opts σ (some pos) eidx).entries :=
    (foldl_addDepTo_frame σ.nextSid (σ.entryGet eidx).readers
      (swapInPre opts σ (some pos) eidx)).2.1
  have hstmts : (swapInPost opts σ (some pos) eidx).stmts =
      (swapInPre opts σ (some pos) eidx).stmts.map
        (addDepFold (σ.entryGet eidx).readers σ.nextSid) :=
    foldl_addDepTo_stmts σ.nextSid (σ.entryGet eidx).readers
      (swapInPre opts σ (some pos) eidx)
  have hGx : addDepFold (σ.entryGet eidx).readers σ.nextSid
      (mkSwapInBlock opts (σ.riGet (σ.entryGet eidx).source) (σ.entryGet eidx)
        σ.nextSid) =
      mkSwapInBlock opts (σ.riGet (σ.entryGet eidx).source) (σ.entryGet eidx)
        σ.nextSid := by
    apply addDepFold_of_not_mem
    intro p hp h
    rw [mkSwapInBlock_sid] at h
    exact absurd (h ▸ hreadlt p hp) (Nat.lt_irrefl _)
  have hFstmts0 : (ScheduleSwapIn opts σ (some pos) eidx).1.stmts =
      (insertBefore σ.stmts (some pos)
        (mkSwapInBlock opts (σ.riGet (σ.entryGet eidx).source) (σ.entryGet eidx)
          σ.nextSid)).map (addDepFold (σ.entryGet eidx).readers σ.nextSid) := by
    show ((swapInPost opts σ (some pos) eidx).updateEntry eidx
      (fun e => { e with saw_earliest_writer := true })).stmts = _
    rw [updateEntry_stmts, hstmts, swapInPre_stmts]
  have hFstmts1 : (ScheduleSwapIn opts σ (some pos) eidx).1.stmts =
      l1.map (addDepFold (σ.entryGet eidx).readers σ.nextSid) ++
        mkSwapInBlock opts (σ.riGet (σ.entryGet eidx).source) (σ.entryGet eidx)
          σ.nextSid ::
        addDepFold (σ.entryGet eidx).readers σ.nextSid s0 ::
        l2.map (addDepFold (σ.entryGet eidx).readers σ.nextSid) := by
    rw [hFstmts0]
    simp only [insertBefore]
    rw [hinseq]
    simp only [List.map_append, List.map_cons]
    rw [hGx]
  have hFri : (ScheduleSwapIn opts σ (some pos) eidx).1.riGet
      (σ.entryGet eidx).source =
      { σ.riGet (σ.entryGet eidx).source with
        used := true
        swap_in_readers :=
          (σ.riGet (σ.entryGet eidx).source).swap_in_readers ++ [σ.nextSid] } := by
    show ((swapInPost opts σ (some pos) eidx).updateEntry eidx
      (fun e => { e with saw_earliest_writer := true })).riGet
      (σ.entryGet eidx).source = _
    simp only [SchedState.riGet]
    rw [updateEntry_ris, hris]
    exact swapInPre_riGet opts σ (some pos) eidx hsrc
  have hFent : (ScheduleSwapIn opts σ (some pos) eidx).1.entryGet eidx =
      { σ.entryGet eidx with
        writers := emplaceAliasMapEntry (σ.entryGet eidx).writers σ.nextSid
          (σ.riGet (σ.entryGet eidx).source).alias_info
        saw_earliest_writer := true } := by
    have hlen' : eidx < (swapInPost opts σ (some pos) eidx).entries.length := by
      rw [hentries, swapInPre_entries]
      simpa using hlen
    have hpe : (swapInPost opts σ (some pos) eidx).entryGet eidx =
        (swapInPre opts σ (some pos) eidx).entryGet eidx := by
      simp only [SchedState.entryGet]
      rw [hentries]
    show ((swapInPost opts σ (some pos) eidx).updateEntry eidx
      (fun e => { e with saw_earliest_writer := true })).entryGet eidx = _
    rw [entryGet_updateEntry_self _ _ _ hlen', hpe,
      swapInPre_entryGet opts σ (some pos) eidx hlen]
  refine ⟨rfl, ⟨l1.length, ?_, ?_⟩, ?_, ?_, ?_, ?_, ?_⟩
  · rw [hFstmts1, List.getElem?_append_right (by simp), List.length_map,
      Nat.sub_self]
    rfl
  · rw [hFstmts1, List.getElem?_append_right (by simp), List.length_map,
      Nat.add_sub_cancel_left]
    simp [addDepFold_sid, hsid0]
  · rw [hFri]
  · rw [hFent]
  · rw [hFri]
  · intro p hp s hs hsid
    rw [hFstmts0] at hs
    obtain ⟨t, ht, rfl⟩ := List.mem_map.mp hs
    refine addDepFold_mem_deps _ _ _ p hp ?_
    rw [← addDepFold_sid (σ.entryGet eidx).readers σ.nextSid t]
    exact hsid
  · rw [hFent]

def c7opts : SchedOptions := {}

def c7shape : TensorShape := { typeBytes := 1, dims := [TensorDim.mk 4 1] }

def c7ai : AliasInfo := { base_ref := "A", shape := c7shape }

def c7ref : Refinement :=
  { dir := RefDir.In, from_ := "A", into := "A", interior_shape := c7shape }

/-- A two-statement state with one cache entry `A^0` for refinement `A`,
whose second statement already reads the entry. -/
def c7st : SchedState :=
  { stmts := [.load 2 [] "A" "x", .load 3 [] "A^0" "y"]
    ris := [("A", RefInfo.make c7ref c7ai)]
    entries := [{ source := "A", name := "A^0", range := ⟨0, 4⟩, shape := c7shape,
                  is_internal := false, interior_name := "A",
                  readers := [(3, c7ai)] }]
    nextSid := 4 }

/-- **C7, witness**: `C7_schedule_swap_in` applied to `c7st`, inserting a
swap-in for entry 0 before statement 2. -/
theorem C7_schedule_swap_in_witness :
    (ScheduleSwapIn c7opts c7st (some 2) 0).2 = c7st.nextSid ∧
      (∃ k, ((ScheduleSwapIn c7opts c7st (some 2) 0).1.stmts)[k]? =
          some (mkSwapInBlock c7opts (c7st.riGet (c7st.entryGet 0).source)
            (c7st.entryGet 0) c7st.nextSid) ∧
        (((ScheduleSwapIn c7opts c7st (some 2) 0).1.stmts)[k + 1]?).map Stmt.sid =
          some 2) ∧
      ((ScheduleSwapIn c7opts c7st (some 2) 0).1.riGet (c7st.entryGet 0).source).used =
        true ∧
      ((ScheduleSwapIn c7opts c7st (some 2) 0).1.entryGet 0).writers =
        emplaceAliasMapEntry (c7st.entryGet 0).writers c7st.nextSid
          (c7st.riGet (c7st.entryGet 0).source).alias_info ∧
      ((ScheduleSwapIn c7opts c7st (some 2) 0).1.riGet
          (c7st.entryGet 0).source).swap_in_readers =
        (c7st.riGet (c7st.entryGet 0).source).swap_in_readers ++ [c7st.nextSid] ∧
      (∀ p ∈ (c7st.entryGet 0).readers,
        ∀ s ∈ (ScheduleSwapIn c7opts c7st (some 2) 0).1.stmts,
        s.sid = p.1 → c7st.nextSid ∈ s.deps) ∧
      ((ScheduleSwapIn c7opts c7st (some 2) 0).1.entryGet 0).saw_earliest_writer =
        true :=
  C7_schedule_swap_in c7opts c7st 2 0 (by decide) (by decide) (by decide)
    (by decide) (by decide)

/-! ### Claim C8 -/

/-- The intermediate state of `ScheduleSwapIn` after the counter bump, the
`used` mark and the block insertion (schedule.cc:1395-1413), before the
entry/RefInfo bookkeeping.  Definitionally a prefix of `swapInPre`. -/
def swapInMid (opts : SchedOptions) (σ : SchedState) (si : Option Nat)
    (eidx : Nat) : SchedState :=
  let ent := σ.entryGet eidx
  let src := σ.riGet ent.source
  let swap_in := mkSwapInBlock opts src ent σ.nextSid
  let σ := { σ with nextSid := σ.nextSid + 1 }
  let σ := σ.updateRi ent.source fun r => { r with used := true }
  { σ with stmts := insertBefore σ.stmts si swap_in }

theorem ScheduleSwapIn_stmts (opts : SchedOptions) (σ : SchedState) (si : Option Nat)
    (eidx : Nat) :
    (ScheduleSwapIn opts σ si eidx).1.stmts =
      (insertBefore σ.stmts si
        (mkSwapInBlock opts (σ.riGet (σ.entryGet eidx).source) (σ.entryGet eidx)
          σ.nextSid)).map (addDepFold (σ.entryGet eidx).readers σ.nextSid) := by
  have hstmts : (swapInPost opts σ si eidx).stmts =
      (swapInPre opts σ si eidx).stmts.map
        (addDepFold (σ.entryGet eidx).readers σ.nextSid) :=
    foldl_addDepTo_stmts σ.nextSid (σ.entryGet eidx).readers
      (swapInPre opts σ si eidx)
  show ((swapInPost opts σ si eidx).updateEntry eidx
    (fun e => { e with saw_earliest_writer := true })).stmts = _
  rw [updateEntry_stmts, hstmts, swapInPre_stmts]

/-- The name of the block a `Stmt.block` wraps, `none` for other
statement kinds. -/
def Stmt.blockName : Stmt → Option String
  | .block _ _ b => some b.name
  | _ => none

theorem Stmt.blockName_setDeps (s : Stmt) (d : List Nat) :
    (s.setDeps d).blockName = s.blockName := by
  cases s <;> rfl

theorem Stmt.blockName_addDep (s : Stmt) (d : Nat) :
    (s.addDep d).blockName = s.blockName := Stmt.blockName_setDeps s _

theorem addDepFold_blockName (readers : List (Nat × AliasInfo)) (d : Nat) (s : Stmt) :
    (addDepFold readers d s).blockName = s.blockName := by
  induction readers generalizing s with
  | nil => rfl
  | cons p ps ih =>
    simp only [addDepFold, List.foldl_cons]
    rw [← addDepFold]
    split
    · rw [ih, Stmt.blockName_addDep]
    · rw [ih]

theorem mkSwapInBlock_blockName (opts : SchedOptions) (src : RefInfo)
    (ent : CacheEntry) (sid : Nat) :
    (mkSwapInBlock opts src ent sid).blockName = some ("swap_in_" ++ ent.name) := rfl

theorem entryGet_updateEntry_field {α : Type} (g : CacheEntry → α) (σ : SchedState)
    (i j : Nat) (f : CacheEntry → CacheEntry) (hf : ∀ e, g (f e) = g e) :
    g ((σ.updateEntry i f).entryGet j) = g (σ.entryGet j) := by
  by_cases hij : i = j
  · subst hij
    by_cases hlt : i < σ.entries.length
    · rw [entryGet_updateEntry_self _ _ _ hlt, hf]
    · have hset : σ.entries.set i (f (σ.entryGet i)) = σ.entries :=
        List.set_eq_of_length_le (Nat.le_of_not_lt hlt)
      show g ((σ.entries.set i (f (σ.entryGet i))).getD i
        (CacheEntry.make ⟨"", {}, []⟩ {} "" 0)) = _
      rw [hset]
      rfl
  · rw [entryGet_updateEntry_ne _ _ _ _ hij]

theorem riGet_updateRi_field {α : Type} (g : RefInfo → α) (σ : SchedState)
    (k k' : String) (f : RefInfo → RefInfo) (hf : ∀ r, g (f r) = g r) :
    g ((σ.updateRi k f).riGet k') = g (σ.riGet k') := by
  simp only [SchedState.riGet, SchedState.updateRi, riGetD]
  rw [lookupRi_map_update]
  split
  · cases lookupRi σ.ris k' <;> simp [hf]
  · rfl

theorem riGet_updateEntry (σ : SchedState) (i : Nat) (f : CacheEntry → CacheEntry)
    (k : String) : (σ.updateEntry i f).riGet k = σ.riGet k := rfl

theorem entryGet_of_entries_eq (σ τ : SchedState) (h : σ.entries = τ.entries)
    (j : Nat) : σ.entryGet j = τ.entryGet j := by
  simp only [SchedState.entryGet, h]

theorem ScheduleSwapIn_entryGet_field {α : Type} (g : CacheEntry → α)
    (opts : SchedOptions) (σ : SchedState) (si : Option Nat) (eidx j : Nat)
    (h7 : ∀ e, g { e with saw_earliest_writer := true } = g e)
    (h4 : ∀ e, g { e with
      writers := emplaceAliasMapEntry e.writers σ.nextSid
        (σ.riGet (σ.entryGet eidx).source).alias_info } = g e) :
    g ((ScheduleSwapIn opts σ si eidx).1.entryGet j) = g (σ.entryGet j) := by
  have hent : (swapInPost opts σ si eidx).entries =
      (swapInPre opts σ si eidx).entries :=
    (foldl_addDepTo_frame σ.nextSid (σ.entryGet eidx).readers
      (swapInPre opts σ si eidx)).2.1
  have e0 : (ScheduleSwapIn opts σ si eidx).1.entryGet j =
      ((swapInPost opts σ si eidx).updateEntry eidx
        (fun e => { e with saw_earliest_writer := true })).entryGet j := rfl
  rw [e0,
    entryGet_updateEntry_field g (swapInPost opts σ si eidx) eidx j
      (fun e => { e with saw_earliest_writer := true }) h7,
    entryGet_of_entries_eq _ _ hent j]
  have e1 : (swapInPre opts σ si eidx).entryGet j =
      ((swapInMid opts σ si eidx).updateEntry eidx fun e =>
        { e with
          writers := emplaceAliasMapEntry e.writers σ.nextSid
            (σ.riGet (σ.entryGet eidx).source).alias_info }).entryGet j := rfl
  rw [e1,
    entryGet_updateEntry_field g (swapInMid opts σ si eidx) eidx j
      (fun e => { e with
        writers := emplaceAliasMapEntry e.writers σ.nextSid
          (σ.riGet (σ.entryGet eidx).source).alias_info }) h4]
  rfl

theorem ScheduleSwapIn_riGet_earliest (opts : SchedOptions) (σ : SchedState)
    (si : Option Nat) (eidx : Nat) (k : String) :
    ((ScheduleSwapIn opts σ si eidx).1.riGet k).earliest_writer =
      (σ.riGet k).earliest_writer := by
  have hris : (swapInPost opts σ si eidx).ris = (swapInPre opts σ si eidx).ris :=
    (foldl_addDepTo_frame σ.nextSid (σ.entryGet eidx).readers
      (swapInPre opts σ si eidx)).1
  have e0 : (ScheduleSwapIn opts σ si eidx).1.riGet k =
      (swapInPre opts σ si eidx).riGet k := by
    show ((swapInPost opts σ si eidx).updateEntry eidx
      (fun e => { e with saw_earliest_writer := true })).riGet k = _
    simp only [SchedState.riGet]
    rw [updateEntry_ris, hris]
  rw [e0]
  have e1 : (swapInPre opts σ si eidx).riGet k =
      (((swapInMid opts σ si eidx).updateEntry eidx fun e =>
        { e with
          writers := emplaceAliasMapEntry e.writers σ.nextSid
            (σ.riGet (σ.entryGet eidx).source).alias_info }).updateRi
        (σ.entryGet eidx).source fun r =>
        { r with swap_in_readers := r.swap_in_readers ++ [σ.nextSid] }).riGet k := rfl
  rw [e1,
    riGet_updateRi_field RefInfo.earliest_writer
      ((swapInMid opts σ si eidx).updateEntry eidx fun e =>
        { e with
          writers := emplaceAliasMapEntry e.writers σ.nextSid
            (σ.riGet (σ.entryGet eidx).source).alias_info })
      (σ.entryGet eidx).source k
      (fun r => { r with swap_in_readers := r.swap_in_readers ++ [σ.nextSid] })
      (fun r => rfl),
    riGet_updateEntry]
  exact riGet_updateRi_field RefInfo.earliest_writer { σ with nextSid := σ.nextSid + 1 }
    (σ.entryGet eidx).source k (fun r => { r with used := true }) (fun r => rfl)

theorem ScheduleSwapIn_sid_mem (opts : SchedOptions) (σ : SchedState)
    (si : Option Nat) (eidx : Nat) (p : Nat) (hp : p ∈ σ.stmts.map Stmt.sid) :
    p ∈ (ScheduleSwapIn opts σ si eidx).1.stmts.map Stmt.sid := by
  rw [ScheduleSwapIn_stmts, List.map_map]
  have hmap : (insertBefore σ.stmts si
      (mkSwapInBlock opts (σ.riGet (σ.entryGet eidx).source) (σ.entryGet eidx)
        σ.nextSid)).map (Stmt.sid ∘ addDepFold (σ.entryGet eidx).readers σ.nextSid) =
      (insertBefore σ.stmts si
        (mkSwapInBlock opts (σ.riGet (σ.entryGet eidx).source) (σ.entryGet eidx)
          σ.nextSid)).map Stmt.sid := by
    apply List.map_congr_left
    intro s _
    exact addDepFold_sid _ _ _
  rw [hmap]
  exact (List.Sublist.map Stmt.sid (sublist_insertBefore σ.stmts si _)).subset hp

/-- A swap-in block for the cache entry named `ename` precedes (in
statement-list order, i.e. runtime order) a statement with id `fa`. -/
def swapInPrecedes (ename : String) (fa : Nat) (stmts : List Stmt) : Prop :=
  ∃ u v, List.Sublist [u, v] stmts ∧
    u.blockName = some ("swap_in_" ++ ename) ∧ v.sid = fa

theorem swapInPrecedes_sublist (ename : String) (fa : Nat) {l l' : List Stmt}
    (h : List.Sublist l l') (hp : swapInPrecedes ename fa l) :
    swapInPrecedes ename fa l' := by
  obtain ⟨u, v, hs, h1, h2⟩ := hp
  exact ⟨u, v, hs.trans h, h1, h2⟩

theorem swapInPrecedes_map (ename : String) (fa : Nat) (l : List Stmt)
    (readers : List (Nat × AliasInfo)) (d : Nat)
    (hp : swapInPrecedes ename fa l) :
    swapInPrecedes ename fa (l.map (addDepFold readers d)) := by
  obtain ⟨u, v, hs, h1, h2⟩ := hp
  refine ⟨addDepFold readers d u, addDepFold readers d v, ?_, ?_, ?_⟩
  · have hm := List.Sublist.map (addDepFold readers d) hs
    simpa using hm
  · rw [addDepFold_blockName]
    exact h1
  · rw [addDepFold_sid]
    exact h2

theorem swapInPrecedes_swapIn (opts : SchedOptions) (σ : SchedState)
    (si : Option Nat) (eidx : Nat) (ename : String) (fa : Nat)
    (hp : swapInPrecedes ename fa σ.stmts) :
    swapInPrecedes ename fa (ScheduleSwapIn opts σ si eidx).1.stmts := by
  rw [ScheduleSwapIn_stmts]
  exact swapInPrecedes_map _ _ _ _ _
    (swapInPrecedes_sublist _ _ (sublist_insertBefore σ.stmts si _) hp)

theorem swapInPrecedes_new (opts : SchedOptions) (σ : SchedState) (eidx : Nat)
    (fa : Nat) (hfa : fa ∈ σ.stmts.map Stmt.sid) :
    swapInPrecedes (σ.entryGet eidx).name fa
      (ScheduleSwapIn opts σ (some fa) eidx).1.stmts := by
  obtain ⟨l1, s0, l2, hsplit, hsid0, hinseq⟩ :=
    insertBeforeSid_split (mkSwapInBlock opts (σ.riGet (σ.entryGet eidx).source)
      (σ.entryGet eidx) σ.nextSid) fa σ.stmts hfa
  rw [ScheduleSwapIn_stmts]
  refine ⟨addDepFold (σ.entryGet eidx).readers σ.nextSid
      (mkSwapInBlock opts (σ.riGet (σ.entryGet eidx).source) (σ.entryGet eidx)
        σ.nextSid),
    addDepFold (σ.entryGet eidx).readers σ.nextSid s0, ?_, ?_, ?_⟩
  · have hsub : List.Sublist
        [mkSwapInBlock opts (σ.riGet (σ.entryGet eidx).source) (σ.entryGet eidx)
          σ.nextSid, s0]
        (insertBefore σ.stmts (some fa)
          (mkSwapInBlock opts (σ.riGet (σ.entryGet eidx).source) (σ.entryGet eidx)
            σ.nextSid)) := by
      show List.Sublist _ (insertBeforeSid _ fa σ.stmts)
      rw [hinseq]
      refine List.Sublist.trans ?_ (List.sublist_append_right l1 _)
      exact List.Sublist.cons₂ _ (List.Sublist.cons₂ _ (List.nil_sublist l2))
    have hm := List.Sublist.map (addDepFold (σ.entryGet eidx).readers σ.nextSid) hsub
    simpa using hm
  · rw [addDepFold_blockName, mkSwapInBlock_blockName]
  · rw [addDepFold_sid]
    exact hsid0

theorem foldl_pred_preserve {S A : Type} (step : S → A → S) (P : S → Prop)
    (hP : ∀ s a, P s → P (step s a)) :
    ∀ (l : List A) (s : S), P s → P (l.foldl step s)
  | [], _, h => h
  | a :: t, s, h => foldl_pred_preserve step P hP t (step s a) (hP s a h)

theorem foldl_pred_establish {S A : Type} (step : S → A → S) (Inv P : S → Prop)
    (hInv : ∀ s a, Inv s → Inv (step s a))
    (hP : ∀ s a, P s → P (step s a)) (a₀ : A)
    (hest : ∀ s, Inv s → P (step s a₀)) :
    ∀ (l : List A) (s : S), Inv s → a₀ ∈ l → P (l.foldl step s) := by
  intro l
  induction l with
  | nil =>
    intro s _ h
    cases h
  | cons a t ih =>
    intro s hs hmem
    rcases List.mem_cons.mp hmem with rfl | hmem'
    · exact foldl_pred_preserve step P hP t (step s a₀) (hest s hs)
    · exact ih (step s a) (hInv s a hs) hmem'

/-- The fields of the scheduler state that the end-of-pass swap-in loop
(schedule.cc:1040-1047) reads are stable under its own updates: entry
names, first accessors and sources, the sources' earliest-writer marks,
and the set of statement ids present. -/
def InvC8 (σ σB : SchedState) : Prop :=
  (∀ j, (σB.entryGet j).name = (σ.entryGet j).name ∧
    (σB.entryGet j).first_accessor = (σ.entryGet j).first_accessor ∧
    (σB.entryGet j).source = (σ.entryGet j).source) ∧
  (∀ k, (σB.riGet k).earliest_writer = (σ.riGet k).earliest_writer) ∧
  (∀ p, p ∈ σ.stmts.map Stmt.sid → p ∈ σB.stmts.map Stmt.sid)

theorem InvC8_refl (σ : SchedState) : InvC8 σ σ :=
  ⟨fun _ => ⟨rfl, rfl, rfl⟩, fun _ => rfl, fun _ h => h⟩

theorem InvC8_swapIn (opts : SchedOptions) (σ σB : SchedState) (si : Option Nat)
    (eidx : Nat) (h : InvC8 σ σB) :
    InvC8 σ (ScheduleSwapIn opts σB si eidx).1 := by
  obtain ⟨h1, h2, h3⟩ := h
  refine ⟨fun j => ⟨?_, ?_, ?_⟩, fun k => ?_, fun p hp => ?_⟩
  · rw [ScheduleSwapIn_entryGet_field CacheEntry.name opts σB si eidx j
      (fun _ => rfl) (fun _ => rfl)]
    exact (h1 j).1
  · rw [ScheduleSwapIn_entryGet_field CacheEntry.first_accessor opts σB si eidx j
      (fun _ => rfl) (fun _ => rfl)]
    exact (h1 j).2.1
  · rw [ScheduleSwapIn_entryGet_field CacheEntry.source opts σB si eidx j
      (fun _ => rfl) (fun _ => rfl)]
    exact (h1 j).2.2
  · rw [ScheduleSwapIn_riGet_earliest]
    exact h2 k
  · exact ScheduleSwapIn_sid_mem opts σB si eidx p (h3 p hp)

/-- **C8.**  For every cache entry still in the active index at the end
of the pass whose source RefInfo has no earliest writer (and whose first
accessor is a statement of the list), the finalization loop
(schedule.cc:1040-1047) schedules a swap-in for that entry immediately
before the entry's `first_accessor`, so in the resulting statement list a
swap-in block for the entry precedes the statement that first accesses it
in runtime order. -/
theorem C8_finalize_swap_ins (opts : SchedOptions) (σ : SchedState)
    (unit : Affine × List Nat) (eidx : Nat)
    (hunit : unit ∈ σ.active) (heidx : eidx ∈ unit.2)
    (hnw : ((σ.riGet (σ.entryGet eidx).source).earliest_writer).isNone)
    (hfa : (σ.entryGet eidx).first_accessor ∈ σ.stmts.map Stmt.sid) :
    swapInPrecedes (σ.entryGet eidx).name (σ.entryGet eidx).first_accessor
      (finalizeSwapIns opts σ).stmts := by
  have hInvStep : ∀ (s : SchedState) (a : Nat), InvC8 σ s →
      InvC8 σ (if ((s.riGet (s.entryGet a).source).earliest_writer).isNone then
        (ScheduleSwapIn opts s (some (s.entryGet a).first_accessor) a).1 else s) := by
    intro s a hs
    split
    · exact InvC8_swapIn opts σ s _ a hs
    · exact hs
  have hPStep : ∀ (s : SchedState) (a : Nat),
      swapInPrecedes (σ.entryGet eidx).name (σ.entryGet eidx).first_accessor
        s.stmts →
      swapInPrecedes (σ.entryGet eidx).name (σ.entryGet eidx).first_accessor
        (if ((s.riGet (s.entryGet a).source).earliest_writer).isNone then
          (ScheduleSwapIn opts s (some (s.entryGet a).first_accessor) a).1
        else s).stmts := by
    intro s a hp
    split
    · exact swapInPrecedes_swapIn opts s _ a _ _ hp
    · exact hp
  have hest : ∀ (s : SchedState), InvC8 σ s →
      swapInPrecedes (σ.entryGet eidx).name (σ.entryGet eidx).first_accessor
        (if ((s.riGet (s.entryGet eidx).source).earliest_writer).isNone then
          (ScheduleSwapIn opts s (some (s.entryGet eidx).first_accessor) eidx).1
        else s).stmts := by
    intro s hs
    obtain ⟨h1, h2, h3⟩ := hs
    have hcond : ((s.riGet (s.entryGet eidx).source).earliest_writer).isNone =
        true := by
      rw [(h1 eidx).2.2, h2 ((σ.entryGet eidx).source)]
      exact hnw
    rw [if_pos hcond]
    have hname : (s.entryGet eidx).name = (σ.entryGet eidx).name := (h1 eidx).1
    have hfa' : (s.entryGet eidx).first_accessor =
        (σ.entryGet eidx).first_accessor := (h1 eidx).2.1
    have hmem : (s.entryGet eidx).first_accessor ∈ s.stmts.map Stmt.sid := by
      rw [hfa']
      exact h3 _ hfa
    have hnew := swapInPrecedes_new opts s eidx (s.entryGet eidx).first_accessor hmem
    rw [← hname, ← hfa']
    exact hnew
  refine foldl_pred_establish
    (fun σA p => p.2.foldl (fun σB i =>
      if ((σB.riGet (σB.entryGet i).source).earliest_writer).isNone then
        (ScheduleSwapIn opts σB (some (σB.entryGet i).first_accessor) i).1
      else σB) σA)
    (InvC8 σ)
    (fun s => swapInPrecedes (σ.entryGet eidx).name
      (σ.entryGet eidx).first_accessor s.stmts)
    (fun s p hs => foldl_pred_preserve _ (InvC8 σ) hInvStep p.2 s hs)
    (fun s p hp => foldl_pred_preserve _ _ hPStep p.2 s hp)
    unit
    (fun s hs => foldl_pred_establish _ (InvC8 σ) _ hInvStep hPStep eidx hest
      unit.2 s hs heidx)
    σ.active σ (InvC8_refl σ) hunit

def c8ai : AliasInfo := { base_ref := "A", shape := c7shape }

def c8ref : Refinement :=
  { dir := RefDir.In, from_ := "A", into := "A", interior_shape := c7shape }

/-- A one-statement state with one active, writerless cache entry `A^0`
whose first accessor is statement 2. -/
def c8st : SchedState :=
  { stmts := [.load 2 [] "A" "x"]
    ris := [("A", RefInfo.make c8ref c8ai)]
    entries := [{ source := "A", name := "A^0", range := ⟨0, 4⟩, shape := c7shape,
                  is_internal := false, interior_name := "A",
                  first_accessor := 2 }]
    active := [({}, [0])]
    nextSid := 3 }

/-- **C8, witness**: `C8_finalize_swap_ins` applied to `c8st` and its
single active entry. -/
theorem C8_finalize_swap_ins_witness :
    swapInPrecedes (c8st.entryGet 0).name (c8st.entryGet 0).first_accessor
      (finalizeSwapIns c7opts c8st).stmts :=
  C8_finalize_swap_ins c7opts c8st ({}, [0]) 0 (by decide) (by decide) (by decide)
    (by decide)

/-! ### Claim C5 -/

/-- The direct dependency list of the statement with id `a` (empty when
no statement has that id). -/
def depsOf (stmts : List Stmt) (a : Nat) : List Nat :=
  ((stmts.find? fun s => s.sid = a).map Stmt.deps).getD []

/-- Reachability in one or more dependency steps over a statement list's
dep graph: the transitive dependency set of `a` is
the set of `b` with `ReachesPlus stmts a b`. -/
inductive ReachesPlus (stmts : List Stmt) : Nat → Nat → Prop where
  | direct {a b : Nat} : b ∈ depsOf stmts a → ReachesPlus stmts a b
  | step {a b c : Nat} : b ∈ depsOf stmts a → ReachesPlus stmts b c →
      ReachesPlus stmts a c

/-- Checks that every dependency of every statement refers to an earlier
statement of the list (given the ids already `seen`): the topological
well-formedness the scheduling pass guarantees. -/
def depsBackward : List Stmt → List Nat → Bool
  | [], _ => true
  | s :: rest, seen =>
    (s.deps.all fun d => seen.contains d) && depsBackward rest (seen ++ [s.sid])

theorem mem_listUnion (x : Nat) : ∀ (b a : List Nat),
    x ∈ listUnion a b ↔ x ∈ a ∨ x ∈ b := by
  intro b
  induction b with
  | nil => intro a; simp [listUnion]
  | cons y b' ih =>
    intro a
    have hstep : listUnion a (y :: b') =
        listUnion (if a.contains y then a else a ++ [y]) b' := rfl
    rw [hstep, ih]
    by_cases hy : y ∈ a
    · rw [if_pos (by simpa using hy)]
      constructor
      · rintro (h | h)
        · exact Or.inl h
        · exact Or.inr (List.mem_cons_of_mem _ h)
      · rintro (h | h)
        · exact Or.inl h
        · rcases List.mem_cons.mp h with rfl | h'
          · exact Or.inl hy
          · exact Or.inr h'
    · rw [if_neg (by simpa using hy)]
      constructor
      · rintro (h | h)
        · rcases List.mem_append.mp h with h' | h'
          · exact Or.inl h'
          · rcases List.mem_singleton.mp h' with rfl
            exact Or.inr (List.mem_cons_self _ _)
        · exact Or.inr (List.mem_cons_of_mem _ h)
      · rintro (h | h)
        · exact Or.inl (List.mem_append_left _ h)
        · rcases List.mem_cons.mp h with rfl | h'
          · exact Or.inl (List.mem_append_right _ (by simp))
          · exact Or.inr h'

theorem mem_listDedup (x : Nat) (a : List Nat) : x ∈ listDedup a ↔ x ∈ a := by
  rw [listDedup, mem_listUnion]
  simp

theorem mem_foldl_listUnion (tdeps : List (Nat × List Nat)) (x : Nat) :
    ∀ (l init : List Nat),
      x ∈ l.foldl (fun acc d => listUnion acc (tdepsGet tdeps d)) init ↔
        x ∈ init ∨ ∃ d ∈ l, x ∈ tdepsGet tdeps d := by
  intro l
  induction l with
  | nil => intro init; simp
  | cons d l' ih =>
    intro init
    rw [List.foldl_cons, ih, mem_listUnion]
    constructor
    · rintro ((h | h) | ⟨d', hd', hx⟩)
      · exact Or.inl h
      · exact Or.inr ⟨d, List.mem_cons_self d l', h⟩
      · exact Or.inr ⟨d', List.mem_cons_of_mem _ hd', hx⟩
    · rintro (h | ⟨d', hd', hx⟩)
      · exact Or.inl (Or.inl h)
      · rcases List.mem_cons.mp hd' with rfl | h'
        · exact Or.inl (Or.inr hx)
        · exact Or.inr ⟨d', h', hx⟩

theorem tdepsGet_spec (stmts : List Stmt) (tdeps : List (Nat × List Nat)) (d : Nat)
    (htd : ∀ q ∈ tdeps, ∀ x, x ∈ q.2 ↔ ReachesPlus stmts q.1 x)
    (hkey : d ∈ tdeps.map Prod.fst) (x : Nat) :
    x ∈ tdepsGet tdeps d ↔ ReachesPlus stmts d x := by
  obtain ⟨q, hq, hqd⟩ := List.mem_map.mp hkey
  simp only [tdepsGet]
  cases hfind : tdeps.find? fun p => p.1 = d with
  | none =>
    exfalso
    have := List.find?_eq_none.mp hfind q hq
    simp [hqd] at this
  | some q' =>
    have hq'm : q' ∈ tdeps := List.mem_of_find?_eq_some hfind
    have hq'd : q'.1 = d := by simpa using List.find?_some hfind
    simp only [Option.map_some', Option.getD_some]
    rw [← hq'd]
    exact htd q' hq'm x

theorem find?_sid_self (s : Stmt) : ∀ (pre : List Stmt) (post : List Stmt),
    ((pre ++ s :: post).map Stmt.sid).Nodup →
    (pre ++ s :: post).find? (fun t => t.sid = s.sid) = some s := by
  intro pre
  induction pre with
  | nil =>
    intro post _
    simp
  | cons p pre' ih =>
    intro post h
    have hne : ¬ (p.sid = s.sid) := by
      simp only [List.cons_append, List.map_cons, List.nodup_cons] at h
      intro he
      exact h.1 (by rw [he]; simp)
    rw [List.cons_append, List.find?_cons_of_neg _ (by simpa using hne)]
    refine ih post ?_
    simp only [List.cons_append, List.map_cons, List.nodup_cons] at h
    exact h.2

theorem depsOf_decomp (pre : List Stmt) (s : Stmt) (post : List Stmt)
    (h : ((pre ++ s :: post).map Stmt.sid).Nodup) :
    depsOf (pre ++ s :: post) s.sid = s.deps := by
  simp only [depsOf, find?_sid_self s pre post h, Option.map_some', Option.getD_some]

theorem depsBackward_sound : ∀ (l : List Stmt) (seen : List Nat),
    depsBackward l seen = true →
    ∀ (pre : List Stmt) (s : Stmt) (post : List Stmt), l = pre ++ s :: post →
      ∀ d ∈ s.deps, d ∈ seen ++ pre.map Stmt.sid := by
  intro l
  induction l with
  | nil =>
    intro seen _ pre s post heq
    exact absurd heq (by simp)
  | cons a rest ih =>
    intro seen h pre s post heq d hd
    rw [depsBackward, Bool.and_eq_true] at h
    obtain ⟨h1, h2⟩ := h
    cases pre with
    | nil =>
      simp only [List.nil_append, List.cons.injEq] at heq
      obtain ⟨rfl, rfl⟩ := heq
      have := List.all_eq_true.mp h1 d hd
      simpa using this
    | cons p pre' =>
      simp only [List.cons_append, List.cons.injEq] at heq
      obtain ⟨rfl, heq'⟩ := heq
      have := ih (seen ++ [a.sid]) h2 pre' s post heq' d hd
      simpa [List.append_assoc] using this

theorem rebuildGo_length (rest : List Stmt) : ∀ tdeps,
    (rebuildGo rest tdeps).length = rest.length := by
  induction rest with
  | nil => intro tdeps; rfl
  | cons s rest' ih =>
    intro tdeps
    simp only [rebuildGo, List.length_cons]
    rw [ih]

theorem rebuildGo_spec (stmts : List Stmt)
    (hnodup : (stmts.map Stmt.sid).Nodup)
    (hord : ∀ pre s post, stmts = pre ++ s :: post →
      ∀ d ∈ s.deps, d ∈ pre.map Stmt.sid) :
    ∀ (rest done : List Stmt) (tdeps : List (Nat × List Nat)),
      stmts = done ++ rest →
      tdeps.map Prod.fst = done.map Stmt.sid →
      (∀ q ∈ tdeps, ∀ x, x ∈ q.2 ↔ ReachesPlus stmts q.1 x) →
      ∀ (i : Nat) (s' : Stmt), rest[i]? = some s' →
        ∃ t, (rebuildGo rest tdeps)[i]? = some t ∧ t.sid = s'.sid ∧
          ∀ x, x ∈ t.deps ↔
            (x ∈ s'.deps ∧ ∀ d ∈ s'.deps, ¬ ReachesPlus stmts d x) := by
  intro rest
  induction rest with
  | nil =>
    intro done tdeps _ _ _ i s' hi
    simp at hi
  | cons s rest' ih =>
    intro done tdeps hsplit hkeys htd i s' hi
    have hordS : ∀ d ∈ s.deps, d ∈ done.map Stmt.sid :=
      fun d hd => hord done s rest' hsplit d hd
    have hkeyS : ∀ d ∈ s.deps, d ∈ tdeps.map Prod.fst := by
      intro d hd
      rw [hkeys]
      exact hordS d hd
    have hdepsOf : depsOf stmts s.sid = s.deps := by
      rw [hsplit]
      exact depsOf_decomp done s rest' (hsplit ▸ hnodup)
    have hstmtdeps : ∀ x, x ∈ listDedup s.deps ↔ x ∈ s.deps :=
      fun x => mem_listDedup x s.deps
    have htdset : ∀ x, x ∈ (listDedup s.deps).foldl
        (fun acc d => listUnion acc (tdepsGet tdeps d)) [] ↔
        ∃ d ∈ s.deps, ReachesPlus stmts d x := by
      intro x
      rw [mem_foldl_listUnion]
      simp only [List.not_mem_nil, false_or]
      constructor
      · rintro ⟨d, hd, hx⟩
        have hd' := (hstmtdeps d).mp hd
        exact ⟨d, hd', (tdepsGet_spec stmts tdeps d htd (hkeyS d hd') x).mp hx⟩
      · rintro ⟨d, hd, hx⟩
        exact ⟨d, (hstmtdeps d).mpr hd,
          (tdepsGet_spec stmts tdeps d htd (hkeyS d hd) x).mpr hx⟩
    have hTnew : ∀ x, x ∈ listUnion
        ((listDedup s.deps).foldl (fun acc d => listUnion acc (tdepsGet tdeps d)) [])
        (listDedup s.deps) ↔ ReachesPlus stmts s.sid x := by
      intro x
      rw [mem_listUnion]
      constructor
      · rintro (h | h)
        · obtain ⟨d, hd, hx⟩ := (htdset x).mp h
          exact ReachesPlus.step (by rw [hdepsOf]; exact hd) hx
        · exact ReachesPlus.direct (by rw [hdepsOf]; exact (hstmtdeps x).mp h)
      · intro h
        cases h with
        | direct hx =>
          rw [hdepsOf] at hx
          exact Or.inr ((hstmtdeps x).mpr hx)
        | step hd hr =>
          rw [hdepsOf] at hd
          exact Or.inl ((htdset x).mpr ⟨_, hd, hr⟩)
    simp only [rebuildGo]
    cases i with
    | zero =>
      rw [List.getElem?_cons_zero] at hi
      injection hi with hi'
      subst hi'
      refine ⟨_, List.getElem?_cons_zero, Stmt.sid_setDeps _ _, ?_⟩
      intro x
      rw [Stmt.deps_setDeps, List.mem_filter]
      constructor
      · rintro ⟨hx1, hx2⟩
        refine ⟨(hstmtdeps x).mp hx1, ?_⟩
        intro d hd hr
        simp only [decide_eq_true_eq] at hx2
        exact hx2 (by simpa using (htdset x).mpr ⟨d, hd, hr⟩)
      · rintro ⟨hx1, hx2⟩
        refine ⟨(hstmtdeps x).mpr hx1, ?_⟩
        simp only [decide_eq_true_eq]
        intro hc
        obtain ⟨d, hd, hr⟩ := (htdset x).mp (by simpa using hc)
        exact hx2 d hd hr
    | succ i' =>
      rw [List.getElem?_cons_succ] at hi
      simp only [List.getElem?_cons_succ]
      refine ih (done ++ [s]) _ ?_ ?_ ?_ i' s' hi
      · rw [hsplit]
        simp
      · simp [hkeys]
      · intro q hq x
        rcases List.mem_append.mp hq with h | h
        · exact htd q h x
        · rcases List.mem_singleton.mp h with rfl
          exact hTnew x

theorem depsOf_subset_of_pointwise (stmts out : List Stmt)
    (hlen : out.length = stmts.length)
    (hnodup : (stmts.map Stmt.sid).Nodup)
    (hpt : ∀ (i : Nat) (t : Stmt), out[i]? = some t →
      ∃ s : Stmt, stmts[i]? = some s ∧ t.sid = s.sid ∧ ∀ x ∈ t.deps, x ∈ s.deps) :
    ∀ a, ∀ y ∈ depsOf out a, y ∈ depsOf stmts a := by
  intro a y hy
  simp only [depsOf] at hy ⊢
  cases hfind : out.find? fun t => t.sid = a with
  | none =>
    rw [hfind] at hy
    simp at hy
  | some t =>
    rw [hfind] at hy
    simp only [Option.map_some', Option.getD_some] at hy
    have hta : t.sid = a := by simpa using List.find?_some hfind
    obtain ⟨i, hi⟩ := List.getElem?_of_mem (List.mem_of_find?_eq_some hfind)
    obtain ⟨s, hs, hsid, hsub⟩ := hpt i t hi
    have hsa : s.sid = a := by
      rw [← hsid]
      exact hta
    obtain ⟨pre, post, hdecomp⟩ := List.append_of_mem (List.getElem?_mem hs)
    have hfs : stmts.find? (fun t => t.sid = a) = some s := by
      rw [hdecomp, ← hsa]
      exact find?_sid_self s pre post (hdecomp ▸ hnodup)
    rw [hfs]
    simp only [Option.map_some', Option.getD_some]
    exact hsub y hy

theorem ReachesPlus_mono (stmts out : List Stmt)
    (hsub : ∀ a, ∀ y ∈ depsOf out a, y ∈ depsOf stmts a) :
    ∀ a b, ReachesPlus out a b → ReachesPlus stmts a b := by
  intro a b h
  induction h with
  | direct h1 => exact ReachesPlus.direct (hsub _ _ h1)
  | step h1 _ ih => exact ReachesPlus.step (hsub _ _ h1) ih

/-- **C5.**  For a statement list with distinct ids whose deps all point
to earlier statements (as the pass guarantees), `RebuildTransitiveDeps`
(schedule.cc:1606-1623) keeps the list's length and ids, rewrites every
statement's dependency list to its direct dep set `D` minus the union of
the transitive dependency sets of the members of `D` (transitive
dependency = reachability in one or more dep steps of the pre-cleanup
graph), and consequently the final dep graph has no redundant edge: for
no final edge `A→B` is there a final-graph path from `A` to `B` of
length greater than one. -/
theorem C5_rebuild_transitive_deps (stmts : List Stmt)
    (hnodup : (stmts.map Stmt.sid).Nodup)
    (hback : depsBackward stmts [] = true) :
    (RebuildTransitiveDeps stmts).length = stmts.length ∧
      (∀ (i : Nat) (s : Stmt), stmts[i]? = some s →
        ∃ t : Stmt, (RebuildTransitiveDeps stmts)[i]? = some t ∧ t.sid = s.sid ∧
          ∀ x, x ∈ t.deps ↔
            (x ∈ s.deps ∧ ∀ d ∈ s.deps, ¬ ReachesPlus stmts d x)) ∧
      (∀ (i : Nat) (t : Stmt), (RebuildTransitiveDeps stmts)[i]? = some t →
        ∀ b ∈ t.deps, ¬ ∃ c ∈ t.deps,
          ReachesPlus (RebuildTransitiveDeps stmts) c b) := by
  have hord : ∀ pre s post, stmts = pre ++ s :: post →
      ∀ d ∈ s.deps, d ∈ pre.map Stmt.sid := by
    intro pre s post heq d hd
    have := depsBackward_sound stmts [] hback pre s post heq d hd
    simpa using this
  have hmain : ∀ (i : Nat) (s : Stmt), stmts[i]? = some s →
      ∃ t : Stmt, (RebuildTransitiveDeps stmts)[i]? = some t ∧ t.sid = s.sid ∧
        ∀ x, x ∈ t.deps ↔
          (x ∈ s.deps ∧ ∀ d ∈ s.deps, ¬ ReachesPlus stmts d x) :=
    rebuildGo_spec stmts hnodup hord stmts [] [] rfl rfl
      (by intro q hq; exact absurd hq (List.not_mem_nil q))
  have hlen : (RebuildTransitiveDeps stmts).length = stmts.length :=
    rebuildGo_length stmts []
  refine ⟨hlen, hmain, ?_⟩
  intro i t hout b hb hex
  obtain ⟨c, hc, hreach⟩ := hex
  have hi : i < stmts.length := by
    have h1 := (List.getElem?_eq_some.mp hout).1
    rwa [hlen] at h1
  obtain ⟨s, hs⟩ : ∃ s, stmts[i]? = some s := ⟨_, List.getElem?_eq_getElem hi⟩
  obtain ⟨t', ht', htsid, hchar⟩ := hmain i s hs
  have htt : t' = t := by
    have := hout.symm.trans ht'
    injection this with h
    exact h.symm
  subst htt
  have hbchar := (hchar b).mp hb
  have hcchar := (hchar c).mp hc
  have hsub : ∀ a, ∀ y ∈ depsOf (RebuildTransitiveDeps stmts) a,
      y ∈ depsOf stmts a := by
    apply depsOf_subset_of_pointwise stmts _ hlen hnodup
    intro j u hu
    have hj : j < stmts.length := by
      have h1 := (List.getElem?_eq_some.mp hu).1
      rwa [hlen] at h1
    obtain ⟨s2, hs2⟩ : ∃ s2, stmts[j]? = some s2 := ⟨_, List.getElem?_eq_getElem hj⟩
    obtain ⟨u', hu', husid, huchar⟩ := hmain j s2 hs2
    have huu : u' = u := by
      have := hu.symm.trans hu'
      injection this with h
      exact h.symm
    subst huu
    exact ⟨s2, hs2, husid, fun x hx => ((huchar x).mp hx).1⟩
  exact hbchar.2 c hcchar.1 (ReachesPlus_mono stmts _ hsub c b hreach)

/-- Three statements whose third carries the redundant dep `3 → 1`
(already implied by `3 → 2 → 1`). -/
def c5stmts : List Stmt :=
  [Stmt.constant 1 [], Stmt.constant 2 [1], Stmt.constant 3 [1, 2]]

/-- **C5, witness**: `C5_rebuild_transitive_deps` applied to `c5stmts`. -/
theorem C5_rebuild_transitive_deps_witness :
    (RebuildTransitiveDeps c5stmts).length = c5stmts.length ∧
      (∀ (i : Nat) (s : Stmt), c5stmts[i]? = some s →
        ∃ t : Stmt, (RebuildTransitiveDeps c5stmts)[i]? = some t ∧ t.sid = s.sid ∧
          ∀ x, x ∈ t.deps ↔
            (x ∈ s.deps ∧ ∀ d ∈ s.deps, ¬ ReachesPlus c5stmts d x)) ∧
      (∀ (i : Nat) (t : Stmt), (RebuildTransitiveDeps c5stmts)[i]? = some t →
        ∀ b ∈ t.deps, ¬ ∃ c ∈ t.deps,
          ReachesPlus (RebuildTransitiveDeps c5stmts) c b) :=
  C5_rebuild_transitive_deps c5stmts (by decide) (by decide)

/-! ### Claim C6 -/

/-- The decimal rendering computed by `Nat.repr`, as structural recursion
on the value. -/
def digitsRec (n : Nat) : List Char :=
  if h : n < 10 then [Nat.digitChar n]
  else digitsRec (n / 10) ++ [Nat.digitChar (n % 10)]
termination_by n
decreasing_by
  exact Nat.div_lt_self (by omega) (by omega)

theorem toDigitsCore_eq_digitsRec : ∀ (fuel n : Nat) (acc : List Char), n < fuel →
    Nat.toDigitsCore 10 fuel n acc = digitsRec n ++ acc := by
  intro fuel
  induction fuel with
  | zero =>
    intro n acc h
    exact absurd h (Nat.not_lt_zero n)
  | succ fuel ih =>
    intro n acc h
    by_cases h0 : n / 10 = 0
    · have hn : n < 10 := by omega
      rw [Nat.toDigitsCore]
      simp only [h0, if_pos]
      rw [digitsRec, dif_pos hn, Nat.mod_eq_of_lt hn]
      rfl
    · have hn : ¬ n < 10 := by
        intro hc
        exact h0 (Nat.div_eq_of_lt hc)
      have hlt : n / 10 < n := Nat.div_lt_self (by omega) (by omega)
      rw [Nat.toDigitsCore]
      simp only [h0, if_neg, if_false]
      rw [ih (n / 10) _ (by omega)]
      conv_rhs => rw [digitsRec, dif_neg hn]
      rw [List.append_assoc]
      rfl

theorem repr_data_eq_digitsRec (n : Nat) : (Nat.repr n).data = digitsRec n := by
  have h := toDigitsCore_eq_digitsRec (n + 1) n [] (Nat.lt_succ_self n)
  show (Nat.toDigitsCore 10 (n + 1) n []).asString.data = digitsRec n
  rw [h, List.append_nil]
  rfl

/-- The value of a decimal digit string. -/
def charsToNat : List Char → Nat
  | [] => 0
  | c :: cs => (c.toNat - 48) * 10 ^ cs.length + charsToNat cs

theorem charsToNat_append_singleton (xs : List Char) (c : Char) :
    charsToNat (xs ++ [c]) = charsToNat xs * 10 + (c.toNat - 48) := by
  induction xs with
  | nil => simp [charsToNat]
  | cons x xs ih =>
    simp only [List.cons_append, charsToNat, List.append_eq, ih, List.length_append,
      List.length_cons, List.length_nil, Nat.zero_add]
    rw [pow_succ]
    ring

theorem digitChar_val : ∀ n, n < 10 → (Nat.digitChar n).toNat - 48 = n := by decide

theorem digitChar_ne_caret : ∀ n, n < 10 → Nat.digitChar n ≠ '^' := by decide

theorem charsToNat_digitsRec (n : Nat) : charsToNat (digitsRec n) = n := by
  induction n using Nat.strong_induction_on with
  | _ n ih =>
    by_cases h : n < 10
    · rw [digitsRec, dif_pos h]
      simp [charsToNat, digitChar_val n h]
    · rw [digitsRec, dif_neg h, charsToNat_append_singleton,
        ih (n / 10) (Nat.div_lt_self (by omega) (by omega)),
        digitChar_val (n % 10) (Nat.mod_lt n (by omega))]
      omega

theorem repr_data_inj {m n : Nat} (h : (Nat.repr m).data = (Nat.repr n).data) :
    m = n := by
  rw [repr_data_eq_digitsRec, repr_data_eq_digitsRec] at h
  have h2 := congrArg charsToNat h
  rwa [charsToNat_digitsRec, charsToNat_digitsRec] at h2

theorem digitsRec_ne_caret (n : Nat) : ∀ c ∈ digitsRec n, c ≠ '^' := by
  induction n using Nat.strong_induction_on with
  | _ n ih =>
    by_cases h : n < 10
    · rw [digitsRec, dif_pos h]
      intro c hc
      rcases List.mem_singleton.mp hc with rfl
      exact digitChar_ne_caret n h
    · rw [digitsRec, dif_neg h]
      intro c hc
      rcases List.mem_append.mp hc with h1 | h1
      · exact ih (n / 10) (Nat.div_lt_self (by omega) (by omega)) c h1
      · rcases List.mem_singleton.mp h1 with rfl
        exact digitChar_ne_caret (n % 10) (Nat.mod_lt n (by omega))

theorem repr_ne_caret (n : Nat) : ∀ c ∈ (Nat.repr n).data, c ≠ '^' := by
  rw [repr_data_eq_digitsRec]
  exact digitsRec_ne_caret n

theorem sep_split_unique (sep : Char) :
    ∀ (s1 s2 t1 t2 : List Char), (∀ c ∈ t1, c ≠ sep) → (∀ c ∈ t2, c ≠ sep) →
      s1 ++ sep :: t1 = s2 ++ sep :: t2 → s1 = s2 ∧ t1 = t2 := by
  intro s1
  induction s1 with
  | nil =>
    intro s2 t1 t2 ht1 ht2 h
    cases s2 with
    | nil =>
      simp only [List.nil_append, List.cons.injEq] at h
      exact ⟨rfl, h.2⟩
    | cons c s2' =>
      exfalso
      simp only [List.nil_append, List.cons_append, List.cons.injEq] at h
      obtain ⟨_, ht⟩ := h
      exact ht1 sep (by rw [ht]; exact List.mem_append_right _ (List.mem_cons_self _ _)) rfl
  | cons c s1' ih =>
    intro s2 t1 t2 ht1 ht2 h
    cases s2 with
    | nil =>
      exfalso
      simp only [List.nil_append, List.cons_append, List.cons.injEq] at h
      obtain ⟨_, ht⟩ := h
      exact ht2 sep (by rw [← ht]; exact List.mem_append_right _ (List.mem_cons_self _ _)) rfl
    | cons c2 s2' =>
      simp only [List.cons_append, List.cons.injEq] at h
      obtain ⟨rfl, ht⟩ := h
      obtain ⟨h1, h2⟩ := ih s2' t1 t2 ht1 ht2 ht
      exact ⟨by rw [h1], h2⟩

/-- Cache-entry names `source ++ "^" ++ counter` decompose uniquely at
the last `'^'` (the counter part has no `'^'`), so equal names force
equal sources and equal counters. -/
theorem entry_name_inj (s1 s2 : String) (k1 k2 : Nat)
    (h : s1 ++ "^" ++ Nat.repr k1 = s2 ++ "^" ++ Nat.repr k2) :
    s1 = s2 ∧ k1 = k2 := by
  have hd := congrArg String.data h
  simp only [String.data_append] at hd
  rw [List.append_assoc, List.append_assoc] at hd
  have hsep := sep_split_unique '^' s1.data s2.data (Nat.repr k1).data
    (Nat.repr k2).data (repr_ne_caret k1) (repr_ne_caret k2)
    (by simpa using hd)
  refine ⟨?_, repr_data_inj hsep.2⟩
  obtain ⟨l1⟩ := s1
  obtain ⟨l2⟩ := s2
  exact congrArg String.mk hsep.1

/-- Every created entry name contains `'^'`, so it differs from any
string without one. -/
theorem entry_name_has_caret (s : String) (k : Nat) :
    '^' ∈ (s ++ "^" ++ Nat.repr k).data := by
  simp [String.data_append]

/-- The state components the cache-entry naming scheme reads are
unchanged: entry count, entry names and sources, and each RefInfo's
`next_cache_entry`, `name` and presence.  Every scheduler operation
except cache-entry creation (schedule.cc:864-875) preserves them. -/
def NamePres (σ σ' : SchedState) : Prop :=
  σ'.entries.length = σ.entries.length ∧
  (∀ j, (σ'.entryGet j).name = (σ.entryGet j).name ∧
    (σ'.entryGet j).source = (σ.entryGet j).source) ∧
  (∀ k, (σ'.riGet k).next_cache_entry = (σ.riGet k).next_cache_entry ∧
    (σ'.riGet k).name = (σ.riGet k).name) ∧
  (∀ k, (lookupRi σ'.ris k).isSome = (lookupRi σ.ris k).isSome)

theorem NamePres_refl (σ : SchedState) : NamePres σ σ :=
  ⟨rfl, fun _ => ⟨rfl, rfl⟩, fun _ => ⟨rfl, rfl⟩, fun _ => rfl⟩

theorem NamePres_trans {σ1 σ2 σ3 : SchedState} (h1 : NamePres σ1 σ2)
    (h2 : NamePres σ2 σ3) : NamePres σ1 σ3 := by
  obtain ⟨a1, b1, c1, d1⟩ := h1
  obtain ⟨a2, b2, c2, d2⟩ := h2
  exact ⟨a2.trans a1,
    fun j => ⟨(b2 j).1.trans (b1 j).1, (b2 j).2.trans (b1 j).2⟩,
    fun k => ⟨(c2 k).1.trans (c1 k).1, (c2 k).2.trans (c1 k).2⟩,
    fun k => (d2 k).trans (d1 k)⟩

theorem NamePres_of_same {σ σ' : SchedState} (he : σ'.entries = σ.entries)
    (hr : σ'.ris = σ.ris) : NamePres σ σ' := by
  refine ⟨by rw [he], fun j => ?_, fun k => ?_, fun k => by rw [hr]⟩
  · rw [entryGet_of_entries_eq σ' σ he j]
    exact ⟨rfl, rfl⟩
  · show (riGetD σ'.ris k).next_cache_entry = _ ∧ (riGetD σ'.ris k).name = _
    rw [hr]
    exact ⟨rfl, rfl⟩

theorem NamePres_updateEntry (σ : SchedState) (i : Nat) (f : CacheEntry → CacheEntry)
    (hn : ∀ e, (f e).name = e.name) (hs : ∀ e, (f e).source = e.source) :
    NamePres σ (σ.updateEntry i f) := by
  refine ⟨?_, fun j => ⟨?_, ?_⟩, fun _ => ⟨rfl, rfl⟩, fun _ => rfl⟩
  · simp [SchedState.updateEntry]
  · exact entryGet_updateEntry_field CacheEntry.name σ i j f hn
  · exact entryGet_updateEntry_field CacheEntry.source σ i j f hs

theorem NamePres_updateRi (σ : SchedState) (k0 : String) (f : RefInfo → RefInfo)
    (hn : ∀ r, (f r).next_cache_entry = r.next_cache_entry)
    (hm : ∀ r, (f r).name = r.name) :
    NamePres σ (σ.updateRi k0 f) := by
  refine ⟨rfl, fun _ => ⟨rfl, rfl⟩, fun k => ⟨?_, ?_⟩, fun k => ?_⟩
  · exact riGet_updateRi_field RefInfo.next_cache_entry σ k0 k f hn
  · exact riGet_updateRi_field RefInfo.name σ k0 k f hm
  · exact lookupRi_updateRi_isSome σ k0 k f

theorem NamePres_foldl {A : Type} (step : SchedState → A → SchedState)
    (h : ∀ s a, NamePres s (step s a)) (l : List A) (σ : SchedState) :
    NamePres σ (l.foldl step σ) :=
  foldl_pred_preserve step (NamePres σ) (fun s a hp => NamePres_trans hp (h s a)) l σ
    (NamePres_refl σ)

theorem NamePres_addDepTo (σ : SchedState) (sid dep : Nat) :
    NamePres σ (σ.addDepTo sid dep) := NamePres_of_same rfl rfl

theorem NamePres_updStmt (σ : SchedState) (sid : Nat) (f : Stmt → Stmt) :
    NamePres σ (σ.updStmt sid f) := NamePres_of_same rfl rfl

theorem NamePres_setActiveList (σ : SchedState) (u : Affine) (l : List Nat) :
    NamePres σ (σ.setActiveList u l) := by
  apply NamePres_of_same <;> (simp only [SchedState.setActiveList]; split <;> rfl)

theorem NamePres_ite (σ : SchedState) (c : Prop) [Decidable c] (a b : SchedState)
    (ha : NamePres σ a) (hb : NamePres σ b) : NamePres σ (if c then a else b) := by
  split
  · exact ha
  · exact hb

theorem NamePres_ScheduleSwapIn (opts : SchedOptions) (σ : SchedState)
    (si : Option Nat) (eidx : Nat) :
    NamePres σ (ScheduleSwapIn opts σ si eidx).1 := by
  show NamePres σ ((swapInPost opts σ si eidx).updateEntry eidx
    (fun e => { e with saw_earliest_writer := true }))
  refine NamePres_trans ?_ (NamePres_updateEntry _ _ _ (fun _ => rfl) (fun _ => rfl))
  show NamePres σ ((σ.entryGet eidx).readers.foldl
    (fun t p => t.addDepTo p.1 σ.nextSid) (swapInPre opts σ si eidx))
  refine NamePres_trans ?_
    (NamePres_foldl _ (fun (s : SchedState) (a : Nat × AliasInfo) => NamePres_addDepTo s a.1 σ.nextSid) _ _)
  show NamePres σ (((swapInMid opts σ si eidx).updateEntry eidx fun e =>
    { e with
      writers := emplaceAliasMapEntry e.writers σ.nextSid
        (σ.riGet (σ.entryGet eidx).source).alias_info }).updateRi
    (σ.entryGet eidx).source fun r =>
    { r with swap_in_readers := r.swap_in_readers ++ [σ.nextSid] })
  refine NamePres_trans ?_ (NamePres_updateRi _ _ _ (fun _ => rfl) (fun _ => rfl))
  refine NamePres_trans ?_ (NamePres_updateEntry _ _ _ (fun _ => rfl) (fun _ => rfl))
  exact NamePres_trans
    (NamePres_updateRi ({ σ with nextSid := σ.nextSid + 1 })
      (σ.entryGet eidx).source (fun r => { r with used := true })
      (fun _ => rfl) (fun _ => rfl))
    (NamePres_of_same rfl rfl)

theorem NamePres_ScheduleSwapOut (opts : SchedOptions) (σ : SchedState)
    (si : Option Nat) (eidx : Nat) (rs : List Nat) :
    NamePres σ (ScheduleSwapOut opts σ si eidx rs).1 := by
  show NamePres σ ((rs.foldl (fun (t : SchedState) (r : Nat) => t.addDepTo r σ.nextSid)
    ({ ({ σ with nextSid := σ.nextSid + 1 } : SchedState).updateRi
        (σ.entryGet eidx).source (fun r => { r with used := true }) with
      stmts := insertBefore (({ σ with nextSid := σ.nextSid + 1 } : SchedState).updateRi
        (σ.entryGet eidx).source fun r => { r with used := true }).stmts si
        (mkSwapOutBlock opts (σ.riGet (σ.entryGet eidx).source) (σ.entryGet eidx)
          σ.nextSid) })).updateRi
    (σ.entryGet eidx).source fun r => { r with saw_final_write := true })
  refine NamePres_trans ?_ (NamePres_updateRi _ _ _ (fun _ => rfl) (fun _ => rfl))
  refine NamePres_trans ?_
    (NamePres_foldl _ (fun (s : SchedState) (a : Nat) => NamePres_addDepTo s a σ.nextSid) _ _)
  exact NamePres_trans
    (NamePres_updateRi ({ σ with nextSid := σ.nextSid + 1 })
      (σ.entryGet eidx).source (fun r => { r with used := true })
      (fun _ => rfl) (fun _ => rfl))
    (NamePres_of_same rfl rfl)

theorem NamePres_AddSubblockSwapIn (opts : SchedOptions) (σ : SchedState)
    (blockSid eidx : Nat) (n : String) (access : List Affine) :
    NamePres σ (AddSubblockSwapIn opts σ blockSid eidx n access) :=
  NamePres_of_same rfl rfl

theorem NamePres_AddSubblockSwapOut (opts : SchedOptions) (σ : SchedState)
    (blockSid eidx : Nat) (n : String) (access : List Affine) :
    NamePres σ (AddSubblockSwapOut opts σ blockSid eidx n access) :=
  NamePres_of_same rfl rfl

theorem NamePres_conflictStep (opts : SchedOptions) (rd entIdx : Nat)
    (er : MemRange) (isn : Bool) (u : Affine) (σ : SchedState) (fidx : Nat) :
    NamePres σ (conflictStep opts rd entIdx er isn u σ fidx) := by
  simp only [conflictStep]
  split
  · exact NamePres_refl σ
  · refine NamePres_trans ?_
      (NamePres_foldl _ (fun (s : SchedState) (a : Nat × AliasInfo) => NamePres_addDepTo s a.1 rd) _ _)
    refine NamePres_ite _ _ _ _ ?_ (NamePres_refl σ)
    refine NamePres_trans ?_
      (NamePres_ite _ _ _ _ (NamePres_updateRi _ _ _ (fun _ => rfl) (fun _ => rfl))
        (NamePres_refl _))
    refine NamePres_trans ?_
      (NamePres_ite _ _ _ _ (NamePres_setActiveList _ _ _) (NamePres_refl _))
    refine NamePres_trans ?_
      (NamePres_updateEntry _ _ _ (fun _ => rfl) (fun _ => rfl))
    refine NamePres_trans ?_
      (NamePres_foldl _ (fun (s : SchedState) (a : Nat × AliasInfo) => NamePres_addDepTo s a.1 rd) _ _)
    exact NamePres_ite _ _ _ _ (NamePres_ScheduleSwapIn _ _ _ _) (NamePres_refl σ)

theorem NamePres_invalidateAlias (opts : SchedOptions) (riKey : String)
    (σ0 : SchedState) (st : SchedState × Option Nat × List Nat) (ak : String)
    (h : NamePres σ0 st.1) :
    NamePres σ0 (invalidateAlias opts riKey st ak).1 := by
  simp only [invalidateAlias]
  split
  · dsimp only
    split
    · split
      · exact NamePres_trans h (NamePres_trans (NamePres_ScheduleSwapIn _ _ _ _)
          (NamePres_updateRi _ _ _ (fun _ => rfl) (fun _ => rfl)))
      · exact h
    · exact h
  · exact h

/-- The cache-entry naming invariant: RefInfo names match their map
keys; every cache entry's name is `source ++ "^" ++ counter` for a
counter below the source's `next_cache_entry`; and entry names are
pairwise distinct. -/
def C6Inv (σ : SchedState) : Prop :=
  (∀ k, (lookupRi σ.ris k).isSome = true → (σ.riGet k).name = k) ∧
  (∀ i, i < σ.entries.length → ∃ k,
    (σ.entryGet i).name = (σ.entryGet i).source ++ "^" ++ Nat.repr k ∧
    k < (σ.riGet (σ.entryGet i).source).next_cache_entry) ∧
  (∀ i j, i < σ.entries.length → j < σ.entries.length → i ≠ j →
    (σ.entryGet i).name ≠ (σ.entryGet j).name)

theorem C6Inv_of_NamePres {σ σ' : SchedState} (h : NamePres σ σ')
    (hi : C6Inv σ) : C6Inv σ' := by
  obtain ⟨hlen, hent, hri, hsome⟩ := h
  obtain ⟨h1, h2, h3⟩ := hi
  refine ⟨fun k hk => ?_, fun i hilt => ?_, fun i j hi' hj' hne => ?_⟩
  · rw [(hri k).2]
    exact h1 k (by rw [← hsome k]; exact hk)
  · rw [hlen] at hilt
    obtain ⟨k, hk1, hk2⟩ := h2 i hilt
    refine ⟨k, ?_, ?_⟩
    · rw [(hent i).1, (hent i).2]
      exact hk1
    · rw [(hent i).2, (hri ((σ.entryGet i).source)).1]
      exact hk2
  · rw [hlen] at hi' hj'
    rw [(hent i).1, (hent j).1]
    exact h3 i j hi' hj' hne

/-- The cache-entry creation step of the plan-application loop
(schedule.cc:864-875): bump the source's `next_cache_entry`, append the
new entry, and point the source's `cache_entry` at the new index.
Definitionally the `placement.entry == none` branch of
`applyPlacement`. -/
def createEntrySt (σ : SchedState) (riKey : String) (pkey : PlacementKey)
    (p : Placement) : SchedState :=
  let counter := (σ.riGet riKey).next_cache_entry
  let ent := CacheEntry.make pkey p (σ.riGet riKey).name counter
  let σ := σ.updateRi riKey fun r =>
    { r with next_cache_entry := r.next_cache_entry + 1 }
  let idx := σ.entries.length
  let σ := { σ with entries := σ.entries ++ [ent] }
  σ.updateRi riKey fun r => { r with cache_entry := some idx }

theorem createEntrySt_entries (σ : SchedState) (riKey : String)
    (pkey : PlacementKey) (p : Placement) :
    (createEntrySt σ riKey pkey p).entries =
      σ.entries ++ [CacheEntry.make pkey p (σ.riGet riKey).name
        (σ.riGet riKey).next_cache_entry] := rfl

theorem createEntrySt_entryGet_lt (σ : SchedState) (riKey : String)
    (pkey : PlacementKey) (p : Placement) (j : Nat) (hj : j < σ.entries.length) :
    (createEntrySt σ riKey pkey p).entryGet j = σ.entryGet j := by
  simp only [SchedState.entryGet, createEntrySt_entries,
    List.getD_eq_getElem?_getD, List.getElem?_append_left hj]

theorem createEntrySt_entryGet_last (σ : SchedState) (riKey : String)
    (pkey : PlacementKey) (p : Placement) :
    (createEntrySt σ riKey pkey p).entryGet σ.entries.length =
      CacheEntry.make pkey p (σ.riGet riKey).name
        (σ.riGet riKey).next_cache_entry := by
  simp only [SchedState.entryGet, createEntrySt_entries,
    List.getD_eq_getElem?_getD]
  rw [List.getElem?_append_right (Nat.le_refl _), Nat.sub_self]
  rfl

theorem createEntrySt_riGet_self (σ : SchedState) (riKey : String)
    (pkey : PlacementKey) (p : Placement)
    (hk : (lookupRi σ.ris riKey).isSome = true) :
    (createEntrySt σ riKey pkey p).riGet riKey =
      { σ.riGet riKey with
        next_cache_entry := (σ.riGet riKey).next_cache_entry + 1
        cache_entry := some σ.entries.length } := by
  have h1 := riGet_updateRi_self σ riKey
    (fun r => { r with next_cache_entry := r.next_cache_entry + 1 }) hk
  have h2 : (lookupRi (σ.updateRi riKey fun r =>
      { r with next_cache_entry := r.next_cache_entry + 1 }).ris riKey).isSome := by
    rw [lookupRi_updateRi_isSome]
    exact hk
  refine Eq.trans (riGet_updateRi_self _ _ _ h2) ?_
  show (fun r => { r with cache_entry := some ((σ.updateRi riKey fun r =>
      { r with next_cache_entry := r.next_cache_entry + 1 }).entries.length) })
    ((σ.updateRi riKey fun r =>
      { r with next_cache_entry := r.next_cache_entry + 1 }).riGet riKey) = _
  rw [h1]
  rfl

theorem createEntrySt_riGet_ne (σ : SchedState) (riKey : String)
    (pkey : PlacementKey) (p : Placement) (k : String) (hne : ¬(k = riKey)) :
    (createEntrySt σ riKey pkey p).riGet k = σ.riGet k := by
  refine Eq.trans (riGet_updateRi_ne _ _ _ _ hne) ?_
  show (σ.updateRi riKey fun r =>
    { r with next_cache_entry := r.next_cache_entry + 1 }).riGet k = _
  exact riGet_updateRi_ne _ _ _ _ hne

theorem createEntrySt_lookup_isSome (σ : SchedState) (riKey : String)
    (pkey : PlacementKey) (p : Placement) (k : String) :
    (lookupRi (createEntrySt σ riKey pkey p).ris k).isSome =
      (lookupRi σ.ris k).isSome := by
  show (lookupRi (({ (σ.updateRi riKey fun r =>
      { r with next_cache_entry := r.next_cache_entry + 1 }) with
    entries := (σ.updateRi riKey fun r =>
      { r with next_cache_entry := r.next_cache_entry + 1 }).entries ++
      [CacheEntry.make pkey p (σ.riGet riKey).name
        (σ.riGet riKey).next_cache_entry] } : SchedState).updateRi riKey fun r =>
    { r with cache_entry := some ((σ.updateRi riKey fun r =>
      { r with next_cache_entry := r.next_cache_entry + 1 }).entries.length) }).ris
    k).isSome = _
  rw [lookupRi_updateRi_isSome]
  show (lookupRi (σ.updateRi riKey fun r =>
    { r with next_cache_entry := r.next_cache_entry + 1 }).ris k).isSome = _
  rw [lookupRi_updateRi_isSome]

theorem C6Inv_createEntrySt (σ : SchedState) (riKey : String)
    (pkey : PlacementKey) (p : Placement)
    (hk : (lookupRi σ.ris riKey).isSome = true)
    (hinv : C6Inv σ) : C6Inv (createEntrySt σ riKey pkey p) := by
  obtain ⟨h1, h2, h3⟩ := hinv
  have hname : (σ.riGet riKey).name = riKey := h1 riKey hk
  have hlen : (createEntrySt σ riKey pkey p).entries.length =
      σ.entries.length + 1 := by
    rw [createEntrySt_entries]
    simp
  have hlast := createEntrySt_entryGet_last σ riKey pkey p
  have hlastname : ((createEntrySt σ riKey pkey p).entryGet
      σ.entries.length).name =
      riKey ++ "^" ++ Nat.repr (σ.riGet riKey).next_cache_entry := by
    rw [hlast]
    show (σ.riGet riKey).name ++ "^" ++ toString (σ.riGet riKey).next_cache_entry = _
    rw [hname]
    rfl
  have hlastsource : ((createEntrySt σ riKey pkey p).entryGet
      σ.entries.length).source = riKey := by
    rw [hlast]
    exact hname
  have hself := createEntrySt_riGet_self σ riKey pkey p hk
  have hnext : ∀ k, (σ.riGet k).next_cache_entry ≤
      ((createEntrySt σ riKey pkey p).riGet k).next_cache_entry := by
    intro k
    by_cases hkk : k = riKey
    · subst hkk
      rw [hself]
      exact Nat.le_succ _
    · rw [createEntrySt_riGet_ne σ riKey pkey p k hkk]
  refine ⟨fun k hk' => ?_, fun i hi => ?_, fun i j hi hj hne => ?_⟩
  · have hk'' : (lookupRi σ.ris k).isSome = true := by
      rw [← createEntrySt_lookup_isSome σ riKey pkey p k]
      exact hk'
    by_cases hkk : k = riKey
    · subst hkk
      rw [hself]
      exact h1 k hk''
    · rw [createEntrySt_riGet_ne σ riKey pkey p k hkk]
      exact h1 k hk''
  · rw [hlen] at hi
    rcases Nat.lt_succ_iff_lt_or_eq.mp hi with hilt | hieq
    · obtain ⟨k, hk1, hk2⟩ := h2 i hilt
      rw [createEntrySt_entryGet_lt σ riKey pkey p i hilt]
      exact ⟨k, hk1, lt_of_lt_of_le hk2 (hnext _)⟩
    · subst hieq
      refine ⟨(σ.riGet riKey).next_cache_entry, ?_, ?_⟩
      · rw [hlastname, hlastsource]
      · rw [hlastsource, hself]
        exact Nat.lt_succ_self _
  · rw [hlen] at hi hj
    rcases Nat.lt_succ_iff_lt_or_eq.mp hi with hilt | hieq
    · rcases Nat.lt_succ_iff_lt_or_eq.mp hj with hjlt | hjeq
      · rw [createEntrySt_entryGet_lt σ riKey pkey p i hilt,
          createEntrySt_entryGet_lt σ riKey pkey p j hjlt]
        exact h3 i j hilt hjlt hne
      · subst hjeq
        rw [createEntrySt_entryGet_lt σ riKey pkey p i hilt, hlastname]
        obtain ⟨k, hk1, hk2⟩ := h2 i hilt
        rw [hk1]
        intro heq
        obtain ⟨hsrc, hcnt⟩ := entry_name_inj _ _ _ _ heq
        rw [hsrc] at hk2
        omega
    · rcases Nat.lt_succ_iff_lt_or_eq.mp hj with hjlt | hjeq
      · subst hieq
        rw [createEntrySt_entryGet_lt σ riKey pkey p j hjlt, hlastname]
        obtain ⟨k, hk1, hk2⟩ := h2 j hjlt
        rw [hk1]
        intro heq
        obtain ⟨hsrc, hcnt⟩ := entry_name_inj _ _ _ _ heq.symm
        rw [hsrc] at hk2
        omega
      · subst hieq
        subst hjeq
        exact absurd rfl hne

theorem NamePres_invalidatePhase (opts : SchedOptions) (σ : SchedState)
    (si : Option Nat) (ios : List IoDesc) :
    NamePres σ (invalidatePhase opts σ si ios).1 := by
  refine foldl_pred_preserve _
    (fun (st : SchedState × Option Nat × List (String × List Nat)) =>
      NamePres σ st.1) ?_ ios (σ, si, []) (NamePres_refl σ)
  intro st io hst
  dsimp only
  split
  · exact foldl_pred_preserve _
      (fun (t : SchedState × Option Nat × List Nat) => NamePres σ t.1)
      (fun t a ht => NamePres_invalidateAlias opts io.ri σ t a ht)
      (aliasKeysOf st.1 io.ri) (st.1, st.2.1, wsirsGet st.2.2 io.ri) hst
  · exact hst

/-- The state `applyPlacement` continues from after its create-or-reuse
step (schedule.cc:856-876): the existing state for a placement that
already carries an entry, the creation step otherwise. -/
def crtState (st : PlanApplySt) (q : PlacementKey × Placement) : SchedState :=
  match q.2.entry with
  | some _ => st.σ
  | none => createEntrySt st.σ q.1.ri q.1 q.2

/-- The remainder of `applyPlacement` after the create-or-reuse step
(schedule.cc:878-991), parameterized by the state `σ0`, entry index and
`is_new` flag the step produced.  Definitionally the tail of
`applyPlacement` (see `applyPlacement_eq`). -/
def applyPlacementRest (opts : SchedOptions) (sid : Nat)
    (wsirs : List (String × List Nat)) (st : PlanApplySt)
    (pkey : PlacementKey) (placement : Placement)
    (σ0 : SchedState) (entIdx : Nat) (is_new : Bool) : PlanApplySt :=
  let riKey := pkey.ri
  let sres : SchedState × Nat × List Refinement × List (String × String) :=
    if placement.is_internal then
      let names := st.internal_swap_backing_ref_names
      let bn : String × List (String × String) × List Refinement × SchedState :=
        match (names.find? fun p => p.1 = riKey).map (fun p => p.2) with
        | some n => (n, names, st.added_refs, σ0)
        | none =>
          let existingNames :=
            match σ0.stmts.find? (fun s => s.sid = sid) with
            | some (.block _ _ b) => b.refs.map (fun r => r.into)
            | _ => []
          let n := uniqueNameFrom existingNames ((σ0.riGet riKey).name ++ "_storage")
          let src := σ0.riGet (σ0.entryGet entIdx).source
          let newRef : Refinement :=
            { dir := placement.dir, from_ := src.ref.into, into := n,
              access := src.alias_info.access, interior_shape := src.alias_info.shape,
              agg_op := "", location := src.ref.location, is_const := src.ref.is_const,
              offset := 0, bank_dim := src.ref.bank_dim, cache_unit := none }
          (n, names ++ [(riKey, n)], st.added_refs ++ [newRef], σ0)
      let σ := bn.2.2.2
      let σ := if IsReadDir placement.dir then
          AddSubblockSwapIn opts σ sid entIdx bn.1 pkey.access
        else σ
      let σ := if IsWriteDir placement.dir then
          AddSubblockSwapOut opts σ sid entIdx bn.1 pkey.access
        else σ
      (σ, sid, bn.2.2.1, bn.2.1)
    else
      let σ := σ0
      let σ :=
        if IsWriteDir placement.dir then
          let ai := (σ.riGet riKey).alias_info
          let σ := (σ.entryGet entIdx).readers.foldl
            (fun σ p =>
              if ¬(opts.cmp ai p.2 = AliasType.None) then σ.addDepTo p.1 sid else σ) σ
          let σ := σ.updateEntry entIdx fun e =>
            { e with writers := emplaceAliasMapEntry e.writers sid ai }
          if some sid = (σ.riGet (σ.entryGet entIdx).source).earliest_writer then
            σ.updateEntry entIdx fun e => { e with saw_earliest_writer := true }
          else σ
        else σ
      let σ :=
        if IsReadDir placement.dir then
          σ.updateEntry entIdx fun e =>
            { e with readers := emplaceAliasMapEntry e.readers sid (σ.riGet riKey).alias_info }
        else σ
      let σ := σ.updateEntry entIdx fun e => { e with first_accessor := sid }
      let needSwapOut := IsWriteDir placement.dir ∧
        ((IsWriteDir (σ.riGet riKey).ref.dir ∧ ¬(σ.riGet riKey).saw_final_write) ∨
          ¬(wsirsGet wsirs riKey).isEmpty)
      if needSwapOut then
        let r := ScheduleSwapOut opts σ (succSid σ.stmts sid) entIdx (wsirsGet wsirs riKey)
        (r.1.addDepTo r.2 sid, r.2, st.added_refs, st.internal_swap_backing_ref_names)
      else (σ, sid, st.added_refs, st.internal_swap_backing_ref_names)
  let σ := sres.1
  let reuse_dep := sres.2.1
  let entRange := (σ.entryGet entIdx).range
  let unit := (σ.riGet (σ.entryGet entIdx).source).ref.location.unit
  let σ := (σ.activeList unit).foldl (conflictStep opts reuse_dep entIdx entRange is_new unit) σ
  let added :=
    if is_new ∧ ¬placement.is_internal then
      unitAppend st.added_affine_entries unit entIdx
    else st.added_affine_entries
  { σ := σ, added_affine_entries := added, added_refs := sres.2.2.1,
    internal_swap_backing_ref_names := sres.2.2.2 }

/-- The create-or-reuse step (schedule.cc:856-876) as a tuple: the
continuation state, the entry index, and whether the entry is new. -/
def crtTuple (st : PlanApplySt) (q : PlacementKey × Placement) :
    SchedState × Nat × Bool :=
  match q.2.entry with
  | some e => (st.σ, e, false)
  | none => (createEntrySt st.σ q.1.ri q.1 q.2, st.σ.entries.length, true)

theorem applyPlacement_eq (opts : SchedOptions) (sid : Nat)
    (wsirs : List (String × List Nat)) (st : PlanApplySt)
    (q : PlacementKey × Placement) :
    applyPlacement opts sid wsirs st q =
      applyPlacementRest opts sid wsirs st q.1 q.2 (crtTuple st q).1
        (crtTuple st q).2.1 (crtTuple st q).2.2 := rfl

theorem crtState_eq (st : PlanApplySt) (q : PlacementKey × Placement) :
    crtState st q = (crtTuple st q).1 := by
  simp only [crtState, crtTuple]
  cases q.2.entry <;> rfl

theorem NamePres_ite_fst (σ : SchedState) (c : Prop) [Decidable c]
    (a b : SchedState × Nat × List Refinement × List (String × String))
    (ha : NamePres σ a.1) (hb : NamePres σ b.1) :
    NamePres σ (if c then a else b).1 := by
  split
  · exact ha
  · exact hb

theorem NamePres_applyPlacementRest (opts : SchedOptions) (sid : Nat)
    (wsirs : List (String × List Nat)) (st : PlanApplySt)
    (pkey : PlacementKey) (placement : Placement)
    (σ0 : SchedState) (entIdx : Nat) (is_new : Bool) :
    NamePres σ0 (applyPlacementRest opts sid wsirs st pkey placement σ0 entIdx is_new).σ := by
  simp only [applyPlacementRest]
  refine NamePres_trans ?_
    (NamePres_foldl _ (fun s a => NamePres_conflictStep opts _ _ _ _ _ s a) _ _)
  refine NamePres_ite_fst _ _ _ _ ?_ ?_
  · refine NamePres_trans ?_
      (NamePres_ite _ _ _ _ (NamePres_AddSubblockSwapOut _ _ _ _ _ _)
        (NamePres_refl _))
    refine NamePres_trans ?_
      (NamePres_ite _ _ _ _ (NamePres_AddSubblockSwapIn _ _ _ _ _ _)
        (NamePres_refl _))
    cases hbn : (st.internal_swap_backing_ref_names.find? fun p =>
        p.1 = pkey.ri).map (fun p => p.2) with
    | some n => exact NamePres_refl _
    | none => exact NamePres_refl _
  · refine NamePres_ite_fst _ _ _ _ ?_ ?_
    · refine NamePres_trans (NamePres_trans ?_
        (NamePres_ScheduleSwapOut _ _ _ _ _)) (NamePres_addDepTo _ _ _)
      refine NamePres_trans ?_
        (NamePres_updateEntry _ _ _ (fun _ => rfl) (fun _ => rfl))
      refine NamePres_trans ?_
        (NamePres_ite _ _ _ _ (NamePres_updateEntry _ _ _ (fun _ => rfl)
          (fun _ => rfl)) (NamePres_refl _))
      refine NamePres_ite _ _ _ _ ?_ (NamePres_refl _)
      refine NamePres_trans ?_
        (NamePres_ite _ _ _ _ (NamePres_updateEntry _ _ _ (fun _ => rfl)
          (fun _ => rfl)) (NamePres_refl _))
      refine NamePres_trans ?_
        (NamePres_updateEntry _ _ _ (fun _ => rfl) (fun _ => rfl))
      exact NamePres_foldl _
        (fun (s : SchedState) (a : Nat × AliasInfo) =>
          NamePres_ite s _ _ _ (NamePres_addDepTo s a.1 sid) (NamePres_refl s))
        _ _
    · refine NamePres_trans ?_
        (NamePres_updateEntry _ _ _ (fun _ => rfl) (fun _ => rfl))
      refine NamePres_trans ?_
        (NamePres_ite _ _ _ _ (NamePres_updateEntry _ _ _ (fun _ => rfl)
          (fun _ => rfl)) (NamePres_refl _))
      refine NamePres_ite _ _ _ _ ?_ (NamePres_refl _)
      refine NamePres_trans ?_
        (NamePres_ite _ _ _ _ (NamePres_updateEntry _ _ _ (fun _ => rfl)
          (fun _ => rfl)) (NamePres_refl _))
      refine NamePres_trans ?_
        (NamePres_updateEntry _ _ _ (fun _ => rfl) (fun _ => rfl))
      exact NamePres_foldl _
        (fun (s : SchedState) (a : Nat × AliasInfo) =>
          NamePres_ite s _ _ _ (NamePres_addDepTo s a.1 sid) (NamePres_refl s))
        _ _

theorem NamePres_applyPlacement_post (opts : SchedOptions) (sid : Nat)
    (wsirs : List (String × List Nat)) (st : PlanApplySt)
    (q : PlacementKey × Placement) :
    NamePres (crtState st q) (applyPlacement opts sid wsirs st q).σ := by
  rw [applyPlacement_eq, crtState_eq]
  exact NamePres_applyPlacementRest opts sid wsirs st q.1 q.2 (crtTuple st q).1
    (crtTuple st q).2.1 (crtTuple st q).2.2

theorem C6Inv_applyPlacement (opts : SchedOptions) (sid : Nat)
    (wsirs : List (String × List Nat)) (st : PlanApplySt)
    (q : PlacementKey × Placement)
    (hk : q.2.entry = none → (lookupRi st.σ.ris q.1.ri).isSome = true)
    (hinv : C6Inv st.σ) : C6Inv (applyPlacement opts sid wsirs st q).σ := by
  refine C6Inv_of_NamePres (NamePres_applyPlacement_post opts sid wsirs st q) ?_
  simp only [crtState]
  cases hpe : q.2.entry with
  | some e => exact hinv
  | none => exact C6Inv_createEntrySt st.σ q.1.ri q.1 q.2 (hk hpe) hinv

theorem keys_applyPlacement (opts : SchedOptions) (sid : Nat)
    (wsirs : List (String × List Nat)) (st : PlanApplySt)
    (q : PlacementKey × Placement) (k : String) :
    (lookupRi (applyPlacement opts sid wsirs st q).σ.ris k).isSome =
      (lookupRi st.σ.ris k).isSome := by
  have h := (NamePres_applyPlacement_post opts sid wsirs st q).2.2.2 k
  rw [h]
  simp only [crtState]
  cases hpe : q.2.entry with
  | some e => rfl
  | none => exact createEntrySt_lookup_isSome st.σ q.1.ri q.1 q.2 k

theorem foldl_pred_preserve_mem {S A : Type} (step : S → A → S) (P : S → Prop) :
    ∀ (l : List A), (∀ s, ∀ a ∈ l, P s → P (step s a)) → ∀ s, P s →
      P (l.foldl step s) := by
  intro l
  induction l with
  | nil =>
    intro _ s h
    exact h
  | cons a t ih =>
    intro hstep s h
    exact ih (fun s' a' ha' => hstep s' a' (List.mem_cons_of_mem a ha')) _
      (hstep s a (List.mem_cons_self a t) h)

theorem planModify_keys (plan : PlacementPlan) (k0 : PlacementKey)
    (f : Placement → Placement) (q : PlacementKey × Placement)
    (hq : q ∈ planModify plan k0 f) : ∃ q0 ∈ plan, q.1 = q0.1 := by
  simp only [planModify] at hq
  obtain ⟨q0, hq0, hqe⟩ := List.mem_map.mp hq
  split at hqe
  · exact ⟨q0, hq0, by rw [← hqe]⟩
  · exact ⟨q0, hq0, by rw [← hqe]⟩

theorem TryPlaceInRanges_keys (mb : Nat) (P : String → Prop) :
    ∀ (placements : List (PlacementKey × Placement)) (plan : PlacementPlan)
      (ranges : List MemRange) (plan' : PlacementPlan),
      TryPlaceInRanges mb plan placements ranges = some plan' →
      (∀ q ∈ plan, P q.1.ri) → (∀ pl ∈ placements, P pl.1.ri) →
      ∀ q ∈ plan', P q.1.ri := by
  intro placements
  induction placements with
  | nil =>
    intro plan ranges plan' h hp _ q hq
    simp only [TryPlaceInRanges] at h
    injection h with h
    exact hp q (h ▸ hq)
  | cons pq rest ih =>
    obtain ⟨pkey0, p0⟩ := pq
    intro plan ranges plan' h hp hpl q hq
    simp only [TryPlaceInRanges] at h
    split at h
    · refine ih _ _ _ h ?_ (fun pl hpl' => hpl pl (List.mem_cons_of_mem _ hpl'))
        q hq
      intro q' hq'
      obtain ⟨q0, hq0, he⟩ := planModify_keys _ _ _ q' hq'
      rw [he]
      exact hp q0 hq0
    · split at h
      · exact Option.noConfusion h
      · refine ih _ _ _ h ?_ (fun pl hpl' => hpl pl (List.mem_cons_of_mem _ hpl'))
          q hq
        intro q' hq'
        rcases List.mem_append.mp hq' with h' | h'
        · exact hp _ h'
        · rcases List.mem_singleton.mp h' with rfl
          exact hpl (pkey0, p0) (List.mem_cons_self _ _)

theorem TryMakePlanWithNoSwaps_keys (opts : SchedOptions) (σv : SchedState)
    (P : String → Prop) :
    ∀ (units : List (Affine × List (PlacementKey × Placement)))
      (plan plan' : PlacementPlan),
      TryMakePlanWithNoSwaps opts σv units plan = some plan' →
      (∀ q ∈ plan, P q.1.ri) →
      (∀ u ∈ units, ∀ pl ∈ u.2, P pl.1.ri) →
      ∀ q ∈ plan', P q.1.ri := by
  intro units
  induction units with
  | nil =>
    intro plan plan' h hp _ q hq
    simp only [TryMakePlanWithNoSwaps] at h
    injection h with h
    exact hp q (h ▸ hq)
  | cons u rest ih =>
    obtain ⟨unit, placements⟩ := u
    intro plan plan' h hp hu q hq
    simp only [TryMakePlanWithNoSwaps] at h
    split at h
    · exact Option.noConfusion h
    · rename_i plan2 htp
      refine ih plan2 plan' h ?_
        (fun u' hu' pl hpl => hu u' (List.mem_cons_of_mem _ hu') pl hpl) q hq
      exact TryPlaceInRanges_keys opts.mem_bytes P placements plan _ plan2 htp hp
        (fun pl hpl => hu (unit, placements) (List.mem_cons_self _ _) pl hpl)

theorem TryMakePlanWithSwaps_keys (opts : SchedOptions) (σv : SchedState)
    (P : String → Prop) :
    ∀ (units : List (Affine × List (PlacementKey × Placement)))
      (plan plan' : PlacementPlan),
      TryMakePlanWithSwaps opts σv units plan = some plan' →
      (∀ q ∈ plan, P q.1.ri) →
      (∀ u ∈ units, ∀ pl ∈ u.2, P pl.1.ri) →
      ∀ q ∈ plan', P q.1.ri := by
  intro units
  induction units with
  | nil =>
    intro plan plan' h hp _ q hq
    simp only [TryMakePlanWithSwaps] at h
    injection h with h
    exact hp q (h ▸ hq)
  | cons u rest ih =>
    obtain ⟨unit, placements⟩ := u
    intro plan plan' h hp hu q hq
    simp only [TryMakePlanWithSwaps] at h
    split at h
    · exact Option.noConfusion h
    · rename_i plan2 htp
      refine ih plan2 plan' h ?_
        (fun u' hu' pl hpl => hu u' (List.mem_cons_of_mem _ hu') pl hpl) q hq
      exact TryPlaceInRanges_keys opts.mem_bytes P placements plan _ plan2 htp hp
        (fun pl hpl => hu (unit, placements) (List.mem_cons_self _ _) pl hpl)

theorem fallbackGo_keys (opts : SchedOptions) (σv : SchedState) (P : String → Prop) :
    ∀ (placements : List (PlacementKey × Placement)) (plan : PlacementPlan)
      (offsets : List (Affine × Nat)),
      (∀ q ∈ plan, P q.1.ri) → (∀ pl ∈ placements, P pl.1.ri) →
      ∀ q ∈ (fallbackGo opts σv placements plan offsets).1, P q.1.ri := by
  intro placements
  induction placements with
  | nil =>
    intro plan offsets hp _ q hq
    exact hp q hq
  | cons pq rest ih =>
    obtain ⟨pkey0, p0⟩ := pq
    intro plan offsets hp hpl q hq
    simp only [fallbackGo] at hq
    split at hq
    · refine ih _ _ ?_ (fun pl hpl' => hpl pl (List.mem_cons_of_mem _ hpl')) q hq
      intro q' hq'
      obtain ⟨q0, hq0, he⟩ := planModify_keys _ _ _ q' hq'
      rw [he]
      exact hp q0 hq0
    · refine ih _ _ ?_ (fun pl hpl' => hpl pl (List.mem_cons_of_mem _ hpl')) q hq
      intro q' hq'
      rcases List.mem_append.mp hq' with h' | h'
      · exact hp _ h'
      · rcases List.mem_singleton.mp h' with rfl
        exact hpl (pkey0, p0) (List.mem_cons_self _ _)

theorem TryMakeFallbackPlan_keys (opts : SchedOptions) (σv : SchedState)
    (P : String → Prop) (placements : List (PlacementKey × Placement))
    (plan' : PlacementPlan)
    (h : TryMakeFallbackPlan opts σv placements = some plan')
    (hpl : ∀ pl ∈ placements, P pl.1.ri) :
    ∀ q ∈ plan', P q.1.ri := by
  simp only [TryMakeFallbackPlan] at h
  split at h
  · injection h with h
    subst h
    exact fallbackGo_keys opts σv P placements [] _
      (fun q hq => absurd hq (List.not_mem_nil q)) hpl
  · exact Option.noConfusion h

theorem assocEmplaceUnionDir_mem (l : List (String × RefDir)) (k : String)
    (v : RefDir) (q : String × RefDir) (hq : q ∈ assocEmplaceUnionDir l k v) :
    (∃ q0 ∈ l, q.1 = q0.1) ∨ q.1 = k := by
  simp only [assocEmplaceUnionDir] at hq
  split at hq
  · obtain ⟨q0, h0, he⟩ := List.mem_map.mp hq
    split at he
    · right
      rw [← he]
    · left
      exact ⟨q0, h0, by rw [← he]⟩
  · rcases List.mem_append.mp hq with h | h
    · exact Or.inl ⟨q, h, rfl⟩
    · rcases List.mem_singleton.mp h with rfl
      exact Or.inr rfl

theorem unitAppend_mem {α : Type} (m : List (Affine × List α)) (k : Affine)
    (v : α) (u : Affine × List α) (hu : u ∈ unitAppend m k v) (x : α)
    (hx : x ∈ u.2) : (∃ u0 ∈ m, x ∈ u0.2) ∨ x = v := by
  simp only [unitAppend] at hu
  split at hu
  · obtain ⟨u0, h0, he⟩ := List.mem_map.mp hu
    split at he
    · rw [← he] at hx
      rcases List.mem_append.mp hx with h | h
      · exact Or.inl ⟨u0, h0, h⟩
      · exact Or.inr (List.mem_singleton.mp h)
    · rw [← he] at hx
      exact Or.inl ⟨u0, h0, hx⟩
  · rcases List.mem_append.mp hu with h | h
    · exact Or.inl ⟨u, h, hx⟩
    · rcases List.mem_singleton.mp h with rfl
      exact Or.inr (List.mem_singleton.mp hx)

theorem insertSorted_subset {α : Type} (lt : α → α → Bool) (x : α) :
    ∀ (l : List α) (y : α), y ∈ insertSorted lt x l → y = x ∨ y ∈ l := by
  intro l
  induction l with
  | nil =>
    intro y hy
    exact Or.inl (List.mem_singleton.mp hy)
  | cons z rest ih =>
    intro y hy
    simp only [insertSorted] at hy
    split at hy
    · rcases List.mem_cons.mp hy with rfl | h
      · exact Or.inl rfl
      · exact Or.inr h
    · rcases List.mem_cons.mp hy with rfl | h
      · exact Or.inr (List.mem_cons_self _ _)
      · rcases ih y h with h' | h'
        · exact Or.inl h'
        · exact Or.inr (List.mem_cons_of_mem _ h')

theorem sortByLt_forall {α : Type} (lt : α → α → Bool) (P : α → Prop) :
    ∀ (l acc : List α), (∀ y ∈ acc, P y) → (∀ y ∈ l, P y) →
      ∀ y ∈ l.foldl (fun acc x => insertSorted lt x acc) acc, P y := by
  intro l
  induction l with
  | nil =>
    intro acc hacc _ y hy
    exact hacc y hy
  | cons x rest ih =>
    intro acc hacc hl y hy
    refine ih _ ?_ (fun z hz => hl z (List.mem_cons_of_mem _ hz)) y hy
    intro z hz
    rcases insertSorted_subset lt x acc z hz with rfl | h
    · exact hl z (List.mem_cons_self _ _)
    · exact hacc z h

theorem sortByLt_subset_pred {α : Type} (lt : α → α → Bool) (P : α → Prop)
    (l : List α) (hl : ∀ y ∈ l, P y) : ∀ y ∈ sortByLt lt l, P y :=
  sortByLt_forall lt P l [] (fun y hy => absurd hy (List.not_mem_nil y)) hl

theorem MakeFullPlacements_keys (σv : SchedState) (ios : List IoDesc)
    (P : String → Prop) (h : ∀ io ∈ ios, P io.ri) :
    ∀ pl ∈ MakeFullPlacements σv ios, P pl.1.ri := by
  intro pl hpl
  obtain ⟨io, hio, he⟩ := List.mem_map.mp hpl
  rw [← he]
  exact h io hio

theorem MakePartialPlacements_keys (σv : SchedState) (ios : List IoDesc)
    (P : String → Prop) (h : ∀ io ∈ ios, P io.ri) :
    ∀ pl ∈ MakePartialPlacements σv ios, P pl.1.ri := by
  intro pl hpl
  obtain ⟨io, hio, he⟩ := List.mem_map.mp hpl
  rw [← he]
  exact h io hio

theorem GatherPlacementState_keys (σv : SchedState) (ios : List IoDesc)
    (P : String → Prop) (hios : ∀ io ∈ ios, P io.ri)
    (hnamed : ∀ io ∈ ios, (riGetD σv.ris io.ri).name = io.ri) :
    (∀ q ∈ (GatherPlacementState σv ios).1, P q.1.ri) ∧
    (∀ u ∈ (GatherPlacementState σv ios).2, ∀ io' ∈ u.2, P io'.ri) := by
  have hfold : (∀ q ∈ (ios.foldl (fun (st : PlacementPlan × List (String × RefDir))
      (io : IoDesc) =>
      let pkey := PlacementKey.mk io.ri (σv.riGet io.ri).exterior_cache_shape []
      match planFind st.1 pkey with
      | some _ =>
        (planModify st.1 pkey fun old => { old with dir := UnionDir old.dir io.dir },
          st.2)
      | none =>
        match (σv.riGet io.ri).cache_entry with
        | some e =>
          if ¬(σv.entryGet e).saw_earliest_writer then
            (st.1 ++ [(pkey, Placement.ofEntry io.dir (σv.entryGet e).range e)], st.2)
          else
            (st.1, assocEmplaceUnionDir st.2 io.ri io.dir)
        | none => (st.1, assocEmplaceUnionDir st.2 io.ri io.dir)) ([], [])).1,
        P q.1.ri) ∧
      (∀ kv ∈ (ios.foldl (fun (st : PlacementPlan × List (String × RefDir))
        (io : IoDesc) =>
        let pkey := PlacementKey.mk io.ri (σv.riGet io.ri).exterior_cache_shape []
        match planFind st.1 pkey with
        | some _ =>
          (planModify st.1 pkey fun old => { old with dir := UnionDir old.dir io.dir },
            st.2)
        | none =>
          match (σv.riGet io.ri).cache_entry with
          | some e =>
            if ¬(σv.entryGet e).saw_earliest_writer then
              (st.1 ++ [(pkey, Placement.ofEntry io.dir (σv.entryGet e).range e)], st.2)
            else
              (st.1, assocEmplaceUnionDir st.2 io.ri io.dir)
          | none => (st.1, assocEmplaceUnionDir st.2 io.ri io.dir)) ([], [])).2,
        P kv.1 ∧ (riGetD σv.ris kv.1).name = kv.1) := by
    refine foldl_pred_preserve_mem _
      (fun (st : PlacementPlan × List (String × RefDir)) =>
      (∀ q ∈ st.1, P q.1.ri) ∧
      (∀ kv ∈ st.2, P kv.1 ∧ (riGetD σv.ris kv.1).name = kv.1)) ios ?_ ([], [])
      ⟨fun q hq => absurd hq (List.not_mem_nil q),
        fun kv hkv => absurd hkv (List.not_mem_nil kv)⟩
    intro st io hio ⟨h1, h2⟩
    dsimp only
    split
    · dsimp only
      refine ⟨fun q hq => ?_, h2⟩
      obtain ⟨q0, hq0, he⟩ := planModify_keys _ _ _ q hq
      rw [he]
      exact h1 q0 hq0
    · split
      · split
        · dsimp only
          refine ⟨fun q hq => ?_, h2⟩
          rcases List.mem_append.mp hq with h' | h'
          · exact h1 _ h'
          · rcases List.mem_singleton.mp h' with rfl
            exact hios io hio
        · dsimp only
          refine ⟨h1, fun kv hkv => ?_⟩
          rcases assocEmplaceUnionDir_mem _ _ _ kv hkv with ⟨q0, hq0, he⟩ | he
          · rw [he]
            exact h2 q0 hq0
          · rw [he]
            exact ⟨hios io hio, hnamed io hio⟩
      · dsimp only
        refine ⟨h1, fun kv hkv => ?_⟩
        rcases assocEmplaceUnionDir_mem _ _ _ kv hkv with ⟨q0, hq0, he⟩ | he
        · rw [he]
          exact h2 q0 hq0
        · rw [he]
          exact ⟨hios io hio, hnamed io hio⟩
  refine ⟨hfold.1, ?_⟩
  intro u hu io' hio'
  obtain ⟨p, hp, he⟩ := List.mem_map.mp hu
  rw [← he] at hio'
  have hio'' := sortByLt_subset_pred (todoBefore σv.ris) (fun y => y ∈ p.2) p.2
    (fun y hy => hy) io' hio'
  have htodos : ∀ u0 ∈ ((ios.foldl (fun (st : PlacementPlan × List (String × RefDir))
      (io : IoDesc) =>
      let pkey := PlacementKey.mk io.ri (σv.riGet io.ri).exterior_cache_shape []
      match planFind st.1 pkey with
      | some _ =>
        (planModify st.1 pkey fun old => { old with dir := UnionDir old.dir io.dir },
          st.2)
      | none =>
        match (σv.riGet io.ri).cache_entry with
        | some e =>
          if ¬(σv.entryGet e).saw_earliest_writer then
            (st.1 ++ [(pkey, Placement.ofEntry io.dir (σv.entryGet e).range e)], st.2)
          else
            (st.1, assocEmplaceUnionDir st.2 io.ri io.dir)
        | none => (st.1, assocEmplaceUnionDir st.2 io.ri io.dir)) ([], [])).2.foldl
      (fun m p => unitAppend m (σv.riGet p.1).ref.location.unit
        (IoDesc.ofDir (riGetD σv.ris p.1) p.2)) []),
      ∀ x ∈ u0.2, P x.ri := by
    refine foldl_pred_preserve_mem _
      (fun (m : List (Affine × List IoDesc)) => ∀ u0 ∈ m, ∀ x ∈ u0.2, P x.ri) _ ?_ []
      (fun u0 hu0 => absurd hu0 (List.not_mem_nil u0))
    intro m kv hkv hm u0 hu0 x hx
    rcases unitAppend_mem m _ _ u0 hu0 x hx with ⟨u1, hu1, hx1⟩ | hxv
    · exact hm u1 hu1 x hx1
    · rw [hxv]
      show P (IoDesc.ofDir (riGetD σv.ris kv.1) kv.2).ri
      have hk := hfold.2 kv hkv
      show P (riGetD σv.ris kv.1).name
      rw [hk.2]
      exact hk.1
  exact htodos p hp io' hio''

theorem TryMakePlan_keys (opts : SchedOptions) (σv : SchedState)
    (cur : Option BlockData) (ios : List IoDesc) (plan : PlacementPlan)
    (P : String → Prop) (hios : ∀ io ∈ ios, P io.ri)
    (hnamed : ∀ io ∈ ios, (riGetD σv.ris io.ri).name = io.ri)
    (hplan : TryMakePlan opts σv cur ios = some plan) :
    ∀ q ∈ plan, P q.1.ri := by
  have hgp := GatherPlacementState_keys σv ios P hios hnamed
  have hfulls : ∀ u ∈ (GatherPlacementState σv ios).2.map
      (fun p => (p.1, MakeFullPlacements σv p.2)), ∀ pl ∈ u.2, P pl.1.ri := by
    intro u hu pl hpl
    obtain ⟨p, hp, he⟩ := List.mem_map.mp hu
    rw [← he] at hpl
    exact MakeFullPlacements_keys σv p.2 P (hgp.2 p hp) pl hpl
  have hloops : ∀ u ∈ (GatherPlacementState σv ios).2.map
      (fun p => (p.1, MakePartialPlacements σv p.2)), ∀ pl ∈ u.2, P pl.1.ri := by
    intro u hu pl hpl
    obtain ⟨p, hp, he⟩ := List.mem_map.mp hu
    rw [← he] at hpl
    exact MakePartialPlacements_keys σv p.2 P (hgp.2 p hp) pl hpl
  simp only [TryMakePlan] at hplan
  split at hplan
  · rename_i plan1 h1
    injection hplan with hplan
    subst hplan
    exact TryMakePlanWithNoSwaps_keys opts σv P _ _ _ h1 hgp.1 hfulls
  · split at hplan
    · rename_i plan1 h1
      injection hplan with hplan
      subst hplan
      exact TryMakePlanWithNoSwaps_keys opts σv P _ _ _ h1 hgp.1 hloops
    · split at hplan
      · rename_i plan1 h1
        injection hplan with hplan
        subst hplan
        exact TryMakePlanWithSwaps_keys opts σv P _ _ _ h1 hgp.1 hfulls
      · split at hplan
        · rename_i plan1 h1
          injection hplan with hplan
          subst hplan
          exact TryMakePlanWithSwaps_keys opts σv P _ _ _ h1 hgp.1 hloops
        · split at hplan
          · rename_i plan1 h1
            injection hplan with hplan
            subst hplan
            exact TryMakeFallbackPlan_keys opts σv P _ _ h1
              (MakeFullPlacements_keys σv ios P hios)
          · split at hplan
            · exact TryMakeFallbackPlan_keys opts σv P _ _ hplan
                (MakePartialPlacements_keys σv ios P hios)
            · exact Option.noConfusion hplan

theorem NamePres_spliceActive (σ0 : SchedState) (added : List (Affine × List Nat)) :
    NamePres σ0 (spliceActive σ0 added) := by
  refine NamePres_foldl _ ?_ added σ0
  intro s a
  exact NamePres_setActiveList s a.1 _

theorem NamePres_applyBinder (opts : SchedOptions) (σ0 : SchedState) (sid : Nat)
    (b : StatementBinder) : NamePres σ0 (applyBinder opts σ0 sid b) := by
  cases b with
  | empty => exact NamePres_refl σ0
  | nonBlock updates =>
    refine NamePres_foldl _ ?_ updates σ0
    intro s a
    exact NamePres_updStmt s sid _
  | forBlock updates =>
    refine NamePres_foldl _ ?_ updates σ0
    intro s a
    exact NamePres_updStmt s sid _

theorem NamePres_cacheCleanup (s : SchedState) (p : PlacementKey × Placement) :
    NamePres s (match (s.riGet p.1.ri).cache_entry with
      | some e => if (s.entryGet e).is_internal then
          s.updateRi p.1.ri fun r => { r with cache_entry := none }
        else s
      | none => s) := by
  cases hce : (s.riGet p.1.ri).cache_entry with
  | some e =>
    exact NamePres_ite _ _ _ _
      (NamePres_updateRi _ _ _ (fun _ => rfl) (fun _ => rfl)) (NamePres_refl _)
  | none => exact NamePres_refl _

theorem risNamed_of_mem (ris : List (String × RefInfo))
    (h : ∀ q ∈ ris, q.2.name = q.1) (k : String)
    (hk : (lookupRi ris k).isSome = true) : (riGetD ris k).name = k := by
  cases hfind : ris.find? fun p => p.1 = k with
  | none =>
    simp only [lookupRi, hfind, Option.map_none', Option.isSome_none] at hk
    exact absurd hk (by simp)
  | some q =>
    have hq := List.mem_of_find?_eq_some hfind
    have hq1 : q.1 = k := by simpa using List.find?_some hfind
    simp only [riGetD, lookupRi, hfind, Option.map_some', Option.getD_some]
    rw [h q hq, hq1]

theorem BuildRefInfoMap_named (block : BlockData)
    (amap : List (String × AliasInfo)) :
    ∀ q ∈ BuildRefInfoMap block amap, q.2.name = q.1 := by
  simp only [BuildRefInfoMap]
  refine foldl_pred_preserve _
    (fun (ris : List (String × RefInfo)) => ∀ q ∈ ris, q.2.name = q.1) ?_
    block.stmts _ ?_
  · intro ris stmt h
    refine foldl_pred_preserve _
      (fun (ris : List (String × RefInfo)) => ∀ q ∈ ris, q.2.name = q.1) ?_
      stmt.buffer_writes ris h
    intro ris' w h' q hq
    obtain ⟨q0, hq0, he⟩ := List.mem_map.mp hq
    split at he
    · rw [← he]
      exact h' q0 hq0
    · rw [← he]
      exact h' q0 hq0
  · intro q hq
    obtain ⟨r, hr, he⟩ := List.mem_map.mp hq
    rw [← he]
    rfl

theorem C6Inv_initState (block : BlockData) (amap : List (String × AliasInfo)) :
    C6Inv (initState block amap) := by
  refine ⟨fun k hk => ?_, fun i hi => ?_, fun i j hi _ _ => ?_⟩
  · exact risNamed_of_mem (BuildRefInfoMap block amap)
      (BuildRefInfoMap_named block amap) k hk
  · simp [initState] at hi
  · simp [initState] at hi

theorem C6Inv_scheduleStep (opts : SchedOptions) (σ : SchedState) (sid : Nat)
    (σ' : SchedState)
    (hios : ∀ io ∈ (match σ.stmts.find? fun s => s.sid = sid with
      | some stmt => (gatherIo σ.ris stmt).1
      | none => ([] : List IoDesc)), (lookupRi σ.ris io.ri).isSome = true)
    (hinv : C6Inv σ)
    (hok : scheduleStep opts σ sid = Except.ok σ') : C6Inv σ' := by
  simp only [scheduleStep] at hok
  cases hfind : σ.stmts.find? fun s => s.sid = sid with
  | none =>
    rw [hfind] at hok
    dsimp only at hok
    injection hok with hok
    exact hok ▸ hinv
  | some stmt =>
    rw [hfind] at hok
    rw [hfind] at hios
    dsimp only at hok hios
    have hpresInv := NamePres_invalidatePhase opts σ (succSid σ.stmts sid)
      (gatherIo σ.ris stmt).1
    have hinvV : C6Inv (invalidatePhase opts σ (succSid σ.stmts sid)
        (gatherIo σ.ris stmt).1).1 := C6Inv_of_NamePres hpresInv hinv
    have hiosV : ∀ io ∈ (gatherIo σ.ris stmt).1,
        (lookupRi (invalidatePhase opts σ (succSid σ.stmts sid)
          (gatherIo σ.ris stmt).1).1.ris io.ri).isSome = true := by
      intro io hio
      rw [hpresInv.2.2.2]
      exact hios io hio
    have hnamedV : ∀ io ∈ (gatherIo σ.ris stmt).1,
        (riGetD (invalidatePhase opts σ (succSid σ.stmts sid)
          (gatherIo σ.ris stmt).1).1.ris io.ri).name = io.ri := by
      intro io hio
      exact hinvV.1 io.ri (hiosV io hio)
    cases hplan : TryMakePlan opts (invalidatePhase opts σ (succSid σ.stmts sid)
        (gatherIo σ.ris stmt).1).1 (currentBlockOf stmt) (gatherIo σ.ris stmt).1 with
    | none =>
      rw [hplan] at hok
      exact Except.noConfusion hok
    | some plan =>
      rw [hplan] at hok
      dsimp only at hok
      injection hok with hok
      subst hok
      have hkeys := TryMakePlan_keys opts (invalidatePhase opts σ
          (succSid σ.stmts sid) (gatherIo σ.ris stmt).1).1 (currentBlockOf stmt)
        (gatherIo σ.ris stmt).1 plan
        (fun k => (lookupRi (invalidatePhase opts σ (succSid σ.stmts sid)
          (gatherIo σ.ris stmt).1).1.ris k).isSome = true)
        hiosV hnamedV hplan
      have hfold := foldl_pred_preserve_mem
        (applyPlacement opts sid (invalidatePhase opts σ (succSid σ.stmts sid)
          (gatherIo σ.ris stmt).1).2.2)
        (fun (st : PlanApplySt) => C6Inv st.σ ∧ ∀ k,
          (lookupRi st.σ.ris k).isSome =
            (lookupRi (invalidatePhase opts σ (succSid σ.stmts sid)
              (gatherIo σ.ris stmt).1).1.ris k).isSome)
        plan ?_
        (PlanApplySt.mk (invalidatePhase opts σ (succSid σ.stmts sid)
          (gatherIo σ.ris stmt).1).1 [] [] [])
        ⟨hinvV, fun _ => rfl⟩
      · refine C6Inv_of_NamePres ?_ hfold.1
        refine NamePres_trans ?_
          (NamePres_foldl _ (fun s p => NamePres_cacheCleanup s p) plan _)
        refine NamePres_trans ?_
          (NamePres_ite _ _ _ _ (NamePres_updStmt _ _ _) (NamePres_refl _))
        refine NamePres_trans ?_ (NamePres_applyBinder opts _ sid _)
        exact NamePres_spliceActive _ _
      · intro st q hq hst
        refine ⟨C6Inv_applyPlacement opts sid _ st q ?_ hst.1, fun k => ?_⟩
        · intro _
          rw [hst.2 q.1.ri]
          exact hkeys q hq
        · rw [keys_applyPlacement opts sid _ st q k]
          exact hst.2 k

/-- **C6** (amended).  Cache-entry names have the stated `^`-separated
form with a per-RefInfo counter, and the names created during the pass
are pairwise distinct; but they are only guaranteed distinct from
pre-existing refinement names that contain no `'^'` (see
`C6_counterexample`).  Stated as an invariant: `C6Inv` holds of the
initial scheduler state of every input block, is preserved by every
successful scheduling step whose statement references existing RefInfos,
and implies that every entry name differs from every caret-free
string. -/
theorem C6_entry_names :
    (∀ (block : BlockData) (amap : List (String × AliasInfo)),
      C6Inv (initState block amap)) ∧
    (∀ (opts : SchedOptions) (σ : SchedState) (sid : Nat) (σ' : SchedState),
      (∀ io ∈ (match σ.stmts.find? fun s => s.sid = sid with
        | some stmt => (gatherIo σ.ris stmt).1
        | none => ([] : List IoDesc)),
        (lookupRi σ.ris io.ri).isSome = true) →
      C6Inv σ → scheduleStep opts σ sid = Except.ok σ' → C6Inv σ') ∧
    (∀ σ : SchedState, C6Inv σ → ∀ i, i < σ.entries.length →
      ∀ s : String, (∀ c ∈ s.data, c ≠ '^') → (σ.entryGet i).name ≠ s) := by
  refine ⟨C6Inv_initState, C6Inv_scheduleStep, ?_⟩
  intro σ hinv i hi s hs heq
  obtain ⟨k, hk1, _⟩ := hinv.2.1 i hi
  have hc := entry_name_has_caret (σ.entryGet i).source k
  rw [← hk1, heq] at hc
  exact hs '^' hc rfl

def c6shape : TensorShape := { typeBytes := 1, dims := [TensorDim.mk 4 1] }

def c6ref (n : String) : Refinement :=
  { dir := RefDir.In, from_ := n, into := n, interior_shape := c6shape }

/-- A block that already owns a refinement named `A^0` while also
reading `A`, whose cache entry will be named `A^0`. -/
def c6blk : BlockData :=
  .mk "main" {} [] [c6ref "A", c6ref "A^0"] [.load 0 [] "A" "x"]

def c6amap : List (String × AliasInfo) :=
  [("A", { base_ref := "A", shape := c6shape }),
   ("A^0", { base_ref := "B", shape := c6shape })]

def c6opts : SchedOptions :=
  SchedOptions.ofProto {} 1 0 {} fun _ _ => AliasType.None

/-- **C6, counterexample.**  The claim says created cache-entry names are
distinct from every pre-existing refinement name of the block.  Running
the pass on `c6blk` creates the single cache entry `A^0` (for source `A`,
counter 0), which collides with the block's pre-existing refinement named
`A^0`. -/
theorem C6_counterexample :
    (match runLoop c6opts ((c6blk.stmts.map Stmt.sid).reverse)
        (initState c6blk c6amap) with
      | .ok σ => some (σ.entries.map fun e => e.name)
      | .error _ => none) = some ["A^0"] ∧
    "A^0" ∈ c6blk.refs.map fun r => r.into := by
  constructor
  · decide
  · decide

/-- The state after scheduling `c6blk`'s single statement. -/
def c6step : SchedState :=
  match scheduleStep c6opts (initState c6blk c6amap) 0 with
  | .ok σ => σ
  | .error _ => initState c6blk c6amap

/-- **C6, witness**: the invariant holds of `c6blk`'s initial state and
is carried through its scheduling step by `C6_entry_names`. -/
theorem C6_entry_names_witness :
    C6Inv (initState c6blk c6amap) ∧ C6Inv c6step :=
  ⟨C6_entry_names.1 c6blk c6amap,
   C6_entry_names.2.1 c6opts (initState c6blk c6amap) 0 c6step (by decide)
     (C6_entry_names.1 c6blk c6amap) rfl⟩

/-! ### Claim C1 -/

theorem toSet_subset_listSet {r : MemRange} {l : List MemRange} (h : r ∈ l) :
    r.toSet ⊆ listSet l := by
  intro x hx
  exact ⟨r, h, hx⟩

theorem listSet_subset_of_forall {l1 l2 : List MemRange}
    (h : ∀ x ∈ l1, x.toSet ⊆ listSet l2) : listSet l1 ⊆ listSet l2 := by
  rintro y ⟨r, hr, hyr⟩
  exact h r hr hyr

theorem disjoint_listSet_right {s : Set Nat} {l : List MemRange} :
    Disjoint s (listSet l) ↔ ∀ r ∈ l, Disjoint s r.toSet := by
  constructor
  · intro h r hr
    exact h.mono_right (toSet_subset_listSet hr)
  · intro h
    rw [Set.disjoint_right]
    rintro x ⟨r, hr, hxr⟩
    exact Set.disjoint_right.mp (h r hr) hxr

theorem SubtractRange_subset (sub : MemRange) (l : List MemRange) :
    listSet (SubtractRange sub l) ⊆ listSet l := by
  refine listSet_subset_of_forall ?_
  intro x hx
  obtain ⟨r, hr, h1, h2⟩ := SubtractRange_bounds sub l x hx
  refine Set.Subset.trans ?_ (toSet_subset_listSet hr)
  intro y hy
  simp only [MemRange.toSet, Set.mem_setOf_eq] at hy ⊢
  omega

theorem SubtractRange_disjoint (sub : MemRange) (l : List MemRange)
    (hsub : sub.begin ≤ sub.end_) :
    Disjoint sub.toSet (listSet (SubtractRange sub l)) := by
  rw [SubtractRange_listSet sub hsub l, Set.disjoint_right]
  rintro x ⟨hx1, hx2⟩
  exact hx2

theorem RangesOverlapList_false {r : MemRange} {l : List MemRange}
    (h : RangesOverlapList r l = false) : Disjoint r.toSet (listSet l) := by
  rw [disjoint_listSet_right]
  intro x hx
  have hall := List.any_eq_false.mp h x hx
  exact overlap_false_disjoint (Bool.eq_false_iff.mpr hall)

/-- The affine unit a RefInfo key occupies (`ri->ref.location.unit`). -/
def unitOfRi (σ : SchedState) (s : String) : Affine :=
  (σ.riGet s).ref.location.unit

/-- The memory-budget and live-entry-disjointness invariant of the claim:
every cache entry's range is a valid interval ending at or below
`mem_bytes`, active-list members are entry-store indices, and any two
distinct simultaneously-active entries on the same affine unit have
disjoint uncovered ranges. -/
def C1Inv (M : Nat) (σ : SchedState) : Prop :=
  (∀ i : Nat, (σ.entryGet i).range.begin ≤ (σ.entryGet i).range.end_ ∧
    (σ.entryGet i).range.end_ ≤ M) ∧
  (∀ u : Affine, ∀ i ∈ σ.activeList u, i < σ.entries.length) ∧
  (∀ u : Affine, ∀ i ∈ σ.activeList u, ∀ j ∈ σ.activeList u, i ≠ j →
    Disjoint (listSet (σ.entryGet i).uncovered_ranges)
      (listSet (σ.entryGet j).uncovered_ranges))

theorem entryGet_default (σ : SchedState) (i : Nat) (h : σ.entries.length ≤ i) :
    σ.entryGet i = CacheEntry.make ⟨"", {}, []⟩ {} "" 0 := by
  simp only [SchedState.entryGet]
  exact List.getD_eq_default _ _ h

/-- The state components claim C1 reads: entry count, entry ranges,
uncovered ranges and sources, the active lists, and each RefInfo's name
and underlying refinement. -/
def C1Pres (σ σ' : SchedState) : Prop :=
  σ'.entries.length = σ.entries.length ∧
  (∀ j : Nat, (σ'.entryGet j).range = (σ.entryGet j).range ∧
    (σ'.entryGet j).uncovered_ranges = (σ.entryGet j).uncovered_ranges ∧
    (σ'.entryGet j).source = (σ.entryGet j).source) ∧
  σ'.active = σ.active ∧
  (∀ k : String, (σ'.riGet k).name = (σ.riGet k).name ∧
    (σ'.riGet k).ref = (σ.riGet k).ref)

theorem C1Pres_refl (σ : SchedState) : C1Pres σ σ :=
  ⟨rfl, fun _ => ⟨rfl, rfl, rfl⟩, rfl, fun _ => ⟨rfl, rfl⟩⟩

theorem C1Pres_trans {σ1 σ2 σ3 : SchedState} (h1 : C1Pres σ1 σ2)
    (h2 : C1Pres σ2 σ3) : C1Pres σ1 σ3 := by
  obtain ⟨a1, b1, c1, d1⟩ := h1
  obtain ⟨a2, b2, c2, d2⟩ := h2
  exact ⟨a2.trans a1,
    fun j => ⟨(b2 j).1.trans (b1 j).1, (b2 j).2.1.trans (b1 j).2.1,
      (b2 j).2.2.trans (b1 j).2.2⟩,
    c2.trans c1,
    fun k => ⟨(d2 k).1.trans (d1 k).1, (d2 k).2.trans (d1 k).2⟩⟩

theorem C1Pres_of_same {σ σ' : SchedState} (he : σ'.entries = σ.entries)
    (hr : σ'.ris = σ.ris) (ha : σ'.active = σ.active) : C1Pres σ σ' := by
  refine ⟨by rw [he], fun j => ?_, ha, fun k => ?_⟩
  · rw [entryGet_of_entries_eq σ' σ he j]
    exact ⟨rfl, rfl, rfl⟩
  · show (riGetD σ'.ris k).name = _ ∧ (riGetD σ'.ris k).ref = _
    rw [hr]
    exact ⟨rfl, rfl⟩

theorem activeList_of_active_eq {σ σ' : SchedState} (h : σ'.active = σ.active)
    (u : Affine) : σ'.activeList u = σ.activeList u := by
  simp only [SchedState.activeList, h]

theorem C1Pres_activeList {σ σ' : SchedState} (h : C1Pres σ σ') (u : Affine) :
    σ'.activeList u = σ.activeList u :=
  activeList_of_active_eq h.2.2.1 u

theorem C1Pres_updateEntry (σ : SchedState) (i : Nat) (f : CacheEntry → CacheEntry)
    (hr : ∀ e, (f e).range = e.range)
    (hu : ∀ e, (f e).uncovered_ranges = e.uncovered_ranges)
    (hs : ∀ e, (f e).source = e.source) :
    C1Pres σ (σ.updateEntry i f) := by
  refine ⟨?_, fun j => ⟨?_, ?_, ?_⟩, rfl, fun _ => ⟨rfl, rfl⟩⟩
  · simp [SchedState.updateEntry]
  · exact entryGet_updateEntry_field CacheEntry.range σ i j f hr
  · exact entryGet_updateEntry_field CacheEntry.uncovered_ranges σ i j f hu
  · exact entryGet_updateEntry_field CacheEntry.source σ i j f hs

theorem C1Pres_updateRi (σ : SchedState) (k0 : String) (f : RefInfo → RefInfo)
    (hn : ∀ r, (f r).name = r.name) (hf : ∀ r, (f r).ref = r.ref) :
    C1Pres σ (σ.updateRi k0 f) := by
  refine ⟨rfl, fun _ => ⟨rfl, rfl, rfl⟩, rfl, fun k => ⟨?_, ?_⟩⟩
  · exact riGet_updateRi_field RefInfo.name σ k0 k f hn
  · exact riGet_updateRi_field RefInfo.ref σ k0 k f hf

theorem C1Pres_foldl {A : Type} (step : SchedState → A → SchedState)
    (h : ∀ s a, C1Pres s (step s a)) (l : List A) (σ : SchedState) :
    C1Pres σ (l.foldl step σ) :=
  foldl_pred_preserve step (C1Pres σ) (fun s a hp => C1Pres_trans hp (h s a)) l σ
    (C1Pres_refl σ)

theorem C1Pres_addDepTo (σ : SchedState) (sid dep : Nat) :
    C1Pres σ (σ.addDepTo sid dep) := C1Pres_of_same rfl rfl rfl

theorem C1Pres_updStmt (σ : SchedState) (sid : Nat) (f : Stmt → Stmt) :
    C1Pres σ (σ.updStmt sid f) := C1Pres_of_same rfl rfl rfl

theorem C1Pres_ite (σ : SchedState) (c : Prop) [Decidable c] (a b : SchedState)
    (ha : C1Pres σ a) (hb : C1Pres σ b) : C1Pres σ (if c then a else b) := by
  split
  · exact ha
  · exact hb

theorem C1Pres_ScheduleSwapIn (opts : SchedOptions) (σ : SchedState)
    (si : Option Nat) (eidx : Nat) :
    C1Pres σ (ScheduleSwapIn opts σ si eidx).1 := by
  show C1Pres σ ((swapInPost opts σ si eidx).updateEntry eidx
    (fun e => { e with saw_earliest_writer := true }))
  refine C1Pres_trans ?_
    (C1Pres_updateEntry _ _ _ (fun _ => rfl) (fun _ => rfl) (fun _ => rfl))
  show C1Pres σ ((σ.entryGet eidx).readers.foldl
    (fun t p => t.addDepTo p.1 σ.nextSid) (swapInPre opts σ si eidx))
  refine C1Pres_trans ?_
    (C1Pres_foldl _ (fun (s : SchedState) (a : Nat × AliasInfo) =>
      C1Pres_addDepTo s a.1 σ.nextSid) _ _)
  show C1Pres σ (((swapInMid opts σ si eidx).updateEntry eidx fun e =>
    { e with
      writers := emplaceAliasMapEntry e.writers σ.nextSid
        (σ.riGet (σ.entryGet eidx).source).alias_info }).updateRi
    (σ.entryGet eidx).source fun r =>
    { r with swap_in_readers := r.swap_in_readers ++ [σ.nextSid] })
  refine C1Pres_trans ?_ (C1Pres_updateRi _ _ _ (fun _ => rfl) (fun _ => rfl))
  refine C1Pres_trans ?_
    (C1Pres_updateEntry _ _ _ (fun _ => rfl) (fun _ => rfl) (fun _ => rfl))
  exact C1Pres_trans
    (C1Pres_updateRi ({ σ with nextSid := σ.nextSid + 1 })
      (σ.entryGet eidx).source (fun r => { r with used := true })
      (fun _ => rfl) (fun _ => rfl))
    (C1Pres_of_same rfl rfl rfl)

theorem C1Pres_ScheduleSwapOut (opts : SchedOptions) (σ : SchedState)
    (si : Option Nat) (eidx : Nat) (rs : List Nat) :
    C1Pres σ (ScheduleSwapOut opts σ si eidx rs).1 := by
  show C1Pres σ ((rs.foldl (fun (t : SchedState) (r : Nat) => t.addDepTo r σ.nextSid)
    ({ ({ σ with nextSid := σ.nextSid + 1 } : SchedState).updateRi
        (σ.entryGet eidx).source (fun r => { r with used := true }) with
      stmts := insertBefore (({ σ with nextSid := σ.nextSid + 1 } : SchedState).updateRi
        (σ.entryGet eidx).source fun r => { r with used := true }).stmts si
        (mkSwapOutBlock opts (σ.riGet (σ.entryGet eidx).source) (σ.entryGet eidx)
          σ.nextSid) })).updateRi
    (σ.entryGet eidx).source fun r => { r with saw_final_write := true })
  refine C1Pres_trans ?_ (C1Pres_updateRi _ _ _ (fun _ => rfl) (fun _ => rfl))
  refine C1Pres_trans ?_
    (C1Pres_foldl _ (fun (s : SchedState) (a : Nat) =>
      C1Pres_addDepTo s a σ.nextSid) _ _)
  exact C1Pres_trans
    (C1Pres_updateRi ({ σ with nextSid := σ.nextSid + 1 })
      (σ.entryGet eidx).source (fun r => { r with used := true })
      (fun _ => rfl) (fun _ => rfl))
    (C1Pres_of_same rfl rfl rfl)

theorem C1Pres_AddSubblockSwapIn (opts : SchedOptions) (σ : SchedState)
    (blockSid eidx : Nat) (n : String) (access : List Affine) :
    C1Pres σ (AddSubblockSwapIn opts σ blockSid eidx n access) :=
  C1Pres_of_same rfl rfl rfl

theorem C1Pres_AddSubblockSwapOut (opts : SchedOptions) (σ : SchedState)
    (blockSid eidx : Nat) (n : String) (access : List Affine) :
    C1Pres σ (AddSubblockSwapOut opts σ blockSid eidx n access) :=
  C1Pres_of_same rfl rfl rfl

theorem C1Pres_invalidateAlias (opts : SchedOptions) (riKey : String)
    (σ0 : SchedState) (st : SchedState × Option Nat × List Nat) (ak : String)
    (h : C1Pres σ0 st.1) :
    C1Pres σ0 (invalidateAlias opts riKey st ak).1 := by
  simp only [invalidateAlias]
  split
  · dsimp only
    split
    · split
      · exact C1Pres_trans h (C1Pres_trans (C1Pres_ScheduleSwapIn _ _ _ _)
          (C1Pres_updateRi _ _ _ (fun _ => rfl) (fun _ => rfl)))
      · exact h
    · exact h
  · exact h

theorem C1Pres_invalidatePhase (opts : SchedOptions) (σ : SchedState)
    (si : Option Nat) (ios : List IoDesc) :
    C1Pres σ (invalidatePhase opts σ si ios).1 := by
  refine foldl_pred_preserve _
    (fun (st : SchedState × Option Nat × List (String × List Nat)) =>
      C1Pres σ st.1) ?_ ios (σ, si, []) (C1Pres_refl σ)
  intro st io hst
  dsimp only
  split
  · exact foldl_pred_preserve _
      (fun (t : SchedState × Option Nat × List Nat) => C1Pres σ t.1)
      (fun t a ht => C1Pres_invalidateAlias opts io.ri σ t a ht)
      (aliasKeysOf st.1 io.ri) (st.1, st.2.1, wsirsGet st.2.2 io.ri) hst
  · exact hst

theorem C1Pres_applyBinder (opts : SchedOptions) (σ0 : SchedState) (sid : Nat)
    (b : StatementBinder) : C1Pres σ0 (applyBinder opts σ0 sid b) := by
  cases b with
  | empty => exact C1Pres_refl σ0
  | nonBlock updates =>
    refine C1Pres_foldl _ ?_ updates σ0
    intro s a
    exact C1Pres_updStmt s sid _
  | forBlock updates =>
    refine C1Pres_foldl _ ?_ updates σ0
    intro s a
    exact C1Pres_updStmt s sid _

theorem C1Pres_cacheCleanup (s : SchedState) (p : PlacementKey × Placement) :
    C1Pres s (match (s.riGet p.1.ri).cache_entry with
      | some e => if (s.entryGet e).is_internal then
          s.updateRi p.1.ri fun r => { r with cache_entry := none }
        else s
      | none => s) := by
  cases hce : (s.riGet p.1.ri).cache_entry with
  | some e =>
    exact C1Pres_ite _ _ _ _
      (C1Pres_updateRi _ _ _ (fun _ => rfl) (fun _ => rfl)) (C1Pres_refl _)
  | none => exact C1Pres_refl _

theorem find?_append_cases {α : Type} (p : α → Bool) (l1 l2 : List α) :
    (l1 ++ l2).find? p = (match l1.find? p with
      | some a => some a
      | none => l2.find? p) := by
  induction l1 with
  | nil => rfl
  | cons a t ih =>
    by_cases hp : p a
    · simp [List.find?_cons_of_pos _ hp]
    · simp only [List.cons_append, List.find?_cons_of_neg _ hp, ih]

theorem find?_map_key_update {β : Type} (l : List (Affine × β)) (u : Affine)
    (v : β) :
    (l.map fun p => if p.1 = u then (u, v) else p).find? (fun p => p.1 = u) =
      if l.any (fun p => p.1 = u) then some (u, v) else none := by
  induction l with
  | nil => rfl
  | cons q t ih =>
    by_cases hq : q.1 = u
    · simp only [List.map_cons, if_pos hq]
      rw [List.find?_cons_of_pos _ (by simp)]
      simp [hq]
    · simp only [List.map_cons, if_neg hq]
      rw [List.find?_cons_of_neg _ (by simp [hq]), ih]
      by_cases ht : (t.any fun p => decide (p.1 = u)) = true
      · rw [if_pos ht, if_pos (by
          simp only [List.any_cons, Bool.or_eq_true]
          exact Or.inr ht)]
      · rw [if_neg ht, if_neg ?_]
        simp only [List.any_cons, Bool.or_eq_true, decide_eq_true_eq]
        rintro (h | h)
        · exact hq h
        · exact ht h

theorem find?_map_key_other {β : Type} (l : List (Affine × β)) (u u' : Affine)
    (v : β) (hne : u' ≠ u) :
    (l.map fun p => if p.1 = u then (u, v) else p).find? (fun p => p.1 = u') =
      l.find? (fun p => p.1 = u') := by
  induction l with
  | nil => rfl
  | cons q t ih =>
    by_cases hq : q.1 = u
    · have hq' : ¬(q.1 = u') := by
        rw [hq]
        exact Ne.symm hne
      simp only [List.map_cons, if_pos hq]
      rw [List.find?_cons_of_neg _
          (by simp only [decide_eq_true_eq]; exact Ne.symm hne),
        List.find?_cons_of_neg _ (by simp [hq']), ih]
    · simp only [List.map_cons, if_neg hq]
      by_cases hq' : q.1 = u'
      · rw [List.find?_cons_of_pos _ (by simp [hq']),
          List.find?_cons_of_pos _ (by simp [hq'])]
      · rw [List.find?_cons_of_neg _ (by simp [hq']),
          List.find?_cons_of_neg _ (by simp [hq']), ih]

theorem activeList_setActiveList_self (σ : SchedState) (u : Affine)
    (l : List Nat) : (σ.setActiveList u l).activeList u = l := by
  simp only [SchedState.setActiveList, SchedState.activeList]
  split
  · rename_i hany
    rw [show ({ σ with active := σ.active.map fun p =>
        if p.1 = u then (u, l) else p } : SchedState).active =
      σ.active.map fun p => if p.1 = u then (u, l) else p from rfl]
    rw [find?_map_key_update, if_pos hany]
    rfl
  · rename_i hany
    have hfn : σ.active.find? (fun p => p.1 = u) = none := by
      rw [List.find?_eq_none]
      intro p hp hpu
      exact hany (List.any_eq_true.mpr ⟨p, hp, hpu⟩)
    rw [show ({ σ with active := σ.active ++ [(u, l)] } : SchedState).active =
      σ.active ++ [(u, l)] from rfl]
    rw [find?_append_cases, hfn]
    rw [List.find?_cons_of_pos _ (by simp)]
    rfl

theorem activeList_setActiveList_ne (σ : SchedState) (u u' : Affine)
    (l : List Nat) (hne : u' ≠ u) :
    (σ.setActiveList u l).activeList u' = σ.activeList u' := by
  simp only [SchedState.setActiveList, SchedState.activeList]
  split
  · rw [show ({ σ with active := σ.active.map fun p =>
        if p.1 = u then (u, l) else p } : SchedState).active =
      σ.active.map fun p => if p.1 = u then (u, l) else p from rfl]
    rw [find?_map_key_other _ _ _ _ hne]
  · rw [show ({ σ with active := σ.active ++ [(u, l)] } : SchedState).active =
      σ.active ++ [(u, l)] from rfl]
    rw [find?_append_cases]
    cases hf : σ.active.find? fun p => p.1 = u' with
    | some q => rfl
    | none =>
      dsimp only
      rw [List.find?_cons_of_neg _
        (by simp only [decide_eq_true_eq]; exact Ne.symm hne), List.find?_nil]

theorem setActiveList_entries (σ : SchedState) (u : Affine) (l : List Nat) :
    (σ.setActiveList u l).entries = σ.entries := by
  simp only [SchedState.setActiveList]
  split <;> rfl

theorem setActiveList_ris (σ : SchedState) (u : Affine) (l : List Nat) :
    (σ.setActiveList u l).ris = σ.ris := by
  simp only [SchedState.setActiveList]
  split <;> rfl

/-! The conflict-resolution step (schedule.cc:939-982), decomposed into
its stages for the new-entry branch. -/

def cfStage1 (opts : SchedOptions) (rd : Nat) (σ : SchedState) (fidx : Nat) :
    SchedState :=
  if ¬(σ.entryGet fidx).saw_earliest_writer then
    (ScheduleSwapIn opts σ (succSid σ.stmts rd) fidx).1
  else σ

def cfStage2 (opts : SchedOptions) (rd : Nat) (σ : SchedState) (fidx : Nat) :
    SchedState :=
  ((cfStage1 opts rd σ fidx).entryGet fidx).writers.foldl
    (fun t p => t.addDepTo p.1 rd) (cfStage1 opts rd σ fidx)

def cfStage3 (opts : SchedOptions) (rd : Nat) (er : MemRange) (σ : SchedState)
    (fidx : Nat) : SchedState :=
  (cfStage2 opts rd σ fidx).updateEntry fidx fun e =>
    { e with uncovered_ranges := SubtractRange er e.uncovered_ranges }

def cfStage4 (opts : SchedOptions) (rd : Nat) (er : MemRange) (u : Affine)
    (σ : SchedState) (fidx : Nat) : SchedState :=
  if ((cfStage3 opts rd er σ fidx).entryGet fidx).uncovered_ranges.isEmpty then
    (cfStage3 opts rd er σ fidx).setActiveList u
      (((cfStage3 opts rd er σ fidx).activeList u).filter fun i => ¬(i = fidx))
  else cfStage3 opts rd er σ fidx

def cfStage5 (opts : SchedOptions) (rd : Nat) (er : MemRange) (u : Affine)
    (σ : SchedState) (fidx : Nat) : SchedState :=
  if ((cfStage4 opts rd er u σ fidx).riGet
      ((cfStage4 opts rd er u σ fidx).entryGet fidx).source).cache_entry
      = some fidx then
    (cfStage4 opts rd er u σ fidx).updateRi
      ((cfStage4 opts rd er u σ fidx).entryGet fidx).source
      fun r => { r with cache_entry := none }
  else cfStage4 opts rd er u σ fidx

def cfInner (isn : Bool) (opts : SchedOptions) (rd : Nat) (er : MemRange)
    (u : Affine) (σ : SchedState) (fidx : Nat) : SchedState :=
  if isn then cfStage5 opts rd er u σ fidx else σ

theorem conflictStep_eq (opts : SchedOptions) (rd entIdx : Nat) (er : MemRange)
    (isn : Bool) (u : Affine) (σ : SchedState) (fidx : Nat) :
    conflictStep opts rd entIdx er isn u σ fidx =
      if fidx = entIdx ∨ ¬RangesOverlapList er (σ.entryGet fidx).uncovered_ranges
      then σ
      else ((cfInner isn opts rd er u σ fidx).entryGet fidx).writers.foldl
        (fun t p => t.addDepTo p.1 rd) (cfInner isn opts rd er u σ fidx) := rfl

/-- Per-conflict-step preservation: entry count, ranges and sources are
unchanged, only the processed entry's uncovered ranges change (and only
by shrinking), RefInfo names and refs are unchanged, and active lists
only lose members. -/
def CStepPres (fidx : Nat) (σ σ' : SchedState) : Prop :=
  σ'.entries.length = σ.entries.length ∧
  (∀ j : Nat, (σ'.entryGet j).range = (σ.entryGet j).range ∧
    (σ'.entryGet j).source = (σ.entryGet j).source) ∧
  (∀ j : Nat, j ≠ fidx →
    (σ'.entryGet j).uncovered_ranges = (σ.entryGet j).uncovered_ranges) ∧
  listSet (σ'.entryGet fidx).uncovered_ranges ⊆
    listSet (σ.entryGet fidx).uncovered_ranges ∧
  (∀ k : String, (σ'.riGet k).name = (σ.riGet k).name ∧
    (σ'.riGet k).ref = (σ.riGet k).ref) ∧
  (∀ u' : Affine, ∀ i : Nat, i ∈ σ'.activeList u' → i ∈ σ.activeList u')

theorem CStepPres_of_C1Pres {fidx : Nat} {σ σ' : SchedState} (h : C1Pres σ σ') :
    CStepPres fidx σ σ' := by
  obtain ⟨hlen, hent, hact, hri⟩ := h
  refine ⟨hlen, fun j => ⟨(hent j).1, (hent j).2.2⟩,
    fun j _ => (hent j).2.1, ?_, hri, fun u' i hi => ?_⟩
  · rw [(hent fidx).2.1]
  · rwa [activeList_of_active_eq hact u'] at hi

theorem CStepPres_trans {fidx : Nat} {σ1 σ2 σ3 : SchedState}
    (h1 : CStepPres fidx σ1 σ2) (h2 : CStepPres fidx σ2 σ3) :
    CStepPres fidx σ1 σ3 := by
  obtain ⟨a1, b1, c1, d1, e1, f1⟩ := h1
  obtain ⟨a2, b2, c2, d2, e2, f2⟩ := h2
  exact ⟨a2.trans a1,
    fun j => ⟨(b2 j).1.trans (b1 j).1, (b2 j).2.trans (b1 j).2⟩,
    fun j hj => (c2 j hj).trans (c1 j hj),
    Set.Subset.trans d2 d1,
    fun k => ⟨(e2 k).1.trans (e1 k).1, (e2 k).2.trans (e1 k).2⟩,
    fun u' i hi => f1 u' i (f2 u' i hi)⟩

theorem C1Pres_cfStage1 (opts : SchedOptions) (rd : Nat) (σ : SchedState)
    (fidx : Nat) : C1Pres σ (cfStage1 opts rd σ fidx) :=
  C1Pres_ite σ _ _ _ (C1Pres_ScheduleSwapIn _ _ _ _) (C1Pres_refl σ)

theorem C1Pres_cfStage2 (opts : SchedOptions) (rd : Nat) (σ : SchedState)
    (fidx : Nat) : C1Pres σ (cfStage2 opts rd σ fidx) :=
  C1Pres_trans (C1Pres_cfStage1 opts rd σ fidx)
    (C1Pres_foldl _ (fun (s : SchedState) (a : Nat × AliasInfo) =>
      C1Pres_addDepTo s a.1 rd) _ _)

theorem CStepPres_cfStage3 (opts : SchedOptions) (rd : Nat) (er : MemRange)
    (σ : SchedState) (fidx : Nat) :
    CStepPres fidx σ (cfStage3 opts rd er σ fidx) := by
  refine CStepPres_trans
    (CStepPres_of_C1Pres (C1Pres_cfStage2 opts rd σ fidx)) ?_
  refine ⟨by simp [cfStage3, SchedState.updateEntry], fun j => ⟨?_, ?_⟩,
    fun j hj => ?_, ?_, fun _ => ⟨rfl, rfl⟩, fun u' i hi => hi⟩
  · exact entryGet_updateEntry_field CacheEntry.range _ fidx j _ (fun _ => rfl)
  · exact entryGet_updateEntry_field CacheEntry.source _ fidx j _ (fun _ => rfl)
  · rw [show cfStage3 opts rd er σ fidx =
      (cfStage2 opts rd σ fidx).updateEntry fidx (fun e =>
        { e with uncovered_ranges := SubtractRange er e.uncovered_ranges })
      from rfl]
    rw [entryGet_updateEntry_ne _ fidx j _ (Ne.symm hj)]
  · by_cases hlt : fidx < (cfStage2 opts rd σ fidx).entries.length
    · rw [show cfStage3 opts rd er σ fidx =
        (cfStage2 opts rd σ fidx).updateEntry fidx (fun e =>
          { e with uncovered_ranges := SubtractRange er e.uncovered_ranges })
        from rfl]
      rw [entryGet_updateEntry_self _ fidx _ hlt]
      exact SubtractRange_subset er _
    · have heq : (cfStage3 opts rd er σ fidx).entryGet fidx =
          (cfStage2 opts rd σ fidx).entryGet fidx := by
        simp only [cfStage3, SchedState.updateEntry, SchedState.entryGet]
        rw [List.set_eq_of_length_le (Nat.le_of_not_lt hlt)]
      rw [heq]

theorem CStepPres_setActiveList_filter (τ : SchedState) (u : Affine)
    (fidx : Nat) (p : Nat → Bool) :
    CStepPres fidx τ (τ.setActiveList u ((τ.activeList u).filter p)) := by
  have hents := setActiveList_entries τ u ((τ.activeList u).filter p)
  have hris := setActiveList_ris τ u ((τ.activeList u).filter p)
  refine ⟨by rw [hents], fun j => ?_, fun j hj => ?_, ?_, fun k => ?_,
    fun u' i hi => ?_⟩
  · rw [entryGet_of_entries_eq _ _ hents j]
    exact ⟨rfl, rfl⟩
  · rw [entryGet_of_entries_eq _ _ hents j]
  · rw [entryGet_of_entries_eq _ _ hents fidx]
  · show (riGetD _ k).name = _ ∧ (riGetD _ k).ref = _
    rw [hris]
    exact ⟨rfl, rfl⟩
  · by_cases hu : u' = u
    · subst hu
      rw [activeList_setActiveList_self] at hi
      exact (List.mem_filter.mp hi).1
    · rwa [activeList_setActiveList_ne _ _ _ _ hu] at hi

theorem CStepPres_cfStage4 (opts : SchedOptions) (rd : Nat) (er : MemRange)
    (u : Affine) (σ : SchedState) (fidx : Nat) :
    CStepPres fidx σ (cfStage4 opts rd er u σ fidx) := by
  refine CStepPres_trans (CStepPres_cfStage3 opts rd er σ fidx) ?_
  simp only [cfStage4]
  split
  · exact CStepPres_setActiveList_filter _ u fidx _
  · exact CStepPres_of_C1Pres (C1Pres_refl _)

theorem CStepPres_cfStage5 (opts : SchedOptions) (rd : Nat) (er : MemRange)
    (u : Affine) (σ : SchedState) (fidx : Nat) :
    CStepPres fidx σ (cfStage5 opts rd er u σ fidx) := by
  refine CStepPres_trans (CStepPres_cfStage4 opts rd er u σ fidx) ?_
  simp only [cfStage5]
  split
  · exact CStepPres_of_C1Pres
      (C1Pres_updateRi _ _ _ (fun _ => rfl) (fun _ => rfl))
  · exact CStepPres_of_C1Pres (C1Pres_refl _)

theorem conflictStep_CStepPres (opts : SchedOptions) (rd entIdx : Nat)
    (er : MemRange) (isn : Bool) (u : Affine) (σ : SchedState) (fidx : Nat) :
    CStepPres fidx σ (conflictStep opts rd entIdx er isn u σ fidx) := by
  rw [conflictStep_eq]
  split
  · exact CStepPres_of_C1Pres (C1Pres_refl σ)
  · refine CStepPres_trans ?_ (CStepPres_of_C1Pres
      (C1Pres_foldl _ (fun (s : SchedState) (a : Nat × AliasInfo) =>
        C1Pres_addDepTo s a.1 rd) _ _))
    cases isn with
    | true => exact CStepPres_cfStage5 opts rd er u σ fidx
    | false => exact CStepPres_of_C1Pres (C1Pres_refl σ)

theorem conflictStep_disjoint (opts : SchedOptions) (rd entIdx : Nat)
    (er : MemRange) (u : Affine) (σ : SchedState) (fidx : Nat)
    (hval : er.begin ≤ er.end_) (hne : fidx ≠ entIdx) :
    Disjoint er.toSet
      (listSet ((conflictStep opts rd entIdx er true u σ
        fidx).entryGet fidx).uncovered_ranges) := by
  rw [conflictStep_eq]
  split
  · rename_i hg
    rcases hg with hg | hg
    · exact absurd hg hne
    · exact RangesOverlapList_false (Bool.eq_false_iff.mpr hg)
  · rename_i hg
    have hov : RangesOverlapList er (σ.entryGet fidx).uncovered_ranges = true := by
      by_contra hc
      exact hg (Or.inr hc)
    have hlt : fidx < σ.entries.length := by
      by_contra hge
      rw [entryGet_default σ fidx (Nat.le_of_not_lt hge)] at hov
      simp [CacheEntry.make, RangesOverlapList, RangesOverlap] at hov
    have hfp := C1Pres_foldl (fun (t : SchedState) (p : Nat × AliasInfo) =>
        t.addDepTo p.1 rd)
      (fun s a => C1Pres_addDepTo s a.1 rd)
      ((cfInner true opts rd er u σ fidx).entryGet fidx).writers
      (cfInner true opts rd er u σ fidx)
    rw [(hfp.2.1 fidx).2.1]
    rw [show cfInner true opts rd er u σ fidx = cfStage5 opts rd er u σ fidx
      from rfl]
    have h5 : ((cfStage5 opts rd er u σ fidx).entryGet fidx).uncovered_ranges =
        ((cfStage4 opts rd er u σ fidx).entryGet fidx).uncovered_ranges := by
      simp only [cfStage5]
      split <;> rfl
    have h4 : ((cfStage4 opts rd er u σ fidx).entryGet fidx).uncovered_ranges =
        ((cfStage3 opts rd er σ fidx).entryGet fidx).uncovered_ranges := by
      simp only [cfStage4]
      split
      · rw [entryGet_of_entries_eq _ _ (setActiveList_entries _ _ _) fidx]
      · rfl
    have hlt2 : fidx < (cfStage2 opts rd σ fidx).entries.length := by
      rw [(C1Pres_cfStage2 opts rd σ fidx).1]
      exact hlt
    have h3 : ((cfStage3 opts rd er σ fidx).entryGet fidx).uncovered_ranges =
        SubtractRange er
          ((cfStage2 opts rd σ fidx).entryGet fidx).uncovered_ranges := by
      rw [show cfStage3 opts rd er σ fidx =
        (cfStage2 opts rd σ fidx).updateEntry fidx (fun e =>
          { e with uncovered_ranges := SubtractRange er e.uncovered_ranges })
        from rfl]
      rw [entryGet_updateEntry_self _ fidx _ hlt2]
    have h2 : ((cfStage2 opts rd σ fidx).entryGet fidx).uncovered_ranges =
        (σ.entryGet fidx).uncovered_ranges :=
      ((C1Pres_cfStage2 opts rd σ fidx).2.1 fidx).2.1
    rw [h5, h4, h3, h2]
    exact SubtractRange_disjoint er _ hval

/-- Aggregate preservation facts of the conflict-resolution fold over a
captured active list `L`. -/
def CFoldPres (L : List Nat) (σ σ' : SchedState) : Prop :=
  σ'.entries.length = σ.entries.length ∧
  (∀ j : Nat, (σ'.entryGet j).range = (σ.entryGet j).range ∧
    (σ'.entryGet j).source = (σ.entryGet j).source) ∧
  (∀ j : Nat, listSet (σ'.entryGet j).uncovered_ranges ⊆
    listSet (σ.entryGet j).uncovered_ranges) ∧
  (∀ j : Nat, j ∉ L →
    (σ'.entryGet j).uncovered_ranges = (σ.entryGet j).uncovered_ranges) ∧
  (∀ k : String, (σ'.riGet k).name = (σ.riGet k).name ∧
    (σ'.riGet k).ref = (σ.riGet k).ref) ∧
  (∀ u' : Affine, ∀ i : Nat, i ∈ σ'.activeList u' → i ∈ σ.activeList u')

theorem conflictFold_pres (opts : SchedOptions) (rd entIdx : Nat)
    (er : MemRange) (isn : Bool) (u : Affine) :
    ∀ (L : List Nat) (σ : SchedState),
      CFoldPres L σ (L.foldl (conflictStep opts rd entIdx er isn u) σ) := by
  intro L
  induction L with
  | nil =>
    intro σ
    exact ⟨rfl, fun _ => ⟨rfl, rfl⟩, fun _ => Set.Subset.refl _,
      fun _ _ => rfl, fun _ => ⟨rfl, rfl⟩, fun _ _ hi => hi⟩
  | cons f rest ih =>
    intro σ
    simp only [List.foldl_cons]
    obtain ⟨a1, b1, c1, d1, e1, f1⟩ :=
      conflictStep_CStepPres opts rd entIdx er isn u σ f
    obtain ⟨a2, b2, c2, d2, e2, f2⟩ :=
      ih (conflictStep opts rd entIdx er isn u σ f)
    refine ⟨a2.trans a1,
      fun j => ⟨(b2 j).1.trans (b1 j).1, (b2 j).2.trans (b1 j).2⟩,
      fun j => ?_, fun j hj => ?_,
      fun k => ⟨(e2 k).1.trans (e1 k).1, (e2 k).2.trans (e1 k).2⟩,
      fun u' i hi => f1 u' i (f2 u' i hi)⟩
    · by_cases hjf : j = f
      · subst hjf
        exact Set.Subset.trans (c2 j) d1
      · have hc := c2 j
        rw [c1 j hjf] at hc
        exact hc
    · have hjf : j ≠ f := fun h => hj (h ▸ List.mem_cons_self f rest)
      have hjr : j ∉ rest := fun h => hj (List.mem_cons_of_mem f h)
      rw [d2 j hjr, c1 j hjf]

theorem conflictFold_disjoint (opts : SchedOptions) (rd entIdx : Nat)
    (er : MemRange) (u : Affine) (hval : er.begin ≤ er.end_) :
    ∀ (L : List Nat) (σ : SchedState), ∀ fidx ∈ L, fidx ≠ entIdx →
      Disjoint er.toSet
        (listSet ((L.foldl (conflictStep opts rd entIdx er true u)
          σ).entryGet fidx).uncovered_ranges) := by
  intro L
  induction L with
  | nil =>
    intro σ fidx h
    exact absurd h (List.not_mem_nil _)
  | cons f rest ih =>
    intro σ fidx hmem hne
    simp only [List.foldl_cons]
    rcases List.mem_cons.mp hmem with rfl | hmem'
    · have hstep := conflictStep_disjoint opts rd entIdx er u σ fidx hval hne
      have hsub := (conflictFold_pres opts rd entIdx er true u rest
        (conflictStep opts rd entIdx er true u σ fidx)).2.2.1 fidx
      exact hstep.mono_right hsub
    · exact ih _ fidx hmem' hne

theorem findBestRangeGo_post (size : Nat) (Q : Nat → Prop) :
    ∀ (l : List MemRange) (i0 : Nat) (acc : Option Nat) (bw : Nat),
      (∀ j, acc = some j → Q j) →
      (∀ k, k < l.length → size ≤ (l.getD k {}).size → Q (i0 + k)) →
      ∀ j, findBestRangeGo size l i0 acc bw = some j → Q j := by
  intro l
  induction l with
  | nil =>
    intro i0 acc bw hacc _ j h
    exact hacc j h
  | cons r rest ih =>
    intro i0 acc bw hacc hk j h
    have hshift : ∀ k, k < rest.length → size ≤ (rest.getD k {}).size →
        Q (i0 + 1 + k) := by
      intro k hkl hks
      have h2 := hk (k + 1) (Nat.succ_lt_succ hkl)
        (by rwa [List.getD_cons_succ])
      rwa [show i0 + (k + 1) = i0 + 1 + k from by omega] at h2
    simp only [findBestRangeGo] at h
    by_cases hrs : r.size < size
    · rw [if_pos hrs] at h
      exact ih (i0 + 1) acc bw hacc hshift j h
    · rw [if_neg hrs] at h
      by_cases hbw : bw ≤ r.size - size
      · rw [if_pos hbw] at h
        exact ih (i0 + 1) acc bw hacc hshift j h
      · rw [if_neg hbw] at h
        refine ih (i0 + 1) (some i0) _ ?_ hshift j h
        intro j' hj'
        injection hj' with hj'
        subst hj'
        have h0 := hk 0 (Nat.succ_pos _)
          (by rw [List.getD_cons_zero]; exact Nat.le_of_not_lt hrs)
        simpa using h0

theorem findBestRange_post (mb : Nat) (ranges : List MemRange) (size i : Nat)
    (h : findBestRange mb ranges size = some i) :
    i < ranges.length ∧ size ≤ (ranges.getD i {}).size := by
  refine findBestRangeGo_post size
    (fun j => j < ranges.length ∧ size ≤ (ranges.getD j {}).size) ranges 0 none
    mb (fun j hj => Option.noConfusion hj) ?_ i h
  intro k hkl hks
  rw [Nat.zero_add]
  exact ⟨hkl, hks⟩

theorem subtractRangeCase_fst_empty (A r : MemRange) (h : A.begin ≤ r.begin) :
    (subtractRangeCase A r).1 = [] := by
  unfold subtractRangeCase
  rw [if_pos h]
  split <;> rfl

theorem subtractRangeCase_snd_mem (A r : MemRange) (h : A.begin ≤ r.begin)
    (x : MemRange) (hx : x ∈ (subtractRangeCase A r).2) :
    x.begin = A.end_ ∧ x.end_ = r.end_ ∧ A.end_ < r.end_ := by
  unfold subtractRangeCase at hx
  rw [if_pos h] at hx
  split at hx
  · rename_i hlt
    rcases List.mem_singleton.mp hx with rfl
    exact ⟨rfl, rfl, hlt⟩
  · exact absurd hx (List.not_mem_nil x)

theorem drop_eq_cons_of_getElem? {l : List MemRange} {i : Nat} {r : MemRange}
    (h : l[i]? = some r) : l.drop i = r :: l.drop (i + 1) := by
  have hlt := List.getElem?_eq_some.mp h
  obtain ⟨hl, hv⟩ := hlt
  rw [List.drop_eq_getElem_cons hl, hv]

/-- The facts the planner needs about `SubtractRange(assigned, ranges, it)`
for `assigned = [r.begin, r.begin + size)` carved out of the range at
position `i`: the remaining free list is still valid, bounded, pairwise
disjoint, disjoint from the assigned range, and covers no new
addresses. -/
theorem SubtractRangeAt_facts (M : Nat) (l : List MemRange) (i : Nat)
    (r : MemRange) (size : Nat) (hi : l[i]? = some r) (hs : size ≤ r.size)
    (hv : ∀ x ∈ l, x.begin ≤ x.end_ ∧ x.end_ ≤ M)
    (hp : l.Pairwise fun a b => Disjoint a.toSet b.toSet) :
    (∀ x ∈ SubtractRangeAt (MemRange.mk r.begin (r.begin + size)) l i,
      x.begin ≤ x.end_ ∧ x.end_ ≤ M) ∧
    (SubtractRangeAt (MemRange.mk r.begin (r.begin + size)) l i).Pairwise
      (fun a b => Disjoint a.toSet b.toSet) ∧
    Disjoint (MemRange.mk r.begin (r.begin + size)).toSet
      (listSet (SubtractRangeAt (MemRange.mk r.begin (r.begin + size)) l i)) ∧
    listSet (SubtractRangeAt (MemRange.mk r.begin (r.begin + size)) l i) ⊆
      listSet l := by
  have hrl : r ∈ l := List.getElem?_mem hi
  have hrv := hv r hrl
  have hAb : (MemRange.mk r.begin (r.begin + size)).begin ≤ r.begin := le_refl _
  have hfst := subtractRangeCase_fst_empty (MemRange.mk r.begin (r.begin + size))
    r hAb
  have hres : SubtractRangeAt (MemRange.mk r.begin (r.begin + size)) l i =
      l.take i ++ (subtractRangeCase (MemRange.mk r.begin (r.begin + size)) r).2
        ++ l.drop (i + 1) := by
    simp only [SubtractRangeAt, hi, hfst, List.nil_append]
  have hsize : r.begin + size ≤ r.end_ := by
    simp only [MemRange.size] at hs
    omega
  have hpiece : ∀ x ∈ (subtractRangeCase
      (MemRange.mk r.begin (r.begin + size)) r).2,
      x.begin = r.begin + size ∧ x.end_ = r.end_ :=
    fun x hx => ⟨(subtractRangeCase_snd_mem _ _ hAb x hx).1,
      (subtractRangeCase_snd_mem _ _ hAb x hx).2.1⟩
  have hldecomp : l = l.take i ++ (r :: l.drop (i + 1)) := by
    rw [← drop_eq_cons_of_getElem? hi, List.take_append_drop]
  have hpair2 := hp
  rw [hldecomp, List.pairwise_append] at hpair2
  obtain ⟨hptake, hpcons, hcross⟩ := hpair2
  rw [List.pairwise_cons] at hpcons
  obtain ⟨hrdrop, hpdrop⟩ := hpcons
  have hmem_take : ∀ x ∈ l.take i, x ∈ l := fun x hx => List.take_subset i l hx
  have hmem_drop : ∀ x ∈ l.drop (i + 1), x ∈ l :=
    fun x hx => List.drop_subset (i + 1) l hx
  have hpieceIn : ∀ x ∈ (subtractRangeCase
      (MemRange.mk r.begin (r.begin + size)) r).2, x.toSet ⊆ r.toSet := by
    intro x hx y hy
    obtain ⟨hx1, hx2⟩ := hpiece x hx
    simp only [MemRange.toSet, Set.mem_setOf_eq] at hy ⊢
    omega
  have htakeDisj : ∀ a ∈ l.take i, Disjoint a.toSet r.toSet := by
    intro a ha
    exact hcross a ha r (List.mem_cons_self _ _)
  refine ⟨?_, ?_, ?_, ?_⟩
  · rw [hres]
    intro x hx
    rcases List.mem_append.mp hx with hx' | hx'
    · rcases List.mem_append.mp hx' with hx'' | hx''
      · exact hv x (hmem_take x hx'')
      · obtain ⟨hx1, hx2⟩ := hpiece x hx''
        constructor <;> omega
    · exact hv x (hmem_drop x hx')
  · rw [hres, List.pairwise_append]
    refine ⟨?_, hpdrop, ?_⟩
    · rw [List.pairwise_append]
      refine ⟨hptake, ?_, ?_⟩
      · rcases hfst2 : (subtractRangeCase
            (MemRange.mk r.begin (r.begin + size)) r).2 with _ | ⟨x, rest2⟩
        · exact List.Pairwise.nil
        · have hr2 : rest2 = [] := by
            unfold subtractRangeCase at hfst2
            rw [if_pos hAb] at hfst2
            split at hfst2
            · injection hfst2 with h1 h2
              exact h2.symm
            · exact absurd hfst2 (by simp)
          subst hr2
          exact List.pairwise_singleton _ x
      · intro a ha x hx
        exact (htakeDisj a ha).mono_right (hpieceIn x hx)
    · intro a ha b hb
      rcases List.mem_append.mp ha with ha' | ha'
      · exact hcross a ha' b (List.mem_cons_of_mem r hb)
      · exact (hrdrop b hb).mono_left (hpieceIn a ha')
  · have hAr : (MemRange.mk r.begin (r.begin + size)).toSet ⊆ r.toSet := by
      intro y hy
      simp only [MemRange.toSet, Set.mem_setOf_eq] at hy ⊢
      omega
    rw [hres, disjoint_listSet_right]
    intro x hx
    rcases List.mem_append.mp hx with hx' | hx'
    · rcases List.mem_append.mp hx' with hx'' | hx''
      · exact ((htakeDisj x hx'').symm.mono_left hAr)
      · obtain ⟨hx1, hx2⟩ := hpiece x hx''
        rw [disjoint_toSet_iff]
        left
        simp only [hx1]
        exact le_refl _
    · exact (hrdrop x hx').mono_left hAr
  · rw [hres]
    refine listSet_subset_of_forall ?_
    intro x hx
    rcases List.mem_append.mp hx with hx' | hx'
    · rcases List.mem_append.mp hx' with hx'' | hx''
      · exact toSet_subset_listSet (hmem_take x hx'')
      · exact Set.Subset.trans (hpieceIn x hx'') (toSet_subset_listSet hrl)
    · exact toSet_subset_listSet (hmem_drop x hx')

/-- Budget clause for a plan member: any placement without an existing
entry has a valid range ending at or below the memory size. -/
def planEntryOK (M : Nat) (q : PlacementKey × Placement) : Prop :=
  q.2.entry = none → q.2.range.begin ≤ q.2.range.end_ ∧ q.2.range.end_ ≤ M

/-- Disjointness clause for two plan members: placements without
existing entries on the same affine unit have disjoint ranges. -/
def planPairOK (σv : SchedState) (q q' : PlacementKey × Placement) : Prop :=
  q.2.entry = none → q'.2.entry = none →
    unitOfRi σv q.1.ri = unitOfRi σv q'.1.ri →
    Disjoint q.2.range.toSet q'.2.range.toSet

theorem planModify_mem_shape (plan : PlacementPlan) (k : PlacementKey)
    (f : Placement → Placement) (hf : ∀ p, (f p).entry = p.entry)
    (hfr : ∀ p, (f p).range = p.range) (q : PlacementKey × Placement)
    (hq : q ∈ planModify plan k f) :
    ∃ q0 ∈ plan, q.1 = q0.1 ∧ q.2.entry = q0.2.entry ∧
      q.2.range = q0.2.range := by
  simp only [planModify] at hq
  obtain ⟨q0, hq0, he⟩ := List.mem_map.mp hq
  split at he
  · refine ⟨q0, hq0, ?_, ?_, ?_⟩
    · rw [← he]
    · rw [← he]
      exact hf q0.2
    · rw [← he]
      exact hfr q0.2
  · exact ⟨q0, hq0, by rw [← he], by rw [← he], by rw [← he]⟩

theorem planModify_pairwise (σv : SchedState) (plan : PlacementPlan)
    (k : PlacementKey) (f : Placement → Placement)
    (hf : ∀ p, (f p).entry = p.entry) (hfr : ∀ p, (f p).range = p.range)
    (h : plan.Pairwise (planPairOK σv)) :
    (planModify plan k f).Pairwise (planPairOK σv) := by
  simp only [planModify]
  rw [List.pairwise_map]
  refine h.imp ?_
  intro a b hab
  have ha : ((if a.1 = k then (a.1, f a.2) else a) : PlacementKey × Placement).1
        = a.1 ∧
      ((if a.1 = k then (a.1, f a.2) else a)).2.entry = a.2.entry ∧
      ((if a.1 = k then (a.1, f a.2) else a)).2.range = a.2.range := by
    split
    · exact ⟨rfl, hf a.2, hfr a.2⟩
    · exact ⟨rfl, rfl, rfl⟩
  have hb : ((if b.1 = k then (b.1, f b.2) else b) : PlacementKey × Placement).1
        = b.1 ∧
      ((if b.1 = k then (b.1, f b.2) else b)).2.entry = b.2.entry ∧
      ((if b.1 = k then (b.1, f b.2) else b)).2.range = b.2.range := by
    split
    · exact ⟨rfl, hf b.2, hfr b.2⟩
    · exact ⟨rfl, rfl, rfl⟩
  intro h1 h2 h3
  rw [ha.2.2, hb.2.2]
  rw [ha.2.1] at h1
  rw [hb.2.1] at h2
  rw [ha.1, hb.1] at h3
  exact hab h1 h2 h3

theorem TryPlaceInRanges_post (σv : SchedState) (M : Nat) (u : Affine) :
    ∀ (placements : List (PlacementKey × Placement)) (plan : PlacementPlan)
      (ranges : List MemRange) (plan' : PlacementPlan),
      TryPlaceInRanges M plan placements ranges = some plan' →
      (∀ x ∈ ranges, x.begin ≤ x.end_ ∧ x.end_ ≤ M) →
      ranges.Pairwise (fun a b => Disjoint a.toSet b.toSet) →
      (∀ pl ∈ placements, unitOfRi σv pl.1.ri = u ∧ pl.2.entry = none) →
      (∀ q ∈ plan, planEntryOK M q) →
      (∀ q ∈ plan, q.2.entry = none → unitOfRi σv q.1.ri = u →
        Disjoint q.2.range.toSet (listSet ranges)) →
      plan.Pairwise (planPairOK σv) →
      (∀ q ∈ plan', planEntryOK M q) ∧ plan'.Pairwise (planPairOK σv) := by
  intro placements
  induction placements with
  | nil =>
    intro plan ranges plan' h _ _ _ hok _ hpair
    simp only [TryPlaceInRanges] at h
    injection h with h
    subst h
    exact ⟨hok, hpair⟩
  | cons pq rest ih =>
    obtain ⟨pkey0, p0⟩ := pq
    intro plan ranges plan' h hrv hrp hpl hok hdis hpair
    simp only [TryPlaceInRanges] at h
    split at h
    · refine ih _ _ _ h hrv hrp
        (fun pl hpl' => hpl pl (List.mem_cons_of_mem _ hpl')) ?_ ?_ ?_
      · intro q hq
        obtain ⟨q0, hq0, hk, he, hr⟩ := planModify_mem_shape plan pkey0
          (fun old => { old with dir := UnionDir old.dir p0.dir })
          (fun _ => rfl) (fun _ => rfl) q hq
        intro hnone
        rw [hr]
        rw [he] at hnone
        exact hok q0 hq0 hnone
      · intro q hq hnone hu
        obtain ⟨q0, hq0, hk, he, hr⟩ := planModify_mem_shape plan pkey0
          (fun old => { old with dir := UnionDir old.dir p0.dir })
          (fun _ => rfl) (fun _ => rfl) q hq
        rw [hr]
        rw [he] at hnone
        rw [hk] at hu
        exact hdis q0 hq0 hnone hu
      · exact planModify_pairwise σv plan pkey0
          (fun old => { old with dir := UnionDir old.dir p0.dir })
          (fun _ => rfl) (fun _ => rfl) hpair
    · split at h
      · exact Option.noConfusion h
      · rename_i i hfb
        obtain ⟨hilt, hisz⟩ := findBestRange_post M ranges p0.size i hfb
        have hri : ranges[i]? = some (ranges.getD i {}) := by
          rw [List.getElem?_eq_getElem hilt, List.getD_eq_getElem?_getD,
            List.getElem?_eq_getElem hilt]
          rfl
        obtain ⟨hfv, hfp, hfd, hfs⟩ := SubtractRangeAt_facts M ranges i
          (ranges.getD i {}) p0.size hri hisz hrv hrp
        have hrvr := hrv (ranges.getD i {}) (List.getElem?_mem hri)
        have hsz2 : (ranges.getD i {}).begin + p0.size ≤
            (ranges.getD i {}).end_ := by
          simp only [MemRange.size] at hisz
          omega
        have hAsub : (MemRange.mk (ranges.getD i {}).begin
            ((ranges.getD i {}).begin + p0.size)).toSet ⊆
            (ranges.getD i {}).toSet := by
          intro y hy
          simp only [MemRange.toSet, Set.mem_setOf_eq] at hy ⊢
          omega
        refine ih _ _ _ h hfv hfp
          (fun pl hpl' => hpl pl (List.mem_cons_of_mem _ hpl')) ?_ ?_ ?_
        · intro q hq
          rcases List.mem_append.mp hq with hq' | hq'
          · exact hok q hq'
          · rcases List.mem_singleton.mp hq' with rfl
            intro _
            constructor
            · show (ranges.getD i {}).begin ≤
                (ranges.getD i {}).begin + p0.size
              exact Nat.le_add_right _ _
            · show (ranges.getD i {}).begin + p0.size ≤ M
              omega
        · intro q hq hnone hu
          rcases List.mem_append.mp hq with hq' | hq'
          · exact (hdis q hq' hnone hu).mono_right hfs
          · rcases List.mem_singleton.mp hq' with rfl
            exact hfd
        · rw [List.pairwise_append]
          refine ⟨hpair, List.pairwise_singleton _ _, ?_⟩
          intro a ha b hb
          rcases List.mem_singleton.mp hb with rfl
          intro h1 h2 h3
          have hu_a : unitOfRi σv a.1.ri = u := by
            rw [h3]
            exact (hpl (pkey0, p0) (List.mem_cons_self _ _)).1
          exact (hdis a ha h1 hu_a).mono_right
            (Set.Subset.trans hAsub
              (toSet_subset_listSet (List.getElem?_mem hri)))

theorem subtractRangeGo_valid (sub : MemRange) :
    ∀ (l : List MemRange), (∀ x ∈ l, x.begin ≤ x.end_) →
      ∀ x ∈ (subtractRangeGo sub l).1 ++ (subtractRangeGo sub l).2,
        x.begin ≤ x.end_ := by
  intro l
  induction l with
  | nil =>
    intro _ x hx
    simp [subtractRangeGo] at hx
  | cons r rest ih =>
    intro hl x hx
    have htl : ∀ y ∈ rest, y.begin ≤ y.end_ :=
      fun y hy => hl y (List.mem_cons_of_mem r hy)
    simp only [subtractRangeGo] at hx
    split at hx
    · simp only [List.mem_append] at hx
      rcases hx with (h | h) | (h | h)
      · exact subtractRangeCase_valid sub r x (List.mem_append.mpr (Or.inl h))
      · exact ih htl x (List.mem_append.mpr (Or.inl h))
      · exact subtractRangeCase_valid sub r x (List.mem_append.mpr (Or.inr h))
      · exact ih htl x (List.mem_append.mpr (Or.inr h))
    · simp only [List.mem_append, List.mem_cons] at hx
      rcases hx with h | (rfl | h)
      · exact ih htl x (List.mem_append.mpr (Or.inl h))
      · exact hl x (List.mem_cons_self _ _)
      · exact ih htl x (List.mem_append.mpr (Or.inr h))

theorem SubtractRange_budget (M : Nat) (sub : MemRange) (l : List MemRange)
    (h : ∀ x ∈ l, x.begin ≤ x.end_ ∧ x.end_ ≤ M) :
    ∀ x ∈ SubtractRange sub l, x.begin ≤ x.end_ ∧ x.end_ ≤ M := by
  intro x hx
  have hx' : x ∈ (subtractRangeGo sub l).1 ++ (subtractRangeGo sub l).2 := by
    unfold SubtractRange at hx
    rw [List.mem_append, List.mem_reverse] at hx
    exact List.mem_append.mpr hx
  constructor
  · exact subtractRangeGo_valid sub l (fun y hy => (h y hy).1) x hx'
  · obtain ⟨r, hr, _, h2⟩ := SubtractRange_bounds sub l x hx
    exact le_trans h2 (h r hr).2

theorem freeFold_facts (M : Nat) (σ : SchedState)
    (hval : ∀ i : Nat, (σ.entryGet i).range.begin ≤ (σ.entryGet i).range.end_)
    (step : List MemRange → Nat → List MemRange)
    (hstep : ∀ rs eidx, step rs eidx =
      SubtractRange (σ.entryGet eidx).range rs ∨ step rs eidx = rs) :
    ∀ (L : List Nat) (rs : List MemRange),
      (∀ x ∈ rs, x.begin ≤ x.end_ ∧ x.end_ ≤ M) →
      rs.Pairwise (fun a b => Disjoint a.toSet b.toSet) →
      (∀ x ∈ L.foldl step rs, x.begin ≤ x.end_ ∧ x.end_ ≤ M) ∧
      (L.foldl step rs).Pairwise (fun a b => Disjoint a.toSet b.toSet) := by
  intro L
  induction L with
  | nil =>
    intro rs h1 h2
    exact ⟨h1, h2⟩
  | cons e t ih =>
    intro rs h1 h2
    simp only [List.foldl_cons]
    rcases hstep rs e with hst | hst <;> rw [hst]
    · exact ih _ (SubtractRange_budget M _ _ h1)
        (SubtractRange_pairwise _ (hval e) _ h2)
    · exact ih _ h1 h2

theorem unitAppend_forall {α : Type} (Q : Affine → α → Prop)
    (m : List (Affine × List α)) (k : Affine) (v : α)
    (hm : ∀ p ∈ m, ∀ x ∈ p.2, Q p.1 x) (hv : Q k v) :
    ∀ p ∈ unitAppend m k v, ∀ x ∈ p.2, Q p.1 x := by
  intro p hp x hx
  simp only [unitAppend] at hp
  split at hp
  · obtain ⟨p0, hp0, he⟩ := List.mem_map.mp hp
    split at he
    · rename_i hk
      rw [← he] at hx
      rcases List.mem_append.mp hx with h | h
      · rw [← he]
        exact hm p0 hp0 x h
      · rcases List.mem_singleton.mp h with rfl
        rw [← he]
        show Q p0.1 x
        rw [hk]
        exact hv
    · rw [← he] at hx ⊢
      exact hm p0 hp0 x hx
  · rcases List.mem_append.mp hp with h | h
    · exact hm p h x hx
    · rcases List.mem_singleton.mp h with rfl
      rcases List.mem_singleton.mp hx with rfl
      exact hv

theorem unitAppend_keys_map {α : Type} (m : List (Affine × List α)) (k : Affine)
    (v : α) :
    (unitAppend m k v).map Prod.fst = m.map Prod.fst ∨
    (unitAppend m k v).map Prod.fst = m.map Prod.fst ++ [k] := by
  simp only [unitAppend]
  split
  · left
    rw [List.map_map]
    refine List.map_congr_left ?_
    intro p _
    show (if p.1 = k then (p.1, p.2 ++ [v]) else p).1 = p.1
    split <;> rfl
  · right
    rw [List.map_append]
    rfl

theorem unitAppend_keys_nodup {α : Type} (m : List (Affine × List α))
    (k : Affine) (v : α) (h : (m.map Prod.fst).Nodup) :
    ((unitAppend m k v).map Prod.fst).Nodup := by
  simp only [unitAppend]
  split
  · rw [List.map_map]
    have he : m.map (Prod.fst ∘ fun p : Affine × List α =>
        if p.1 = k then (p.1, p.2 ++ [v]) else p) = m.map Prod.fst := by
      refine List.map_congr_left ?_
      intro p _
      show (if p.1 = k then (p.1, p.2 ++ [v]) else p).1 = p.1
      split <;> rfl
    rw [he]
    exact h
  · rename_i hany
    rw [List.map_append]
    refine List.Nodup.append h (List.nodup_singleton k) ?_
    intro a ha hak
    rcases List.mem_singleton.mp hak with rfl
    obtain ⟨p, hp, hpk⟩ := List.mem_map.mp ha
    exact hany (List.any_eq_true.mpr ⟨p, hp, by simp [hpk]⟩)

theorem offsetsGet_set_self (m : List (Affine × Nat)) (k : Affine) (v : Nat) :
    offsetsGet (offsetsSet m k v) k = v := by
  simp only [offsetsSet, offsetsGet]
  split
  · rename_i hany
    rw [find?_map_key_update, if_pos hany]
    rfl
  · rename_i hany
    have hfn : m.find? (fun p => p.1 = k) = none := by
      rw [List.find?_eq_none]
      intro p hp hpu
      exact hany (List.any_eq_true.mpr ⟨p, hp, hpu⟩)
    rw [find?_append_cases, hfn]
    rw [List.find?_cons_of_pos _ (by simp)]
    rfl

theorem offsetsGet_set_ne (m : List (Affine × Nat)) (k k' : Affine) (v : Nat)
    (hne : k' ≠ k) : offsetsGet (offsetsSet m k v) k' = offsetsGet m k' := by
  simp only [offsetsSet, offsetsGet]
  split
  · rw [show (m.map fun p => if p.1 = k then (k, v) else p) =
      m.map fun p => if p.1 = k then ((k : Affine), v) else p from rfl]
    rw [find?_map_key_other _ _ _ _ hne]
  · rw [find?_append_cases]
    cases hf : m.find? fun p => p.1 = k' with
    | some q => rfl
    | none =>
      dsimp only
      rw [List.find?_cons_of_neg _
        (by simp only [decide_eq_true_eq]; exact Ne.symm hne), List.find?_nil]

theorem offsetsGet_le_of_all (m : List (Affine × Nat)) (M : Nat)
    (h : m.all (fun p => p.2 ≤ M) = true) (k : Affine) :
    offsetsGet m k ≤ M := by
  simp only [offsetsGet]
  cases hf : m.find? fun p => p.1 = k with
  | none =>
    simpa using Nat.zero_le M
  | some p =>
    have hp := List.all_eq_true.mp h p (List.mem_of_find?_eq_some hf)
    simpa using hp

/-- `math::Align` rounds up: the result is at least the input when the
alignment is positive. -/
theorem le_Align (s a : Nat) (ha : 0 < a) : s ≤ Align s a := by
  simp only [Align]
  have hdm : (s + a - 1) / a * a + (s + a - 1) % a = s + a - 1 :=
    Nat.div_add_mod' _ _
  have hml : (s + a - 1) % a < a := Nat.mod_lt _ ha
  omega

theorem todosFold_facts (σv : SchedState) (l : List (String × RefDir))
    (hl : ∀ kv ∈ l, (riGetD σv.ris kv.1).name = kv.1) :
    (∀ b ∈ l.foldl (fun m p => unitAppend m (σv.riGet p.1).ref.location.unit
      (IoDesc.ofDir (riGetD σv.ris p.1) p.2)) [],
      ∀ io ∈ b.2, unitOfRi σv io.ri = b.1) ∧
    ((l.foldl (fun m p => unitAppend m (σv.riGet p.1).ref.location.unit
      (IoDesc.ofDir (riGetD σv.ris p.1) p.2)) []).map Prod.fst).Nodup := by
  refine foldl_pred_preserve_mem _
    (fun (m : List (Affine × List IoDesc)) =>
      (∀ b ∈ m, ∀ io ∈ b.2, unitOfRi σv io.ri = b.1) ∧
      (m.map Prod.fst).Nodup) l ?_ []
    ⟨fun b hb => absurd hb (List.not_mem_nil b), List.nodup_nil⟩
  intro m p hp ⟨h1, h2⟩
  refine ⟨?_, unitAppend_keys_nodup m _ _ h2⟩
  refine unitAppend_forall (fun u io => unitOfRi σv io.ri = u) m _ _ h1 ?_
  show unitOfRi σv (riGetD σv.ris p.1).name = (σv.riGet p.1).ref.location.unit
  rw [hl p hp]
  rfl

theorem nodup_map_fst_of_map {α β γ : Type} (l : List (α × β))
    (g : α × β → α × γ) (hg : ∀ p, (g p).1 = p.1)
    (h : (l.map Prod.fst).Nodup) : ((l.map g).map Prod.fst).Nodup := by
  rw [List.map_map]
  have he : l.map (Prod.fst ∘ g) = l.map Prod.fst :=
    List.map_congr_left (fun p _ => hg p)
  rw [he]
  exact h

theorem GatherPlacementState_facts (σv : SchedState) (ios : List IoDesc)
    (hnamed : ∀ io ∈ ios, (riGetD σv.ris io.ri).name = io.ri) :
    (∀ q ∈ (GatherPlacementState σv ios).1, q.2.entry ≠ none) ∧
    (∀ b ∈ (GatherPlacementState σv ios).2, ∀ io' ∈ b.2,
      unitOfRi σv io'.ri = b.1) ∧
    ((GatherPlacementState σv ios).2.map Prod.fst).Nodup := by
  have hfold := foldl_pred_preserve_mem
    (fun (st : PlacementPlan × List (String × RefDir)) (io : IoDesc) =>
      let pkey := PlacementKey.mk io.ri (σv.riGet io.ri).exterior_cache_shape []
      match planFind st.1 pkey with
      | some _ =>
        (planModify st.1 pkey fun old => { old with dir := UnionDir old.dir io.dir },
          st.2)
      | none =>
        match (σv.riGet io.ri).cache_entry with
        | some e =>
          if ¬(σv.entryGet e).saw_earliest_writer then
            (st.1 ++ [(pkey, Placement.ofEntry io.dir (σv.entryGet e).range e)],
              st.2)
          else
            (st.1, assocEmplaceUnionDir st.2 io.ri io.dir)
        | none => (st.1, assocEmplaceUnionDir st.2 io.ri io.dir))
    (fun (st : PlacementPlan × List (String × RefDir)) =>
      (∀ q ∈ st.1, q.2.entry ≠ none) ∧
      (∀ kv ∈ st.2, (riGetD σv.ris kv.1).name = kv.1))
    ios ?_ ([], []) ⟨fun q hq => absurd hq (List.not_mem_nil q),
      fun kv hkv => absurd hkv (List.not_mem_nil kv)⟩
  · obtain ⟨hg1, hg2⟩ := hfold
    have htodos := todosFold_facts σv _ hg2
    refine ⟨hg1, ?_, ?_⟩
    · intro b hb io' hio'
      obtain ⟨p0, hp0, hbe⟩ := List.mem_map.mp hb
      have hmem : io' ∈ p0.2 := by
        rw [← hbe] at hio'
        refine sortByLt_forall (todoBefore σv.ris) (fun y => y ∈ p0.2) p0.2 []
          (fun y hy => absurd hy (List.not_mem_nil y)) (fun y hy => hy) io' hio'
      rw [← hbe]
      exact htodos.1 p0 hp0 io' hmem
    · exact nodup_map_fst_of_map _ _ (fun p => rfl) htodos.2
  · intro st io hio hst
    obtain ⟨h1, h2⟩ := hst
    dsimp only
    split
    · dsimp only
      refine ⟨fun q hq => ?_, h2⟩
      obtain ⟨q0, hq0, hk, he, hr⟩ := planModify_mem_shape st.1 _
        (fun old => { old with dir := UnionDir old.dir io.dir })
        (fun _ => rfl) (fun _ => rfl) q hq
      rw [he]
      exact h1 q0 hq0
    · split
      · split
        · dsimp only
          refine ⟨fun q hq => ?_, h2⟩
          rcases List.mem_append.mp hq with h' | h'
          · exact h1 _ h'
          · rcases List.mem_singleton.mp h' with rfl
            simp [Placement.ofEntry]
        · dsimp only
          refine ⟨h1, fun kv hkv => ?_⟩
          rcases assocEmplaceUnionDir_mem _ _ _ kv hkv with ⟨q0, hq0, he⟩ | he
          · rw [he]
            exact h2 q0 hq0
          · rw [he]
            exact hnamed io hio
      · dsimp only
        refine ⟨h1, fun kv hkv => ?_⟩
        rcases assocEmplaceUnionDir_mem _ _ _ kv hkv with ⟨q0, hq0, he⟩ | he
        · rw [he]
          exact h2 q0 hq0
        · rw [he]
          exact hnamed io hio

theorem TryPlaceInRanges_prov (M : Nat) :
    ∀ (placements : List (PlacementKey × Placement)) (plan : PlacementPlan)
      (ranges : List MemRange) (plan' : PlacementPlan),
      TryPlaceInRanges M plan placements ranges = some plan' →
      ∀ q ∈ plan', q.2.entry = none →
        (∃ q0 ∈ plan, q0.2.entry = none ∧ q0.1 = q.1) ∨
        (∃ pl ∈ placements, pl.1 = q.1) := by
  intro placements
  induction placements with
  | nil =>
    intro plan ranges plan' h q hq hnone
    simp only [TryPlaceInRanges] at h
    injection h with h
    subst h
    exact Or.inl ⟨q, hq, hnone, rfl⟩
  | cons pq rest ih =>
    obtain ⟨pkey0, p0⟩ := pq
    intro plan ranges plan' h q hq hnone
    simp only [TryPlaceInRanges] at h
    split at h
    · rcases ih _ _ _ h q hq hnone with ⟨q0, hq0, hq0n, hq0k⟩ | ⟨pl, hpl, hplk⟩
      · obtain ⟨q00, hq00, hk, he, _⟩ := planModify_mem_shape plan pkey0
          (fun old => { old with dir := UnionDir old.dir p0.dir })
          (fun _ => rfl) (fun _ => rfl) q0 hq0
        refine Or.inl ⟨q00, hq00, ?_, ?_⟩
        · rw [← he]
          exact hq0n
        · rw [← hk]
          exact hq0k
      · exact Or.inr ⟨pl, List.mem_cons_of_mem _ hpl, hplk⟩
    · split at h
      · exact Option.noConfusion h
      · rcases ih _ _ _ h q hq hnone with ⟨q0, hq0, hq0n, hq0k⟩ | ⟨pl, hpl, hplk⟩
        · rcases List.mem_append.mp hq0 with h' | h'
          · exact Or.inl ⟨q0, h', hq0n, hq0k⟩
          · rcases List.mem_singleton.mp h' with rfl
            exact Or.inr ⟨(pkey0, p0), List.mem_cons_self _ _, hq0k⟩
        · exact Or.inr ⟨pl, List.mem_cons_of_mem _ hpl, hplk⟩

theorem pairwise_of_mem {α : Type} (R : α → α → Prop) :
    ∀ (l : List α), (∀ a ∈ l, ∀ b ∈ l, R a b) → l.Pairwise R := by
  intro l
  induction l with
  | nil => intro _; exact List.Pairwise.nil
  | cons a t ih =>
    intro h
    refine List.Pairwise.cons ?_ (ih ?_)
    · intro b hb
      exact h a (List.mem_cons_self _ _) b (List.mem_cons_of_mem _ hb)
    · intro x hx y hy
      exact h x (List.mem_cons_of_mem _ hx) y (List.mem_cons_of_mem _ hy)

theorem TryMakePlanWithNoSwaps_post (opts : SchedOptions) (σv : SchedState)
    (hval : ∀ i : Nat,
      (σv.entryGet i).range.begin ≤ (σv.entryGet i).range.end_) :
    ∀ (todos : List (Affine × List (PlacementKey × Placement)))
      (plan plan' : PlacementPlan),
      TryMakePlanWithNoSwaps opts σv todos plan = some plan' →
      (∀ b ∈ todos, ∀ pl ∈ b.2,
        unitOfRi σv pl.1.ri = b.1 ∧ pl.2.entry = none) →
      (todos.map Prod.fst).Nodup →
      (∀ q ∈ plan, planEntryOK opts.mem_bytes q) →
      plan.Pairwise (planPairOK σv) →
      (∀ q ∈ plan, q.2.entry = none →
        unitOfRi σv q.1.ri ∉ todos.map Prod.fst) →
      (∀ q ∈ plan', planEntryOK opts.mem_bytes q) ∧
        plan'.Pairwise (planPairOK σv) := by
  intro todos
  induction todos with
  | nil =>
    intro plan plan' h _ _ hok hpair _
    simp only [TryMakePlanWithNoSwaps] at h
    injection h with h
    subst h
    exact ⟨hok, hpair⟩
  | cons b rest ih =>
    obtain ⟨u, placements⟩ := b
    intro plan plan' h hb hnd hok hpair hnotu
    simp only [TryMakePlanWithNoSwaps] at h
    split at h
    · exact Option.noConfusion h
    · rename_i plan1 hp1
      have hfree := freeFold_facts opts.mem_bytes σv hval
        (fun rs eidx =>
          let ent := σv.entryGet eidx
          let pkey := PlacementKey.mk ent.source
            (σv.riGet ent.source).exterior_cache_shape []
          if ¬(ent.saw_earliest_writer ∧ ¬planContains plan pkey) then
            SubtractRange ent.range rs
          else rs)
        (fun rs eidx => by
          dsimp only
          split
          · exact Or.inl rfl
          · exact Or.inr rfl)
        (σv.activeList u) [MemRange.mk 0 opts.mem_bytes]
        (by
          intro x hx
          rcases List.mem_singleton.mp hx with rfl
          exact ⟨Nat.zero_le _, le_refl _⟩)
        (List.pairwise_singleton _ _)
      have hpost := TryPlaceInRanges_post σv opts.mem_bytes u placements plan _
        plan1 hp1 hfree.1 hfree.2
        (fun pl hpl => hb (u, placements) (List.mem_cons_self _ _) pl hpl)
        hok
        (by
          intro q hq h1 h2
          refine absurd (show unitOfRi σv q.1.ri ∈
            (((u, placements) :: rest).map Prod.fst) from ?_) (hnotu q hq h1)
          rw [h2]
          exact List.mem_cons_self _ _)
        hpair
      refine ih plan1 plan' h
        (fun b' hb' pl hpl => hb b' (List.mem_cons_of_mem _ hb') pl hpl)
        (List.nodup_cons.mp hnd).2 hpost.1 hpost.2 ?_
      intro q hq hnone
      rcases TryPlaceInRanges_prov opts.mem_bytes placements plan _ plan1 hp1
        q hq hnone with ⟨q0, hq0, hq0n, hq0k⟩ | ⟨pl, hpl, hplk⟩
      · have hh := hnotu q0 hq0 hq0n
        rw [hq0k] at hh
        intro hmem
        exact hh (List.mem_cons_of_mem _ hmem)
      · have hu : unitOfRi σv q.1.ri = u := by
          rw [← hplk]
          exact (hb (u, placements) (List.mem_cons_self _ _) pl hpl).1
        rw [hu]
        exact (List.nodup_cons.mp hnd).1

theorem TryMakePlanWithSwaps_post (opts : SchedOptions) (σv : SchedState)
    (hval : ∀ i : Nat,
      (σv.entryGet i).range.begin ≤ (σv.entryGet i).range.end_) :
    ∀ (todos : List (Affine × List (PlacementKey × Placement)))
      (plan plan' : PlacementPlan),
      TryMakePlanWithSwaps opts σv todos plan = some plan' →
      (∀ b ∈ todos, ∀ pl ∈ b.2,
        unitOfRi σv pl.1.ri = b.1 ∧ pl.2.entry = none) →
      (todos.map Prod.fst).Nodup →
      (∀ q ∈ plan, planEntryOK opts.mem_bytes q) →
      plan.Pairwise (planPairOK σv) →
      (∀ q ∈ plan, q.2.entry = none →
        unitOfRi σv q.1.ri ∉ todos.map Prod.fst) →
      (∀ q ∈ plan', planEntryOK opts.mem_bytes q) ∧
        plan'.Pairwise (planPairOK σv) := by
  intro todos
  induction todos with
  | nil =>
    intro plan plan' h _ _ hok hpair _
    simp only [TryMakePlanWithSwaps] at h
    injection h with h
    subst h
    exact ⟨hok, hpair⟩
  | cons b rest ih =>
    obtain ⟨u, placements⟩ := b
    intro plan plan' h hb hnd hok hpair hnotu
    simp only [TryMakePlanWithSwaps] at h
    split at h
    · exact Option.noConfusion h
    · rename_i plan1 hp1
      have hfree := freeFold_facts opts.mem_bytes σv hval
        (fun rs eidx =>
          let ent := σv.entryGet eidx
          let pkey := PlacementKey.mk ent.source
            (σv.riGet ent.source).exterior_cache_shape []
          if planContains plan pkey then
            SubtractRange ent.range rs
          else rs)
        (fun rs eidx => by
          dsimp only
          split
          · exact Or.inl rfl
          · exact Or.inr rfl)
        (σv.activeList u) [MemRange.mk 0 opts.mem_bytes]
        (by
          intro x hx
          rcases List.mem_singleton.mp hx with rfl
          exact ⟨Nat.zero_le _, le_refl _⟩)
        (List.pairwise_singleton _ _)
      have hpost := TryPlaceInRanges_post σv opts.mem_bytes u placements plan _
        plan1 hp1 hfree.1 hfree.2
        (fun pl hpl => hb (u, placements) (List.mem_cons_self _ _) pl hpl)
        hok
        (by
          intro q hq h1 h2
          refine absurd (show unitOfRi σv q.1.ri ∈
            (((u, placements) :: rest).map Prod.fst) from ?_) (hnotu q hq h1)
          rw [h2]
          exact List.mem_cons_self _ _)
        hpair
      refine ih plan1 plan' h
        (fun b' hb' pl hpl => hb b' (List.mem_cons_of_mem _ hb') pl hpl)
        (List.nodup_cons.mp hnd).2 hpost.1 hpost.2 ?_
      intro q hq hnone
      rcases TryPlaceInRanges_prov opts.mem_bytes placements plan _ plan1 hp1
        q hq hnone with ⟨q0, hq0, hq0n, hq0k⟩ | ⟨pl, hpl, hplk⟩
      · have hh := hnotu q0 hq0 hq0n
        rw [hq0k] at hh
        intro hmem
        exact hh (List.mem_cons_of_mem _ hmem)
      · have hu : unitOfRi σv q.1.ri = u := by
          rw [← hplk]
          exact (hb (u, placements) (List.mem_cons_self _ _) pl hpl).1
        rw [hu]
        exact (List.nodup_cons.mp hnd).1

theorem fallbackGo_post (opts : SchedOptions) (σv : SchedState)
    (halign : 0 < opts.alignment) :
    ∀ (placements : List (PlacementKey × Placement)) (plan : PlacementPlan)
      (offsets : List (Affine × Nat)),
      (∀ pl ∈ placements, pl.2.entry = none) →
      (∀ q ∈ plan, q.2.entry = none → q.2.range.begin ≤ q.2.range.end_ ∧
        q.2.range.end_ ≤ offsetsGet offsets (unitOfRi σv q.1.ri)) →
      plan.Pairwise (planPairOK σv) →
      (∀ q ∈ (fallbackGo opts σv placements plan offsets).1,
        q.2.entry = none → q.2.range.begin ≤ q.2.range.end_ ∧
        q.2.range.end_ ≤
          offsetsGet (fallbackGo opts σv placements plan offsets).2
            (unitOfRi σv q.1.ri)) ∧
      (fallbackGo opts σv placements plan offsets).1.Pairwise
        (planPairOK σv) := by
  intro placements
  induction placements with
  | nil =>
    intro plan offsets _ hok hpair
    exact ⟨hok, hpair⟩
  | cons pq rest ih =>
    obtain ⟨pkey0, p0⟩ := pq
    intro plan offsets hpl hok hpair
    simp only [fallbackGo]
    split
    · refine ih _ _ (fun pl h => hpl pl (List.mem_cons_of_mem _ h)) ?_ ?_
      · intro q hq hnone
        obtain ⟨q0, hq0, hk, he, hr⟩ := planModify_mem_shape plan pkey0
          (fun old => { old with dir := UnionDir old.dir p0.dir })
          (fun _ => rfl) (fun _ => rfl) q hq
        rw [hr, hk]
        rw [he] at hnone
        exact hok q0 hq0 hnone
      · exact planModify_pairwise σv plan pkey0 _ (fun _ => rfl)
          (fun _ => rfl) hpair
    · refine ih _ _ (fun pl h => hpl pl (List.mem_cons_of_mem _ h)) ?_ ?_
      · intro q hq hnone
        rcases List.mem_append.mp hq with hq' | hq'
        · have hold := hok q hq' hnone
          refine ⟨hold.1, le_trans hold.2 ?_⟩
          by_cases hu : unitOfRi σv q.1.ri =
            (σv.riGet pkey0.ri).ref.location.unit
          · rw [hu, offsetsGet_set_self]
            exact Nat.le_add_right _ _
          · rw [offsetsGet_set_ne _ _ _ _ hu]
        · rcases List.mem_singleton.mp hq' with rfl
          refine ⟨Nat.le_add_right _ _, ?_⟩
          show offsetsGet offsets ((σv.riGet pkey0.ri).ref.location.unit)
              + p0.size ≤
            offsetsGet (offsetsSet offsets
              ((σv.riGet pkey0.ri).ref.location.unit)
              (offsetsGet offsets ((σv.riGet pkey0.ri).ref.location.unit) +
                Align p0.size opts.alignment))
              ((σv.riGet pkey0.ri).ref.location.unit)
          rw [offsetsGet_set_self]
          exact Nat.add_le_add_left (le_Align p0.size opts.alignment halign) _
      · rw [List.pairwise_append]
        refine ⟨hpair, List.pairwise_singleton _ _, ?_⟩
        intro a ha b hb
        rcases List.mem_singleton.mp hb with rfl
        intro h1 h2 h3
        have ha2 := hok a ha h1
        rw [disjoint_toSet_iff]
        left
        refine le_trans ha2.2 (le_of_eq ?_)
        rw [h3]
        rfl

theorem TryMakeFallbackPlan_post (opts : SchedOptions) (σv : SchedState)
    (halign : 0 < opts.alignment)
    (placements : List (PlacementKey × Placement)) (plan' : PlacementPlan)
    (h : TryMakeFallbackPlan opts σv placements = some plan')
    (hpl : ∀ pl ∈ placements, pl.2.entry = none) :
    (∀ q ∈ plan', planEntryOK opts.mem_bytes q) ∧
      plan'.Pairwise (planPairOK σv) := by
  simp only [TryMakeFallbackPlan] at h
  split at h
  · rename_i hall
    injection h with h
    subst h
    obtain ⟨hq, hpair⟩ := fallbackGo_post opts σv halign placements []
      (placements.foldl
        (fun m p => offsetsSet m (σv.riGet p.1.ri).ref.location.unit 0) [])
      hpl (fun q hq => absurd hq (List.not_mem_nil q)) List.Pairwise.nil
    refine ⟨?_, hpair⟩
    intro q hq' hnone
    have h2 := hq q hq' hnone
    exact ⟨h2.1, le_trans h2.2 (offsetsGet_le_of_all _ _ hall _)⟩
  · exact Option.noConfusion h

theorem MakeFullPlacements_mem (σ : SchedState) (ios : List IoDesc)
    (pl : PlacementKey × Placement) (hpl : pl ∈ MakeFullPlacements σ ios) :
    ∃ io ∈ ios, pl.1.ri = io.ri ∧ pl.2.entry = none := by
  simp only [MakeFullPlacements] at hpl
  obtain ⟨io, hio, he⟩ := List.mem_map.mp hpl
  refine ⟨io, hio, ?_, ?_⟩
  · rw [← he]
  · rw [← he]
    rfl

theorem MakePartialPlacements_mem (σ : SchedState) (ios : List IoDesc)
    (pl : PlacementKey × Placement) (hpl : pl ∈ MakePartialPlacements σ ios) :
    ∃ io ∈ ios, pl.1.ri = io.ri ∧ pl.2.entry = none := by
  simp only [MakePartialPlacements] at hpl
  obtain ⟨io, hio, he⟩ := List.mem_map.mp hpl
  refine ⟨io, hio, ?_, ?_⟩
  · rw [← he]
  · rw [← he]
    rfl

/-- The planner postcondition claim C1 needs: every plan returned by the
strategy ladder assigns each newly-placed (entry-free) placement a valid
range within the memory budget, and placements for the same affine unit
have pairwise-disjoint ranges. -/
theorem TryMakePlan_post (opts : SchedOptions) (σv : SchedState)
    (current_block : Option BlockData) (ios : List IoDesc)
    (plan : PlacementPlan) (halign : 0 < opts.alignment)
    (hval : ∀ i : Nat,
      (σv.entryGet i).range.begin ≤ (σv.entryGet i).range.end_)
    (hnamed : ∀ io ∈ ios, (riGetD σv.ris io.ri).name = io.ri)
    (h : TryMakePlan opts σv current_block ios = some plan) :
    (∀ q ∈ plan, planEntryOK opts.mem_bytes q) ∧
      plan.Pairwise (planPairOK σv) := by
  obtain ⟨hg1, hg2, hg3⟩ := GatherPlacementState_facts σv ios hnamed
  have hok0 : ∀ q ∈ (GatherPlacementState σv ios).1,
      planEntryOK opts.mem_bytes q :=
    fun q hq hnone => absurd hnone (hg1 q hq)
  have hpair0 : (GatherPlacementState σv ios).1.Pairwise (planPairOK σv) :=
    pairwise_of_mem _ _ (fun a ha b _ h1 _ _ => absurd h1 (hg1 a ha))
  have hfb : ∀ b ∈ (GatherPlacementState σv ios).2.map
      (fun p => (p.1, MakeFullPlacements σv p.2)), ∀ pl ∈ b.2,
      unitOfRi σv pl.1.ri = b.1 ∧ pl.2.entry = none := by
    intro b hb pl hpl
    obtain ⟨p0, hp0, hbe⟩ := List.mem_map.mp hb
    rw [← hbe] at hpl ⊢
    obtain ⟨io, hio, hk, hn⟩ := MakeFullPlacements_mem σv p0.2 pl hpl
    refine ⟨?_, hn⟩
    rw [hk]
    exact hg2 p0 hp0 io hio
  have hpb : ∀ b ∈ (GatherPlacementState σv ios).2.map
      (fun p => (p.1, MakePartialPlacements σv p.2)), ∀ pl ∈ b.2,
      unitOfRi σv pl.1.ri = b.1 ∧ pl.2.entry = none := by
    intro b hb pl hpl
    obtain ⟨p0, hp0, hbe⟩ := List.mem_map.mp hb
    rw [← hbe] at hpl ⊢
    obtain ⟨io, hio, hk, hn⟩ := MakePartialPlacements_mem σv p0.2 pl hpl
    refine ⟨?_, hn⟩
    rw [hk]
    exact hg2 p0 hp0 io hio
  have hndf : (((GatherPlacementState σv ios).2.map
      (fun p => (p.1, MakeFullPlacements σv p.2))).map Prod.fst).Nodup :=
    nodup_map_fst_of_map _ _ (fun p => rfl) hg3
  have hndp : (((GatherPlacementState σv ios).2.map
      (fun p => (p.1, MakePartialPlacements σv p.2))).map Prod.fst).Nodup :=
    nodup_map_fst_of_map _ _ (fun p => rfl) hg3
  have hnotu0 : ∀ (keys : List Affine),
      ∀ q ∈ (GatherPlacementState σv ios).1, q.2.entry = none →
      unitOfRi σv q.1.ri ∉ keys :=
    fun keys q hq hnone => absurd hnone (hg1 q hq)
  simp only [TryMakePlan] at h
  split at h
  · rename_i plan1 hs
    injection h with h
    subst h
    exact TryMakePlanWithNoSwaps_post opts σv hval _ _ _ hs hfb hndf hok0
      hpair0 (hnotu0 _)
  · split at h
    · rename_i plan1 hs
      injection h with h
      subst h
      exact TryMakePlanWithNoSwaps_post opts σv hval _ _ _ hs hpb hndp hok0
        hpair0 (hnotu0 _)
    · split at h
      · rename_i plan1 hs
        injection h with h
        subst h
        exact TryMakePlanWithSwaps_post opts σv hval _ _ _ hs hfb hndf hok0
          hpair0 (hnotu0 _)
      · split at h
        · rename_i plan1 hs
          injection h with h
          subst h
          exact TryMakePlanWithSwaps_post opts σv hval _ _ _ hs hpb hndp
            hok0 hpair0 (hnotu0 _)
        · split at h
          · rename_i plan1 hs
            injection h with h
            subst h
            refine TryMakeFallbackPlan_post opts σv halign _ _ hs ?_
            intro pl hpl
            obtain ⟨io, hio, _, hn⟩ := MakeFullPlacements_mem σv ios pl hpl
            exact hn
          · split at h
            · rename_i blk
              refine TryMakeFallbackPlan_post opts σv halign _ _ h ?_
              intro pl hpl
              obtain ⟨io, hio, _, hn⟩ := MakePartialPlacements_mem σv ios
                pl hpl
              exact hn
            · exact Option.noConfusion h

theorem listSet_singleton (r : MemRange) : listSet [r] = r.toSet := by
  rw [listSet_cons, listSet_nil, Set.union_empty]

theorem createEntrySt_active (σ : SchedState) (riKey : String)
    (pkey : PlacementKey) (p : Placement) :
    (createEntrySt σ riKey pkey p).active = σ.active := rfl

theorem createEntrySt_riGet_name (σ : SchedState) (riKey : String)
    (pkey : PlacementKey) (p : Placement) (k : String) :
    ((createEntrySt σ riKey pkey p).riGet k).name = (σ.riGet k).name := by
  refine Eq.trans (riGet_updateRi_field RefInfo.name _ riKey k _
    (fun _ => rfl)) ?_
  show ((σ.updateRi riKey fun r =>
    { r with next_cache_entry := r.next_cache_entry + 1 }).riGet k).name =
    (σ.riGet k).name
  exact riGet_updateRi_field RefInfo.name σ riKey k _ (fun _ => rfl)

theorem createEntrySt_riGet_ref (σ : SchedState) (riKey : String)
    (pkey : PlacementKey) (p : Placement) (k : String) :
    ((createEntrySt σ riKey pkey p).riGet k).ref = (σ.riGet k).ref := by
  refine Eq.trans (riGet_updateRi_field RefInfo.ref _ riKey k _
    (fun _ => rfl)) ?_
  show ((σ.updateRi riKey fun r =>
    { r with next_cache_entry := r.next_cache_entry + 1 }).riGet k).ref =
    (σ.riGet k).ref
  exact riGet_updateRi_field RefInfo.ref σ riKey k _ (fun _ => rfl)

theorem createEntrySt_entryGet_gt (σ : SchedState) (riKey : String)
    (pkey : PlacementKey) (p : Placement) (j : Nat)
    (hj : σ.entries.length + 1 ≤ j) :
    (createEntrySt σ riKey pkey p).entryGet j =
      CacheEntry.make ⟨"", {}, []⟩ {} "" 0 := by
  refine entryGet_default _ j ?_
  rw [createEntrySt_entries, List.length_append]
  exact hj

theorem unitAppend_forall2 {α : Type} (Q : Affine → α → α → Prop)
    (m : List (Affine × List α)) (k : Affine) (v : α)
    (hm : ∀ p ∈ m, ∀ x ∈ p.2, ∀ y ∈ p.2, Q p.1 x y)
    (hv1 : ∀ p ∈ m, p.1 = k → ∀ x ∈ p.2, Q k x v ∧ Q k v x)
    (hvv : Q k v v) :
    ∀ p ∈ unitAppend m k v, ∀ x ∈ p.2, ∀ y ∈ p.2, Q p.1 x y := by
  intro p hp x hx y hy
  simp only [unitAppend] at hp
  split at hp
  · obtain ⟨p0, hp0, he⟩ := List.mem_map.mp hp
    split at he
    · rename_i hk
      rw [← he] at hx hy ⊢
      show Q p0.1 x y
      rcases List.mem_append.mp hx with hx' | hx' <;>
        rcases List.mem_append.mp hy with hy' | hy'
      · exact hm p0 hp0 x hx' y hy'
      · rcases List.mem_singleton.mp hy' with rfl
        rw [hk]
        exact ((hv1 p0 hp0 hk) x hx').1
      · rcases List.mem_singleton.mp hx' with rfl
        rw [hk]
        exact ((hv1 p0 hp0 hk) y hy').2
      · rcases List.mem_singleton.mp hx' with rfl
        rcases List.mem_singleton.mp hy' with rfl
        rw [hk]
        exact hvv
    · rw [← he] at hx hy ⊢
      exact hm p0 hp0 x hx y hy
  · rcases List.mem_append.mp hp with h | h
    · exact hm p h x hx y hy
    · rcases List.mem_singleton.mp h with rfl
      rcases List.mem_singleton.mp hx with rfl
      rcases List.mem_singleton.mp hy with rfl
      exact hvv

/-- The swap/dependency-bookkeeping stage of the plan-application loop
(schedule.cc:878-937), factored out of `applyPlacementRest`. -/
def sresOf (opts : SchedOptions) (sid : Nat)
    (wsirs : List (String × List Nat)) (st : PlanApplySt)
    (pkey : PlacementKey) (placement : Placement)
    (σ0 : SchedState) (entIdx : Nat) :
    SchedState × Nat × List Refinement × List (String × String) :=
  let riKey := pkey.ri
  if placement.is_internal then
    let names := st.internal_swap_backing_ref_names
    let bn : String × List (String × String) × List Refinement × SchedState :=
      match (names.find? fun p => p.1 = riKey).map (fun p => p.2) with
      | some n => (n, names, st.added_refs, σ0)
      | none =>
        let existingNames :=
          match σ0.stmts.find? (fun s => s.sid = sid) with
          | some (.block _ _ b) => b.refs.map (fun r => r.into)
          | _ => []
        let n := uniqueNameFrom existingNames ((σ0.riGet riKey).name ++ "_storage")
        let src := σ0.riGet (σ0.entryGet entIdx).source
        let newRef : Refinement :=
          { dir := placement.dir, from_ := src.ref.into, into := n,
            access := src.alias_info.access, interior_shape := src.alias_info.shape,
            agg_op := "", location := src.ref.location, is_const := src.ref.is_const,
            offset := 0, bank_dim := src.ref.bank_dim, cache_unit := none }
        (n, names ++ [(riKey, n)], st.added_refs ++ [newRef], σ0)
    let σ := bn.2.2.2
    let σ := if IsReadDir placement.dir then
        AddSubblockSwapIn opts σ sid entIdx bn.1 pkey.access
      else σ
    let σ := if IsWriteDir placement.dir then
        AddSubblockSwapOut opts σ sid entIdx bn.1 pkey.access
      else σ
    (σ, sid, bn.2.2.1, bn.2.1)
  else
    let σ := σ0
    let σ :=
      if IsWriteDir placement.dir then
        let ai := (σ.riGet riKey).alias_info
        let σ := (σ.entryGet entIdx).readers.foldl
          (fun σ p =>
            if ¬(opts.cmp ai p.2 = AliasType.None) then σ.addDepTo p.1 sid else σ) σ
        let σ := σ.updateEntry entIdx fun e =>
          { e with writers := emplaceAliasMapEntry e.writers sid ai }
        if some sid = (σ.riGet (σ.entryGet entIdx).source).earliest_writer then
          σ.updateEntry entIdx fun e => { e with saw_earliest_writer := true }
        else σ
      else σ
    let σ :=
      if IsReadDir placement.dir then
        σ.updateEntry entIdx fun e =>
          { e with readers := emplaceAliasMapEntry e.readers sid (σ.riGet riKey).alias_info }
      else σ
    let σ := σ.updateEntry entIdx fun e => { e with first_accessor := sid }
    let needSwapOut := IsWriteDir placement.dir ∧
      ((IsWriteDir (σ.riGet riKey).ref.dir ∧ ¬(σ.riGet riKey).saw_final_write) ∨
        ¬(wsirsGet wsirs riKey).isEmpty)
    if needSwapOut then
      let r := ScheduleSwapOut opts σ (succSid σ.stmts sid) entIdx (wsirsGet wsirs riKey)
      (r.1.addDepTo r.2 sid, r.2, st.added_refs, st.internal_swap_backing_ref_names)
    else (σ, sid, st.added_refs, st.internal_swap_backing_ref_names)

def sresUnit (opts : SchedOptions) (sid : Nat)
    (wsirs : List (String × List Nat)) (st : PlanApplySt)
    (pkey : PlacementKey) (placement : Placement)
    (σ0 : SchedState) (entIdx : Nat) : Affine :=
  ((sresOf opts sid wsirs st pkey placement σ0 entIdx).1.riGet
    ((sresOf opts sid wsirs st pkey placement σ0
      entIdx).1.entryGet entIdx).source).ref.location.unit

def sresRange (opts : SchedOptions) (sid : Nat)
    (wsirs : List (String × List Nat)) (st : PlanApplySt)
    (pkey : PlacementKey) (placement : Placement)
    (σ0 : SchedState) (entIdx : Nat) : MemRange :=
  ((sresOf opts sid wsirs st pkey placement σ0
    entIdx).1.entryGet entIdx).range

theorem applyPlacementRest_eq (opts : SchedOptions) (sid : Nat)
    (wsirs : List (String × List Nat)) (st : PlanApplySt)
    (pkey : PlacementKey) (placement : Placement)
    (σ0 : SchedState) (entIdx : Nat) (is_new : Bool) :
    applyPlacementRest opts sid wsirs st pkey placement σ0 entIdx is_new =
      { σ := (((sresOf opts sid wsirs st pkey placement σ0 entIdx).1.activeList
            (sresUnit opts sid wsirs st pkey placement σ0 entIdx)).foldl
          (conflictStep opts
            (sresOf opts sid wsirs st pkey placement σ0 entIdx).2.1 entIdx
            (sresRange opts sid wsirs st pkey placement σ0 entIdx) is_new
            (sresUnit opts sid wsirs st pkey placement σ0 entIdx))
          (sresOf opts sid wsirs st pkey placement σ0 entIdx).1)
        added_affine_entries :=
          (if is_new ∧ ¬placement.is_internal then
            unitAppend st.added_affine_entries
              (sresUnit opts sid wsirs st pkey placement σ0 entIdx) entIdx
          else st.added_affine_entries)
        added_refs :=
          (sresOf opts sid wsirs st pkey placement σ0 entIdx).2.2.1
        internal_swap_backing_ref_names :=
          (sresOf opts sid wsirs st pkey placement σ0 entIdx).2.2.2 } := rfl

theorem C1Pres_ite_fst (σ : SchedState) (c : Prop) [Decidable c]
    (a b : SchedState × Nat × List Refinement × List (String × String))
    (ha : C1Pres σ a.1) (hb : C1Pres σ b.1) :
    C1Pres σ (if c then a else b).1 := by
  split
  · exact ha
  · exact hb

theorem C1Pres_sresOf (opts : SchedOptions) (sid : Nat)
    (wsirs : List (String × List Nat)) (st : PlanApplySt)
    (pkey : PlacementKey) (placement : Placement)
    (σ0 : SchedState) (entIdx : Nat) :
    C1Pres σ0 (sresOf opts sid wsirs st pkey placement σ0 entIdx).1 := by
  simp only [sresOf]
  refine C1Pres_ite_fst _ _ _ _ ?_ ?_
  · refine C1Pres_trans ?_
      (C1Pres_ite _ _ _ _ (C1Pres_AddSubblockSwapOut _ _ _ _ _ _)
        (C1Pres_refl _))
    refine C1Pres_trans ?_
      (C1Pres_ite _ _ _ _ (C1Pres_AddSubblockSwapIn _ _ _ _ _ _)
        (C1Pres_refl _))
    cases hbn : (st.internal_swap_backing_ref_names.find? fun p =>
        p.1 = pkey.ri).map (fun p => p.2) with
    | some n => exact C1Pres_refl _
    | none => exact C1Pres_refl _
  · refine C1Pres_ite_fst _ _ _ _ ?_ ?_
    · refine C1Pres_trans (C1Pres_trans ?_
        (C1Pres_ScheduleSwapOut _ _ _ _ _)) (C1Pres_addDepTo _ _ _)
      refine C1Pres_trans ?_
        (C1Pres_updateEntry _ _ _ (fun _ => rfl) (fun _ => rfl) (fun _ => rfl))
      refine C1Pres_trans ?_
        (C1Pres_ite _ _ _ _ (C1Pres_updateEntry _ _ _ (fun _ => rfl)
          (fun _ => rfl) (fun _ => rfl)) (C1Pres_refl _))
      refine C1Pres_ite _ _ _ _ ?_ (C1Pres_refl _)
      refine C1Pres_trans ?_
        (C1Pres_ite _ _ _ _ (C1Pres_updateEntry _ _ _ (fun _ => rfl)
          (fun _ => rfl) (fun _ => rfl)) (C1Pres_refl _))
      refine C1Pres_trans ?_
        (C1Pres_updateEntry _ _ _ (fun _ => rfl) (fun _ => rfl) (fun _ => rfl))
      exact C1Pres_foldl _
        (fun (s : SchedState) (a : Nat × AliasInfo) =>
          C1Pres_ite s _ _ _ (C1Pres_addDepTo s a.1 sid) (C1Pres_refl s))
        _ _
    · refine C1Pres_trans ?_
        (C1Pres_updateEntry _ _ _ (fun _ => rfl) (fun _ => rfl) (fun _ => rfl))
      refine C1Pres_trans ?_
        (C1Pres_ite _ _ _ _ (C1Pres_updateEntry _ _ _ (fun _ => rfl)
          (fun _ => rfl) (fun _ => rfl)) (C1Pres_refl _))
      refine C1Pres_ite _ _ _ _ ?_ (C1Pres_refl _)
      refine C1Pres_trans ?_
        (C1Pres_ite _ _ _ _ (C1Pres_updateEntry _ _ _ (fun _ => rfl)
          (fun _ => rfl) (fun _ => rfl)) (C1Pres_refl _))
      refine C1Pres_trans ?_
        (C1Pres_updateEntry _ _ _ (fun _ => rfl) (fun _ => rfl) (fun _ => rfl))
      exact C1Pres_foldl _
        (fun (s : SchedState) (a : Nat × AliasInfo) =>
          C1Pres_ite s _ _ _ (C1Pres_addDepTo s a.1 sid) (C1Pres_refl s))
        _ _

/-- The induction predicate of the plan-application fold for claim C1:
the invariant holds of the current state, RefInfo names and refs still
agree with the post-invalidation state `σv`, and every entry recorded in
`added_affine_entries` is a valid index whose uncovered ranges are
exactly its (still unsplit) range, is not yet on any active list, and is
disjoint from every active entry of its bucket and from every other
added entry of its bucket. -/
def C1Fold (opts : SchedOptions) (σv : SchedState) (st : PlanApplySt) : Prop :=
  C1Inv opts.mem_bytes st.σ ∧
  (∀ k : String, (st.σ.riGet k).name = (σv.riGet k).name ∧
    (st.σ.riGet k).ref = (σv.riGet k).ref) ∧
  (∀ p ∈ st.added_affine_entries, ∀ e ∈ p.2,
    e < st.σ.entries.length ∧
    (st.σ.entryGet e).uncovered_ranges = [(st.σ.entryGet e).range] ∧
    (∀ u' : Affine, e ∉ st.σ.activeList u') ∧
    (∀ i ∈ st.σ.activeList p.1,
      Disjoint (listSet (st.σ.entryGet e).uncovered_ranges)
        (listSet (st.σ.entryGet i).uncovered_ranges))) ∧
  (∀ p ∈ st.added_affine_entries, ∀ e ∈ p.2, ∀ e' ∈ p.2, e ≠ e' →
    Disjoint (listSet (st.σ.entryGet e).uncovered_ranges)
      (listSet (st.σ.entryGet e').uncovered_ranges))

theorem C1_applyPlacement_reuse (opts : SchedOptions) (sid : Nat)
    (wsirs : List (String × List Nat)) (σv : SchedState) (st : PlanApplySt)
    (q : PlacementKey × Placement) (e0 : Nat) (hpe : q.2.entry = some e0)
    (hfold : C1Fold opts σv st) :
    C1Fold opts σv (applyPlacement opts sid wsirs st q) ∧
    (∀ p ∈ st.added_affine_entries, ∀ e ∈ p.2,
      ((applyPlacement opts sid wsirs st q).σ.entryGet e).uncovered_ranges =
        (st.σ.entryGet e).uncovered_ranges) ∧
    (∀ p ∈ (applyPlacement opts sid wsirs st q).added_affine_entries,
      ∀ e ∈ p.2, (∃ p0 ∈ st.added_affine_entries, e ∈ p0.2 ∧ p0.1 = p.1) ∨
      (q.2.entry = none ∧ p.1 = unitOfRi σv q.1.ri ∧
        ((applyPlacement opts sid wsirs st q).σ.entryGet e).uncovered_ranges =
          [q.2.range])) := by
  have hct : crtTuple st q = (st.σ, e0, false) := by
    simp only [crtTuple, hpe]
  rw [applyPlacement_eq, hct]
  dsimp only
  rw [applyPlacementRest_eq]
  have hS := C1Pres_sresOf opts sid wsirs st q.1 q.2 st.σ e0
  have hK := conflictFold_pres opts
    (sresOf opts sid wsirs st q.1 q.2 st.σ e0).2.1 e0
    (sresRange opts sid wsirs st q.1 q.2 st.σ e0) false
    (sresUnit opts sid wsirs st q.1 q.2 st.σ e0)
    ((sresOf opts sid wsirs st q.1 q.2 st.σ e0).1.activeList
      (sresUnit opts sid wsirs st q.1 q.2 st.σ e0))
    (sresOf opts sid wsirs st q.1 q.2 st.σ e0).1
  set σs := (sresOf opts sid wsirs st q.1 q.2 st.σ e0).1 with hσs
  set u' := sresUnit opts sid wsirs st q.1 q.2 st.σ e0 with hu'
  set er := sresRange opts sid wsirs st q.1 q.2 st.σ e0 with her
  set rd := (sresOf opts sid wsirs st q.1 q.2 st.σ e0).2.1 with hrd
  set L := σs.activeList u' with hL
  set κ := L.foldl (conflictStep opts rd e0 er false u') σs with hκ
  have hT1 : κ.entries.length = st.σ.entries.length := hK.1.trans hS.1
  have hT2 : ∀ j : Nat, (κ.entryGet j).range = (st.σ.entryGet j).range :=
    fun j => (hK.2.1 j).1.trans (hS.2.1 j).1
  have hT3 : ∀ j : Nat, listSet (κ.entryGet j).uncovered_ranges ⊆
      listSet (st.σ.entryGet j).uncovered_ranges := by
    intro j
    have h := hK.2.2.1 j
    rw [(hS.2.1 j).2.1] at h
    exact h
  have hT4 : ∀ j : Nat, j ∉ L → (κ.entryGet j).uncovered_ranges =
      (st.σ.entryGet j).uncovered_ranges :=
    fun j hj => (hK.2.2.2.1 j hj).trans (hS.2.1 j).2.1
  have hT5 : ∀ k : String, (κ.riGet k).name = (st.σ.riGet k).name ∧
      (κ.riGet k).ref = (st.σ.riGet k).ref :=
    fun k => ⟨(hK.2.2.2.2.1 k).1.trans (hS.2.2.2 k).1,
      (hK.2.2.2.2.1 k).2.trans (hS.2.2.2 k).2⟩
  have hT6 : ∀ u'' : Affine, ∀ i : Nat, i ∈ κ.activeList u'' →
      i ∈ st.σ.activeList u'' := by
    intro u'' i hi
    have h := hK.2.2.2.2.2 u'' i hi
    rwa [activeList_of_active_eq hS.2.2.1 u''] at h
  have hNotL : ∀ p ∈ st.added_affine_entries, ∀ e ∈ p.2, e ∉ L := by
    intro p hp e he hmem
    rw [hL, activeList_of_active_eq hS.2.2.1 u'] at hmem
    exact (hfold.2.2.1 p hp e he).2.2.1 u' hmem
  refine ⟨⟨⟨fun i => ?_, fun u'' i hi => ?_,
    fun u'' i hi j hj hne => ?_⟩, fun k => ?_, ?_, ?_⟩, ?_, ?_⟩
  · show (κ.entryGet i).range.begin ≤ (κ.entryGet i).range.end_ ∧
      (κ.entryGet i).range.end_ ≤ opts.mem_bytes
    rw [hT2 i]
    exact hfold.1.1 i
  · have h2 : i ∈ st.σ.activeList u'' := hT6 u'' i hi
    show i < κ.entries.length
    rw [hT1]
    exact hfold.1.2.1 u'' i h2
  · have hD := hfold.1.2.2 u'' i (hT6 u'' i hi) j (hT6 u'' j hj) hne
    exact hD.mono (hT3 i) (hT3 j)
  · exact ⟨(hT5 k).1.trans (hfold.2.1 k).1, (hT5 k).2.trans (hfold.2.1 k).2⟩
  · intro p hp e he
    have hp' : p ∈ st.added_affine_entries := hp
    obtain ⟨hd1, hd2, hd3, hd4⟩ := hfold.2.2.1 p hp' e he
    have hnl := hNotL p hp' e he
    refine ⟨?_, ?_, ?_, ?_⟩
    · show e < κ.entries.length
      rw [hT1]
      exact hd1
    · show (κ.entryGet e).uncovered_ranges = [(κ.entryGet e).range]
      rw [hT4 e hnl, hT2 e]
      exact hd2
    · intro u'' hmem
      exact hd3 u'' (hT6 u'' e hmem)
    · intro i hi
      have hD := hd4 i (hT6 p.1 i hi)
      show Disjoint (listSet (κ.entryGet e).uncovered_ranges)
        (listSet (κ.entryGet i).uncovered_ranges)
      rw [hT4 e hnl]
      exact hD.mono_right (hT3 i)
  · intro p hp e he e' he' hne
    have hp' : p ∈ st.added_affine_entries := hp
    have hD := hfold.2.2.2 p hp' e he e' he' hne
    show Disjoint (listSet (κ.entryGet e).uncovered_ranges)
      (listSet (κ.entryGet e').uncovered_ranges)
    rw [hT4 e (hNotL p hp' e he), hT4 e' (hNotL p hp' e' he')]
    exact hD
  · intro p hp e he
    show (κ.entryGet e).uncovered_ranges = (st.σ.entryGet e).uncovered_ranges
    exact hT4 e (hNotL p hp e he)
  · intro p hp e he
    have hp' : p ∈ st.added_affine_entries := hp
    exact Or.inl ⟨p, hp', he, rfl⟩

theorem C1_applyPlacement_new (opts : SchedOptions) (sid : Nat)
    (wsirs : List (String × List Nat)) (σv : SchedState) (st : PlanApplySt)
    (q : PlacementKey × Placement) (hpe : q.2.entry = none)
    (hqok : planEntryOK opts.mem_bytes q)
    (hqkey : (σv.riGet q.1.ri).name = q.1.ri)
    (hfold : C1Fold opts σv st)
    (hfc : ∀ p ∈ st.added_affine_entries, ∀ e ∈ p.2,
      unitOfRi σv q.1.ri = p.1 →
      Disjoint (listSet (st.σ.entryGet e).uncovered_ranges)
        q.2.range.toSet) :
    C1Fold opts σv (applyPlacement opts sid wsirs st q) ∧
    (∀ p ∈ st.added_affine_entries, ∀ e ∈ p.2,
      ((applyPlacement opts sid wsirs st q).σ.entryGet e).uncovered_ranges =
        (st.σ.entryGet e).uncovered_ranges) ∧
    (∀ p ∈ (applyPlacement opts sid wsirs st q).added_affine_entries,
      ∀ e ∈ p.2, (∃ p0 ∈ st.added_affine_entries, e ∈ p0.2 ∧ p0.1 = p.1) ∨
      (q.2.entry = none ∧ p.1 = unitOfRi σv q.1.ri ∧
        ((applyPlacement opts sid wsirs st q).σ.entryGet e).uncovered_ranges =
          [q.2.range])) := by
  have hqv := hqok hpe
  have hct : crtTuple st q =
      (createEntrySt st.σ q.1.ri q.1 q.2, st.σ.entries.length, true) := by
    simp only [crtTuple, hpe]
  rw [applyPlacement_eq, hct]
  dsimp only
  rw [applyPlacementRest_eq]
  set σC := createEntrySt st.σ q.1.ri q.1 q.2 with hσC
  have hClen : σC.entries.length = st.σ.entries.length + 1 := by
    rw [hσC, createEntrySt_entries, List.length_append]
    rfl
  have hCact : σC.active = st.σ.active := by
    rw [hσC]
    rfl
  have hCri : ∀ k : String, (σC.riGet k).name = (st.σ.riGet k).name ∧
      (σC.riGet k).ref = (st.σ.riGet k).ref := by
    intro k
    rw [hσC]
    exact ⟨createEntrySt_riGet_name st.σ q.1.ri q.1 q.2 k,
      createEntrySt_riGet_ref st.σ q.1.ri q.1 q.2 k⟩
  have hClt : ∀ j, j < st.σ.entries.length → σC.entryGet j = st.σ.entryGet j := by
    intro j hj
    rw [hσC]
    exact createEntrySt_entryGet_lt st.σ q.1.ri q.1 q.2 j hj
  have hClast : σC.entryGet st.σ.entries.length =
      CacheEntry.make q.1 q.2 (st.σ.riGet q.1.ri).name
        (st.σ.riGet q.1.ri).next_cache_entry := by
    rw [hσC]
    exact createEntrySt_entryGet_last st.σ q.1.ri q.1 q.2
  have hCgt : ∀ j, st.σ.entries.length + 1 ≤ j →
      σC.entryGet j = CacheEntry.make ⟨"", {}, []⟩ {} "" 0 := by
    intro j hj
    rw [hσC]
    exact createEntrySt_entryGet_gt st.σ q.1.ri q.1 q.2 j hj
  have hCinv : C1Inv opts.mem_bytes σC := by
    refine ⟨fun i => ?_, fun u'' i hi => ?_, fun u'' i hi j hj hne => ?_⟩
    · rcases Nat.lt_trichotomy i st.σ.entries.length with h | h | h
      · rw [hClt i h]
        exact hfold.1.1 i
      · rw [h, hClast]
        exact hqv
      · rw [hCgt i h]
        exact ⟨Nat.le.refl, Nat.zero_le _⟩
    · rw [activeList_of_active_eq hCact u''] at hi
      rw [hClen]
      exact Nat.lt_succ_of_lt (hfold.1.2.1 u'' i hi)
    · rw [activeList_of_active_eq hCact u''] at hi hj
      rw [hClt i (hfold.1.2.1 u'' i hi), hClt j (hfold.1.2.1 u'' j hj)]
      exact hfold.1.2.2 u'' i hi j hj hne
  have hS := C1Pres_sresOf opts sid wsirs st q.1 q.2 σC st.σ.entries.length
  have hK := conflictFold_pres opts
    (sresOf opts sid wsirs st q.1 q.2 σC st.σ.entries.length).2.1
    st.σ.entries.length
    (sresRange opts sid wsirs st q.1 q.2 σC st.σ.entries.length) true
    (sresUnit opts sid wsirs st q.1 q.2 σC st.σ.entries.length)
    ((sresOf opts sid wsirs st q.1 q.2 σC st.σ.entries.length).1.activeList
      (sresUnit opts sid wsirs st q.1 q.2 σC st.σ.entries.length))
    (sresOf opts sid wsirs st q.1 q.2 σC st.σ.entries.length).1
  set σs := (sresOf opts sid wsirs st q.1 q.2 σC st.σ.entries.length).1
    with hσs
  set u' := sresUnit opts sid wsirs st q.1 q.2 σC st.σ.entries.length with hu'
  set er := sresRange opts sid wsirs st q.1 q.2 σC st.σ.entries.length with her
  set rd := (sresOf opts sid wsirs st q.1 q.2 σC st.σ.entries.length).2.1
    with hrd
  set L := σs.activeList u' with hL
  set κ := L.foldl (conflictStep opts rd st.σ.entries.length er true u') σs
    with hκ
  have hsrc : (σs.entryGet st.σ.entries.length).source =
      (st.σ.riGet q.1.ri).name := by
    rw [(hS.2.1 st.σ.entries.length).2.2, hClast]
    rfl
  have hname : (st.σ.riGet q.1.ri).name = q.1.ri :=
    (hfold.2.1 q.1.ri).1.trans hqkey
  have her2 : er = q.2.range := by
    rw [her]
    simp only [sresRange]
    rw [← hσs, (hS.2.1 st.σ.entries.length).1, hClast]
    rfl
  have hu2 : u' = unitOfRi σv q.1.ri := by
    rw [hu']
    simp only [sresUnit]
    rw [← hσs, hsrc, hname]
    rw [(hS.2.2.2 q.1.ri).2, (hCri q.1.ri).2, (hfold.2.1 q.1.ri).2]
    rfl
  have hLst : L = st.σ.activeList u' := by
    rw [hL, activeList_of_active_eq hS.2.2.1 u',
      activeList_of_active_eq hCact u']
  have hnIdxL : st.σ.entries.length ∉ L := by
    rw [hLst]
    intro hmem
    exact Nat.lt_irrefl _ (hfold.1.2.1 u' _ hmem)
  have hKd := conflictFold_disjoint opts rd st.σ.entries.length er u'
    (by rw [her2]; exact hqv.1) L σs
  have hT1 : κ.entries.length = st.σ.entries.length + 1 :=
    (hK.1.trans hS.1).trans hClen
  have hT2C : ∀ j : Nat, (κ.entryGet j).range = (σC.entryGet j).range :=
    fun j => (hK.2.1 j).1.trans (hS.2.1 j).1
  have hT3C : ∀ j : Nat, listSet (κ.entryGet j).uncovered_ranges ⊆
      listSet (σC.entryGet j).uncovered_ranges := by
    intro j
    have h := hK.2.2.1 j
    rw [(hS.2.1 j).2.1] at h
    exact h
  have hT4C : ∀ j : Nat, j ∉ L → (κ.entryGet j).uncovered_ranges =
      (σC.entryGet j).uncovered_ranges :=
    fun j hj => (hK.2.2.2.1 j hj).trans (hS.2.1 j).2.1
  have hT5 : ∀ k : String, (κ.riGet k).name = (st.σ.riGet k).name ∧
      (κ.riGet k).ref = (st.σ.riGet k).ref :=
    fun k => ⟨((hK.2.2.2.2.1 k).1.trans (hS.2.2.2 k).1).trans (hCri k).1,
      ((hK.2.2.2.2.1 k).2.trans (hS.2.2.2 k).2).trans (hCri k).2⟩
  have hT6 : ∀ u'' : Affine, ∀ i : Nat, i ∈ κ.activeList u'' →
      i ∈ st.σ.activeList u'' := by
    intro u'' i hi
    have h := hK.2.2.2.2.2 u'' i hi
    rw [activeList_of_active_eq hS.2.2.1 u'',
      activeList_of_active_eq hCact u''] at h
    exact h
  have hNotL : ∀ p ∈ st.added_affine_entries, ∀ e ∈ p.2, e ∉ L := by
    intro p hp e he hmem
    rw [hLst] at hmem
    exact (hfold.2.2.1 p hp e he).2.2.1 u' hmem
  have hOldUnc : ∀ p ∈ st.added_affine_entries, ∀ e ∈ p.2,
      (κ.entryGet e).uncovered_ranges =
        (st.σ.entryGet e).uncovered_ranges := by
    intro p hp e he
    rw [hT4C e (hNotL p hp e he), hClt e (hfold.2.2.1 p hp e he).1]
  have hOldRange : ∀ p ∈ st.added_affine_entries, ∀ e ∈ p.2,
      (κ.entryGet e).range = (st.σ.entryGet e).range := by
    intro p hp e he
    rw [hT2C e, hClt e (hfold.2.2.1 p hp e he).1]
  have hNewUnc : (κ.entryGet st.σ.entries.length).uncovered_ranges =
      [q.2.range] := by
    rw [hT4C st.σ.entries.length hnIdxL, hClast]
    rfl
  have hNewRange : (κ.entryGet st.σ.entries.length).range = q.2.range := by
    rw [hT2C st.σ.entries.length, hClast]
    rfl
  have hSubStσ : ∀ u'' : Affine, ∀ i : Nat, i ∈ st.σ.activeList u'' →
      listSet (κ.entryGet i).uncovered_ranges ⊆
        listSet (st.σ.entryGet i).uncovered_ranges := by
    intro u'' i hi
    have h := hT3C i
    rw [hClt i (hfold.1.2.1 u'' i hi)] at h
    exact h
  have hOldPack : ∀ p ∈ st.added_affine_entries, ∀ e ∈ p.2,
      e < κ.entries.length ∧
      (κ.entryGet e).uncovered_ranges = [(κ.entryGet e).range] ∧
      (∀ u'' : Affine, e ∉ κ.activeList u'') ∧
      (∀ i ∈ κ.activeList p.1,
        Disjoint (listSet (κ.entryGet e).uncovered_ranges)
          (listSet (κ.entryGet i).uncovered_ranges)) := by
    intro p hp e he
    obtain ⟨hd1, hd2, hd3, hd4⟩ := hfold.2.2.1 p hp e he
    refine ⟨?_, ?_, ?_, ?_⟩
    · rw [hT1]
      exact Nat.lt_succ_of_lt hd1
    · rw [hOldUnc p hp e he, hOldRange p hp e he]
      exact hd2
    · intro u'' hmem
      exact hd3 u'' (hT6 u'' e hmem)
    · intro i hi
      have hD := hd4 i (hT6 p.1 i hi)
      rw [hOldUnc p hp e he]
      exact hD.mono_right (hSubStσ p.1 i (hT6 p.1 i hi))
  have hNewPack :
      st.σ.entries.length < κ.entries.length ∧
      (κ.entryGet st.σ.entries.length).uncovered_ranges =
        [(κ.entryGet st.σ.entries.length).range] ∧
      (∀ u'' : Affine, st.σ.entries.length ∉ κ.activeList u'') ∧
      (∀ i ∈ κ.activeList u',
        Disjoint (listSet (κ.entryGet st.σ.entries.length).uncovered_ranges)
          (listSet (κ.entryGet i).uncovered_ranges)) := by
    refine ⟨?_, ?_, ?_, ?_⟩
    · rw [hT1]
      exact Nat.lt_succ_self _
    · rw [hNewUnc, hNewRange]
    · intro u'' hmem
      exact Nat.lt_irrefl _ (hfold.1.2.1 u'' _ (hT6 u'' _ hmem))
    · intro i hi
      have hiL : i ∈ L := hK.2.2.2.2.2 u' i hi
      have hine : i ≠ st.σ.entries.length := by
        intro hh
        rw [hLst] at hiL
        rw [hh] at hiL
        exact Nat.lt_irrefl _ (hfold.1.2.1 u' _ hiL)
      have hD := hKd i hiL hine
      rw [hNewUnc, listSet_singleton, ← her2]
      exact hD
  have hMix : ∀ p ∈ st.added_affine_entries, p.1 = u' → ∀ x ∈ p.2,
      Disjoint (listSet (κ.entryGet x).uncovered_ranges)
        (listSet (κ.entryGet st.σ.entries.length).uncovered_ranges) := by
    intro p hp hpk x hx
    have hD := hfc p hp x hx (by rw [← hu2, hpk])
    rw [hOldUnc p hp x hx, hNewUnc, listSet_singleton]
    exact hD
  refine ⟨⟨⟨fun i => ?_, fun u'' i hi => ?_,
    fun u'' i hi j hj hne => ?_⟩, fun k => ?_, ?_, ?_⟩, ?_, ?_⟩
  · show (κ.entryGet i).range.begin ≤ (κ.entryGet i).range.end_ ∧
      (κ.entryGet i).range.end_ ≤ opts.mem_bytes
    rw [hT2C i]
    exact hCinv.1 i
  · show i < κ.entries.length
    rw [hT1]
    exact Nat.lt_succ_of_lt (hfold.1.2.1 u'' i (hT6 u'' i hi))
  · have h1 := hT6 u'' i hi
    have h2 := hT6 u'' j hj
    have hD := hfold.1.2.2 u'' i h1 j h2 hne
    exact hD.mono (hSubStσ u'' i h1) (hSubStσ u'' j h2)
  · exact ⟨(hT5 k).1.trans (hfold.2.1 k).1, (hT5 k).2.trans (hfold.2.1 k).2⟩
  · by_cases hint : q.2.is_internal = true
    · rw [if_neg (by simp [hint])]
      intro p hp e he
      exact hOldPack p hp e he
    · rw [if_pos (by simp [hint])]
      refine unitAppend_forall
        (fun u'' e => e < κ.entries.length ∧
          (κ.entryGet e).uncovered_ranges = [(κ.entryGet e).range] ∧
          (∀ u3 : Affine, e ∉ κ.activeList u3) ∧
          (∀ i ∈ κ.activeList u'',
            Disjoint (listSet (κ.entryGet e).uncovered_ranges)
              (listSet (κ.entryGet i).uncovered_ranges)))
        st.added_affine_entries u' st.σ.entries.length hOldPack hNewPack
  · by_cases hint : q.2.is_internal = true
    · rw [if_neg (by simp [hint])]
      intro p hp e he e' he' hne
      have hD := hfold.2.2.2 p hp e he e' he' hne
      rw [hOldUnc p hp e he, hOldUnc p hp e' he']
      exact hD
    · rw [if_pos (by simp [hint])]
      refine unitAppend_forall2
        (fun u'' e e' => e ≠ e' →
          Disjoint (listSet (κ.entryGet e).uncovered_ranges)
            (listSet (κ.entryGet e').uncovered_ranges))
        st.added_affine_entries u' st.σ.entries.length ?_ ?_ ?_
      · intro p hp x hx y hy hne
        have hD := hfold.2.2.2 p hp x hx y hy hne
        rw [hOldUnc p hp x hx, hOldUnc p hp y hy]
        exact hD
      · intro p hp hpk x hx
        exact ⟨fun _ => hMix p hp hpk x hx,
          fun _ => (hMix p hp hpk x hx).symm⟩
      · intro hne
        exact absurd rfl hne
  · intro p hp e he
    show (κ.entryGet e).uncovered_ranges = (st.σ.entryGet e).uncovered_ranges
    exact hOldUnc p hp e he
  · by_cases hint : q.2.is_internal = true
    · rw [if_neg (by simp [hint])]
      intro p hp e he
      exact Or.inl ⟨p, hp, he, rfl⟩
    · rw [if_pos (by simp [hint])]
      refine unitAppend_forall
        (fun u'' e => (∃ p0 ∈ st.added_affine_entries, e ∈ p0.2 ∧ p0.1 = u'') ∨
          (q.2.entry = none ∧ u'' = unitOfRi σv q.1.ri ∧
            (κ.entryGet e).uncovered_ranges = [q.2.range]))
        st.added_affine_entries u' st.σ.entries.length ?_ ?_
      · intro p hp x hx
        exact Or.inl ⟨p, hp, hx, rfl⟩
      · exact Or.inr ⟨hpe, hu2, hNewUnc⟩

theorem C1_planFold (opts : SchedOptions) (sid : Nat)
    (wsirs : List (String × List Nat)) (σv : SchedState) :
    ∀ (rest : List (PlacementKey × Placement)) (st : PlanApplySt),
      (∀ q ∈ rest, planEntryOK opts.mem_bytes q) →
      (∀ q ∈ rest, q.2.entry = none → (σv.riGet q.1.ri).name = q.1.ri) →
      rest.Pairwise (planPairOK σv) →
      C1Fold opts σv st →
      (∀ p ∈ st.added_affine_entries, ∀ e ∈ p.2, ∀ q ∈ rest,
        q.2.entry = none → unitOfRi σv q.1.ri = p.1 →
        Disjoint (listSet (st.σ.entryGet e).uncovered_ranges)
          q.2.range.toSet) →
      C1Fold opts σv (rest.foldl (applyPlacement opts sid wsirs) st) := by
  intro rest
  induction rest with
  | nil =>
    intro st _ _ _ hf _
    exact hf
  | cons q rest ih =>
    intro st hok hnm hpair hfold hfc
    simp only [List.foldl_cons]
    have htlok : ∀ q' ∈ rest, planEntryOK opts.mem_bytes q' :=
      fun q' h => hok q' (List.mem_cons_of_mem _ h)
    have htlnm : ∀ q' ∈ rest, q'.2.entry = none →
        (σv.riGet q'.1.ri).name = q'.1.ri :=
      fun q' h => hnm q' (List.mem_cons_of_mem _ h)
    have htlpair := (List.pairwise_cons.mp hpair).2
    have hheadpair := (List.pairwise_cons.mp hpair).1
    cases hpe : q.2.entry with
    | some e0 =>
      obtain ⟨hf', hunc', hprov⟩ :=
        C1_applyPlacement_reuse opts sid wsirs σv st q e0 hpe hfold
      refine ih _ htlok htlnm htlpair hf' ?_
      intro p hp e he q'' hq'' hq''none hq''u
      rcases hprov p hp e he with ⟨p0, hp0, he0, hk0⟩ | ⟨habs, _⟩
      · have hD := hfc p0 hp0 e he0 q'' (List.mem_cons_of_mem _ hq'')
          hq''none (hq''u.trans hk0.symm)
        rw [hunc' p0 hp0 e he0]
        exact hD
      · exact absurd habs (by rw [hpe]; exact fun h => Option.noConfusion h)
    | none =>
      obtain ⟨hf', hunc', hprov⟩ :=
        C1_applyPlacement_new opts sid wsirs σv st q hpe
          (hok q (List.mem_cons_self _ _))
          (hnm q (List.mem_cons_self _ _) hpe) hfold
          (fun p hp e he hu =>
            hfc p hp e he q (List.mem_cons_self _ _) hpe hu)
      refine ih _ htlok htlnm htlpair hf' ?_
      intro p hp e he q'' hq'' hq''none hq''u
      rcases hprov p hp e he with ⟨p0, hp0, he0, hk0⟩ | ⟨_, hpk, hunc⟩
      · have hD := hfc p0 hp0 e he0 q'' (List.mem_cons_of_mem _ hq'')
          hq''none (hq''u.trans hk0.symm)
        rw [hunc' p0 hp0 e he0]
        exact hD
      · rw [hunc, listSet_singleton]
        refine hheadpair q'' hq'' hpe hq''none ?_
        exact hpk.symm.trans hq''u.symm

theorem C1Inv_of_C1Pres {M : Nat} {σ σ' : SchedState} (h : C1Pres σ σ')
    (hi : C1Inv M σ) : C1Inv M σ' := by
  obtain ⟨hlen, hent, hact, hri⟩ := h
  obtain ⟨h1, h2, h3⟩ := hi
  refine ⟨fun i => ?_, fun u i hi' => ?_, fun u i hi' j hj' hne => ?_⟩
  · rw [(hent i).1]
    exact h1 i
  · rw [activeList_of_active_eq hact u] at hi'
    rw [hlen]
    exact h2 u i hi'
  · rw [activeList_of_active_eq hact u] at hi' hj'
    rw [(hent i).2.1, (hent j).2.1]
    exact h3 u i hi' j hj' hne

theorem eq_of_mem_keys_nodup {α β : Type} :
    ∀ (l : List (α × β)), (l.map Prod.fst).Nodup →
      ∀ p ∈ l, ∀ p' ∈ l, p.1 = p'.1 → p = p' := by
  intro l
  induction l with
  | nil =>
    intro _ p hp
    exact absurd hp (List.not_mem_nil p)
  | cons q rest ih =>
    intro hnd p hp p' hp' hk
    rw [List.map_cons, List.nodup_cons] at hnd
    obtain ⟨hq, hrest⟩ := hnd
    rcases List.mem_cons.mp hp with rfl | hp2
    · rcases List.mem_cons.mp hp' with rfl | hp2'
      · rfl
      · refine absurd ?_ hq
        rw [hk]
        exact List.mem_map.mpr ⟨p', hp2', rfl⟩
    · rcases List.mem_cons.mp hp' with rfl | hp2'
      · refine absurd ?_ hq
        rw [← hk]
        exact List.mem_map.mpr ⟨p, hp2, rfl⟩
      · exact ih hrest p hp2 p' hp2' hk

theorem spliceActive_entries (added : List (Affine × List Nat)) :
    ∀ σ : SchedState, (spliceActive σ added).entries = σ.entries := by
  induction added with
  | nil =>
    intro _
    rfl
  | cons p rest ih =>
    intro σ
    have h1 : spliceActive σ (p :: rest) =
        spliceActive (σ.setActiveList p.1
          (sortByLt (activeLt σ) (p.2 ++ σ.activeList p.1))) rest := rfl
    rw [h1, ih _, setActiveList_entries]

theorem spliceActive_active_mem (added : List (Affine × List Nat)) :
    ∀ (σ : SchedState) (u : Affine) (i : Nat),
      i ∈ (spliceActive σ added).activeList u →
      i ∈ σ.activeList u ∨ ∃ p ∈ added, p.1 = u ∧ i ∈ p.2 := by
  induction added with
  | nil =>
    intro σ u i h
    exact Or.inl h
  | cons p rest ih =>
    intro σ u i h
    have h1 : spliceActive σ (p :: rest) =
        spliceActive (σ.setActiveList p.1
          (sortByLt (activeLt σ) (p.2 ++ σ.activeList p.1))) rest := rfl
    rw [h1] at h
    rcases ih _ u i h with h2 | ⟨q, hq, hqu, hqi⟩
    · by_cases hu : u = p.1
      · subst hu
        rw [activeList_setActiveList_self] at h2
        have h3 := sortByLt_subset_pred (activeLt σ)
          (fun y => y ∈ p.2 ∨ y ∈ σ.activeList p.1) (p.2 ++ σ.activeList p.1)
          (fun y hy => List.mem_append.mp hy) i h2
        rcases h3 with h4 | h4
        · exact Or.inr ⟨p, List.mem_cons_self _ _, rfl, h4⟩
        · exact Or.inl h4
      · rw [activeList_setActiveList_ne σ p.1 u _ hu] at h2
        exact Or.inl h2
    · exact Or.inr ⟨q, List.mem_cons_of_mem _ hq, hqu, hqi⟩

/-- The splice-and-sort of the added entries into the active lists
(schedule.cc:993-998) preserves the invariant: the added entries are
in-bounds, disjoint from the previously active entries of their bucket,
and pairwise disjoint within each bucket. -/
theorem C1Inv_spliceActive (M : Nat) (σF : SchedState)
    (added : List (Affine × List Nat)) (hinv : C1Inv M σF)
    (hadd : ∀ p ∈ added, ∀ e ∈ p.2,
      e < σF.entries.length ∧
      ∀ i ∈ σF.activeList p.1,
        Disjoint (listSet (σF.entryGet e).uncovered_ranges)
          (listSet (σF.entryGet i).uncovered_ranges))
    (hpairadd : ∀ p ∈ added, ∀ e ∈ p.2, ∀ e' ∈ p.2, e ≠ e' →
      Disjoint (listSet (σF.entryGet e).uncovered_ranges)
        (listSet (σF.entryGet e').uncovered_ranges))
    (hkeys : (added.map Prod.fst).Nodup) :
    C1Inv M (spliceActive σF added) := by
  have hent : (spliceActive σF added).entries = σF.entries :=
    spliceActive_entries added σF
  have hget : ∀ j : Nat, (spliceActive σF added).entryGet j = σF.entryGet j :=
    fun j => entryGet_of_entries_eq _ _ hent j
  refine ⟨fun i => ?_, fun u i hi => ?_, fun u i hi j hj hne => ?_⟩
  · rw [hget i]
    exact hinv.1 i
  · show i < (spliceActive σF added).entries.length
    rw [hent]
    rcases spliceActive_active_mem added σF u i hi with h | ⟨p, hp, _, hpi⟩
    · exact hinv.2.1 u i h
    · exact (hadd p hp i hpi).1
  · rw [hget i, hget j]
    rcases spliceActive_active_mem added σF u i hi with h1 | ⟨p, hp, hpu, hpi⟩
    · rcases spliceActive_active_mem added σF u j hj with h2 | ⟨q, hq, hqu, hqj⟩
      · exact hinv.2.2 u i h1 j h2 hne
      · refine Disjoint.symm ?_
        refine (hadd q hq j hqj).2 i ?_
        rw [hqu]
        exact h1
    · rcases spliceActive_active_mem added σF u j hj with h2 | ⟨q, hq, hqu, hqj⟩
      · refine (hadd p hp i hpi).2 j ?_
        rw [hpu]
        exact h2
      · have hpq : p = q :=
          eq_of_mem_keys_nodup added hkeys p hp q hq (hpu.trans hqu.symm)
        subst hpq
        exact hpairadd p hp i hpi j hqj hne

theorem applyPlacementRest_added_nodup (opts : SchedOptions) (sid : Nat)
    (wsirs : List (String × List Nat)) (st : PlanApplySt)
    (pkey : PlacementKey) (placement : Placement) (σ0 : SchedState)
    (entIdx : Nat) (is_new : Bool)
    (h : (st.added_affine_entries.map Prod.fst).Nodup) :
    (((applyPlacementRest opts sid wsirs st pkey placement σ0 entIdx
        is_new).added_affine_entries).map Prod.fst).Nodup := by
  simp only [applyPlacementRest]
  split
  · exact unitAppend_keys_nodup _ _ _ h
  · exact h

theorem planFold_added_nodup (opts : SchedOptions) (sid : Nat)
    (wsirs : List (String × List Nat)) (plan : List (PlacementKey × Placement))
    (st : PlanApplySt) (h : (st.added_affine_entries.map Prod.fst).Nodup) :
    (((plan.foldl (applyPlacement opts sid wsirs) st).added_affine_entries).map
      Prod.fst).Nodup := by
  refine foldl_pred_preserve _
    (fun s : PlanApplySt => ((s.added_affine_entries.map Prod.fst)).Nodup)
    (fun s q hs => ?_) plan st h
  rw [applyPlacement_eq]
  exact applyPlacementRest_added_nodup opts sid wsirs s q.1 q.2 _ _ _ hs

/-- The initial scheduler state has no cache entries and no active
lists, so the budget/disjointness invariant holds vacuously. -/
theorem C1Inv_initState (M : Nat) (block : BlockData)
    (amap : List (String × AliasInfo)) : C1Inv M (initState block amap) := by
  refine ⟨fun i => ?_, fun u i hi => ?_, fun u i hi _ _ _ => ?_⟩
  · rw [entryGet_default (initState block amap) i (by exact Nat.zero_le i)]
    exact ⟨Nat.le_refl _, Nat.zero_le M⟩
  · exact absurd hi (List.not_mem_nil i)
  · exact absurd hi (List.not_mem_nil i)

/-- One successful scheduling step preserves `C1Inv`, provided the
configured alignment is positive and the statement's IOs name RefInfos
whose recorded name matches their key (as `BuildRefInfoMap`
guarantees). -/
theorem C1Inv_scheduleStep (opts : SchedOptions) (σ : SchedState) (sid : Nat)
    (σ' : SchedState) (halign : 0 < opts.alignment)
    (hnamed : ∀ io ∈ (match σ.stmts.find? fun s => s.sid = sid with
      | some stmt => (gatherIo σ.ris stmt).1
      | none => ([] : List IoDesc)), (σ.riGet io.ri).name = io.ri)
    (hinv : C1Inv opts.mem_bytes σ)
    (hok : scheduleStep opts σ sid = Except.ok σ') :
    C1Inv opts.mem_bytes σ' := by
  simp only [scheduleStep] at hok
  cases hfind : σ.stmts.find? fun s => s.sid = sid with
  | none =>
    rw [hfind] at hok
    dsimp only at hok
    injection hok with hok
    exact hok ▸ hinv
  | some stmt =>
    rw [hfind] at hok
    rw [hfind] at hnamed
    dsimp only at hok hnamed
    have hpres := C1Pres_invalidatePhase opts σ (succSid σ.stmts sid)
      (gatherIo σ.ris stmt).1
    have hinvV : C1Inv opts.mem_bytes (invalidatePhase opts σ
        (succSid σ.stmts sid) (gatherIo σ.ris stmt).1).1 :=
      C1Inv_of_C1Pres hpres hinv
    have hnamedV : ∀ io ∈ (gatherIo σ.ris stmt).1,
        (riGetD (invalidatePhase opts σ (succSid σ.stmts sid)
          (gatherIo σ.ris stmt).1).1.ris io.ri).name = io.ri := by
      intro io hio
      exact ((hpres.2.2.2 io.ri).1).trans (hnamed io hio)
    cases hplan : TryMakePlan opts (invalidatePhase opts σ (succSid σ.stmts sid)
        (gatherIo σ.ris stmt).1).1 (currentBlockOf stmt) (gatherIo σ.ris stmt).1 with
    | none =>
      rw [hplan] at hok
      exact Except.noConfusion hok
    | some plan =>
      rw [hplan] at hok
      dsimp only at hok
      injection hok with hok
      subst hok
      set σv := (invalidatePhase opts σ (succSid σ.stmts sid)
        (gatherIo σ.ris stmt).1).1 with hσv
      have hpost := TryMakePlan_post opts σv (currentBlockOf stmt)
        (gatherIo σ.ris stmt).1 plan halign
        (fun i => (hinvV.1 i).1) hnamedV hplan
      have hkeysP := TryMakePlan_keys opts σv (currentBlockOf stmt)
        (gatherIo σ.ris stmt).1 plan
        (fun k => (riGetD σv.ris k).name = k) hnamedV hnamedV hplan
      have hfold := C1_planFold opts sid (invalidatePhase opts σ
          (succSid σ.stmts sid) (gatherIo σ.ris stmt).1).2.2 σv plan
        (PlanApplySt.mk σv [] [] [])
        hpost.1
        (fun q hq _ => hkeysP q hq)
        hpost.2
        ⟨hinvV, fun _ => ⟨rfl, rfl⟩,
          fun p hp => absurd hp (List.not_mem_nil p),
          fun p hp => absurd hp (List.not_mem_nil p)⟩
        (fun p hp => absurd hp (List.not_mem_nil p))
      set stF := plan.foldl (applyPlacement opts sid (invalidatePhase opts σ
          (succSid σ.stmts sid) (gatherIo σ.ris stmt).1).2.2)
        (PlanApplySt.mk σv [] [] []) with hstF
      have hknodup : ((stF.added_affine_entries.map Prod.fst)).Nodup := by
        rw [hstF]
        exact planFold_added_nodup opts sid _ plan _ List.nodup_nil
      have hsplice : C1Inv opts.mem_bytes
          (spliceActive stF.σ stF.added_affine_entries) := by
        refine C1Inv_spliceActive opts.mem_bytes stF.σ stF.added_affine_entries
          hfold.1 ?_ hfold.2.2.2 hknodup
        intro p hp e he
        exact ⟨(hfold.2.2.1 p hp e he).1, (hfold.2.2.1 p hp e he).2.2.2⟩
      refine C1Inv_of_C1Pres ?_ hsplice
      refine C1Pres_trans ?_
        (C1Pres_foldl _ (fun s p => C1Pres_cacheCleanup s p) plan _)
      refine C1Pres_trans ?_
        (C1Pres_ite _ _ _ _ (C1Pres_updStmt _ _ _) (C1Pres_refl _))
      exact C1Pres_applyBinder opts _ sid _

/-- **C1.**  The memory budget and live-entry disjointness, as an
invariant of the pass: `mem_bytes` is `mem_kib * 1024` (and the
configured alignment is positive, defaulting to 4), `C1Inv` — every
cache entry's range is a valid interval with `range.end_ ≤ mem_bytes`,
active-list members are entry-store indices, and any two distinct
simultaneously-active entries on the same affine unit have disjoint
uncovered ranges — holds of the initial scheduler state of every block,
and is preserved by every successful scheduling step whose statement's
IOs name RefInfos keyed by their own names (as `BuildRefInfoMap`
guarantees). -/
theorem C1_memory_budget :
    (∀ (mem_loc : Location) (mem_kib align_bytes : Nat) (xfer_loc : Location)
      (cmp : AliasInfo → AliasInfo → AliasType),
      (SchedOptions.ofProto mem_loc mem_kib align_bytes xfer_loc cmp).mem_bytes =
        mem_kib * 1024 ∧
      0 < (SchedOptions.ofProto mem_loc mem_kib align_bytes xfer_loc
        cmp).alignment) ∧
    (∀ (block : BlockData) (amap : List (String × AliasInfo)) (M : Nat),
      C1Inv M (initState block amap)) ∧
    (∀ (opts : SchedOptions) (σ : SchedState) (sid : Nat) (σ' : SchedState),
      0 < opts.alignment →
      (∀ io ∈ (match σ.stmts.find? fun s => s.sid = sid with
        | some stmt => (gatherIo σ.ris stmt).1
        | none => ([] : List IoDesc)), (σ.riGet io.ri).name = io.ri) →
      C1Inv opts.mem_bytes σ →
      scheduleStep opts σ sid = Except.ok σ' →
      C1Inv opts.mem_bytes σ') := by
  refine ⟨?_, fun block amap M => C1Inv_initState M block amap,
    C1Inv_scheduleStep⟩
  intro mem_loc mem_kib align_bytes xfer_loc cmp
  refine ⟨rfl, ?_⟩
  simp only [SchedOptions.ofProto]
  split
  · decide
  · rename_i h
    omega

def c1shape : TensorShape := { typeBytes := 1, dims := [TensorDim.mk 4 1] }

def c1ref : Refinement :=
  { dir := RefDir.In, from_ := "A", into := "A", interior_shape := c1shape }

/-- A minimal block loading one refinement, for evaluating the C1
invariant across a concrete scheduling step. -/
def c1blk : BlockData := .mk "main" {} [] [c1ref] [.load 0 [] "A" "x"]

def c1amap : List (String × AliasInfo) :=
  [("A", { base_ref := "A", shape := c1shape })]

def c1opts : SchedOptions :=
  SchedOptions.ofProto {} 1 0 {} fun _ _ => AliasType.None

/-- The state after scheduling statement 0 of `c1blk`. -/
def c1step : SchedState :=
  match scheduleStep c1opts (initState c1blk c1amap) 0 with
  | .ok σ => σ
  | .error _ => initState c1blk c1amap

/-- **C1, witness**: the invariant holds of `c1blk`'s initial state and
is carried through its scheduling step by `C1_memory_budget`. -/
theorem C1_memory_budget_witness :
    C1Inv c1opts.mem_bytes (initState c1blk c1amap) ∧
    C1Inv c1opts.mem_bytes c1step :=
  ⟨C1_memory_budget.2.1 c1blk c1amap c1opts.mem_bytes,
   C1_memory_budget.2.2 c1opts (initState c1blk c1amap) 0 c1step (by decide)
     (by decide) (C1_memory_budget.2.1 c1blk c1amap c1opts.mem_bytes) rfl⟩

/-! ### Claim C2 -/

/-- First success in a list of strategy outcomes. -/
def firstSome : List (Option PlacementPlan) → Option PlacementPlan
  | [] => none
  | o :: rest =>
    match o with
    | some x => some x
    | none => firstSome rest

/-- The six planning strategies in the spec's order (§4.3): no-swaps/full,
no-swaps/partial, with-swaps/full, with-swaps/partial, fallback/full, and
— only when the statement is a block — fallback/partial.  This definition
follows the spec's words; the claim theorem compares it with
`TryMakePlan`. -/
def strategyResults (opts : SchedOptions) (σ : SchedState)
    (current_block : Option BlockData) (ios : List IoDesc) :
    List (Option PlacementPlan) :=
  let gp := GatherPlacementState σ ios
  let todo_fulls := gp.2.map fun p => (p.1, MakeFullPlacements σ p.2)
  let todo_loops := gp.2.map fun p => (p.1, MakePartialPlacements σ p.2)
  [TryMakePlanWithNoSwaps opts σ todo_fulls gp.1,
    TryMakePlanWithNoSwaps opts σ todo_loops gp.1,
    TryMakePlanWithSwaps opts σ todo_fulls gp.1,
    TryMakePlanWithSwaps opts σ todo_loops gp.1,
    TryMakeFallbackPlan opts σ (MakeFullPlacements σ ios)] ++
    (match current_block with
      | some _ => [TryMakeFallbackPlan opts σ (MakePartialPlacements σ ios)]
      | none => [])

theorem firstSome_none_iff (l : List (Option PlacementPlan)) :
    firstSome l = none ↔ ∀ o ∈ l, o = none := by
  induction l with
  | nil => simp [firstSome]
  | cons o rest ih =>
    cases o with
    | some x => simp [firstSome]
    | none => simp [firstSome, ih]

theorem TryMakePlan_eq_firstSome (opts : SchedOptions) (σ : SchedState)
    (cb : Option BlockData) (ios : List IoDesc) :
    TryMakePlan opts σ cb ios = firstSome (strategyResults opts σ cb ios) := by
  simp only [TryMakePlan, strategyResults]
  cases h1 : TryMakePlanWithNoSwaps opts σ
      ((GatherPlacementState σ ios).2.map fun p => (p.1, MakeFullPlacements σ p.2))
      (GatherPlacementState σ ios).1 with
  | some p => simp [firstSome]
  | none =>
  cases h2 : TryMakePlanWithNoSwaps opts σ
      ((GatherPlacementState σ ios).2.map fun p => (p.1, MakePartialPlacements σ p.2))
      (GatherPlacementState σ ios).1 with
  | some p => simp [firstSome]
  | none =>
  cases h3 : TryMakePlanWithSwaps opts σ
      ((GatherPlacementState σ ios).2.map fun p => (p.1, MakeFullPlacements σ p.2))
      (GatherPlacementState σ ios).1 with
  | some p => simp [firstSome]
  | none =>
  cases h4 : TryMakePlanWithSwaps opts σ
      ((GatherPlacementState σ ios).2.map fun p => (p.1, MakePartialPlacements σ p.2))
      (GatherPlacementState σ ios).1 with
  | some p => simp [firstSome]
  | none =>
  cases h5 : TryMakeFallbackPlan opts σ (MakeFullPlacements σ ios) with
  | some p => simp [firstSome]
  | none =>
  cases cb with
  | some b =>
    cases h6 : TryMakeFallbackPlan opts σ (MakePartialPlacements σ ios) with
    | some p => simp [firstSome]
    | none => simp [firstSome]
  | none => simp [firstSome]

/-- **C2.**  (i) `TryMakePlan` returns the first success of exactly the
six strategies in order — no-swaps/full, no-swaps/partial,
with-swaps/full, with-swaps/partial, fallback/full, fallback/partial —
the last present only when the statement is a block; (ii) it fails iff
every applicable strategy fails; (iii) a scheduling step raises iff the
planner fails for its statement (after alias invalidation); (iv) the main
loop raises iff, for some statement, processing the earlier (runtime-
later) statements succeeds and the planner-backed step fails there; and
(v) `ScheduleBlock` raises exactly when the main loop raises. -/
theorem C2_strategy_ladder :
    (∀ (opts : SchedOptions) (σ : SchedState) (cb : Option BlockData) (ios : List IoDesc),
        TryMakePlan opts σ cb ios = firstSome (strategyResults opts σ cb ios)) ∧
      (∀ (opts : SchedOptions) (σ : SchedState) (cb : Option BlockData) (ios : List IoDesc),
        TryMakePlan opts σ cb ios = none ↔
          ∀ o ∈ strategyResults opts σ cb ios, o = none) ∧
      (∀ (opts : SchedOptions) (σ : SchedState) (sid : Nat) (stmt : Stmt),
        σ.stmts.find? (fun s => s.sid = sid) = some stmt →
          ((∃ e, scheduleStep opts σ sid = Except.error e) ↔
            TryMakePlan opts
              (invalidatePhase opts σ (succSid σ.stmts sid) (gatherIo σ.ris stmt).1).1
              (currentBlockOf stmt) (gatherIo σ.ris stmt).1 = none)) ∧
      (∀ (opts : SchedOptions) (sids : List Nat) (σ : SchedState),
        (∃ e, runLoop opts sids σ = Except.error e) ↔
          ∃ pre sid post σ', sids = pre ++ sid :: post ∧
            runLoop opts pre σ = Except.ok σ' ∧
            ∃ e, scheduleStep opts σ' sid = Except.error e) ∧
      ∀ (opts : SchedOptions) (amap : List (String × AliasInfo)) (block : BlockData),
        ((∃ e, ScheduleBlock opts amap block = Except.error e) ↔
          ∃ e, runLoop opts (block.stmts.map Stmt.sid).reverse (initState block amap) =
            Except.error e) := by
  refine ⟨TryMakePlan_eq_firstSome, ?_, ?_, ?_, ?_⟩
  · intro opts σ cb ios
    rw [TryMakePlan_eq_firstSome]
    exact firstSome_none_iff _
  · intro opts σ sid stmt hfind
    unfold scheduleStep
    rw [hfind]
    dsimp only
    cases hplan : TryMakePlan opts
        (invalidatePhase opts σ (succSid σ.stmts sid) (gatherIo σ.ris stmt).1).1
        (currentBlockOf stmt) (gatherIo σ.ris stmt).1 with
    | some plan => simp
    | none => simp
  · intro opts sids
    induction sids with
    | nil =>
      intro σ
      simp [runLoop]
    | cons sid rest ih =>
      intro σ
      simp only [runLoop]
      cases hs : scheduleStep opts σ sid with
      | error e =>
        simp only
        constructor
        · intro _
          exact ⟨[], sid, rest, σ, rfl, rfl, e, hs⟩
        · intro _
          exact ⟨e, rfl⟩
      | ok σ' =>
        simp only
        rw [ih σ']
        constructor
        · rintro ⟨pre, sid', post, σ'', hsplit, hok, e, herr⟩
          exact ⟨sid :: pre, sid', post, σ'', by rw [hsplit]; simp,
            by simp only [runLoop, hs]; exact hok, e, herr⟩
        · rintro ⟨pre, sid', post, σ'', hsplit, hok, e, herr⟩
          cases pre with
          | nil =>
            simp only [List.nil_append, List.cons.injEq] at hsplit
            obtain ⟨rfl, rfl⟩ := hsplit
            simp only [runLoop, Except.ok.injEq] at hok
            subst hok
            rw [hs] at herr
            simp at herr
          | cons p pre' =>
            simp only [List.cons_append, List.cons.injEq] at hsplit
            obtain ⟨rfl, hsplit'⟩ := hsplit
            simp only [runLoop, hs] at hok
            exact ⟨pre', sid', post, σ'', hsplit', hok, e, herr⟩
  · intro opts amap block
    unfold ScheduleBlock
    dsimp only
    cases hr : runLoop opts (block.stmts.map Stmt.sid).reverse (initState block amap) with
    | error e => exact ⟨fun _ => ⟨e, rfl⟩, fun _ => ⟨e, rfl⟩⟩
    | ok σ => simp [hr]

/-- Witness for C2: its step-level conjunct applied at the concrete
infeasible input (where the iff's sides are both true). -/
theorem C2_strategy_ladder_witness :
    ((initState c3blk c3amap).stmts.find? (fun s => s.sid = 0) =
        some (.special 0 [] ["A", "B"] ["C"]) ∧
      ((∃ e, scheduleStep c3opts (initState c3blk c3amap) 0 = Except.error e) ↔
        TryMakePlan c3opts
          (invalidatePhase c3opts (initState c3blk c3amap)
            (succSid (initState c3blk c3amap).stmts 0)
            (gatherIo (initState c3blk c3amap).ris (.special 0 [] ["A", "B"] ["C"])).1).1
          (currentBlockOf (.special 0 [] ["A", "B"] ["C"]))
          (gatherIo (initState c3blk c3amap).ris (.special 0 [] ["A", "B"] ["C"])).1 = none)) :=
  ⟨rfl, C2_strategy_ladder.2.2.1 c3opts (initState c3blk c3amap) 0
    (.special 0 [] ["A", "B"] ["C"]) rfl⟩

end Sched
